import Mathlib

/-!
# gigapipe-mcp: the request-dispatch pipeline

A shallow embedding of `main.go`: configuration lookup, transport selection, URL construction,
status handling and the JSON normalisation of the upstream body, followed by the nine tool
handlers.  The Go standard library pieces the program leans on (`net/url`, `encoding/json`,
`strconv`) and the two argument accessors of `mcp-go` are embedded next to it, since the behaviour
of the program is decided by them.

Strings are Lean strings, that is, text: a Go string holding invalid UTF-8 has no counterpart here.
-/

namespace Gigapipe

/-! ## net/url -/

/-- The UTF-8 bytes of a character, as `net/url` sees a Go string. -/
def utf8Bytes (c : Char) : List Nat :=
  let n := c.toNat
  if n < 0x80 then [n]
  else if n < 0x800 then [0xC0 + n / 64, 0x80 + n % 64]
  else if n < 0x10000 then [0xE0 + n / 4096, 0x80 + (n / 64) % 64, 0x80 + n % 64]
  else [0xF0 + n / 262144, 0x80 + (n / 4096) % 64, 0x80 + (n / 64) % 64, 0x80 + n % 64]

/-- The function `shouldEscape` of `net/url` in mode `encodeQueryComponent`: only letters, digits
and `-`, `_`, `.`, `~` are kept. -/
def shouldEscape (c : Nat) : Bool :=
  if (97 ≤ c ∧ c ≤ 122) ∨ (65 ≤ c ∧ c ≤ 90) ∨ (48 ≤ c ∧ c ≤ 57) then false
  else if c = 45 ∨ c = 95 ∨ c = 46 ∨ c = 126 then false
  else true

/-- One digit of `upperhex = "0123456789ABCDEF"`. -/
def upperhex (n : Nat) : Char :=
  if n < 10 then Char.ofNat (48 + n) else Char.ofNat (55 + n)

/-- What `escape` writes for one byte in mode `encodeQueryComponent`. -/
def escapeByte (c : Nat) : List Char :=
  if shouldEscape c then
    if c = 32 then ['+'] else ['%', upperhex (c / 16), upperhex (c % 16)]
  else [Char.ofNat c]

/-- The function `url.QueryEscape`, on character lists. -/
def queryEscapeChars (s : List Char) : List Char :=
  (s.flatMap utf8Bytes).flatMap escapeByte

/-- The function `url.QueryEscape`. -/
def QueryEscape (s : String) : String :=
  String.mk (queryEscapeChars s.data)

/-- The type `url.Values`, a `map[string][]string`: an association list with distinct keys. -/
abbrev Values := List (String × List String)

/-- The method `Values.Set`: `v[key] = []string{value}`. -/
def Values.Set : Values → String → String → Values
  | [], key, value => [(key, [value])]
  | (k, vs) :: rest, key, value =>
    if k = key then (key, [value]) :: rest else (k, vs) :: Values.Set rest key value

/-- Byte-wise order of two Go strings (for valid UTF-8 this is the order of the code points). -/
def ltChars : List Char → List Char → Bool
  | [], [] => false
  | [], _ :: _ => true
  | _ :: _, [] => false
  | a :: as, b :: bs =>
    if a.toNat < b.toNat then true
    else if b.toNat < a.toNat then false
    else ltChars as bs

/-- Insertion of a key into an ascending list of keys. -/
def insertKey (k : String) : List String → List String
  | [] => [k]
  | x :: xs => if ltChars x.data k.data then x :: insertKey k xs else k :: x :: xs

/-- The call `slices.Sort(keys)`. -/
def sortKeys : List String → List String
  | [] => []
  | k :: ks => insertKey k (sortKeys ks)

/-- One step of the inner loop of `Values.Encode`: `&` if the buffer is not empty, then
`key=value`, both escaped. -/
def encodePair (keyEscaped : String) (buf : String) (value : String) : String :=
  (if buf.length > 0 then buf ++ "&" else buf) ++ keyEscaped ++ "=" ++ QueryEscape value

/-- The method `Values.Encode`: the keys in sorted order, each with all its values. -/
def Values.Encode (v : Values) : String :=
  (sortKeys (v.map Prod.fst)).foldl
    (fun buf k => ((v.lookup k).getD []).foldl (encodePair (QueryEscape k)) buf) ""

/-- The text before the first `sep` and the text after it (`strings.Cut`). -/
def cutAt (sep : Char) : List Char → List Char × List Char
  | [] => ([], [])
  | c :: cs => if c = sep then ([], cs) else (c :: (cutAt sep cs).1, (cutAt sep cs).2)

/-- The pieces of a text between the occurrences of `sep`. -/
def splitAtSep (sep : Char) : List Char → List (List Char)
  | [] => [[]]
  | c :: cs =>
    if c = sep then [] :: splitAtSep sep cs
    else
      match splitAtSep sep cs with
      | [] => [[c]]
      | x :: xs => (c :: x) :: xs

/-- The field `RawQuery` that `url.Parse` finds in a URL (`http.NewRequestWithContext` parses
the URL it is given): the fragment is cut off at the first `#`, and the query is what follows the
first `?` of the rest. -/
def urlQuery (url : String) : String :=
  String.mk (cutAt '?' (cutAt '#' url.data).1).2

/-- The keys of a query string with their values as they stand in it, still escaped: the pieces
between `&`, the empty ones left out, each cut at its first `=` (the splitting of
`url.ParseQuery`). -/
def queryPairs (query : String) : List (String × String) :=
  ((splitAtSep '&' query.data).filter (fun seg => seg ≠ [])).map
    fun seg => (String.mk (cutAt '=' seg).1, String.mk (cutAt '=' seg).2)

/-! ## encoding/json: the scanner and the generic value -/

/-- A JSON number literal, `mant × 10 ^ exp` with its sign. -/
structure Decimal where
  neg : Bool
  mant : Nat
  exp : Int
deriving DecidableEq

/-- A finite `float64`, `mant × 2 ^ exp` with its sign: `mant < 2 ^ 53`, `-1074 ≤ exp ≤ 971`, and
`2 ^ 52 ≤ mant` unless `exp = -1074`. -/
structure F64 where
  neg : Bool
  mant : Nat
  exp : Int
deriving DecidableEq

mutual
/-- A JSON value with numbers of type `ν`: the literal for a parsed text, `F64` for what
`Decode` stores in an `interface{}`. -/
inductive JVal (ν : Type) : Type
  | null : JVal ν
  | bool (b : Bool) : JVal ν
  | num (n : ν) : JVal ν
  | str (s : List Char) : JVal ν
  | arr (xs : JList ν) : JVal ν
  | obj (kvs : JMembers ν) : JVal ν
/-- The elements of an array. -/
inductive JList (ν : Type) : Type
  | nil : JList ν
  | cons (x : JVal ν) (xs : JList ν) : JList ν
/-- The members of an object. -/
inductive JMembers (ν : Type) : Type
  | nil : JMembers ν
  | cons (k : List Char) (v : JVal ν) (rest : JMembers ν) : JMembers ν
end

/-- The function `isSpace` of the scanner. -/
def isSpace (c : Char) : Bool :=
  c = ' ' || c = '\t' || c = '\r' || c = '\n'

/-- Leading white space is skipped (`scanSkipSpace`). -/
def skipSpace : List Char → List Char
  | [] => []
  | c :: cs => if isSpace c then skipSpace cs else c :: cs

/-- The value of a hexadecimal digit. -/
def hexVal (c : Char) : Option Nat :=
  let n := c.toNat
  if 48 ≤ n ∧ n ≤ 57 then some (n - 48)
  else if 97 ≤ n ∧ n ≤ 102 then some (n - 87)
  else if 65 ≤ n ∧ n ≤ 70 then some (n - 55)
  else none

/-- Four hexadecimal digits, as a number. -/
def hex4 : List Char → Option (Nat × List Char)
  | a :: b :: c :: d :: rest =>
    match hexVal a, hexVal b, hexVal c, hexVal d with
    | some x, some y, some z, some w => some (x * 4096 + y * 256 + z * 16 + w, rest)
    | _, _, _, _ => none
  | _ => none

/-- The function `getu4`: the code unit of a `\uXXXX` escape at the head of the input. -/
def getu4 : List Char → Option (Nat × List Char)
  | a :: b :: rest => if a = '\\' ∧ b = 'u' then hex4 rest else none
  | _ => none

/-- The character a one-letter escape stands for. -/
def simpleEscape (e : Char) : Option Char :=
  if e = '"' then some '"'
  else if e = '\\' then some '\\'
  else if e = '/' then some '/'
  else if e = 'b' then some (Char.ofNat 8)
  else if e = 'f' then some (Char.ofNat 12)
  else if e = 'n' then some '\n'
  else if e = 'r' then some '\r'
  else if e = 't' then some '\t'
  else none

/-- The rune written for the code unit `rr` of a `\u` escape, with the input left after it: a
surrogate pair is combined (`utf16.DecodeRune`), a lone surrogate becomes U+FFFD. -/
def decodeUnit (rr : Nat) (rest : List Char) : Char × List Char :=
  if 0xD800 ≤ rr ∧ rr < 0xE000 then
    match getu4 rest with
    | some (rr1, rest1) =>
      if rr < 0xDC00 ∧ 0xDC00 ≤ rr1 ∧ rr1 < 0xE000 then
        (Char.ofNat ((rr - 0xD800) * 1024 + (rr1 - 0xDC00) + 0x10000), rest1)
      else (Char.ofNat 0xFFFD, rest)
    | none => (Char.ofNat 0xFFFD, rest)
  else (Char.ofNat rr, rest)

/-- A string literal after its opening quote: the scanner states `stateInString`,
`stateInStringEsc`, `stateInStringEscU…` together with `unquote`. -/
def scanString : Nat → List Char → Option (List Char × List Char)
  | 0, _ => none
  | _ + 1, [] => none
  | fuel + 1, c :: cs =>
    if c = '"' then some ([], cs)
    else if c = '\\' then
      match cs with
      | [] => none
      | e :: cs1 =>
        if e = 'u' then
          match hex4 cs1 with
          | none => none
          | some (rr, cs2) =>
            (scanString fuel (decodeUnit rr cs2).2).map
              fun r => ((decodeUnit rr cs2).1 :: r.1, r.2)
        else
          match simpleEscape e with
          | none => none
          | some ch => (scanString fuel cs1).map fun r => (ch :: r.1, r.2)
    else if c.toNat < 0x20 then none
    else (scanString fuel cs).map fun r => (c :: r.1, r.2)

/-- Whether `c` is a decimal digit. -/
def isDigit (c : Char) : Bool :=
  decide (48 ≤ c.toNat ∧ c.toNat ≤ 57)

/-- The longest run of decimal digits at the head of the input, as digit values. -/
def takeDigits : List Char → List Nat × List Char
  | [] => ([], [])
  | c :: cs =>
    if isDigit c then ((c.toNat - 48) :: (takeDigits cs).1, (takeDigits cs).2)
    else ([], c :: cs)

/-- The number written by a list of digits. -/
def ofDigits (ds : List Nat) : Nat :=
  ds.foldl (fun a d => a * 10 + d) 0

/-- The exponent as `strconv` accumulates it: digits are ignored once it has reached 10000. -/
def expOfDigits (ds : List Nat) : Nat :=
  ds.foldl (fun e d => if e < 10000 then e * 10 + d else e) 0

/-- The fraction of a number literal: nothing, or `.` and at least one digit. -/
def scanFrac : List Char → Option (List Nat × List Char)
  | [] => some ([], [])
  | c :: cs =>
    if c = '.' then
      if (takeDigits cs).1 = [] then none else some (takeDigits cs)
    else some ([], c :: cs)

/-- The exponent of a number literal: nothing, or `e`/`E`, an optional sign and at least one
digit. -/
def scanExp : List Char → Option (Int × List Char)
  | [] => some (0, [])
  | c :: cs =>
    if c = 'e' ∨ c = 'E' then
      match cs with
      | [] => none
      | s :: cs1 =>
        if s = '-' then
          if (takeDigits cs1).1 = [] then none
          else some (- (expOfDigits (takeDigits cs1).1 : Int), (takeDigits cs1).2)
        else if s = '+' then
          if (takeDigits cs1).1 = [] then none
          else some ((expOfDigits (takeDigits cs1).1 : Int), (takeDigits cs1).2)
        else
          if (takeDigits cs).1 = [] then none
          else some ((expOfDigits (takeDigits cs).1 : Int), (takeDigits cs).2)
    else some (0, c :: cs)

/-- The integer part of a number literal: `0`, or a digit from 1 to 9 and more digits. -/
def scanInt : List Char → Option (List Nat × List Char)
  | [] => none
  | c :: cs =>
    if c = '0' then some ([0], cs)
    else if isDigit c then some (takeDigits (c :: cs))
    else none

/-- The digits, fraction and exponent of a number literal, its sign being known. -/
def scanUnsigned (neg : Bool) (cs : List Char) : Option (Decimal × List Char) :=
  match scanInt cs with
  | none => none
  | some (ds, cs1) =>
    match scanFrac cs1 with
    | none => none
    | some (fs, cs2) =>
      match scanExp cs2 with
      | none => none
      | some (e, cs3) => some (⟨neg, ofDigits (ds ++ fs), e - fs.length⟩, cs3)

/-- A number literal (`stateNeg`, `state0`, `state1`, `stateDot`, `stateE`, …). -/
def scanNumber : List Char → Option (Decimal × List Char)
  | [] => none
  | c :: cs => if c = '-' then scanUnsigned true cs else scanUnsigned false (c :: cs)

/-- The input after the word `w`, if it starts with it. -/
def stripWord : List Char → List Char → Option (List Char)
  | [], cs => some cs
  | _ :: _, [] => none
  | w :: ws, c :: cs => if w = c then stripWord ws cs else none

/-- The constant `maxNestingDepth` of the scanner. -/
def maxNestingDepth : Nat := 10000

mutual
/-- One JSON value at the head of the input, with what follows it; `depth` counts the arrays and
objects that are open. -/
def scanValue : Nat → Nat → List Char → Option (JVal Decimal × List Char)
  | 0, _, _ => none
  | fuel + 1, depth, cs =>
    match skipSpace cs with
    | [] => none
    | c :: rest =>
      if c = '{' then
        if maxNestingDepth ≤ depth then none
        else
          match skipSpace rest with
          | [] => none
          | c1 :: rest1 =>
            if c1 = '}' then some (.obj .nil, rest1)
            else (scanMembers fuel (depth + 1) (c1 :: rest1)).map fun r => (.obj r.1, r.2)
      else if c = '[' then
        if maxNestingDepth ≤ depth then none
        else
          match skipSpace rest with
          | [] => none
          | c1 :: rest1 =>
            if c1 = ']' then some (.arr .nil, rest1)
            else (scanElems fuel (depth + 1) (c1 :: rest1)).map fun r => (.arr r.1, r.2)
      else if c = '"' then (scanString rest.length rest).map fun r => (.str r.1, r.2)
      else if c = 't' then (stripWord ['r', 'u', 'e'] rest).map fun r => (.bool true, r)
      else if c = 'f' then (stripWord ['a', 'l', 's', 'e'] rest).map fun r => (.bool false, r)
      else if c = 'n' then (stripWord ['u', 'l', 'l'] rest).map fun r => (.null, r)
      else (scanNumber (c :: rest)).map fun r => (.num r.1, r.2)
/-- The elements of an array after `[`, up to and including `]`. -/
def scanElems : Nat → Nat → List Char → Option (JList Decimal × List Char)
  | 0, _, _ => none
  | fuel + 1, depth, cs =>
    match scanValue fuel depth cs with
    | none => none
    | some (v, rest) =>
      match skipSpace rest with
      | [] => none
      | c :: rest1 =>
        if c = ',' then (scanElems fuel depth rest1).map fun r => (.cons v r.1, r.2)
        else if c = ']' then some (.cons v .nil, rest1)
        else none
/-- The members of an object after `{`, up to and including `}`. -/
def scanMembers : Nat → Nat → List Char → Option (JMembers Decimal × List Char)
  | 0, _, _ => none
  | fuel + 1, depth, cs =>
    match skipSpace cs with
    | [] => none
    | c :: rest =>
      if c = '"' then
        match scanString rest.length rest with
        | none => none
        | some (k, rest1) =>
          match skipSpace rest1 with
          | [] => none
          | c1 :: rest2 =>
            if c1 = ':' then
              match scanValue fuel depth rest2 with
              | none => none
              | some (v, rest3) =>
                match skipSpace rest3 with
                | [] => none
                | c3 :: rest4 =>
                  if c3 = ',' then
                    (scanMembers fuel depth rest4).map fun r => (.cons k v r.1, r.2)
                  else if c3 = '}' then some (.cons k v .nil, rest4)
                  else none
            else none
      else none
end

/-! ## strconv: reading and writing a float64 -/

/-- The number of binary digits of `n`, less one (`0` for `n < 2`); `fuel` bounds the steps. -/
def log2Aux : Nat → Nat → Nat
  | 0, _ => 0
  | fuel + 1, n => if n < 2 then 0 else log2Aux fuel (n / 2) + 1

/-- The integer part of the binary logarithm. -/
def log2Floor (n : Nat) : Nat := log2Aux n n

/-- The ratio `num / den` scaled by `2 ^ (-e)`. -/
def scale2 (num den : Nat) (e : Int) : Nat × Nat :=
  if 0 ≤ e then (num, den * 2 ^ e.toNat) else (num * 2 ^ (-e).toNat, den)

/-- The ratio `num / den` scaled by `10 ^ k`. -/
def scale10 (num den : Nat) (k : Int) : Nat × Nat :=
  if 0 ≤ k then (num * 10 ^ k.toNat, den) else (num, den * 10 ^ (-k).toNat)

/-- The binary exponent `l` with `2 ^ l ≤ num / den < 2 ^ (l + 1)`, for a positive ratio. -/
def binExponent (num den : Nat) : Int :=
  let lb : Int := (log2Floor num : Int) - (log2Floor den : Int)
  if (scale2 num den lb).2 ≤ (scale2 num den lb).1 then lb else lb - 1

/-- The positive ratio `num / den` rounded to the nearest `float64`, ties to even: mantissa and
binary exponent, or `none` when the result exceeds the largest finite value. -/
def roundRatio (num den : Nat) : Option (Nat × Int) :=
  let e2 : Int := max (binExponent num den - 52) (-1074)
  let n1 := (scale2 num den e2).1
  let d1 := (scale2 num den e2).2
  let q0 := n1 / d1
  let r := n1 % d1
  let q := if d1 < 2 * r ∨ (2 * r = d1 ∧ q0 % 2 = 1) then q0 + 1 else q0
  let q1 := if q = 2 ^ 53 then 2 ^ 52 else q
  let e3 := if q = 2 ^ 53 then e2 + 1 else e2
  if 971 < e3 then none else some (q1, e3)

/-- The value of a decimal as a ratio of naturals. -/
def Decimal.ratio (d : Decimal) : Nat × Nat :=
  scale10 d.mant 1 d.exp

/-- A ratio in lowest terms. -/
def reduceRatio (p : Nat × Nat) : Nat × Nat :=
  (p.1 / Nat.gcd p.1 p.2, p.2 / Nat.gcd p.1 p.2)

/-- The function `strconv.ParseFloat(s, 64)` on a literal the scanner accepted: the nearest
`float64`, or `none` for the range error. -/
def parseFloat (d : Decimal) : Option F64 :=
  if d.mant = 0 then some ⟨d.neg, 0, -1074⟩
  else
    (roundRatio (reduceRatio d.ratio).1 (reduceRatio d.ratio).2).map
      fun r => ⟨d.neg, r.1, r.2⟩

/-- The value of a float as a ratio of naturals. -/
def F64.ratio (f : F64) : Nat × Nat :=
  if 0 ≤ f.exp then (f.mant * 2 ^ f.exp.toNat, 1) else (f.mant, 2 ^ (-f.exp).toNat)

/-- The decimal digits of `n`, most significant first, in front of `acc`. -/
def digitsAux : Nat → Nat → List Nat → List Nat
  | 0, _, acc => acc
  | fuel + 1, n, acc => if n = 0 then acc else digitsAux fuel (n / 10) (n % 10 :: acc)

/-- The decimal digits of `n`, most significant first; none for `0`. -/
def natDigits (n : Nat) : List Nat := digitsAux n n []

/-- The decimal exponent `p` with `10 ^ (p - 1) ≤ num / den < 10 ^ p`, for a positive ratio. -/
def decExponent (num den : Nat) : Int :=
  let k : Int := ((natDigits num).length : Int) - ((natDigits den).length : Int)
  if (scale10 num den (-k)).2 ≤ (scale10 num den (-k)).1 then k + 1 else k

/-- The decimal of `n` digits nearest to `f` among the two that enclose it, if it reads back as
`f`; `p` is the decimal exponent of `f`. -/
def tryDigits (f : F64) (p : Int) (n : Nat) : Option Decimal :=
  let a := (scale10 f.ratio.1 f.ratio.2 ((n : Int) - p)).1
  let b := (scale10 f.ratio.1 f.ratio.2 ((n : Int) - p)).2
  let lo : Decimal := ⟨f.neg, a / b, p - n⟩
  let hi : Decimal := ⟨f.neg, a / b + 1, p - n⟩
  let okdown := decide (parseFloat lo = some f)
  let okup := decide (parseFloat hi = some f)
  if okdown ∧ okup then
    if 2 * (a % b) < b ∨ (2 * (a % b) = b ∧ (a / b) % 2 = 0) then some lo else some hi
  else if okdown then some lo
  else if okup then some hi
  else none

/-- The exact decimal expansion of a float. -/
def exactDecimal (f : F64) : Decimal :=
  if 0 ≤ f.exp then ⟨f.neg, f.mant * 2 ^ f.exp.toNat, 0⟩
  else ⟨f.neg, f.mant * 5 ^ (-f.exp).toNat, f.exp⟩

/-- The search for the shortest decimal that reads back as `f`, from `n` digits on, `k` lengths
being left to try.  Seventeen digits always identify a `float64`; the exact expansion closes the
recursion. -/
def shortestFrom (f : F64) (p : Int) : Nat → Nat → Decimal
  | 0, _ => exactDecimal f
  | k + 1, n =>
    match tryDigits f p n with
    | some d => d
    | none => shortestFrom f p k (n + 1)

/-- The shortest decimal that reads back as the non-zero float `f` (`strconv` with precision
`-1`). -/
def shortestDecimal (f : F64) : Decimal :=
  shortestFrom f (decExponent f.ratio.1 f.ratio.2) 17 1

/-- A decimal without trailing zeros in its mantissa. -/
def stripZeros : Nat → Nat → Int → Nat × Int
  | 0, m, e => (m, e)
  | fuel + 1, m, e => if m ≠ 0 ∧ m % 10 = 0 then stripZeros fuel (m / 10) (e + 1) else (m, e)

/-- The character of a decimal digit. -/
def digitChar (d : Nat) : Char := Char.ofNat (48 + d)

/-- The format `%f` of `strconv` with the shortest digits `ds` and the decimal point after the
first `dp` of them. -/
def fmtF (ds : List Nat) (dp : Int) : List Char :=
  let ip : List Nat :=
    if 0 < dp then ds.take dp.toNat ++ List.replicate (dp.toNat - ds.length) 0 else [0]
  let fp : List Nat :=
    if dp < ds.length then List.replicate (-dp).toNat 0 ++ ds.drop dp.toNat else []
  ip.map digitChar ++ (if fp = [] then [] else '.' :: fp.map digitChar)

/-- The digits of an exponent: `strconv` writes at least two, and `encoding/json` drops the
leading zero of a two-digit exponent (`e-07` becomes `e-7`), so one digit is left below ten. -/
def expDigits (x : Nat) : List Nat :=
  if x < 10 then [x] else natDigits x

/-- The format `%e` of `strconv` with the shortest digits, as `encoding/json` cleans it up. -/
def fmtE (ds : List Nat) (dp : Int) : List Char :=
  let x : Int := dp - 1
  (ds.take 1).map digitChar
    ++ (if 1 < ds.length then '.' :: (ds.drop 1).map digitChar else [])
    ++ 'e' :: (if x < 0 then '-' else '+') :: (expDigits x.natAbs).map digitChar

/-- The `floatEncoder` of `encoding/json` for a `float64`: format `e` when the absolute value is
below `1e-6` or at least `1e21`, format `f` otherwise, with the shortest digits. -/
def formatFloat (f : F64) : List Char :=
  (if f.neg then ['-'] else []) ++
  if f.mant = 0 then ['0']
  else
    let d := shortestDecimal f
    let s := stripZeros d.mant d.mant d.exp
    let ds := natDigits s.1
    let dp : Int := (ds.length : Int) + s.2
    if f.ratio.1 * 2 ^ 72 < 4722366482869645 * f.ratio.2 ∨ 10 ^ 21 * f.ratio.2 ≤ f.ratio.1 then
      fmtE ds dp
    else fmtF ds dp

/-! ## encoding/json: Decode into a map and Marshal -/

/-- The errors of `Decode`. -/
inductive DecodeError
  /-- An `io.EOF`, `io.ErrUnexpectedEOF` or `*SyntaxError` of the scanner. -/
  | malformed
  /-- An `*UnmarshalTypeError`: a value that is not an object where a map is expected. -/
  | type (kind : String)
  /-- An `*UnmarshalTypeError` of `convertNumber`: a number outside `float64`. -/
  | range (d : Decimal)
deriving DecidableEq

/-- An entry stored in a Go map.  The map is represented by its entries in ascending key order,
the order in which `Marshal` writes them; storing under a key already present replaces the
value. -/
def mapInsert (k : List Char) (v : JVal F64) : JMembers F64 → JMembers F64
  | .nil => .cons k v .nil
  | .cons k1 v1 rest =>
    if ltChars k k1 then .cons k v (.cons k1 v1 rest)
    else if k = k1 then .cons k v rest
    else .cons k1 v1 (mapInsert k v rest)

mutual
/-- The value `Decode` stores in an `interface{}` for a scanned value: numbers become `float64`
(`convertNumber`), objects become maps. -/
def toGo : JVal Decimal → Except DecodeError (JVal F64)
  | .null => .ok .null
  | .bool b => .ok (.bool b)
  | .num d =>
    match parseFloat d with
    | some f => .ok (.num f)
    | none => .error (.range d)
  | .str s => .ok (.str s)
  | .arr xs =>
    match toGoList xs with
    | .ok ys => .ok (.arr ys)
    | .error e => .error e
  | .obj ms =>
    match toGoMembers ms .nil with
    | .ok m => .ok (.obj m)
    | .error e => .error e
/-- The elements of an array, converted. -/
def toGoList : JList Decimal → Except DecodeError (JList F64)
  | .nil => .ok .nil
  | .cons x xs =>
    match toGo x with
    | .error e => .error e
    | .ok y =>
      match toGoList xs with
      | .ok ys => .ok (.cons y ys)
      | .error e => .error e
/-- The members of an object, stored one after the other into the map `acc`. -/
def toGoMembers : JMembers Decimal → JMembers F64 → Except DecodeError (JMembers F64)
  | .nil, acc => .ok acc
  | .cons k v rest, acc =>
    match toGo v with
    | .error e => .error e
    | .ok w => toGoMembers rest (mapInsert k w acc)
end

/-- The call `json.NewDecoder(body).Decode(&result)` with `result` a nil
`map[string]interface{}`: the first value of the body is scanned, what follows it is not read;
an object fills the map, `null` leaves it nil (`none`), any other value is a type error. -/
def decodeMap (body : List Char) : Except DecodeError (Option (JMembers F64)) :=
  match scanValue (body.length + 1) 0 body with
  | none => .error .malformed
  | some (v, _) =>
    match v with
    | .obj ms =>
      match toGoMembers ms .nil with
      | .ok m => .ok (some m)
      | .error e => .error e
    | .null => .ok none
    | .arr _ => .error (.type "array")
    | .str _ => .error (.type "string")
    | .num _ => .error (.type "number")
    | .bool _ => .error (.type "bool")

/-- One digit of `hex = "0123456789abcdef"`. -/
def lowerhex (n : Nat) : Char :=
  if n < 10 then Char.ofNat (48 + n) else Char.ofNat (87 + n)

/-- What `appendString` writes for one character, with HTML escaping on. -/
def encodeChar (c : Char) : List Char :=
  let n := c.toNat
  if n < 0x80 then
    if c = '\\' ∨ c = '"' then ['\\', c]
    else if n = 8 then ['\\', 'b']
    else if n = 12 then ['\\', 'f']
    else if n = 10 then ['\\', 'n']
    else if n = 13 then ['\\', 'r']
    else if n = 9 then ['\\', 't']
    else if n < 0x20 ∨ c = '<' ∨ c = '>' ∨ c = '&' then
      ['\\', 'u', '0', '0', lowerhex (n / 16), lowerhex (n % 16)]
    else [c]
  else if n = 0x2028 ∨ n = 0x2029 then ['\\', 'u', '2', '0', '2', lowerhex (n % 16)]
  else [c]

/-- The function `appendString`: a quoted string. -/
def encodeString (s : List Char) : List Char :=
  '"' :: (s.flatMap encodeChar ++ ['"'])

mutual
/-- The text `Marshal` writes for a value. -/
def encodeValue : JVal F64 → List Char
  | .null => ['n', 'u', 'l', 'l']
  | .bool b => if b then ['t', 'r', 'u', 'e'] else ['f', 'a', 'l', 's', 'e']
  | .num f => formatFloat f
  | .str s => encodeString s
  | .arr .nil => ['[', ']']
  | .arr (.cons x xs) => '[' :: (encodeValue x ++ encodeElems xs)
  | .obj .nil => ['{', '}']
  | .obj (.cons k v rest) => '{' :: (encodeString k ++ ':' :: (encodeValue v ++ encodeMembers rest))
/-- The elements after the first, each behind a comma, and the closing bracket. -/
def encodeElems : JList F64 → List Char
  | .nil => [']']
  | .cons x xs => ',' :: (encodeValue x ++ encodeElems xs)
/-- The members after the first, each behind a comma, and the closing brace. -/
def encodeMembers : JMembers F64 → List Char
  | .nil => ['}']
  | .cons k v rest => ',' :: (encodeString k ++ ':' :: (encodeValue v ++ encodeMembers rest))
end

/-- The call `json.Marshal(result)`: `null` for the nil map. -/
def Marshal : Option (JMembers F64) → List Char
  | none => ['n', 'u', 'l', 'l']
  | some m => encodeValue (.obj m)

/-! ## main.go: configuration and the upstream request -/

/-- The constant `defaultGigapipeHost`. -/
def defaultGigapipeHost : String := "localhost:3100"

/-- The type `Config`. -/
structure Config where
  Host : String
  Username : String
  Password : String
deriving DecidableEq

/-- An `*http.Request` as far as `makeRequest` determines it. -/
structure Request where
  method : String
  url : String
  basicAuth : Option (String × String)
deriving DecidableEq

/-- An `*http.Response` as far as `makeRequest` reads it. -/
structure Response where
  StatusCode : Int
  Body : String
deriving DecidableEq

/-- The `*http.Client` built by `newHTTPClient`: its timeout, in seconds. -/
structure Client where
  Timeout : Nat
deriving DecidableEq

/-- What lies outside the program: the environment, the verdict of `http.NewRequestWithContext`
on a method and URL (`some err` when it refuses them), the outcome of `client.Do` (context and
network included), and the text of a decoding error. -/
structure World where
  getenv : String → String
  newRequest : String → String → Option String
  roundTrip : Client → Request → Except String Response
  describe : DecodeError → String

/-- The error values `makeRequest` returns. -/
inductive RequestError
  /-- The error `failed to create request: %w`. -/
  | create (err : String)
  /-- The error `failed to make request: %w`. -/
  | transport (err : String)
  /-- The error `request failed with status %d`. -/
  | status (code : Int)
  /-- The error `failed to decode response: %w`. -/
  | decode (e : DecodeError)
deriving DecidableEq

/-- The method `Error()` of the errors of `makeRequest`. -/
def RequestError.Error (describe : DecodeError → String) : RequestError → String
  | .create err => "failed to create request: " ++ err
  | .transport err => "failed to make request: " ++ err
  | .status code => "request failed with status " ++ toString code
  | .decode e => "failed to decode response: " ++ describe e

/-- What a run does that a caller of the handlers cannot see in the result: the calls of
`makeRequest` on entry, and the requests handed to `client.Do`. -/
inductive Event
  | call (config : Config) (method path : String) (params : Option Values)
  | send (req : Request)
deriving DecidableEq

/-- The function `getConfig`. -/
def getConfig (w : World) : Config :=
  { Host := if w.getenv "GIGAPIPE_HOST" = "" then defaultGigapipeHost
            else w.getenv "GIGAPIPE_HOST"
    Username := w.getenv "GIGAPIPE_USERNAME"
    Password := w.getenv "GIGAPIPE_PASSWORD" }

/-- The function `newHTTPClient`. -/
def newHTTPClient (_config : Config) : Client :=
  { Timeout := 30 }

/-- The variable `baseURL` of `makeRequest`. -/
def baseURL (config : Config) : String :=
  if config.Username ≠ "" ∧ config.Password ≠ "" then "https://" ++ config.Host
  else "http://" ++ config.Host

/-- The variable `reqURL` of `makeRequest`; `none` is the nil map. -/
def reqURL (config : Config) (path : String) (params : Option Values) : String :=
  match params with
  | some v => baseURL config ++ path ++ "?" ++ Values.Encode v
  | none => baseURL config ++ path

/-- The request `makeRequest` builds once `http.NewRequestWithContext` has accepted the URL. -/
def buildRequest (config : Config) (method path : String) (params : Option Values) : Request :=
  { method := method
    url := reqURL config path params
    basicAuth :=
      if config.Username ≠ "" ∧ config.Password ≠ "" then
        some (config.Username, config.Password)
      else none }

/-- The last part of `makeRequest`: the status check, `Decode` and `Marshal`. -/
def readResponse (resp : Response) : Except RequestError String :=
  if resp.StatusCode ≠ 200 then .error (.status resp.StatusCode)
  else
    match decodeMap resp.Body.data with
    | .error e => .error (.decode e)
    | .ok result => .ok (String.mk (Marshal result))

/-- The function `makeRequest`, with the events of the run. -/
def makeRequest (w : World) (client : Client) (config : Config) (method path : String)
    (params : Option Values) : Except RequestError String × List Event :=
  match w.newRequest method (reqURL config path params) with
  | some err => (.error (.create err), [.call config method path params])
  | none =>
    match w.roundTrip client (buildRequest config method path params) with
    | .error err =>
      (.error (.transport err),
        [.call config method path params, .send (buildRequest config method path params)])
    | .ok resp =>
      (readResponse resp,
        [.call config method path params, .send (buildRequest config method path params)])

/-! ## mcp-go: the arguments of a call and its result -/

/-- An argument of a tool call: a string, or a JSON value of another kind. -/
inductive Arg
  | str (s : String)
  | other
deriving DecidableEq

/-- The arguments of a `CallToolRequest`, by name. -/
abbrev Arguments := List (String × Arg)

/-- The method `RequireString`.  The key is written with `%q`, which for the keys of this program
is the key between double quotes. -/
def RequireString (request : Arguments) (key : String) : Except String String :=
  match request.lookup key with
  | some (.str s) => .ok s
  | some .other => .error ("argument \"" ++ key ++ "\" is not a string")
  | none => .error ("required argument \"" ++ key ++ "\" not found")

/-- The method `GetString`. -/
def GetString (request : Arguments) (key : String) (defaultValue : String) : String :=
  match request.lookup key with
  | some (.str s) => s
  | _ => defaultValue

/-- A `*mcp.CallToolResult`: its text and the flag `IsError`. -/
structure CallToolResult where
  text : String
  isError : Bool
deriving DecidableEq

/-- The function `mcp.NewToolResultError`. -/
def NewToolResultError (text : String) : CallToolResult := ⟨text, true⟩

/-- The function `mcp.NewToolResultText`. -/
def NewToolResultText (text : String) : CallToolResult := ⟨text, false⟩

/-! ## main.go: the handlers -/

/-- The end of every handler: the error of `makeRequest` as an error result, its bytes as a
text result. -/
def toolResult (w : World) (r : Except RequestError String × List Event) :
    CallToolResult × List Event :=
  match r.1 with
  | .error err => (NewToolResultError (err.Error w.describe), r.2)
  | .ok result => (NewToolResultText result, r.2)

/-- The statement `if value != "" { params.Set(key, value) }`. -/
def setIfPresent (params : Values) (key value : String) : Values :=
  if value ≠ "" then Values.Set params key value else params

/-- The parameters of `prometheusQueryHandler`. -/
def prometheusQueryParams (query start «end» step : String) : Values :=
  setIfPresent (setIfPresent (setIfPresent (Values.Set [] "query" query) "start" start)
    "end" «end») "step" step

/-- The parameters of `lokiQueryHandler`. -/
def lokiQueryParams (query start «end» limit : String) : Values :=
  setIfPresent (setIfPresent (setIfPresent (Values.Set [] "query" query) "start" start)
    "end" «end») "limit" limit

/-- The parameters of the handlers for labels and label values. -/
def rangeParams (start «end» : String) : Values :=
  setIfPresent (setIfPresent [] "start" start) "end" «end»

/-- The function `prometheusQueryHandler`. -/
def prometheusQueryHandler (w : World) (request : Arguments) : CallToolResult × List Event :=
  match RequireString request "query" with
  | .error err => (NewToolResultError err, [])
  | .ok query =>
    toolResult w (makeRequest w (newHTTPClient (getConfig w)) (getConfig w) "GET"
      "/api/v1/query_range"
      (some (prometheusQueryParams query (GetString request "start" "")
        (GetString request "end" "") (GetString request "step" ""))))

/-- The function `prometheusLabelsHandler`. -/
def prometheusLabelsHandler (w : World) (request : Arguments) : CallToolResult × List Event :=
  toolResult w (makeRequest w (newHTTPClient (getConfig w)) (getConfig w) "GET"
    "/api/v1/labels"
    (some (rangeParams (GetString request "start" "") (GetString request "end" ""))))

/-- The function `prometheusLabelValuesHandler`. -/
def prometheusLabelValuesHandler (w : World) (request : Arguments) :
    CallToolResult × List Event :=
  match RequireString request "label" with
  | .error err => (NewToolResultError err, [])
  | .ok label =>
    toolResult w (makeRequest w (newHTTPClient (getConfig w)) (getConfig w) "GET"
      ("/api/v1/label/" ++ label ++ "/values")
      (some (rangeParams (GetString request "start" "") (GetString request "end" ""))))

/-- The function `lokiQueryHandler`. -/
def lokiQueryHandler (w : World) (request : Arguments) : CallToolResult × List Event :=
  match RequireString request "query" with
  | .error err => (NewToolResultError err, [])
  | .ok query =>
    toolResult w (makeRequest w (newHTTPClient (getConfig w)) (getConfig w) "GET"
      "/loki/api/v1/query_range"
      (some (lokiQueryParams query (GetString request "start" "")
        (GetString request "end" "") (GetString request "limit" ""))))

/-- The function `lokiLabelsHandler`. -/
def lokiLabelsHandler (w : World) (request : Arguments) : CallToolResult × List Event :=
  toolResult w (makeRequest w (newHTTPClient (getConfig w)) (getConfig w) "GET"
    "/loki/api/v1/label"
    (some (rangeParams (GetString request "start" "") (GetString request "end" ""))))

/-- The function `lokiLabelValuesHandler`. -/
def lokiLabelValuesHandler (w : World) (request : Arguments) : CallToolResult × List Event :=
  match RequireString request "label" with
  | .error err => (NewToolResultError err, [])
  | .ok label =>
    toolResult w (makeRequest w (newHTTPClient (getConfig w)) (getConfig w) "GET"
      ("/loki/api/v1/label/" ++ label ++ "/values")
      (some (rangeParams (GetString request "start" "") (GetString request "end" ""))))

/-- The function `tempoQueryHandler`. -/
def tempoQueryHandler (w : World) (request : Arguments) : CallToolResult × List Event :=
  match RequireString request "trace_id" with
  | .error err => (NewToolResultError err, [])
  | .ok traceID =>
    toolResult w (makeRequest w (newHTTPClient (getConfig w)) (getConfig w) "GET"
      ("/api/traces/" ++ traceID ++ "/json") none)

/-- The function `tempoTagsHandler`. -/
def tempoTagsHandler (w : World) (_request : Arguments) : CallToolResult × List Event :=
  toolResult w (makeRequest w (newHTTPClient (getConfig w)) (getConfig w) "GET"
    "/api/search/tags" none)

/-- The function `tempoTagValuesHandler`. -/
def tempoTagValuesHandler (w : World) (request : Arguments) : CallToolResult × List Event :=
  match RequireString request "tag" with
  | .error err => (NewToolResultError err, [])
  | .ok tag =>
    toolResult w (makeRequest w (newHTTPClient (getConfig w)) (getConfig w) "GET"
      ("/api/search/tag/" ++ tag ++ "/values") none)

/-- The nine tools that `main` registers. -/
inductive Operation
  | prometheus_query
  | prometheus_labels
  | prometheus_label_values
  | loki_query
  | loki_labels
  | loki_label_values
  | tempo_query
  | tempo_tags
  | tempo_tag_values
deriving DecidableEq

/-- The calls `s.AddTool(tool, handler)` of `main`. -/
def handler : Operation → World → Arguments → CallToolResult × List Event
  | .prometheus_query => prometheusQueryHandler
  | .prometheus_labels => prometheusLabelsHandler
  | .prometheus_label_values => prometheusLabelValuesHandler
  | .loki_query => lokiQueryHandler
  | .loki_labels => lokiLabelsHandler
  | .loki_label_values => lokiLabelValuesHandler
  | .tempo_query => tempoQueryHandler
  | .tempo_tags => tempoTagsHandler
  | .tempo_tag_values => tempoTagValuesHandler

/-- The argument each handler asks for with `RequireString`. -/
def requiredArg : Operation → Option String
  | .prometheus_query => some "query"
  | .prometheus_labels => none
  | .prometheus_label_values => some "label"
  | .loki_query => some "query"
  | .loki_labels => none
  | .loki_label_values => some "label"
  | .tempo_query => some "trace_id"
  | .tempo_tags => none
  | .tempo_tag_values => some "tag"

/-- The arguments each handler reads with `GetString`. -/
def optionalArgs : Operation → List String
  | .prometheus_query => ["start", "end", "step"]
  | .prometheus_labels => ["start", "end"]
  | .prometheus_label_values => ["start", "end"]
  | .loki_query => ["start", "end", "limit"]
  | .loki_labels => ["start", "end"]
  | .loki_label_values => ["start", "end"]
  | .tempo_query => []
  | .tempo_tags => []
  | .tempo_tag_values => []

/-- The string arguments each tool declares in `main` with `mcp.WithString`. -/
def declaredArgs : Operation → List String
  | .prometheus_query => ["query", "start", "end", "step"]
  | .prometheus_labels => ["start", "end"]
  | .prometheus_label_values => ["label", "start", "end"]
  | .loki_query => ["query", "start", "end", "limit"]
  | .loki_labels => ["start", "end"]
  | .loki_label_values => ["label", "start", "end"]
  | .tempo_query => ["trace_id", "start", "end"]
  | .tempo_tags => []
  | .tempo_tag_values => ["tag"]

/-! ## Worlds for the examples -/

/-- An environment in which no variable is set. -/
def emptyEnv : String → String := fun _ => ""

/-- An environment with a host and both credentials. -/
def credentialsEnv : String → String := fun k =>
  if k = "GIGAPIPE_HOST" then "gigapipe.example:443"
  else if k = "GIGAPIPE_USERNAME" then "user"
  else if k = "GIGAPIPE_PASSWORD" then "secret"
  else ""

/-- A world with the environment `env` in which every URL is accepted and every request is
answered by `resp`. -/
def exampleWorld (env : String → String) (resp : Response) : World :=
  { getenv := env
    newRequest := fun _ _ => none
    roundTrip := fun _ _ => .ok resp
    describe := fun _ => "" }

/-! ## Vocabulary of the proofs about query strings -/

/-- The pairs of a `url.Values` in the order `Encode` writes them. -/
def pairsOf (v : Values) : List (String × String) :=
  (sortKeys (v.map Prod.fst)).flatMap fun k => ((v.lookup k).getD []).map fun val => (k, val)

/-- Segments joined by `&`. -/
def joinSegs : List (List Char) → List Char
  | [] => []
  | [a] => a
  | a :: b :: rest => a ++ '&' :: joinSegs (b :: rest)

/-- The segment `key=value` of a pair, both escaped. -/
def segChars (p : String × String) : List Char :=
  queryEscapeChars p.1.data ++ '=' :: queryEscapeChars p.2.data

/-- The path the handler of an operation passes to `makeRequest` once it has its required
argument. -/
def requestPath : Operation → Arguments → String
  | .prometheus_query, _ => "/api/v1/query_range"
  | .prometheus_labels, _ => "/api/v1/labels"
  | .prometheus_label_values, r => "/api/v1/label/" ++ GetString r "label" "" ++ "/values"
  | .loki_query, _ => "/loki/api/v1/query_range"
  | .loki_labels, _ => "/loki/api/v1/label"
  | .loki_label_values, r => "/loki/api/v1/label/" ++ GetString r "label" "" ++ "/values"
  | .tempo_query, r => "/api/traces/" ++ GetString r "trace_id" "" ++ "/json"
  | .tempo_tags, _ => "/api/search/tags"
  | .tempo_tag_values, r => "/api/search/tag/" ++ GetString r "tag" "" ++ "/values"

/-- The parameters the handler of an operation passes to `makeRequest` once it has its required
argument; `none` is the nil map. -/
def requestParams : Operation → Arguments → Option Values
  | .prometheus_query, r =>
    some (prometheusQueryParams (GetString r "query" "") (GetString r "start" "")
      (GetString r "end" "") (GetString r "step" ""))
  | .prometheus_labels, r => some (rangeParams (GetString r "start" "") (GetString r "end" ""))
  | .prometheus_label_values, r =>
    some (rangeParams (GetString r "start" "") (GetString r "end" ""))
  | .loki_query, r =>
    some (lokiQueryParams (GetString r "query" "") (GetString r "start" "")
      (GetString r "end" "") (GetString r "limit" ""))
  | .loki_labels, r => some (rangeParams (GetString r "start" "") (GetString r "end" ""))
  | .loki_label_values, r => some (rangeParams (GetString r "start" "") (GetString r "end" ""))
  | .tempo_query, _ => none
  | .tempo_tags, _ => none
  | .tempo_tag_values, _ => none

/-! ## Vocabulary of the proofs about the JSON codec -/

/-- Whether a value is a number. -/
def JVal.isNum {ν : Type} : JVal ν → Bool
  | .num _ => true
  | _ => false

/-- The invariant of a `float64`. -/
def F64.WF (f : F64) : Prop :=
  f.mant < 2 ^ 53 ∧ -1074 ≤ f.exp ∧ f.exp ≤ 971 ∧ (2 ^ 52 ≤ f.mant ∨ f.exp = -1074)

/-- The value of a decimal literal, without its sign. -/
def Decimal.val (d : Decimal) : ℚ := (d.mant : ℚ) * (10 : ℚ) ^ d.exp

/-- The value of a float, without its sign. -/
def F64.val (f : F64) : ℚ := (f.mant : ℚ) * (2 : ℚ) ^ f.exp

/-- What may follow a number in a text: nothing, or a character that cannot continue it. -/
def numEnd (rest : List Char) : Prop :=
  ∀ c r, rest = c :: r → isDigit c = false ∧ c ≠ '.' ∧ c ≠ 'e' ∧ c ≠ 'E'

/-- The keys of the members of an object, in their order. -/
def JMembers.keys {ν : Type} : JMembers ν → List (List Char)
  | .nil => []
  | .cons k _ rest => k :: rest.keys

/-- The members of `a` followed by those of `b`. -/
def JMembers.append {ν : Type} : JMembers ν → JMembers ν → JMembers ν
  | .nil, b => b
  | .cons k v rest, b => .cons k v (rest.append b)

/-- Keys in strictly ascending order. -/
def keysSorted (ks : List (List Char)) : Prop :=
  ks.Pairwise fun a b => ltChars a b = true

mutual
/-- The nesting depth of a value: the number of arrays and objects around its innermost part. -/
def JVal.depth {ν : Type} : JVal ν → Nat
  | .arr xs => xs.depth + 1
  | .obj m => m.depth + 1
  | _ => 0
/-- The largest depth among the elements. -/
def JList.depth {ν : Type} : JList ν → Nat
  | .nil => 0
  | .cons x xs => max x.depth xs.depth
/-- The largest depth among the values of the members. -/
def JMembers.depth {ν : Type} : JMembers ν → Nat
  | .nil => 0
  | .cons _ v rest => max v.depth rest.depth
end

mutual
/-- The invariant of a value that `Decode` has stored: its numbers are `float64`s and the entries
of its maps are in key order. -/
def JVal.WF : JVal F64 → Prop
  | .num f => f.WF
  | .arr xs => xs.WF
  | .obj m => m.WF ∧ keysSorted m.keys
  | _ => True
/-- The invariant, for the elements of an array. -/
def JList.WF : JList F64 → Prop
  | .nil => True
  | .cons x xs => x.WF ∧ xs.WF
/-- The invariant, for the values of the members of an object. -/
def JMembers.WF : JMembers F64 → Prop
  | .nil => True
  | .cons _ v rest => v.WF ∧ rest.WF
end

/-- The text of the elements of an array after `[` or `,`, closing bracket included. -/
def elemsText : JList F64 → List Char
  | .nil => []
  | .cons x xs => encodeValue x ++ encodeElems xs

/-- The text of the members of an object after `{` or `,`, closing brace included. -/
def membersText : JMembers F64 → List Char
  | .nil => []
  | .cons k v m => encodeString k ++ ':' :: (encodeValue v ++ encodeMembers m)

/-- Where a value starts: a character that is no white space and closes nothing. -/
def valueStart (c : Char) : Prop :=
  isSpace c = false ∧ c ≠ ']' ∧ c ≠ '}'

/-! ## The specification of `strconv.ParseFloat`: the nearest `float64` -/

/-- The decimal lies below the values that `strconv` rounds to infinity: it is less than
`2 ^ 1024 - 2 ^ 970`, the midpoint above the largest `float64`. -/
def Decimal.InRange (d : Decimal) : Prop :=
  d.val < (2 : ℚ) ^ (1024 : ℤ) - (2 : ℚ) ^ (970 : ℤ)

/-- The float `f` is a `float64` nearest to the decimal `d`, sign aside: no `float64` is nearer,
and if another one is as near then the mantissa of `f` is even. -/
def Nearest (d : Decimal) (f : F64) : Prop :=
  f.WF ∧ f.neg = d.neg ∧
  ∀ g : F64, g.WF →
    |d.val - f.val| ≤ |d.val - g.val| ∧
    (|d.val - f.val| = |d.val - g.val| → g.val ≠ f.val → f.mant % 2 = 0)

/-! ## The specification of `Decode` into an `interface{}` -/

/-- The value of the first member with the key `k`. -/
def JMembers.find {ν : Type} (k : List Char) : JMembers ν → Option (JVal ν)
  | .nil => none
  | .cons k1 v rest => if k = k1 then some v else rest.find k

/-- The value of the last member with the key `k`. -/
def JMembers.findLast {ν : Type} (k : List Char) : JMembers ν → Option (JVal ν)
  | .nil => none
  | .cons k1 v rest =>
    match rest.findLast k with
    | some y => some y
    | none => if k = k1 then some v else none

mutual
/-- What the specification of `Decode` into an `interface{}` asks of the stored value `g` for a
JSON value: the same kind of value, strings and booleans unchanged, every number a `float64`
nearest to its literal, which must be in range, the elements of an array stored one by one, and
for an object the map that holds under each key the stored value of the last member with that
key. -/
def Stored : JVal Decimal → JVal F64 → Prop
  | .null, g => g = .null
  | .bool b, g => g = .bool b
  | .num d, g => ∃ f, g = .num f ∧ d.InRange ∧ Nearest d f
  | .str s, g => g = .str s
  | .arr xs, g => ∃ ys, g = .arr ys ∧ StoredList xs ys
  | .obj ms, g => ∃ ys m, g = .obj m ∧ StoredMembers ms ys ∧ keysSorted m.keys ∧
      ∀ k, m.find k = ys.findLast k
/-- The elements of an array, stored one by one. -/
def StoredList : JList Decimal → JList F64 → Prop
  | .nil, ys => ys = .nil
  | .cons x xs, ys => ∃ y ys1, ys = .cons y ys1 ∧ Stored x y ∧ StoredList xs ys1
/-- The members of an object with their values stored, in the order of the text. -/
def StoredMembers : JMembers Decimal → JMembers F64 → Prop
  | .nil, ys => ys = .nil
  | .cons k v ms, ys => ∃ y ys1, ys = .cons k y ys1 ∧ Stored v y ∧ StoredMembers ms ys1
end

mutual
/-- Every number of the value is in the range of `float64`. -/
def JVal.InRange : JVal Decimal → Prop
  | .num d => d.InRange
  | .arr xs => xs.InRange
  | .obj ms => ms.InRange
  | _ => True
/-- Every number of the elements is in range. -/
def JList.InRange : JList Decimal → Prop
  | .nil => True
  | .cons x xs => x.InRange ∧ xs.InRange
/-- Every number of the members is in range. -/
def JMembers.InRange : JMembers Decimal → Prop
  | .nil => True
  | .cons _ v ms => v.InRange ∧ ms.InRange
end

/-! ## The grammar of JSON texts (RFC 8259) -/

/-- JSON white space: space, horizontal tab, line feed and carriage return. -/
def JsonWs (w : List Char) : Prop :=
  ∀ c ∈ w, c = ' ' ∨ c = '\t' ∨ c = '\n' ∨ c = '\r'

/-- A list of decimal digits. -/
def IsDigits (ds : List Nat) : Prop := ∀ x ∈ ds, x < 10

/-- The exponent part of a number literal and its value: nothing, or `e` or `E`, an optional
sign and at least one digit.  The value is the one `strconv` accumulates, which leaves out the
digits that follow once it has reached 10000. -/
def ExponentText (e : Int) (t : List Char) : Prop :=
  (t = [] ∧ e = 0) ∨
  ∃ (c : Char) (es : List Nat), (c = 'e' ∨ c = 'E') ∧ es ≠ [] ∧ IsDigits es ∧
    ((t = c :: es.map digitChar ∧ e = (expOfDigits es : Int)) ∨
     (t = c :: '+' :: es.map digitChar ∧ e = (expOfDigits es : Int)) ∨
     (t = c :: '-' :: es.map digitChar ∧ e = -(expOfDigits es : Int)))

/-- A JSON number literal and the decimal it writes: an optional minus sign, the integer part
(`0`, or digits that do not start with `0`), an optional fraction of a point and at least one
digit, and an optional exponent. -/
def NumberText (d : Decimal) (t : List Char) : Prop :=
  ∃ (ip fp : List Nat) (ex : List Char) (e : Int),
    IsDigits ip ∧ IsDigits fp ∧ ip ≠ [] ∧ (ip.head? = some 0 → ip = [0]) ∧ ExponentText e ex ∧
    t = (if d.neg then ['-'] else []) ++ (ip.map digitChar ++
      ((if fp = [] then [] else '.' :: fp.map digitChar) ++ ex)) ∧
    d.mant = ofDigits (ip ++ fp) ∧ d.exp = e - (fp.length : Int)

/-- The escapes of one letter and the characters they stand for. -/
def JsonEscape (e ch : Char) : Prop :=
  (e = '"' ∧ ch = '"') ∨ (e = '\\' ∧ ch = '\\') ∨ (e = '/' ∧ ch = '/') ∨
  (e = 'b' ∧ ch = Char.ofNat 8) ∨ (e = 'f' ∧ ch = Char.ofNat 12) ∨
  (e = 'n' ∧ ch = '\n') ∨ (e = 'r' ∧ ch = '\r') ∨ (e = 't' ∧ ch = '\t')

/-- Four hexadecimal digits and the number they write. -/
def Hex4 (a b c d : Char) (n : Nat) : Prop :=
  ∃ x y z w, hexVal a = some x ∧ hexVal b = some y ∧ hexVal c = some z ∧ hexVal d = some w ∧
    n = x * 4096 + y * 256 + z * 16 + w

/-- The text of a JSON string between its quotes, and the string it writes: characters from
U+0020 on other than the quote and the backslash stand for themselves; a backslash starts an
escape of one letter or `\uXXXX`; two `\u` escapes of a high and a low surrogate make one
character, and a surrogate without its partner becomes U+FFFD. -/
inductive StringText : List Char → List Char → Prop
  | nil : StringText [] []
  | plain (c : Char) (s b : List Char) : 0x20 ≤ c.toNat → c ≠ '"' → c ≠ '\\' →
      StringText s b → StringText (c :: s) (c :: b)
  | escape (e ch : Char) (s b : List Char) : JsonEscape e ch →
      StringText s b → StringText (ch :: s) ('\\' :: e :: b)
  | unit (h1 h2 h3 h4 : Char) (n : Nat) (s b : List Char) : Hex4 h1 h2 h3 h4 n →
      ¬ (0xD800 ≤ n ∧ n < 0xE000) →
      StringText s b → StringText (Char.ofNat n :: s) ('\\' :: 'u' :: h1 :: h2 :: h3 :: h4 :: b)
  | pair (h1 h2 h3 h4 l1 l2 l3 l4 : Char) (n1 n2 : Nat) (s b : List Char) :
      Hex4 h1 h2 h3 h4 n1 → Hex4 l1 l2 l3 l4 n2 →
      0xD800 ≤ n1 → n1 < 0xDC00 → 0xDC00 ≤ n2 → n2 < 0xE000 →
      StringText s b →
      StringText (Char.ofNat ((n1 - 0xD800) * 1024 + (n2 - 0xDC00) + 0x10000) :: s)
        ('\\' :: 'u' :: h1 :: h2 :: h3 :: h4 :: '\\' :: 'u' :: l1 :: l2 :: l3 :: l4 :: b)
  | lone (h1 h2 h3 h4 : Char) (n : Nat) (s b : List Char) : Hex4 h1 h2 h3 h4 n →
      0xD800 ≤ n → n < 0xE000 →
      ¬ (n < 0xDC00 ∧ ∃ l1 l2 l3 l4 n2 r, b = '\\' :: 'u' :: l1 :: l2 :: l3 :: l4 :: r ∧
          Hex4 l1 l2 l3 l4 n2 ∧ 0xDC00 ≤ n2 ∧ n2 < 0xE000) →
      StringText s b →
      StringText (Char.ofNat 0xFFFD :: s) ('\\' :: 'u' :: h1 :: h2 :: h3 :: h4 :: b)

mutual
/-- A JSON text without white space around it, and the value it writes (RFC 8259): the three
literal names, a number, a string between quotes, an array between brackets, an object between
braces. -/
def JsonText : JVal Decimal → List Char → Prop
  | .null, t => t = ['n', 'u', 'l', 'l']
  | .bool b, t => t = if b then ['t', 'r', 'u', 'e'] else ['f', 'a', 'l', 's', 'e']
  | .num d, t => NumberText d t
  | .str s, t => ∃ b, StringText s b ∧ t = '"' :: (b ++ ['"'])
  | .arr xs, t => ∃ b, ArrayText xs b ∧ t = '[' :: (b ++ [']'])
  | .obj ms, t => ∃ b, ObjectText ms b ∧ t = '{' :: (b ++ ['}'])
/-- The text between the brackets of an array: white space for no element, otherwise the
elements, each with white space around it, separated by commas. -/
def ArrayText : JList Decimal → List Char → Prop
  | .nil, b => JsonWs b
  | .cons x xs, b => ∃ w1 t w2 r, JsonWs w1 ∧ JsonText x t ∧ JsonWs w2 ∧ ArrayRest xs r ∧
      b = w1 ++ (t ++ (w2 ++ r))
/-- The text after an element of an array: nothing, or a comma and the elements that follow. -/
def ArrayRest : JList Decimal → List Char → Prop
  | .nil, r => r = []
  | .cons x xs, r => ∃ w1 t w2 r1, JsonWs w1 ∧ JsonText x t ∧ JsonWs w2 ∧ ArrayRest xs r1 ∧
      r = ',' :: (w1 ++ (t ++ (w2 ++ r1)))
/-- The text between the braces of an object: white space for no member, otherwise the members
`key : value`, with white space around keys and values, separated by commas. -/
def ObjectText : JMembers Decimal → List Char → Prop
  | .nil, b => JsonWs b
  | .cons k v ms, b => ∃ w1 kb w2 w3 t w4 r, JsonWs w1 ∧ StringText k kb ∧ JsonWs w2 ∧
      JsonWs w3 ∧ JsonText v t ∧ JsonWs w4 ∧ ObjectRest ms r ∧
      b = w1 ++ ('"' :: (kb ++ ('"' :: (w2 ++ (':' :: (w3 ++ (t ++ (w4 ++ r))))))))
/-- The text after a member of an object: nothing, or a comma and the members that follow. -/
def ObjectRest : JMembers Decimal → List Char → Prop
  | .nil, r => r = []
  | .cons k v ms, r => ∃ w1 kb w2 w3 t w4 r1, JsonWs w1 ∧ StringText k kb ∧ JsonWs w2 ∧
      JsonWs w3 ∧ JsonText v t ∧ JsonWs w4 ∧ ObjectRest ms r1 ∧
      r = ',' :: (w1 ++ ('"' :: (kb ++ ('"' :: (w2 ++ (':' :: (w3 ++ (t ++ (w4 ++ r1)))))))))
end

/-! ## The URL and the credentials -/

theorem https_data (h : String) :
    ("https://" ++ h).data = 'h' :: 't' :: 't' :: 'p' :: 's' :: ':' :: '/' :: '/' :: h.data := by
  simp [String.data_append]

theorem http_data (h : String) :
    ("http://" ++ h).data = 'h' :: 't' :: 't' :: 'p' :: ':' :: '/' :: '/' :: h.data := by
  simp [String.data_append]

theorem reqURL_data (config : Config) (path : String) (params : Option Values) :
    ∃ rest : List Char, (reqURL config path params).data = (baseURL config).data ++ rest := by
  cases params with
  | none => exact ⟨path.data, by simp [reqURL, String.data_append]⟩
  | some v =>
    exact ⟨path.data ++ "?".data ++ (Values.Encode v).data, by simp [reqURL, String.data_append]⟩

/-- C1: for every configuration, path and parameter map, the URL that `makeRequest` builds
starts with `https://` and the host exactly when both the user name and the password are
non-empty, and starts with `http://` and the host exactly when they are not both non-empty. -/
theorem scheme_https_iff_both_credentials (config : Config) (path : String)
    (params : Option Values) :
    (("https://" ++ config.Host).data <+: (reqURL config path params).data
        ↔ (config.Username ≠ "" ∧ config.Password ≠ "")) ∧
    (("http://" ++ config.Host).data <+: (reqURL config path params).data
        ↔ ¬ (config.Username ≠ "" ∧ config.Password ≠ "")) := by
  obtain ⟨rest, hrest⟩ := reqURL_data config path params
  rw [hrest]
  by_cases hc : config.Username ≠ "" ∧ config.Password ≠ ""
  · simp only [baseURL, if_pos hc, https_data, http_data]
    simp [hc]
  · simp only [baseURL, if_neg hc, https_data, http_data]
    simp [hc]

/-! ## Query strings -/

theorem ofNat_eq_char (m : Nat) (c : Char) (hc : c ≠ Char.ofNat 0) (h : Char.ofNat m = c) :
    m = c.toNat := by
  by_cases hv : m.isValidChar
  · subst h
    simp only [Char.ofNat, hv, Char.toNat, Char.ofNatAux, dif_pos]
    rfl
  · exfalso
    apply hc
    rw [← h]
    simp only [Char.ofNat, hv, dif_neg, not_false_eq_true]
    rfl

theorem upperhex_ne (n : Nat) : upperhex n ≠ '&' ∧ upperhex n ≠ '=' := by
  unfold upperhex
  split
  · constructor <;> intro h
    · have := ofNat_eq_char _ _ (by decide) h
      simp at this; omega
    · have := ofNat_eq_char _ _ (by decide) h
      simp at this; omega
  · constructor <;> intro h
    · have := ofNat_eq_char _ _ (by decide) h
      simp at this; omega
    · have := ofNat_eq_char _ _ (by decide) h
      simp at this; omega

theorem escapeByte_safe (b : Nat) (c : Char) (hc : c ∈ escapeByte b) : c ≠ '&' ∧ c ≠ '=' := by
  unfold escapeByte at hc
  split at hc
  · split at hc
    · simp at hc; subst hc; decide
    · simp at hc
      rcases hc with rfl | rfl | rfl
      · decide
      · exact upperhex_ne _
      · exact upperhex_ne _
  · rename_i hs
    simp at hc
    subst hc
    constructor <;> intro h
    · have := ofNat_eq_char _ _ (by decide) h
      simp at this; subst this; exact hs (by decide)
    · have := ofNat_eq_char _ _ (by decide) h
      simp at this; subst this; exact hs (by decide)

theorem queryEscape_safe (s : List Char) (c : Char) (hc : c ∈ queryEscapeChars s) :
    c ≠ '&' ∧ c ≠ '=' := by
  unfold queryEscapeChars at hc
  simp only [List.mem_flatMap] at hc
  obtain ⟨b, _, hb⟩ := hc
  exact escapeByte_safe b c hb

theorem segChars_ne_nil (p : String × String) : segChars p ≠ [] := by
  simp [segChars]

theorem joinSegs_eq_nil {l : List (List Char)} (h : ∀ a ∈ l, a ≠ []) : joinSegs l = [] ↔ l = [] := by
  match l with
  | [] => simp [joinSegs]
  | [a] => simp [joinSegs, h a (by simp)]
  | a :: b :: rest => simp [joinSegs]

theorem joinSegs_snoc (l : List (List Char)) (a : List Char) (hl : l ≠ []) :
    joinSegs (l ++ [a]) = joinSegs l ++ '&' :: a := by
  induction l with
  | nil => exact absurd rfl hl
  | cons x xs ih =>
    cases xs with
    | nil => simp [joinSegs]
    | cons y ys =>
      have := ih (by simp)
      show x ++ '&' :: joinSegs ((y :: ys) ++ [a]) = (x ++ '&' :: joinSegs (y :: ys)) ++ '&' :: a
      rw [this]; simp

theorem encodePair_data (k buf v : String) :
    (encodePair (QueryEscape k) buf v).data =
      (if buf.data = [] then [] else buf.data ++ ['&']) ++ segChars (k, v) := by
  unfold encodePair segChars QueryEscape
  by_cases h : buf.data = []
  · have : ¬ (buf.length > 0) := by simp [String.length, h]
    simp [this, h, String.data_append]
  · have : buf.length > 0 := by
      simp only [String.length]; exact List.length_pos.mpr h
    simp [this, h, String.data_append]

theorem foldl_pairs_data (ps : List (String × String)) (done : List (String × String)) (buf : String)
    (hbuf : buf.data = joinSegs (done.map segChars)) :
    (ps.foldl (fun b p => encodePair (QueryEscape p.1) b p.2) buf).data
      = joinSegs ((done ++ ps).map segChars) := by
  induction ps generalizing done buf with
  | nil => simpa using hbuf
  | cons p ps ih =>
    simp only [List.foldl_cons]
    have := ih (done ++ [p]) (encodePair (QueryEscape p.1) buf p.2) (by
      rw [encodePair_data, hbuf]
      by_cases hd : done = []
      · subst hd; simp [joinSegs]
      · have hne : joinSegs (done.map segChars) ≠ [] := by
          rw [Ne, joinSegs_eq_nil (by
            intro a ha
            obtain ⟨p, _, rfl⟩ := List.mem_map.mp ha
            exact segChars_ne_nil p)]
          simpa using hd
        simp only [hne, if_false, List.map_append, List.map_cons, List.map_nil]
        rw [joinSegs_snoc _ _ (by simpa using hd)]
        simp)
    simpa using this

theorem encode_eq_foldl (v : Values) :
    Values.Encode v = (pairsOf v).foldl (fun b p => encodePair (QueryEscape p.1) b p.2) "" := by
  unfold Values.Encode pairsOf
  generalize sortKeys (v.map Prod.fst) = ks
  generalize ("" : String) = buf
  induction ks generalizing buf with
  | nil => simp
  | cons k ks ih =>
    simp only [List.foldl_cons, List.flatMap_cons, List.foldl_append]
    rw [ih]
    congr 1
    simp [List.foldl_map]

theorem encode_data (v : Values) :
    (Values.Encode v).data = joinSegs ((pairsOf v).map segChars) := by
  rw [encode_eq_foldl]
  simpa using foldl_pairs_data (pairsOf v) [] "" (by simp [joinSegs])

theorem splitAtSep_ne_nil (sep : Char) (a : List Char) : splitAtSep sep a ≠ [] := by
  induction a with
  | nil => simp [splitAtSep]
  | cons c cs ih =>
    unfold splitAtSep
    split
    · simp
    · split <;> simp

theorem splitAtSep_free (sep : Char) (a : List Char) (h : sep ∉ a) : splitAtSep sep a = [a] := by
  induction a with
  | nil => simp [splitAtSep]
  | cons c cs ih =>
    simp only [List.mem_cons, not_or] at h
    have hc : ¬ c = sep := fun e => h.1 e.symm
    simp [splitAtSep, hc, ih h.2]

theorem splitAtSep_append (sep : Char) (a rest : List Char) (h : sep ∉ a) :
    splitAtSep sep (a ++ sep :: rest) = a :: splitAtSep sep rest := by
  induction a with
  | nil => simp [splitAtSep]
  | cons c cs ih =>
    simp only [List.mem_cons, not_or] at h
    have hc : ¬ c = sep := fun e => h.1 e.symm
    simp [splitAtSep, hc, ih h.2]

theorem splitAtSep_joinSegs (l : List (List Char)) (hl : l ≠ []) (h : ∀ a ∈ l, '&' ∉ a) :
    splitAtSep '&' (joinSegs l) = l := by
  induction l with
  | nil => exact absurd rfl hl
  | cons x xs ih =>
    cases xs with
    | nil => simpa [joinSegs] using splitAtSep_free '&' x (h x (by simp))
    | cons y ys =>
      simp only [joinSegs]
      rw [splitAtSep_append _ _ _ (h x (by simp)), ih (by simp) (fun a ha => h a (by simp [ha]))]

theorem cutAt_append (sep : Char) (k v : List Char) (h : sep ∉ k) :
    cutAt sep (k ++ sep :: v) = (k, v) := by
  induction k with
  | nil => simp [cutAt]
  | cons c cs ih =>
    simp only [List.mem_cons, not_or] at h
    have hc : ¬ c = sep := fun e => h.1 e.symm
    simp [cutAt, hc, ih h.2]

theorem amp_not_mem_segChars (p : String × String) : '&' ∉ segChars p := by
  intro h
  simp only [segChars, List.mem_append, List.mem_cons] at h
  rcases h with h | h | h
  · exact (queryEscape_safe _ _ h).1 rfl
  · exact absurd h (by decide)
  · exact (queryEscape_safe _ _ h).1 rfl

theorem queryPairs_encode (v : Values) :
    queryPairs (Values.Encode v)
      = (pairsOf v).map fun p => (QueryEscape p.1, QueryEscape p.2) := by
  unfold queryPairs
  rw [encode_data]
  by_cases hp : pairsOf v = []
  · simp [hp, joinSegs, splitAtSep]
  · rw [splitAtSep_joinSegs _ (by simpa using hp) (by
      intro a ha
      obtain ⟨p, _, rfl⟩ := List.mem_map.mp ha
      exact amp_not_mem_segChars p)]
    rw [List.filter_eq_self.mpr (by
      intro a ha
      obtain ⟨p, _, rfl⟩ := List.mem_map.mp ha
      simpa using segChars_ne_nil p)]
    rw [List.map_map]
    apply List.map_congr_left
    intro p _
    simp only [Function.comp, segChars]
    rw [cutAt_append _ _ _ (fun h => (queryEscape_safe _ _ h).2 rfl)]
    simp [QueryEscape]

theorem key_order :
    ltChars "query".data "start".data = true ∧ ltChars "start".data "query".data = false ∧
    ltChars "query".data "end".data = false ∧ ltChars "end".data "query".data = true ∧
    ltChars "query".data "step".data = true ∧ ltChars "step".data "query".data = false ∧
    ltChars "query".data "limit".data = false ∧ ltChars "limit".data "query".data = true ∧
    ltChars "start".data "end".data = false ∧ ltChars "end".data "start".data = true ∧
    ltChars "start".data "step".data = true ∧ ltChars "step".data "start".data = false ∧
    ltChars "start".data "limit".data = false ∧ ltChars "limit".data "start".data = true ∧
    ltChars "end".data "step".data = true ∧ ltChars "step".data "end".data = false ∧
    ltChars "end".data "limit".data = true ∧ ltChars "limit".data "end".data = false := by
  decide

theorem key_escape :
    QueryEscape "query" = "query" ∧ QueryEscape "start" = "start" ∧ QueryEscape "end" = "end" ∧
    QueryEscape "step" = "step" ∧ QueryEscape "limit" = "limit" := by
  decide

theorem pairsOf_rangeParams (s e : String) :
    pairsOf (rangeParams s e)
      = (if e ≠ "" then [("end", e)] else []) ++ (if s ≠ "" then [("start", s)] else []) := by
  by_cases hs : s = "" <;> by_cases he : e = "" <;>
    simp [pairsOf, rangeParams, setIfPresent, Values.Set, sortKeys, insertKey, ltChars, List.lookup, hs, he]

theorem pairsOf_prometheusQueryParams (q s e st : String) :
    pairsOf (prometheusQueryParams q s e st)
      = (if e ≠ "" then [("end", e)] else []) ++ [("query", q)]
        ++ (if s ≠ "" then [("start", s)] else []) ++ (if st ≠ "" then [("step", st)] else []) := by
  by_cases hs : s = "" <;> by_cases he : e = "" <;> by_cases hst : st = "" <;>
    simp [pairsOf, prometheusQueryParams, setIfPresent, Values.Set, sortKeys, insertKey, ltChars, List.lookup,
      hs, he, hst]

theorem pairsOf_lokiQueryParams (q s e l : String) :
    pairsOf (lokiQueryParams q s e l)
      = (if e ≠ "" then [("end", e)] else []) ++ (if l ≠ "" then [("limit", l)] else [])
        ++ [("query", q)] ++ (if s ≠ "" then [("start", s)] else []) := by
  by_cases hs : s = "" <;> by_cases he : e = "" <;> by_cases hl : l = "" <;>
    simp [pairsOf, lokiQueryParams, setIfPresent, Values.Set, sortKeys, insertKey, ltChars, List.lookup,
      hs, he, hl]

theorem makeRequest_events (w : World) (client : Client) (config : Config) (method path : String)
    (params : Option Values) :
    (makeRequest w client config method path params).2 = [.call config method path params] ∨
    (w.newRequest method (reqURL config path params) = none ∧
      (makeRequest w client config method path params).2
        = [.call config method path params, .send (buildRequest config method path params)]) := by
  unfold makeRequest
  cases hn : w.newRequest method (reqURL config path params) with
  | some err => simp
  | none =>
    cases hr : w.roundTrip client (buildRequest config method path params) <;> simp

theorem toolResult_snd (w : World) (r : Except RequestError String × List Event) :
    (toolResult w r).2 = r.2 := by
  unfold toolResult
  cases r.1 <;> rfl

theorem call_mem_makeRequest {w : World} {client : Client} {config c : Config}
    {method path m p : String} {params ps : Option Values}
    (h : Event.call c m p ps ∈ (toolResult w (makeRequest w client config method path params)).2) :
    c = config ∧ m = method ∧ p = path ∧ ps = params := by
  rw [toolResult_snd] at h
  rcases makeRequest_events w client config method path params with e | ⟨_, e⟩ <;>
    rw [e] at h <;> simpa using h

theorem getString_none {request : Arguments} {name : String} (h : request.lookup name = none) :
    GetString request name "" = "" := by
  simp [GetString, h]

theorem getString_str {request : Arguments} {name val : String}
    (h : request.lookup name = some (.str val)) : GetString request name "" = val := by
  simp [GetString, h]

theorem filter_rangeParams (s e : String) :
    ((queryPairs (Values.Encode (rangeParams s e))).filter (fun p => p.1 = "start")
        = if s ≠ "" then [("start", QueryEscape s)] else []) ∧
    ((queryPairs (Values.Encode (rangeParams s e))).filter (fun p => p.1 = "end")
        = if e ≠ "" then [("end", QueryEscape e)] else []) := by
  rw [queryPairs_encode, pairsOf_rangeParams]
  by_cases hs : s = "" <;> by_cases he : e = "" <;> simp [hs, he, key_escape, List.filter]

theorem filter_prometheusQueryParams (q s e st : String) :
    ((queryPairs (Values.Encode (prometheusQueryParams q s e st))).filter (fun p => p.1 = "start")
        = if s ≠ "" then [("start", QueryEscape s)] else []) ∧
    ((queryPairs (Values.Encode (prometheusQueryParams q s e st))).filter (fun p => p.1 = "end")
        = if e ≠ "" then [("end", QueryEscape e)] else []) ∧
    ((queryPairs (Values.Encode (prometheusQueryParams q s e st))).filter (fun p => p.1 = "step")
        = if st ≠ "" then [("step", QueryEscape st)] else []) := by
  rw [queryPairs_encode, pairsOf_prometheusQueryParams]
  by_cases hs : s = "" <;> by_cases he : e = "" <;> by_cases hst : st = "" <;>
    simp [hs, he, hst, key_escape, List.filter]

theorem filter_lokiQueryParams (q s e l : String) :
    ((queryPairs (Values.Encode (lokiQueryParams q s e l))).filter (fun p => p.1 = "start")
        = if s ≠ "" then [("start", QueryEscape s)] else []) ∧
    ((queryPairs (Values.Encode (lokiQueryParams q s e l))).filter (fun p => p.1 = "end")
        = if e ≠ "" then [("end", QueryEscape e)] else []) ∧
    ((queryPairs (Values.Encode (lokiQueryParams q s e l))).filter (fun p => p.1 = "limit")
        = if l ≠ "" then [("limit", QueryEscape l)] else []) := by
  rw [queryPairs_encode, pairsOf_lokiQueryParams]
  by_cases hs : s = "" <;> by_cases he : e = "" <;> by_cases hl : l = "" <;>
    simp [hs, he, hl, key_escape, List.filter]

theorem send_mem_makeRequest {w : World} {client : Client} {config : Config}
    {method path : String} {params : Option Values} {req : Request}
    (h : Event.send req ∈ (makeRequest w client config method path params).2) :
    req = buildRequest config method path params := by
  rcases makeRequest_events w client config method path params with e | ⟨_, e⟩
  · rw [e] at h; simp at h
  · rw [e] at h; simpa using h

theorem handler_events (op : Operation) (w : World) (request : Arguments) :
    (handler op w request).2 = [] ∨
    ∃ path params, (handler op w request).2
      = (makeRequest w (newHTTPClient (getConfig w)) (getConfig w) "GET" path params).2 := by
  cases op <;> simp only [handler, prometheusQueryHandler, prometheusLabelsHandler,
    prometheusLabelValuesHandler, lokiQueryHandler, lokiLabelsHandler, lokiLabelValuesHandler,
    tempoQueryHandler, tempoTagsHandler, tempoTagValuesHandler]
  case prometheus_query =>
    cases RequireString request "query" with
    | error e => exact Or.inl rfl
    | ok q => exact Or.inr ⟨_, _, toolResult_snd _ _⟩
  case prometheus_label_values =>
    cases RequireString request "label" with
    | error e => exact Or.inl rfl
    | ok q => exact Or.inr ⟨_, _, toolResult_snd _ _⟩
  case loki_query =>
    cases RequireString request "query" with
    | error e => exact Or.inl rfl
    | ok q => exact Or.inr ⟨_, _, toolResult_snd _ _⟩
  case loki_label_values =>
    cases RequireString request "label" with
    | error e => exact Or.inl rfl
    | ok q => exact Or.inr ⟨_, _, toolResult_snd _ _⟩
  case tempo_query =>
    cases RequireString request "trace_id" with
    | error e => exact Or.inl rfl
    | ok q => exact Or.inr ⟨_, _, toolResult_snd _ _⟩
  case tempo_tag_values =>
    cases RequireString request "tag" with
    | error e => exact Or.inl rfl
    | ok q => exact Or.inr ⟨_, _, toolResult_snd _ _⟩
  all_goals exact Or.inr ⟨_, _, toolResult_snd _ _⟩

theorem buildRequest_auth (config : Config) (method path : String) (params : Option Values) :
    ((buildRequest config method path params).basicAuth = some (config.Username, config.Password)
        ↔ (config.Username ≠ "" ∧ config.Password ≠ "")) ∧
    ((buildRequest config method path params).basicAuth = none
        ↔ ¬ (config.Username ≠ "" ∧ config.Password ≠ "")) := by
  unfold buildRequest
  by_cases h : config.Username ≠ "" ∧ config.Password ≠ "" <;> simp [h]

/-- C2: a request that `makeRequest` hands to the client carries basic-auth credentials, and
then exactly the user name and password of the configuration, if and only if both are non-empty,
and carries none otherwise; the request is sent whenever the URL is accepted; the same holds for
every handler with the configuration of the environment; and the trace-tags handler with both
credentials set sends `GET https://<host>/api/search/tags` with the credentials. -/
theorem basic_auth_iff_both_credentials (w : World) (client : Client) (config : Config)
    (method path : String) (params : Option Values) :
    (∀ req, Event.send req ∈ (makeRequest w client config method path params).2 →
      (req.basicAuth = some (config.Username, config.Password)
        ↔ (config.Username ≠ "" ∧ config.Password ≠ "")) ∧
      (req.basicAuth = none ↔ ¬ (config.Username ≠ "" ∧ config.Password ≠ ""))) ∧
    (w.newRequest method (reqURL config path params) = none →
      Event.send (buildRequest config method path params)
        ∈ (makeRequest w client config method path params).2) ∧
    (∀ op request req, Event.send req ∈ (handler op w request).2 →
      (req.basicAuth = some ((getConfig w).Username, (getConfig w).Password)
        ↔ ((getConfig w).Username ≠ "" ∧ (getConfig w).Password ≠ "")) ∧
      (req.basicAuth = none
        ↔ ¬ ((getConfig w).Username ≠ "" ∧ (getConfig w).Password ≠ ""))) ∧
    (∀ request, (getConfig w).Username ≠ "" → (getConfig w).Password ≠ "" →
      w.newRequest "GET" ("https://" ++ (getConfig w).Host ++ "/api/search/tags") = none →
      (tempoTagsHandler w request).2 =
        [.call (getConfig w) "GET" "/api/search/tags" none,
         .send ⟨"GET", "https://" ++ (getConfig w).Host ++ "/api/search/tags",
           some ((getConfig w).Username, (getConfig w).Password)⟩]) := by
  refine ⟨?_, ?_, ?_, ?_⟩
  · intro req h
    rw [send_mem_makeRequest h]
    exact buildRequest_auth config method path params
  · intro h
    unfold makeRequest
    rw [h]
    cases w.roundTrip client (buildRequest config method path params) <;> simp
  · intro op request req h
    rcases handler_events op w request with e | ⟨path, params, e⟩
    · rw [e] at h; simp at h
    · rw [e] at h
      rw [send_mem_makeRequest h]
      exact buildRequest_auth _ _ _ _
  · intro request hu hp hnew
    have hurl : reqURL (getConfig w) "/api/search/tags" none
        = "https://" ++ (getConfig w).Host ++ "/api/search/tags" := by
      simp [reqURL, baseURL, hu, hp]
    simp only [tempoTagsHandler, toolResult_snd]
    unfold makeRequest
    rw [hurl, hnew]
    cases w.roundTrip (newHTTPClient (getConfig w))
      (buildRequest (getConfig w) "GET" "/api/search/tags" none) <;>
      simp [buildRequest, hurl, hu, hp]

/-- C3: when the argument a handler requires is absent from the arguments, the handler returns
the error result `required argument "<name>" not found` and the run has no event: `makeRequest`
is not called and no request is sent, whatever the world and the other arguments are. -/
theorem missing_required_argument (op : Operation) (key : String)
    (hkey : requiredArg op = some key) (w : World) (request : Arguments)
    (hmissing : request.lookup key = none) :
    handler op w request
      = (NewToolResultError ("required argument \"" ++ key ++ "\" not found"), []) := by
  cases op <;> simp only [requiredArg, Option.some.injEq, reduceCtorEq] at hkey <;> subst hkey <;>
    simp [handler, prometheusQueryHandler, prometheusLabelValuesHandler, lokiQueryHandler,
      lokiLabelValuesHandler, tempoQueryHandler, tempoTagValuesHandler, RequireString, hmissing]

/-- C4: when the upstream answers with a status other than 200, `makeRequest` returns the error
`request failed with status <code>` and no bytes, and the outcome is the same for every body
that comes with that status. -/
theorem non_200_status (w : World) (client : Client) (config : Config) (method path : String)
    (params : Option Values) (resp : Response)
    (hnew : w.newRequest method (reqURL config path params) = none)
    (hdo : w.roundTrip client (buildRequest config method path params) = .ok resp)
    (hcode : resp.StatusCode ≠ 200) :
    (makeRequest w client config method path params).1 = .error (.status resp.StatusCode) ∧
    (RequestError.status resp.StatusCode).Error w.describe
      = "request failed with status " ++ toString resp.StatusCode ∧
    (∀ body : String, readResponse ⟨resp.StatusCode, body⟩ = readResponse resp) := by
  refine ⟨?_, rfl, ?_⟩
  · unfold makeRequest
    rw [hnew, hdo]
    simp [readResponse, hcode]
  · intro body
    simp [readResponse, hcode]

theorem encode_scenario :
    Values.Encode (prometheusQueryParams "up" "0" "100" "15s")
      = "end=100&query=up&start=0&step=15s" := by decide

theorem events_of_makeRequest_accept {w : World} {client : Client} {config : Config}
    {method path : String} {params : Option Values}
    (h : w.newRequest method (reqURL config path params) = none) :
    (makeRequest w client config method path params).2
      = [.call config method path params, .send (buildRequest config method path params)] := by
  unfold makeRequest
  rw [h]
  cases w.roundTrip client (buildRequest config method path params) <;> rfl

theorem head_makeRequest (w : World) (client : Client) (config : Config)
    (method path : String) (params : Option Values) :
    (makeRequest w client config method path params).2.head?
      = some (.call config method path params) := by
  rcases makeRequest_events w client config method path params with e | ⟨_, e⟩ <;> rw [e] <;> rfl

theorem scenario_url (host : String) :
    "http://" ++ host ++ "/api/v1/query_range" ++ "?" ++ "end=100&query=up&start=0&step=15s"
      = "http://" ++ host ++ "/api/v1/query_range?end=100&query=up&start=0&step=15s" := by
  rw [String.append_assoc, String.append_assoc]
  rfl

/-- C7, amended: the query string lists the parameters in ascending order of their keys, as
`Values.Encode` sorts them; the metrics query handler with `query=up`, `start=0`, `end=100`,
`step=15s` and empty credentials passes these four parameters to `makeRequest` and sends
`GET http://<host>/api/v1/query_range?end=100&query=up&start=0&step=15s` without credentials. -/
theorem metrics_query_scenario (w : World) (request : Arguments)
    (hquery : request.lookup "query" = some (.str "up"))
    (hstart : request.lookup "start" = some (.str "0"))
    (hend : request.lookup "end" = some (.str "100"))
    (hstep : request.lookup "step" = some (.str "15s"))
    (huser : w.getenv "GIGAPIPE_USERNAME" = "")
    (_hpass : w.getenv "GIGAPIPE_PASSWORD" = "") :
    (∀ v : Values, queryPairs (Values.Encode v)
      = (sortKeys (v.map Prod.fst)).flatMap fun k =>
          ((v.lookup k).getD []).map fun val => (QueryEscape k, QueryEscape val)) ∧
    (prometheusQueryHandler w request).2.head?
      = some (.call (getConfig w) "GET" "/api/v1/query_range"
          (some [("query", ["up"]), ("start", ["0"]), ("end", ["100"]), ("step", ["15s"])])) ∧
    (∀ req, Event.send req ∈ (prometheusQueryHandler w request).2 →
      req = ⟨"GET", "http://" ++ (getConfig w).Host
        ++ "/api/v1/query_range?end=100&query=up&start=0&step=15s", none⟩) ∧
    (w.newRequest "GET" ("http://" ++ (getConfig w).Host
        ++ "/api/v1/query_range?end=100&query=up&start=0&step=15s") = none →
      Event.send ⟨"GET", "http://" ++ (getConfig w).Host
        ++ "/api/v1/query_range?end=100&query=up&start=0&step=15s", none⟩
        ∈ (prometheusQueryHandler w request).2) := by
  have hparams : prometheusQueryParams "up" "0" "100" "15s"
      = [("query", ["up"]), ("start", ["0"]), ("end", ["100"]), ("step", ["15s"])] := by decide
  have hcfg : ¬ ((getConfig w).Username ≠ "" ∧ (getConfig w).Password ≠ "") := by
    simp [getConfig, huser]
  have hurl : reqURL (getConfig w) "/api/v1/query_range"
      (some (prometheusQueryParams "up" "0" "100" "15s"))
      = "http://" ++ (getConfig w).Host
        ++ "/api/v1/query_range?end=100&query=up&start=0&step=15s" := by
    simp only [reqURL, baseURL, if_neg hcfg, encode_scenario]
    exact scenario_url _
  have hreq : buildRequest (getConfig w) "GET" "/api/v1/query_range"
      (some (prometheusQueryParams "up" "0" "100" "15s"))
      = ⟨"GET", "http://" ++ (getConfig w).Host
        ++ "/api/v1/query_range?end=100&query=up&start=0&step=15s", none⟩ := by
    simp only [buildRequest, hurl, if_neg hcfg]
  have htrace : (prometheusQueryHandler w request).2
      = (makeRequest w (newHTTPClient (getConfig w)) (getConfig w) "GET" "/api/v1/query_range"
          (some (prometheusQueryParams "up" "0" "100" "15s"))).2 := by
    simp only [prometheusQueryHandler, RequireString, hquery, GetString, hstart, hend, hstep,
      toolResult_snd]
  refine ⟨?_, ?_, ?_, ?_⟩
  · intro v
    rw [queryPairs_encode, pairsOf, List.map_flatMap]
    simp only [List.map_map]
    rfl
  · rw [htrace, head_makeRequest, hparams]
  · intro req h
    rw [htrace] at h
    rw [send_mem_makeRequest h, hreq]
  · intro hnew
    rw [htrace, events_of_makeRequest_accept (by rw [hurl]; exact hnew), hreq]
    simp

theorem no_label_key (s e name : String) (h1 : name ≠ "start") (h2 : name ≠ "end") :
    (queryPairs (Values.Encode (rangeParams s e))).filter (fun p => p.1 = name) = [] := by
  rw [queryPairs_encode, pairsOf_rangeParams]
  by_cases hs : s = "" <;> by_cases he : e = "" <;>
    simp [hs, he, key_escape, List.filter, Ne.symm h1, Ne.symm h2]

theorem calls_of_makeRequest {w : World} {client : Client} {config c : Config}
    {method path m p : String} {params ps : Option Values}
    (h : Event.call c m p ps ∈ (makeRequest w client config method path params).2) :
    c = config ∧ m = method ∧ p = path ∧ ps = params := by
  rcases makeRequest_events w client config method path params with e | ⟨_, e⟩ <;>
    rw [e] at h <;> simpa using h

/-- C9: the path a handler passes to `makeRequest` is its template with the value of the path
argument put in unchanged, for the label values of metrics and logs, the trace lookup and the
trace tag values; and the parameters passed along hold no key named after the path argument. -/
theorem path_parameter_verbatim (w : World) (request : Arguments) (v : String) :
    (request.lookup "label" = some (.str v) →
      (∃ params : Values,
        (prometheusLabelValuesHandler w request).2.head?
          = some (.call (getConfig w) "GET" ("/api/v1/label/" ++ v ++ "/values") (some params)) ∧
        params.lookup "label" = none ∧
        (queryPairs (Values.Encode params)).filter (fun p => p.1 = "label") = []) ∧
      (∀ c m p ps, Event.call c m p ps ∈ (prometheusLabelValuesHandler w request).2 →
        p = "/api/v1/label/" ++ v ++ "/values")) ∧
    (request.lookup "label" = some (.str v) →
      (∃ params : Values,
        (lokiLabelValuesHandler w request).2.head?
          = some (.call (getConfig w) "GET" ("/loki/api/v1/label/" ++ v ++ "/values")
              (some params)) ∧
        params.lookup "label" = none ∧
        (queryPairs (Values.Encode params)).filter (fun p => p.1 = "label") = []) ∧
      (∀ c m p ps, Event.call c m p ps ∈ (lokiLabelValuesHandler w request).2 →
        p = "/loki/api/v1/label/" ++ v ++ "/values")) ∧
    (request.lookup "trace_id" = some (.str v) →
      (tempoQueryHandler w request).2.head?
        = some (.call (getConfig w) "GET" ("/api/traces/" ++ v ++ "/json") none) ∧
      (∀ c m p ps, Event.call c m p ps ∈ (tempoQueryHandler w request).2 →
        p = "/api/traces/" ++ v ++ "/json")) ∧
    (request.lookup "tag" = some (.str v) →
      (tempoTagValuesHandler w request).2.head?
        = some (.call (getConfig w) "GET" ("/api/search/tag/" ++ v ++ "/values") none) ∧
      (∀ c m p ps, Event.call c m p ps ∈ (tempoTagValuesHandler w request).2 →
        p = "/api/search/tag/" ++ v ++ "/values")) := by
  have hrange : ∀ s e : String, List.lookup "label" (rangeParams s e) = none := by
    intro s e
    by_cases hs : s = "" <;> by_cases he : e = "" <;>
      simp [rangeParams, setIfPresent, Values.Set, hs, he, List.lookup]
  refine ⟨?_, ?_, ?_, ?_⟩
  · intro h
    simp only [prometheusLabelValuesHandler, RequireString, h, toolResult_snd]
    exact ⟨⟨_, head_makeRequest _ _ _ _ _ _, hrange _ _,
      no_label_key _ _ _ (by decide) (by decide)⟩,
      fun c m p ps hc => (calls_of_makeRequest hc).2.2.1⟩
  · intro h
    simp only [lokiLabelValuesHandler, RequireString, h, toolResult_snd]
    exact ⟨⟨_, head_makeRequest _ _ _ _ _ _, hrange _ _,
      no_label_key _ _ _ (by decide) (by decide)⟩,
      fun c m p ps hc => (calls_of_makeRequest hc).2.2.1⟩
  · intro h
    simp only [tempoQueryHandler, RequireString, h, toolResult_snd]
    exact ⟨head_makeRequest _ _ _ _ _ _, fun c m p ps hc => (calls_of_makeRequest hc).2.2.1⟩
  · intro h
    simp only [tempoTagValuesHandler, RequireString, h, toolResult_snd]
    exact ⟨head_makeRequest _ _ _ _ _ _, fun c m p ps hc => (calls_of_makeRequest hc).2.2.1⟩

theorem encode_rangeParams_empty : Values.Encode (rangeParams "" "") = "" := by decide

theorem question_mem_baseURL (config : Config) :
    '?' ∈ (baseURL config).data ↔ '?' ∈ config.Host.data := by
  unfold baseURL
  split <;> simp [String.data_append]

/-! ## The query string of the URL, and the nil map -/

theorem upperhex_alnum (n : Nat) (hn : n < 16) :
    (48 ≤ (upperhex n).toNat ∧ (upperhex n).toNat ≤ 57) ∨
    (65 ≤ (upperhex n).toNat ∧ (upperhex n).toNat ≤ 70) := by
  interval_cases n <;> decide

theorem escapeByte_no_hash (b : Nat) (c : Char) (hc : c ∈ escapeByte b) : c ≠ '#' := by
  unfold escapeByte at hc
  split at hc
  · split at hc
    · simp at hc; subst hc; decide
    · simp at hc
      unfold upperhex at hc
      rcases hc with rfl | rfl | rfl
      · decide
      · split <;> intro h <;> have := ofNat_eq_char _ _ (by decide) h <;> simp at this <;> omega
      · split <;> intro h <;> have := ofNat_eq_char _ _ (by decide) h <;> simp at this <;> omega
  · rename_i hs
    simp at hc
    subst hc
    intro h
    have := ofNat_eq_char _ _ (by decide) h
    simp at this; subst this; exact hs (by decide)

theorem queryEscape_no_hash (s : List Char) : '#' ∉ queryEscapeChars s := by
  intro hc
  unfold queryEscapeChars at hc
  simp only [List.mem_flatMap] at hc
  obtain ⟨b, _, hb⟩ := hc
  exact escapeByte_no_hash b _ hb rfl

theorem mem_joinSegs (c : Char) (hc : c ≠ '&') :
    ∀ l : List (List Char), c ∈ joinSegs l → ∃ a ∈ l, c ∈ a
  | [], h => by simp [joinSegs] at h
  | [a], h => ⟨a, by simp, by simpa [joinSegs] using h⟩
  | a :: b :: rest, h => by
    simp only [joinSegs, List.mem_append, List.mem_cons] at h
    rcases h with h | h | h
    · exact ⟨a, by simp, h⟩
    · exact absurd h hc
    · obtain ⟨x, hx, hcx⟩ := mem_joinSegs c hc (b :: rest) h
      exact ⟨x, List.mem_cons_of_mem _ hx, hcx⟩

theorem hash_not_mem_encode (v : Values) : '#' ∉ (Values.Encode v).data := by
  rw [encode_data]
  intro h
  obtain ⟨a, ha, hca⟩ := mem_joinSegs '#' (by decide) _ h
  obtain ⟨p, _, rfl⟩ := List.mem_map.mp ha
  simp only [segChars, List.mem_append, List.mem_cons] at hca
  rcases hca with h | h | h
  · exact queryEscape_no_hash _ h
  · exact absurd h (by decide)
  · exact queryEscape_no_hash _ h

theorem cutAt_free (sep : Char) (a : List Char) (h : sep ∉ a) : cutAt sep a = (a, []) := by
  induction a with
  | nil => rfl
  | cons c cs ih =>
    simp only [List.mem_cons, not_or] at h
    have hc : ¬ c = sep := fun e => h.1 e.symm
    simp [cutAt, hc, ih h.2]

theorem hash_mem_baseURL (config : Config) :
    '#' ∈ (baseURL config).data ↔ '#' ∈ config.Host.data := by
  unfold baseURL
  split <;> simp [String.data_append]

/-- The query string of a URL built with a parameter map is the encoded map, when neither the
host nor the path holds a `?` or a `#`. -/
theorem urlQuery_reqURL (config : Config) (path : String) (v : Values)
    (h1 : '?' ∉ config.Host.data) (h2 : '#' ∉ config.Host.data)
    (h3 : '?' ∉ path.data) (h4 : '#' ∉ path.data) :
    urlQuery (baseURL config ++ path ++ "?" ++ Values.Encode v) = Values.Encode v := by
  have hd : (baseURL config ++ path ++ "?" ++ Values.Encode v).data
      = ((baseURL config).data ++ path.data) ++ '?' :: (Values.Encode v).data := by
    simp [String.data_append]
  unfold urlQuery
  rw [hd, cutAt_free '#' _ (by
    simp only [List.mem_append, List.mem_cons, not_or]
    exact ⟨⟨fun h => h2 ((hash_mem_baseURL config).mp h), h4⟩, by decide,
      hash_not_mem_encode v⟩)]
  rw [cutAt_append '?' _ _ (by
    simp only [List.mem_append, not_or]
    exact ⟨fun h => h1 ((question_mem_baseURL config).mp h), h3⟩)]

/-- A handler that has its required argument calls `makeRequest` with the path and the
parameters of its operation. -/
theorem handler_eq (op : Operation) (w : World) (request : Arguments)
    (hreq : ∀ key, requiredArg op = some key → ∃ s, request.lookup key = some (.str s)) :
    handler op w request
      = toolResult w (makeRequest w (newHTTPClient (getConfig w)) (getConfig w) "GET"
          (requestPath op request) (requestParams op request)) := by
  cases op
  case prometheus_query =>
    obtain ⟨s, hs⟩ := hreq "query" rfl
    simp only [handler, prometheusQueryHandler, RequireString, hs, requestPath, requestParams,
      getString_str hs]
  case prometheus_labels => rfl
  case prometheus_label_values =>
    obtain ⟨s, hs⟩ := hreq "label" rfl
    simp only [handler, prometheusLabelValuesHandler, RequireString, hs, requestPath,
      requestParams, getString_str hs]
  case loki_query =>
    obtain ⟨s, hs⟩ := hreq "query" rfl
    simp only [handler, lokiQueryHandler, RequireString, hs, requestPath, requestParams,
      getString_str hs]
  case loki_labels => rfl
  case loki_label_values =>
    obtain ⟨s, hs⟩ := hreq "label" rfl
    simp only [handler, lokiLabelValuesHandler, RequireString, hs, requestPath,
      requestParams, getString_str hs]
  case tempo_query =>
    obtain ⟨s, hs⟩ := hreq "trace_id" rfl
    simp only [handler, tempoQueryHandler, RequireString, hs, requestPath, requestParams,
      getString_str hs]
  case tempo_tags => rfl
  case tempo_tag_values =>
    obtain ⟨s, hs⟩ := hreq "tag" rfl
    simp only [handler, tempoTagValuesHandler, RequireString, hs, requestPath, requestParams,
      getString_str hs]

/-- The events of a handler that has its required argument: the call, and the request if
`http.NewRequestWithContext` accepts the URL. -/
theorem handler_trace (op : Operation) (w : World) (request : Arguments)
    (hreq : ∀ key, requiredArg op = some key → ∃ s, request.lookup key = some (.str s)) :
    (handler op w request).2.head?
      = some (.call (getConfig w) "GET" (requestPath op request) (requestParams op request)) ∧
    (∀ req, Event.send req ∈ (handler op w request).2 →
      req = buildRequest (getConfig w) "GET" (requestPath op request)
        (requestParams op request)) ∧
    (w.newRequest "GET" (reqURL (getConfig w) (requestPath op request)
        (requestParams op request)) = none →
      (handler op w request).2
        = [.call (getConfig w) "GET" (requestPath op request) (requestParams op request),
           .send (buildRequest (getConfig w) "GET" (requestPath op request)
            (requestParams op request))]) := by
  rw [handler_eq op w request hreq, toolResult_snd]
  exact ⟨head_makeRequest _ _ _ _ _ _, fun req h => send_mem_makeRequest h,
    fun h => events_of_makeRequest_accept h⟩

theorem rangeParams_empty : rangeParams "" "" = [] := by decide

/-- C8, amended: a handler that has its required argument calls `makeRequest` with a parameter
map whose encoding is appended to scheme, host and path after a `?`, and that is the URL of the
request handed to the client.  The encoding holds no key named after an optional argument that
is absent, and exactly one, with the escaped value, when the argument is a non-empty string.  It
is the query string of the URL, which then has the same property, when neither the host nor the
path holds a `?` or a `#`; the path argument goes into the path unescaped. -/
theorem optional_argument_in_query (op : Operation) (name : String)
    (hname : name ∈ optionalArgs op) (w : World) (request : Arguments)
    (hreq : ∀ key, requiredArg op = some key → ∃ s, request.lookup key = some (.str s)) :
    ∃ v : Values,
      (handler op w request).2.head?
        = some (.call (getConfig w) "GET" (requestPath op request) (some v)) ∧
      (∀ req, Event.send req ∈ (handler op w request).2 →
        req.url = baseURL (getConfig w) ++ requestPath op request ++ "?" ++ Values.Encode v) ∧
      (w.newRequest "GET"
          (baseURL (getConfig w) ++ requestPath op request ++ "?" ++ Values.Encode v) = none →
        ∃ req, (handler op w request).2
            = [.call (getConfig w) "GET" (requestPath op request) (some v), .send req] ∧
          req.method = "GET" ∧
          req.url = baseURL (getConfig w) ++ requestPath op request ++ "?" ++ Values.Encode v) ∧
      (request.lookup name = none →
        (queryPairs (Values.Encode v)).filter (fun p => p.1 = name) = []) ∧
      (∀ val : String, request.lookup name = some (.str val) → val ≠ "" →
        (queryPairs (Values.Encode v)).filter (fun p => p.1 = name)
          = [(name, QueryEscape val)]) ∧
      ('?' ∉ (getConfig w).Host.data → '#' ∉ (getConfig w).Host.data →
        '?' ∉ (requestPath op request).data → '#' ∉ (requestPath op request).data →
        urlQuery (baseURL (getConfig w) ++ requestPath op request ++ "?" ++ Values.Encode v)
          = Values.Encode v ∧
        (request.lookup name = none →
          (queryPairs (urlQuery (baseURL (getConfig w) ++ requestPath op request ++ "?"
            ++ Values.Encode v))).filter (fun p => p.1 = name) = []) ∧
        (∀ val : String, request.lookup name = some (.str val) → val ≠ "" →
          (queryPairs (urlQuery (baseURL (getConfig w) ++ requestPath op request ++ "?"
            ++ Values.Encode v))).filter (fun p => p.1 = name) = [(name, QueryEscape val)])) := by
  suffices hmain : ∃ v : Values,
      (handler op w request).2.head?
        = some (.call (getConfig w) "GET" (requestPath op request) (some v)) ∧
      (∀ req, Event.send req ∈ (handler op w request).2 →
        req.url = baseURL (getConfig w) ++ requestPath op request ++ "?" ++ Values.Encode v) ∧
      (w.newRequest "GET"
          (baseURL (getConfig w) ++ requestPath op request ++ "?" ++ Values.Encode v) = none →
        ∃ req, (handler op w request).2
            = [.call (getConfig w) "GET" (requestPath op request) (some v), .send req] ∧
          req.method = "GET" ∧
          req.url = baseURL (getConfig w) ++ requestPath op request ++ "?" ++ Values.Encode v) ∧
      (request.lookup name = none →
        (queryPairs (Values.Encode v)).filter (fun p => p.1 = name) = []) ∧
      (∀ val : String, request.lookup name = some (.str val) → val ≠ "" →
        (queryPairs (Values.Encode v)).filter (fun p => p.1 = name)
          = [(name, QueryEscape val)]) ∧
      ('?' ∉ (getConfig w).Host.data → '#' ∉ (getConfig w).Host.data →
        '?' ∉ (requestPath op request).data → '#' ∉ (requestPath op request).data →
        urlQuery (baseURL (getConfig w) ++ requestPath op request ++ "?" ++ Values.Encode v)
          = Values.Encode v) by
    obtain ⟨v, m1, m2, m3, m4, m5, m6⟩ := hmain
    refine ⟨v, m1, m2, m3, m4, m5, ?_⟩
    intro c1 c2 c3 c4
    have hq := m6 c1 c2 c3 c4
    refine ⟨hq, ?_, ?_⟩
    · intro hn
      rw [hq]
      exact m4 hn
    · intro val hv hne
      rw [hq]
      exact m5 val hv hne
  obtain ⟨t1, t2, t3⟩ := handler_trace op w request hreq
  have main : ∀ v : Values, requestParams op request = some v →
      (handler op w request).2.head?
        = some (.call (getConfig w) "GET" (requestPath op request) (some v)) ∧
      (∀ req, Event.send req ∈ (handler op w request).2 →
        req.url = baseURL (getConfig w) ++ requestPath op request ++ "?" ++ Values.Encode v) ∧
      (w.newRequest "GET"
          (baseURL (getConfig w) ++ requestPath op request ++ "?" ++ Values.Encode v) = none →
        ∃ req, (handler op w request).2
            = [.call (getConfig w) "GET" (requestPath op request) (some v), .send req] ∧
          req.method = "GET" ∧
          req.url = baseURL (getConfig w) ++ requestPath op request ++ "?" ++ Values.Encode v) ∧
      ('?' ∉ (getConfig w).Host.data → '#' ∉ (getConfig w).Host.data →
        '?' ∉ (requestPath op request).data → '#' ∉ (requestPath op request).data →
        urlQuery (baseURL (getConfig w) ++ requestPath op request ++ "?" ++ Values.Encode v)
          = Values.Encode v) := by
    intro v hv
    rw [hv] at t1 t2 t3
    refine ⟨t1, ?_, ?_, urlQuery_reqURL _ _ _⟩
    · intro req h
      rw [t2 req h]
      rfl
    · intro h
      exact ⟨_, t3 h, rfl, rfl⟩
  cases op <;> simp only [optionalArgs, List.mem_cons, List.mem_singleton, List.not_mem_nil,
    or_false] at hname
  case prometheus_query =>
    obtain ⟨m1, m2, m3, m4⟩ := main _ rfl
    refine ⟨_, m1, m2, m3, ?_, ?_, m4⟩
    · intro hn
      rcases hname with rfl | rfl | rfl <;>
        simp [getString_none hn, filter_prometheusQueryParams]
    · intro val hv hne
      rcases hname with rfl | rfl | rfl <;>
        simp [getString_str hv, filter_prometheusQueryParams, hne]
  case loki_query =>
    obtain ⟨m1, m2, m3, m4⟩ := main _ rfl
    refine ⟨_, m1, m2, m3, ?_, ?_, m4⟩
    · intro hn
      rcases hname with rfl | rfl | rfl <;>
        simp [getString_none hn, filter_lokiQueryParams]
    · intro val hv hne
      rcases hname with rfl | rfl | rfl <;>
        simp [getString_str hv, filter_lokiQueryParams, hne]
  case prometheus_labels =>
    obtain ⟨m1, m2, m3, m4⟩ := main _ rfl
    refine ⟨_, m1, m2, m3, ?_, ?_, m4⟩
    · intro hn
      rcases hname with rfl | rfl <;> simp [getString_none hn, filter_rangeParams]
    · intro val hv hne
      rcases hname with rfl | rfl <;> simp [getString_str hv, filter_rangeParams, hne]
  case loki_labels =>
    obtain ⟨m1, m2, m3, m4⟩ := main _ rfl
    refine ⟨_, m1, m2, m3, ?_, ?_, m4⟩
    · intro hn
      rcases hname with rfl | rfl <;> simp [getString_none hn, filter_rangeParams]
    · intro val hv hne
      rcases hname with rfl | rfl <;> simp [getString_str hv, filter_rangeParams, hne]
  case prometheus_label_values =>
    obtain ⟨m1, m2, m3, m4⟩ := main _ rfl
    refine ⟨_, m1, m2, m3, ?_, ?_, m4⟩
    · intro hn
      rcases hname with rfl | rfl <;> simp [getString_none hn, filter_rangeParams]
    · intro val hv hne
      rcases hname with rfl | rfl <;> simp [getString_str hv, filter_rangeParams, hne]
  case loki_label_values =>
    obtain ⟨m1, m2, m3, m4⟩ := main _ rfl
    refine ⟨_, m1, m2, m3, ?_, ?_, m4⟩
    · intro hn
      rcases hname with rfl | rfl <;> simp [getString_none hn, filter_rangeParams]
    · intro val hv hne
      rcases hname with rfl | rfl <;> simp [getString_str hv, filter_rangeParams, hne]

/-- C10, amended: a handler of labels or label values that has its required argument and
neither `start` nor `end` calls `makeRequest` with the empty map, and the URL of the request
handed to the client is scheme, host and path followed by a bare `?`.  A trace handler that has
its required argument calls it with the nil map, and the URL is scheme, host and path with
nothing after it, so that it holds a `?` exactly when the host or the path does; the trace id
and the tag go into the path unescaped.  The trace lookup declares `start` and `end` and reads
neither: its run is decided by `trace_id` alone. -/
theorem empty_map_and_nil_map (w : World) (request : Arguments) (op : Operation)
    (hreq : ∀ key, requiredArg op = some key → ∃ s, request.lookup key = some (.str s)) :
    (op ∈ [Operation.prometheus_labels, .prometheus_label_values, .loki_labels,
        .loki_label_values] →
      request.lookup "start" = none → request.lookup "end" = none →
      (handler op w request).2.head?
        = some (.call (getConfig w) "GET" (requestPath op request) (some [])) ∧
      (∀ req, Event.send req ∈ (handler op w request).2 →
        req.url = baseURL (getConfig w) ++ requestPath op request ++ "?") ∧
      (w.newRequest "GET" (baseURL (getConfig w) ++ requestPath op request ++ "?") = none →
        ∃ req, (handler op w request).2
            = [.call (getConfig w) "GET" (requestPath op request) (some []), .send req] ∧
          req.method = "GET" ∧
          req.url = baseURL (getConfig w) ++ requestPath op request ++ "?")) ∧
    (op ∈ [Operation.tempo_query, .tempo_tags, .tempo_tag_values] →
      (handler op w request).2.head?
        = some (.call (getConfig w) "GET" (requestPath op request) none) ∧
      (∀ req, Event.send req ∈ (handler op w request).2 →
        req.url = baseURL (getConfig w) ++ requestPath op request) ∧
      (w.newRequest "GET" (baseURL (getConfig w) ++ requestPath op request) = none →
        ∃ req, (handler op w request).2
            = [.call (getConfig w) "GET" (requestPath op request) none, .send req] ∧
          req.method = "GET" ∧
          req.url = baseURL (getConfig w) ++ requestPath op request) ∧
      ('?' ∈ (baseURL (getConfig w) ++ requestPath op request).data ↔
        ('?' ∈ (getConfig w).Host.data ∨ '?' ∈ (requestPath op request).data))) ∧
    (op = .tempo_query →
      "start" ∈ declaredArgs op ∧ "end" ∈ declaredArgs op ∧
      ∀ other : Arguments, other.lookup "trace_id" = request.lookup "trace_id" →
        handler op w other = handler op w request) := by
  obtain ⟨t1, t2, t3⟩ := handler_trace op w request hreq
  refine ⟨?_, ?_, ?_⟩
  · intro hop hs he
    have hp : requestParams op request = some [] := by
      simp only [List.mem_cons, List.mem_singleton, List.not_mem_nil, or_false] at hop
      rcases hop with rfl | rfl | rfl | rfl <;>
        simp only [requestParams, getString_none hs, getString_none he, rangeParams_empty]
    have hu : reqURL (getConfig w) (requestPath op request) (some [])
        = baseURL (getConfig w) ++ requestPath op request ++ "?" := by
      have := encode_rangeParams_empty
      rw [rangeParams_empty] at this
      simp only [reqURL, this]
      exact String.append_empty _
    rw [hp] at t1 t2 t3
    refine ⟨t1, ?_, ?_⟩
    · intro req h
      rw [t2 req h]
      exact hu
    · intro h
      exact ⟨_, t3 (by rw [hu]; exact h), rfl, hu⟩
  · intro hop
    have hp : requestParams op request = none := by
      simp only [List.mem_cons, List.mem_singleton, List.not_mem_nil, or_false] at hop
      rcases hop with rfl | rfl | rfl <;> rfl
    rw [hp] at t1 t2 t3
    refine ⟨t1, ?_, ?_, ?_⟩
    · intro req h
      rw [t2 req h]
      rfl
    · intro h
      exact ⟨_, t3 h, rfl, rfl⟩
    · simp only [String.data_append, List.mem_append]
      rw [question_mem_baseURL]
  · intro hop
    subst hop
    refine ⟨by decide, by decide, ?_⟩
    intro other h
    simp only [handler, tempoQueryHandler, RequireString, h]

/-! ## Instances -/

/-- The trace-tags request of a world with both credentials. -/
theorem basic_auth_witness :
    (tempoTagsHandler (exampleWorld credentialsEnv ⟨200, "{}"⟩) []).2 =
      [.call ⟨"gigapipe.example:443", "user", "secret"⟩ "GET" "/api/search/tags" none,
       .send ⟨"GET", "https://gigapipe.example:443/api/search/tags", some ("user", "secret")⟩] :=
  (basic_auth_iff_both_credentials (exampleWorld credentialsEnv ⟨200, "{}"⟩) ⟨30⟩
    ⟨"gigapipe.example:443", "user", "secret"⟩ "GET" "/api/search/tags" none).2.2.2
    [] (by decide) (by decide) rfl

/-- A trace lookup without `trace_id`. -/
theorem missing_required_argument_witness :
    requiredArg .tempo_query = some "trace_id" ∧
    List.lookup "trace_id" ([("start", Arg.str "0")] : Arguments) = none ∧
    handler .tempo_query (exampleWorld emptyEnv ⟨200, "{}"⟩) [("start", Arg.str "0")]
      = (NewToolResultError "required argument \"trace_id\" not found", []) :=
  ⟨rfl, by decide,
    missing_required_argument .tempo_query "trace_id" rfl (exampleWorld emptyEnv ⟨200, "{}"⟩)
      [("start", Arg.str "0")] (by decide)⟩

/-- A response with status 204. -/
theorem non_200_status_witness :
    (makeRequest (exampleWorld emptyEnv ⟨204, "\x7b\"status\":\"success\"\x7d"⟩) ⟨30⟩
      ⟨"localhost:3100", "", ""⟩ "GET" "/api/search/tags" none).1 = .error (.status 204) ∧
    (RequestError.status 204).Error (fun _ => "") = "request failed with status 204" ∧
    (∀ body : String,
      readResponse ⟨204, body⟩ = readResponse ⟨204, "\x7b\"status\":\"success\"\x7d"⟩) :=
  non_200_status (exampleWorld emptyEnv ⟨204, "\x7b\"status\":\"success\"\x7d"⟩) ⟨30⟩
    ⟨"localhost:3100", "", ""⟩ "GET" "/api/search/tags" none
    ⟨204, "\x7b\"status\":\"success\"\x7d"⟩ rfl rfl (by decide)

/-- C7 as stated fails: the URL of the scenario has its keys in sorted order, not in the order
in which the handler sets them. -/
theorem metrics_query_counterexample :
    (prometheusQueryHandler (exampleWorld emptyEnv ⟨200, "{}"⟩)
      [("query", .str "up"), ("start", .str "0"), ("end", .str "100"), ("step", .str "15s")]).2
      = [.call ⟨"localhost:3100", "", ""⟩ "GET" "/api/v1/query_range"
          (some [("query", ["up"]), ("start", ["0"]), ("end", ["100"]), ("step", ["15s"])]),
         .send ⟨"GET",
          "http://localhost:3100/api/v1/query_range?end=100&query=up&start=0&step=15s", none⟩] ∧
    "http://localhost:3100/api/v1/query_range?end=100&query=up&start=0&step=15s"
      ≠ "http://localhost:3100/api/v1/query_range?query=up&start=0&end=100&step=15s" := by
  decide

/-- The scenario of the metrics query in a world without credentials. -/
theorem metrics_query_scenario_witness :
    Event.send ⟨"GET",
      "http://localhost:3100/api/v1/query_range?end=100&query=up&start=0&step=15s", none⟩
      ∈ (prometheusQueryHandler (exampleWorld emptyEnv ⟨200, "{}"⟩)
        [("query", .str "up"), ("start", .str "0"), ("end", .str "100"),
          ("step", .str "15s")]).2 :=
  (metrics_query_scenario (exampleWorld emptyEnv ⟨200, "{}"⟩)
    [("query", .str "up"), ("start", .str "0"), ("end", .str "100"), ("step", .str "15s")]
    (by decide) (by decide) (by decide) (by decide) rfl rfl).2.2.2 rfl

/-- The paths for `trace_id = abc123` and `label = job`. -/
theorem path_parameter_witness :
    (tempoQueryHandler (exampleWorld emptyEnv ⟨200, "{}"⟩) [("trace_id", .str "abc123")]).2.head?
      = some (.call ⟨"localhost:3100", "", ""⟩ "GET" "/api/traces/abc123/json" none) ∧
    (∃ params : Values,
      (prometheusLabelValuesHandler (exampleWorld emptyEnv ⟨200, "{}"⟩)
          [("label", .str "job")]).2.head?
        = some (.call ⟨"localhost:3100", "", ""⟩ "GET" "/api/v1/label/job/values"
            (some params)) ∧
      params.lookup "label" = none ∧
      (queryPairs (Values.Encode params)).filter (fun p => p.1 = "label") = []) :=
  ⟨((path_parameter_verbatim (exampleWorld emptyEnv ⟨200, "{}"⟩)
      [("trace_id", .str "abc123")] "abc123").2.2.1 (by decide)).1,
   ((path_parameter_verbatim (exampleWorld emptyEnv ⟨200, "{}"⟩)
      [("label", .str "job")] "job").1 (by decide)).1⟩

/-- C10 as stated fails: a trace id with a `?` puts a `?` into the URL of the trace lookup. -/
theorem trace_url_counterexample :
    (tempoQueryHandler (exampleWorld emptyEnv ⟨200, "{}"⟩) [("trace_id", .str "a?b")]).2
      = [.call ⟨"localhost:3100", "", ""⟩ "GET" "/api/traces/a?b/json" none,
         .send ⟨"GET", "http://localhost:3100/api/traces/a?b/json", none⟩] ∧
    '?' ∈ "http://localhost:3100/api/traces/a?b/json".data := by
  decide

/-- C8 as stated fails: a label with a `?` puts a key `start` into the query string of the URL
of the label values although the argument `start` is absent. -/
theorem optional_argument_counterexample :
    List.lookup "start" ([("label", Arg.str "a?start=1&b")] : Arguments) = none ∧
    (handler .prometheus_label_values (exampleWorld emptyEnv ⟨200, "{}"⟩)
        [("label", .str "a?start=1&b")]).2
      = [.call ⟨"localhost:3100", "", ""⟩ "GET" "/api/v1/label/a?start=1&b/values" (some []),
         .send ⟨"GET", "http://localhost:3100/api/v1/label/a?start=1&b/values?", none⟩] ∧
    urlQuery "http://localhost:3100/api/v1/label/a?start=1&b/values?" = "start=1&b/values?" ∧
    (queryPairs (urlQuery "http://localhost:3100/api/v1/label/a?start=1&b/values?")).filter
      (fun p => p.1 = "start") = [("start", "1")] := by
  decide

/-- A logs query with a `start` that needs escaping, in a world without credentials. -/
theorem optional_argument_witness :
    ∃ v : Values,
      (handler .loki_query (exampleWorld emptyEnv ⟨200, "{}"⟩)
          [("query", .str "up"), ("start", .str "1 2")]).2.head?
        = some (.call ⟨"localhost:3100", "", ""⟩ "GET" "/loki/api/v1/query_range" (some v)) ∧
      (queryPairs (Values.Encode v)).filter (fun p => p.1 = "start") = [("start", "1+2")] ∧
      (queryPairs (Values.Encode v)).filter (fun p => p.1 = "end") = [] ∧
      urlQuery (baseURL ⟨"localhost:3100", "", ""⟩ ++ "/loki/api/v1/query_range" ++ "?"
        ++ Values.Encode v) = Values.Encode v := by
  obtain ⟨v, h1, _, _, _, h5, h6⟩ := optional_argument_in_query .loki_query "start"
    (by decide) (exampleWorld emptyEnv ⟨200, "{}"⟩)
    [("query", .str "up"), ("start", .str "1 2")] (fun key h => ⟨"up", by cases h; rfl⟩)
  obtain ⟨v1, g1, _, _, g4, _, _⟩ := optional_argument_in_query .loki_query "end"
    (by decide) (exampleWorld emptyEnv ⟨200, "{}"⟩)
    [("query", .str "up"), ("start", .str "1 2")] (fun key h => ⟨"up", by cases h; rfl⟩)
  have hv : v1 = v := by
    rw [h1] at g1
    simpa using g1.symm
  subst hv
  exact ⟨v1, h1, h5 "1 2" (by decide) (by decide), g4 (by decide),
    (h6 (by decide) (by decide) (by decide) (by decide)).1⟩

/-- The logs labels without arguments and the trace tags, in a world without credentials. -/
theorem empty_map_witness :
    (∃ req, (handler .loki_labels (exampleWorld emptyEnv ⟨200, "{}"⟩) []).2
        = [.call ⟨"localhost:3100", "", ""⟩ "GET" "/loki/api/v1/label" (some []), .send req] ∧
      req.method = "GET" ∧ req.url = "http://localhost:3100/loki/api/v1/label?") ∧
    (∃ req, (handler .tempo_tags (exampleWorld emptyEnv ⟨200, "{}"⟩) []).2
        = [.call ⟨"localhost:3100", "", ""⟩ "GET" "/api/search/tags" none, .send req] ∧
      req.method = "GET" ∧ req.url = "http://localhost:3100/api/search/tags") :=
  ⟨((empty_map_and_nil_map (exampleWorld emptyEnv ⟨200, "{}"⟩) [] .loki_labels
      (fun _ h => by cases h)).1 (by decide) (by decide) (by decide)).2.2 rfl,
   ((empty_map_and_nil_map (exampleWorld emptyEnv ⟨200, "{}"⟩) [] .tempo_tags
      (fun _ h => by cases h)).2.1 (by decide)).2.2.1 rfl⟩

/-! ## The decoder reads one value -/

theorem skipSpace_append (cs t : List Char) (h : skipSpace cs ≠ []) :
    skipSpace (cs ++ t) = skipSpace cs ++ t := by
  induction cs with
  | nil => simp [skipSpace] at h
  | cons c cs ih =>
    simp only [skipSpace, List.cons_append] at h ⊢
    split
    · rename_i hc
      simp only [hc, if_true] at h
      exact ih h
    · rfl

theorem stripWord_append (w cs rest t : List Char) (h : stripWord w cs = some rest) :
    stripWord w (cs ++ t) = some (rest ++ t) := by
  induction w generalizing cs with
  | nil => simp [stripWord] at h ⊢; simp [h]
  | cons a w ih =>
    cases cs with
    | nil => simp [stripWord] at h
    | cons c cs =>
      simp only [stripWord, List.cons_append] at h ⊢
      split
      · rename_i hc
        simp only [hc, if_true] at h
        exact ih cs h
      · rename_i hc
        simp [hc] at h

theorem hex4_append (cs rest t : List Char) (n : Nat) (h : hex4 cs = some (n, rest)) :
    hex4 (cs ++ t) = some (n, rest ++ t) := by
  match cs, h with
  | a :: b :: c :: d :: r, h =>
    simp only [hex4, List.cons_append] at h ⊢
    cases ha : hexVal a <;> cases hb : hexVal b <;> cases hc : hexVal c <;>
      cases hd : hexVal d <;> simp [ha, hb, hc, hd] at h ⊢
    obtain ⟨h1, h2⟩ := h
    exact ⟨h1, by rw [h2]⟩


theorem scanString_nil (f : Nat) : scanString f [] = none := by
  cases f <;> rfl

theorem getu4_append_some (cs rest t : List Char) (n : Nat) (h : getu4 cs = some (n, rest)) :
    getu4 (cs ++ t) = some (n, rest ++ t) := by
  match cs, h with
  | a :: b :: r, h =>
    simp only [getu4, List.cons_append] at h ⊢
    split
    · rename_i hc
      simp only [hc, if_true] at h
      exact hex4_append _ _ _ _ h
    · rename_i hc
      simp [hc] at h

theorem scanString_quote (f : Nat) (cs : List Char) :
    scanString (f + 1) ('"' :: cs) = some ([], cs) := by
  simp [scanString]

theorem scanString_u_none (f : Nat) (cs1 : List Char) (h : hex4 cs1 = none) :
    scanString (f + 1) ('\\' :: 'u' :: cs1) = none := by
  simp [scanString, h]

theorem scanString_u_some (f : Nat) (cs1 cs2 : List Char) (rr : Nat)
    (h : hex4 cs1 = some (rr, cs2)) :
    scanString (f + 1) ('\\' :: 'u' :: cs1) =
      (scanString f (decodeUnit rr cs2).2).map
        fun r => ((decodeUnit rr cs2).1 :: r.1, r.2) := by
  simp [scanString, h]

theorem scanString_esc_none (f : Nat) (e : Char) (cs1 : List Char) (he : e ≠ 'u')
    (h : simpleEscape e = none) : scanString (f + 1) ('\\' :: e :: cs1) = none := by
  simp [scanString, he, h]

theorem scanString_esc_some (f : Nat) (e ch : Char) (cs1 : List Char) (he : e ≠ 'u')
    (h : simpleEscape e = some ch) :
    scanString (f + 1) ('\\' :: e :: cs1) = (scanString f cs1).map fun r => (ch :: r.1, r.2) := by
  simp [scanString, he, h]

theorem scanString_bs_nil (f : Nat) : scanString (f + 1) ['\\'] = none := by
  simp [scanString]

theorem scanString_plain (f : Nat) (c : Char) (cs : List Char) (h1 : c ≠ '"') (h2 : c ≠ '\\') :
    scanString (f + 1) (c :: cs) =
      if c.toNat < 0x20 then none else (scanString f cs).map fun r => (c :: r.1, r.2) := by
  simp [scanString, h1, h2]

theorem getu4_cons_cons (a b : Char) (r : List Char) :
    getu4 (a :: b :: r) = if a = '\\' ∧ b = 'u' then hex4 r else none := rfl

theorem getu4_append_none (f : Nat) (cs t : List Char) (h : getu4 cs = none)
    (hs : (scanString f cs).isSome) : getu4 (cs ++ t) = none := by
  match cs with
  | [] => simp [scanString_nil] at hs
  | [a] =>
    cases f with
    | zero => simp [scanString] at hs
    | succ f =>
      by_cases ha : a = '\\'
      · subst ha
        simp [scanString_bs_nil] at hs
      · cases t with
        | nil => rfl
        | cons b t => simp [getu4, ha]
  | a :: b :: r =>
    rw [List.cons_append, List.cons_append, getu4_cons_cons]
    rw [getu4_cons_cons] at h
    by_cases hc : a = '\\' ∧ b = 'u'
    · rw [if_pos hc] at h
      obtain ⟨rfl, rfl⟩ := hc
      cases f with
      | zero => simp [scanString] at hs
      | succ f => simp [scanString_u_none _ _ h] at hs
    · rw [if_neg hc]

theorem decodeUnit_append (f : Nat) (rr : Nat) (cs t : List Char)
    (hs : (scanString f (decodeUnit rr cs).2).isSome) :
    decodeUnit rr (cs ++ t) = ((decodeUnit rr cs).1, (decodeUnit rr cs).2 ++ t) := by
  by_cases hsur : 0xD800 ≤ rr ∧ rr < 0xE000
  · cases hg : getu4 cs with
    | none =>
      have e1 : decodeUnit rr cs = (Char.ofNat 0xFFFD, cs) := by
        unfold decodeUnit
        rw [if_pos hsur, hg]
      rw [e1] at hs ⊢
      unfold decodeUnit
      rw [if_pos hsur, getu4_append_none f cs t hg hs]
    | some p =>
      obtain ⟨rr1, rest1⟩ := p
      unfold decodeUnit
      rw [if_pos hsur, if_pos hsur, hg, getu4_append_some cs rest1 t rr1 hg]
      dsimp only
      by_cases hp : rr < 0xDC00 ∧ 0xDC00 ≤ rr1 ∧ rr1 < 0xE000
      · rw [if_pos hp, if_pos hp]
      · rw [if_neg hp, if_neg hp]
  · unfold decodeUnit
    rw [if_neg hsur, if_neg hsur]

theorem scanString_append (f : Nat) : ∀ (cs s rest t : List Char) (f1 : Nat),
    scanString f cs = some (s, rest) → f ≤ f1 →
    scanString f1 (cs ++ t) = some (s, rest ++ t) := by
  induction f with
  | zero => intro cs s rest t f1 h; simp [scanString] at h
  | succ f ih =>
    intro cs s rest t f1 h hf
    obtain ⟨g, rfl⟩ : ∃ g, f1 = g + 1 := ⟨f1 - 1, by omega⟩
    have hg : f ≤ g := by omega
    have step : ∀ (x : Char) (cs0 : List Char),
        (scanString f cs0).map (fun r => (x :: r.1, r.2)) = some (s, rest) →
        (scanString g (cs0 ++ t)).map (fun r => (x :: r.1, r.2)) = some (s, rest ++ t) := by
      intro x cs0 hx
      cases hr : scanString f cs0 with
      | none => simp [hr] at hx
      | some r =>
        obtain ⟨s1, rest1⟩ := r
        simp only [hr, Option.map_some', Option.some.injEq, Prod.mk.injEq] at hx
        rw [ih _ s1 rest1 t g hr hg]
        simp only [Option.map_some', Option.some.injEq, Prod.mk.injEq]
        exact ⟨hx.1, by rw [hx.2]⟩
    cases cs with
    | nil => simp [scanString] at h
    | cons c cs =>
      rw [List.cons_append]
      by_cases h1 : c = '"'
      · subst h1
        rw [scanString_quote] at h ⊢
        simp only [Option.some.injEq, Prod.mk.injEq] at h ⊢
        exact ⟨h.1, by rw [h.2]⟩
      · by_cases h2 : c = '\\'
        · subst h2
          cases cs with
          | nil => simp [scanString_bs_nil] at h
          | cons e cs1 =>
            rw [List.cons_append]
            by_cases h3 : e = 'u'
            · subst h3
              cases hh : hex4 cs1 with
              | none => rw [scanString_u_none _ _ hh] at h; simp at h
              | some p =>
                obtain ⟨rr, cs2⟩ := p
                rw [scanString_u_some _ _ _ _ hh] at h
                rw [scanString_u_some _ _ _ _ (hex4_append cs1 cs2 t rr hh)]
                have hsome : (scanString f (decodeUnit rr cs2).2).isSome := by
                  cases hr : scanString f (decodeUnit rr cs2).2 with
                  | none => simp [hr] at h
                  | some r => rfl
                rw [decodeUnit_append f rr cs2 t hsome]
                exact step _ _ h
            · cases he : simpleEscape e with
              | none => rw [scanString_esc_none _ _ _ h3 he] at h; simp at h
              | some ch =>
                rw [scanString_esc_some _ _ _ _ h3 he] at h ⊢
                exact step _ _ h
        · rw [scanString_plain _ _ _ h1 h2] at h ⊢
          by_cases h4 : c.toNat < 0x20
          · simp [h4] at h
          · rw [if_neg h4] at h ⊢
            exact step _ _ h

theorem takeDigits_append (cs t : List Char) (h : (takeDigits cs).2 ≠ []) :
    takeDigits (cs ++ t) = ((takeDigits cs).1, (takeDigits cs).2 ++ t) := by
  induction cs with
  | nil => simp [takeDigits] at h
  | cons c cs ih =>
    rw [List.cons_append]
    by_cases hc : isDigit c = true
    · simp only [takeDigits, hc, if_true] at h ⊢
      rw [ih h]
    · simp only [takeDigits, hc] at h ⊢
      simp

theorem scanInt_append (cs t r : List Char) (ds : List Nat) (h : scanInt cs = some (ds, r))
    (hr : r ≠ []) : scanInt (cs ++ t) = some (ds, r ++ t) := by
  cases cs with
  | nil => simp [scanInt] at h
  | cons c cs =>
    rw [List.cons_append]
    by_cases h0 : c = '0'
    · simp only [scanInt, h0, if_true, Option.some.injEq, Prod.mk.injEq] at h ⊢
      exact ⟨h.1, by rw [h.2]⟩
    · by_cases hd : isDigit c = true
      · simp only [scanInt, h0, hd, if_true, if_false, Option.some.injEq] at h ⊢
        have h2 : (takeDigits (c :: cs)).2 ≠ [] := by rw [h]; exact hr
        have := takeDigits_append (c :: cs) t h2
        rw [List.cons_append] at this
        rw [this, h]
      · simp [scanInt, h0, hd] at h

theorem scanFrac_append (cs t r : List Char) (fs : List Nat) (h : scanFrac cs = some (fs, r))
    (hr : r ≠ []) : scanFrac (cs ++ t) = some (fs, r ++ t) ∧ cs ≠ [] := by
  cases cs with
  | nil =>
    simp only [scanFrac, Option.some.injEq, Prod.mk.injEq] at h
    exact absurd h.2.symm hr
  | cons c cs =>
    refine ⟨?_, by simp⟩
    rw [List.cons_append]
    by_cases hc : c = '.'
    · simp only [scanFrac, hc, if_true] at h ⊢
      by_cases he : (takeDigits cs).1 = []
      · simp [he] at h
      · simp only [he, if_false, Option.some.injEq] at h
        have h2 : (takeDigits cs).2 ≠ [] := by rw [h]; exact hr
        rw [takeDigits_append cs t h2]
        rw [h] at he
        simp only [h, if_neg he]
    · simp only [scanFrac, hc, if_false, Option.some.injEq, Prod.mk.injEq] at h ⊢
      exact ⟨h.1, by rw [← h.2]; rfl⟩

theorem scanExp_append (cs t r : List Char) (e : Int) (h : scanExp cs = some (e, r))
    (hr : r ≠ []) : scanExp (cs ++ t) = some (e, r ++ t) ∧ cs ≠ [] := by
  cases cs with
  | nil =>
    simp only [scanExp, Option.some.injEq, Prod.mk.injEq] at h
    exact absurd h.2.symm hr
  | cons c cs =>
    refine ⟨?_, by simp⟩
    rw [List.cons_append]
    have digits : ∀ (xs : List Char) (sgn : Int),
        (if (takeDigits xs).1 = [] then none
          else some (sgn * (expOfDigits (takeDigits xs).1 : Int), (takeDigits xs).2)) = some (e, r) →
        (if (takeDigits (xs ++ t)).1 = [] then none
          else some (sgn * (expOfDigits (takeDigits (xs ++ t)).1 : Int), (takeDigits (xs ++ t)).2))
          = some (e, r ++ t) := by
      intro xs sgn hx
      by_cases he : (takeDigits xs).1 = []
      · simp [he] at hx
      · simp only [he, if_false, Option.some.injEq, Prod.mk.injEq] at hx
        have h2 : (takeDigits xs).2 ≠ [] := by rw [hx.2]; exact hr
        rw [takeDigits_append xs t h2]
        simp only [he, if_false, hx.1, hx.2]
    by_cases hc : c = 'e' ∨ c = 'E'
    · simp only [scanExp, hc, if_true] at h ⊢
      cases cs with
      | nil => simp at h
      | cons s cs1 =>
        rw [List.cons_append]
        simp only at h ⊢
        by_cases hm : s = '-'
        · simp only [hm, if_true] at h ⊢
          have := digits cs1 (-1) (by simpa using h)
          simpa using this
        · by_cases hp : s = '+'
          · simp only [hm, hp, if_true, if_false] at h ⊢
            have := digits cs1 1 (by simpa using h)
            simpa using this
          · simp only [hm, hp, if_false] at h ⊢
            have := digits (s :: cs1) 1 (by simpa using h)
            simpa using this
    · simp only [scanExp, hc, if_false, Option.some.injEq, Prod.mk.injEq] at h ⊢
      exact ⟨h.1, by rw [← h.2]; rfl⟩

theorem scanUnsigned_append (neg : Bool) (cs t r : List Char) (d : Decimal)
    (h : scanUnsigned neg cs = some (d, r)) (hr : r ≠ []) :
    scanUnsigned neg (cs ++ t) = some (d, r ++ t) := by
  unfold scanUnsigned at h ⊢
  cases h1 : scanInt cs with
  | none => simp [h1] at h
  | some p1 =>
    obtain ⟨ds, cs1⟩ := p1
    simp only [h1] at h
    cases h2 : scanFrac cs1 with
    | none => simp [h2] at h
    | some p2 =>
      obtain ⟨fs, cs2⟩ := p2
      simp only [h2] at h
      cases h3 : scanExp cs2 with
      | none => simp [h3] at h
      | some p3 =>
        obtain ⟨e, cs3⟩ := p3
        simp only [h3, Option.some.injEq, Prod.mk.injEq] at h
        obtain ⟨hd, hcs⟩ := h
        subst hcs
        obtain ⟨e3, n2⟩ := scanExp_append cs2 t cs3 e h3 hr
        obtain ⟨e2, n1⟩ := scanFrac_append cs1 t cs2 fs h2 n2
        rw [scanInt_append cs t cs1 ds h1 n1]
        simp only [e2, e3, hd]

theorem scanNumber_append (cs t r : List Char) (d : Decimal)
    (h : scanNumber cs = some (d, r)) (hr : r ≠ []) :
    scanNumber (cs ++ t) = some (d, r ++ t) := by
  cases cs with
  | nil => simp [scanNumber] at h
  | cons c cs =>
    rw [List.cons_append]
    simp only [scanNumber] at h ⊢
    by_cases hc : c = '-'
    · simp only [hc, if_true] at h ⊢
      exact scanUnsigned_append _ _ _ _ _ h hr
    · simp only [hc, if_false] at h ⊢
      exact scanUnsigned_append _ _ _ _ _ h hr

theorem scanValue_eof (f d : Nat) (cs : List Char) (h : skipSpace cs = []) :
    scanValue (f + 1) d cs = none := by
  simp only [scanValue, h]

theorem scanValue_deep (f d : Nat) (cs rest : List Char) (c : Char)
    (h : skipSpace cs = c :: rest) (hc : c = '{' ∨ c = '[') (hd : maxNestingDepth ≤ d) :
    scanValue (f + 1) d cs = none := by
  rcases hc with rfl | rfl <;> simp [scanValue, h, hd]

theorem scanValue_obj_eof (f d : Nat) (cs rest : List Char)
    (h : skipSpace cs = '{' :: rest) (h1 : skipSpace rest = []) :
    scanValue (f + 1) d cs = none := by
  simp [scanValue, h, h1]

theorem scanValue_obj_nil (f d : Nat) (cs rest rest1 : List Char)
    (h : skipSpace cs = '{' :: rest) (hd : ¬ maxNestingDepth ≤ d)
    (h1 : skipSpace rest = '}' :: rest1) :
    scanValue (f + 1) d cs = some (.obj .nil, rest1) := by
  simp [scanValue, h, h1, hd]

theorem scanValue_obj (f d : Nat) (cs rest rest1 : List Char) (c1 : Char)
    (h : skipSpace cs = '{' :: rest) (hd : ¬ maxNestingDepth ≤ d)
    (h1 : skipSpace rest = c1 :: rest1) (hc1 : c1 ≠ '}') :
    scanValue (f + 1) d cs
      = (scanMembers f (d + 1) (c1 :: rest1)).map fun r => (.obj r.1, r.2) := by
  simp [scanValue, h, h1, hd, hc1]

theorem scanValue_arr_eof (f d : Nat) (cs rest : List Char)
    (h : skipSpace cs = '[' :: rest) (h1 : skipSpace rest = []) :
    scanValue (f + 1) d cs = none := by
  simp [scanValue, h, h1]

theorem scanValue_arr_nil (f d : Nat) (cs rest rest1 : List Char)
    (h : skipSpace cs = '[' :: rest) (hd : ¬ maxNestingDepth ≤ d)
    (h1 : skipSpace rest = ']' :: rest1) :
    scanValue (f + 1) d cs = some (.arr .nil, rest1) := by
  simp [scanValue, h, h1, hd]

theorem scanValue_arr (f d : Nat) (cs rest rest1 : List Char) (c1 : Char)
    (h : skipSpace cs = '[' :: rest) (hd : ¬ maxNestingDepth ≤ d)
    (h1 : skipSpace rest = c1 :: rest1) (hc1 : c1 ≠ ']') :
    scanValue (f + 1) d cs
      = (scanElems f (d + 1) (c1 :: rest1)).map fun r => (.arr r.1, r.2) := by
  simp [scanValue, h, h1, hd, hc1]

theorem scanValue_str (f d : Nat) (cs rest : List Char) (h : skipSpace cs = '"' :: rest) :
    scanValue (f + 1) d cs = (scanString rest.length rest).map fun r => (.str r.1, r.2) := by
  simp [scanValue, h]

theorem scanValue_true (f d : Nat) (cs rest : List Char) (h : skipSpace cs = 't' :: rest) :
    scanValue (f + 1) d cs = (stripWord ['r', 'u', 'e'] rest).map fun r => (.bool true, r) := by
  simp [scanValue, h]

theorem scanValue_false (f d : Nat) (cs rest : List Char) (h : skipSpace cs = 'f' :: rest) :
    scanValue (f + 1) d cs
      = (stripWord ['a', 'l', 's', 'e'] rest).map fun r => (.bool false, r) := by
  simp [scanValue, h]

theorem scanValue_null (f d : Nat) (cs rest : List Char) (h : skipSpace cs = 'n' :: rest) :
    scanValue (f + 1) d cs = (stripWord ['u', 'l', 'l'] rest).map fun r => (.null, r) := by
  simp [scanValue, h]

theorem scanValue_num (f d : Nat) (cs rest : List Char) (c : Char)
    (h : skipSpace cs = c :: rest) (h1 : c ≠ '{') (h2 : c ≠ '[') (h3 : c ≠ '"') (h4 : c ≠ 't')
    (h5 : c ≠ 'f') (h6 : c ≠ 'n') :
    scanValue (f + 1) d cs = (scanNumber (c :: rest)).map fun r => (.num r.1, r.2) := by
  simp [scanValue, h, h1, h2, h3, h4, h5, h6]

theorem scanElems_fail (f d : Nat) (cs : List Char) (h : scanValue f d cs = none) :
    scanElems (f + 1) d cs = none := by
  simp [scanElems, h]

theorem scanElems_eof (f d : Nat) (cs rest : List Char) (v : JVal Decimal)
    (h : scanValue f d cs = some (v, rest)) (h1 : skipSpace rest = []) :
    scanElems (f + 1) d cs = none := by
  simp [scanElems, h, h1]

theorem scanElems_step (f d : Nat) (cs rest rest1 : List Char) (v : JVal Decimal) (c : Char)
    (h : scanValue f d cs = some (v, rest)) (h1 : skipSpace rest = c :: rest1) :
    scanElems (f + 1) d cs =
      if c = ',' then (scanElems f d rest1).map fun r => (.cons v r.1, r.2)
      else if c = ']' then some (.cons v .nil, rest1)
      else none := by
  simp [scanElems, h, h1]

theorem scanMembers_eof (f d : Nat) (cs : List Char) (h : skipSpace cs = []) :
    scanMembers (f + 1) d cs = none := by
  simp [scanMembers, h]

theorem scanMembers_nokey (f d : Nat) (cs rest : List Char) (c : Char)
    (h : skipSpace cs = c :: rest) (hc : c ≠ '"') :
    scanMembers (f + 1) d cs = none := by
  simp [scanMembers, h, hc]

theorem scanMembers_badkey (f d : Nat) (cs rest : List Char)
    (h : skipSpace cs = '"' :: rest) (hk : scanString rest.length rest = none) :
    scanMembers (f + 1) d cs = none := by
  simp [scanMembers, h, hk]

theorem scanMembers_nocolon (f d : Nat) (cs rest rest1 : List Char) (k : List Char)
    (h : skipSpace cs = '"' :: rest) (hk : scanString rest.length rest = some (k, rest1))
    (h1 : skipSpace rest1 = [] ∨ ∃ c r, skipSpace rest1 = c :: r ∧ c ≠ ':') :
    scanMembers (f + 1) d cs = none := by
  rcases h1 with h1 | ⟨c, r, h1, hc⟩
  · simp [scanMembers, h, hk, h1]
  · simp [scanMembers, h, hk, h1, hc]

theorem scanMembers_badvalue (f d : Nat) (cs rest rest1 rest2 : List Char) (k : List Char)
    (h : skipSpace cs = '"' :: rest) (hk : scanString rest.length rest = some (k, rest1))
    (h1 : skipSpace rest1 = ':' :: rest2)
    (hv : scanValue f d rest2 = none ∨ ∃ v r, scanValue f d rest2 = some (v, r) ∧ skipSpace r = []) :
    scanMembers (f + 1) d cs = none := by
  rcases hv with hv | ⟨v, r, hv, hr⟩
  · simp [scanMembers, h, hk, h1, hv]
  · simp [scanMembers, h, hk, h1, hv, hr]

theorem scanMembers_step (f d : Nat) (cs rest rest1 rest2 rest3 rest4 : List Char)
    (k : List Char) (v : JVal Decimal) (c3 : Char)
    (h : skipSpace cs = '"' :: rest) (hk : scanString rest.length rest = some (k, rest1))
    (h1 : skipSpace rest1 = ':' :: rest2) (hv : scanValue f d rest2 = some (v, rest3))
    (h3 : skipSpace rest3 = c3 :: rest4) :
    scanMembers (f + 1) d cs =
      if c3 = ',' then (scanMembers f d rest4).map fun r => (.cons k v r.1, r.2)
      else if c3 = '}' then some (.cons k v .nil, rest4)
      else none := by
  simp [scanMembers, h, hk, h1, hv, h3]

theorem skipSpace_cons_append {cs rest : List Char} {c : Char} (t : List Char)
    (h : skipSpace cs = c :: rest) : skipSpace (cs ++ t) = c :: (rest ++ t) := by
  rw [skipSpace_append cs t (by rw [h]; simp), h]; rfl

theorem map_append_some {α β : Type} {x : Option (α × List Char)} {g : α → β}
    {y : β} {rest t : List Char} {x1 : Option (α × List Char)}
    (hx : x.map (fun r => (g r.1, r.2)) = some (y, rest))
    (h1 : ∀ a, x = some (a, rest) → x1 = some (a, rest ++ t)) :
    x1.map (fun r => (g r.1, r.2)) = some (y, rest ++ t) := by
  cases x with
  | none => simp at hx
  | some p =>
    obtain ⟨a, r⟩ := p
    simp only [Option.map_some', Option.some.injEq, Prod.mk.injEq] at hx
    obtain ⟨h2, h3⟩ := hx
    subst h3
    rw [h1 a rfl]
    simp [h2]

theorem scan_append (f : Nat) :
    (∀ (d : Nat) (cs : List Char) (v : JVal Decimal) (rest : List Char) (f1 : Nat)
      (t : List Char), scanValue f d cs = some (v, rest) → f ≤ f1 →
      (v.isNum = true → rest ≠ []) → scanValue f1 d (cs ++ t) = some (v, rest ++ t)) ∧
    (∀ (d : Nat) (cs : List Char) (xs : JList Decimal) (rest : List Char) (f1 : Nat)
      (t : List Char), scanElems f d cs = some (xs, rest) → f ≤ f1 →
      scanElems f1 d (cs ++ t) = some (xs, rest ++ t)) ∧
    (∀ (d : Nat) (cs : List Char) (ms : JMembers Decimal) (rest : List Char) (f1 : Nat)
      (t : List Char), scanMembers f d cs = some (ms, rest) → f ≤ f1 →
      scanMembers f1 d (cs ++ t) = some (ms, rest ++ t)) := by
  induction f with
  | zero =>
    refine ⟨?_, ?_, ?_⟩ <;> intro d cs v rest f1 t h <;>
      simp [scanValue, scanElems, scanMembers] at h
  | succ f ih =>
    obtain ⟨ihV, ihE, ihM⟩ := ih
    refine ⟨?_, ?_, ?_⟩
    · intro d cs v rest f1 t h hf hnum
      obtain ⟨g, rfl⟩ : ∃ g, f1 = g + 1 := ⟨f1 - 1, by omega⟩
      have hg : f ≤ g := by omega
      cases hs : skipSpace cs with
      | nil => rw [scanValue_eof f d cs hs] at h; simp at h
      | cons c rest0 =>
        have hs' := skipSpace_cons_append t hs
        by_cases h1 : c = '{'
        · subst h1
          by_cases hd : maxNestingDepth ≤ d
          · rw [scanValue_deep f d cs rest0 _ hs (Or.inl rfl) hd] at h; simp at h
          · cases hs1 : skipSpace rest0 with
            | nil => rw [scanValue_obj_eof f d cs rest0 hs hs1] at h; simp at h
            | cons c1 rest1 =>
              have hs1' := skipSpace_cons_append t hs1
              by_cases hc1 : c1 = '}'
              · subst hc1
                rw [scanValue_obj_nil f d cs rest0 rest1 hs hd hs1] at h
                rw [scanValue_obj_nil g d (cs ++ t) (rest0 ++ t) (rest1 ++ t) hs' hd hs1']
                simp only [Option.some.injEq, Prod.mk.injEq] at h ⊢
                exact ⟨h.1, by rw [h.2]⟩
              · rw [scanValue_obj f d cs rest0 rest1 c1 hs hd hs1 hc1] at h
                rw [scanValue_obj g d (cs ++ t) (rest0 ++ t) (rest1 ++ t) c1 hs' hd hs1' hc1]
                exact map_append_some h (fun a ha => ihM (d + 1) (c1 :: rest1) a rest g t ha hg)
        · by_cases h2 : c = '['
          · subst h2
            by_cases hd : maxNestingDepth ≤ d
            · rw [scanValue_deep f d cs rest0 _ hs (Or.inr rfl) hd] at h; simp at h
            · cases hs1 : skipSpace rest0 with
              | nil => rw [scanValue_arr_eof f d cs rest0 hs hs1] at h; simp at h
              | cons c1 rest1 =>
                have hs1' := skipSpace_cons_append t hs1
                by_cases hc1 : c1 = ']'
                · subst hc1
                  rw [scanValue_arr_nil f d cs rest0 rest1 hs hd hs1] at h
                  rw [scanValue_arr_nil g d (cs ++ t) (rest0 ++ t) (rest1 ++ t) hs' hd hs1']
                  simp only [Option.some.injEq, Prod.mk.injEq] at h ⊢
                  exact ⟨h.1, by rw [h.2]⟩
                · rw [scanValue_arr f d cs rest0 rest1 c1 hs hd hs1 hc1] at h
                  rw [scanValue_arr g d (cs ++ t) (rest0 ++ t) (rest1 ++ t) c1 hs' hd hs1' hc1]
                  exact map_append_some h
                    (fun a ha => ihE (d + 1) (c1 :: rest1) a rest g t ha hg)
          · by_cases h3 : c = '"'
            · subst h3
              rw [scanValue_str f d cs rest0 hs] at h
              rw [scanValue_str g d (cs ++ t) (rest0 ++ t) hs']
              exact map_append_some h
                (fun a ha => scanString_append _ _ _ _ t _ ha (by simp))
            · have word : ∀ (w : List Char) (b : JVal Decimal),
                  (stripWord w rest0).map (fun r => (b, r)) = some (v, rest) →
                  (stripWord w (rest0 ++ t)).map (fun r => (b, r)) = some (v, rest ++ t) := by
                intro w b hw
                cases hx : stripWord w rest0 with
                | none => simp [hx] at hw
                | some r =>
                  simp only [hx, Option.map_some', Option.some.injEq, Prod.mk.injEq] at hw
                  rw [stripWord_append w rest0 r t hx]
                  simp only [Option.map_some', Option.some.injEq, Prod.mk.injEq]
                  exact ⟨hw.1, by rw [hw.2]⟩
              by_cases h4 : c = 't'
              · subst h4
                rw [scanValue_true f d cs rest0 hs] at h
                rw [scanValue_true g d (cs ++ t) (rest0 ++ t) hs']
                exact word _ _ h
              · by_cases h5 : c = 'f'
                · subst h5
                  rw [scanValue_false f d cs rest0 hs] at h
                  rw [scanValue_false g d (cs ++ t) (rest0 ++ t) hs']
                  exact word _ _ h
                · by_cases h6 : c = 'n'
                  · subst h6
                    rw [scanValue_null f d cs rest0 hs] at h
                    rw [scanValue_null g d (cs ++ t) (rest0 ++ t) hs']
                    exact word _ _ h
                  · rw [scanValue_num f d cs rest0 c hs h1 h2 h3 h4 h5 h6] at h
                    rw [scanValue_num g d (cs ++ t) (rest0 ++ t) c hs' h1 h2 h3 h4 h5 h6]
                    cases hn : scanNumber (c :: rest0) with
                    | none => simp [hn] at h
                    | some p =>
                      obtain ⟨a, r⟩ := p
                      simp only [hn, Option.map_some', Option.some.injEq, Prod.mk.injEq] at h
                      obtain ⟨hv, hr⟩ := h
                      subst hv hr
                      have := scanNumber_append (c :: rest0) t r a hn (hnum rfl)
                      rw [List.cons_append] at this
                      rw [this]
                      rfl
    · intro d cs xs rest f1 t h hf
      obtain ⟨g, rfl⟩ : ∃ g, f1 = g + 1 := ⟨f1 - 1, by omega⟩
      have hg : f ≤ g := by omega
      cases hv : scanValue f d cs with
      | none => rw [scanElems_fail f d cs hv] at h; simp at h
      | some p =>
        obtain ⟨v, rest0⟩ := p
        cases hs : skipSpace rest0 with
        | nil => rw [scanElems_eof f d cs rest0 v hv hs] at h; simp at h
        | cons c rest1 =>
          have hne : rest0 ≠ [] := by
            intro e; rw [e] at hs; simp [skipSpace] at hs
          have hv' := ihV d cs v rest0 g t hv hg (fun _ => hne)
          rw [scanElems_step f d cs rest0 rest1 v c hv hs] at h
          rw [scanElems_step g d (cs ++ t) (rest0 ++ t) (rest1 ++ t) v c hv'
            (skipSpace_cons_append t hs)]
          by_cases hc : c = ','
          · rw [if_pos hc] at h ⊢
            exact map_append_some h (fun a ha => ihE d rest1 a rest g t ha hg)
          · rw [if_neg hc] at h ⊢
            by_cases hc2 : c = ']'
            · rw [if_pos hc2] at h ⊢
              simp only [Option.some.injEq, Prod.mk.injEq] at h ⊢
              exact ⟨h.1, by rw [h.2]⟩
            · rw [if_neg hc2] at h; simp at h
    · intro d cs ms rest f1 t h hf
      obtain ⟨g, rfl⟩ : ∃ g, f1 = g + 1 := ⟨f1 - 1, by omega⟩
      have hg : f ≤ g := by omega
      cases hs : skipSpace cs with
      | nil => rw [scanMembers_eof f d cs hs] at h; simp at h
      | cons c rest0 =>
        by_cases hc : c = '"'
        · subst hc
          cases hk : scanString rest0.length rest0 with
          | none => rw [scanMembers_badkey f d cs rest0 hs hk] at h; simp at h
          | some p =>
            obtain ⟨k, rest1⟩ := p
            have hk' := scanString_append _ _ _ _ t (rest0 ++ t).length hk (by simp)
            cases hs1 : skipSpace rest1 with
            | nil =>
              rw [scanMembers_nocolon f d cs rest0 rest1 k hs hk (Or.inl hs1)] at h; simp at h
            | cons c1 rest2 =>
              by_cases hc1 : c1 = ':'
              · subst hc1
                cases hv : scanValue f d rest2 with
                | none =>
                  rw [scanMembers_badvalue f d cs rest0 rest1 rest2 k hs hk hs1 (Or.inl hv)] at h
                  simp at h
                | some q =>
                  obtain ⟨v, rest3⟩ := q
                  cases hs3 : skipSpace rest3 with
                  | nil =>
                    rw [scanMembers_badvalue f d cs rest0 rest1 rest2 k hs hk hs1
                      (Or.inr ⟨v, rest3, hv, hs3⟩)] at h
                    simp at h
                  | cons c3 rest4 =>
                    have hne : rest3 ≠ [] := by
                      intro e; rw [e] at hs3; simp [skipSpace] at hs3
                    have hv' := ihV d rest2 v rest3 g t hv hg (fun _ => hne)
                    rw [scanMembers_step f d cs rest0 rest1 rest2 rest3 rest4 k v c3 hs hk hs1
                      hv hs3] at h
                    rw [scanMembers_step g d (cs ++ t) (rest0 ++ t) (rest1 ++ t) (rest2 ++ t)
                      (rest3 ++ t) (rest4 ++ t) k v c3 (skipSpace_cons_append t hs) hk'
                      (skipSpace_cons_append t hs1) hv' (skipSpace_cons_append t hs3)]
                    by_cases hc3 : c3 = ','
                    · rw [if_pos hc3] at h ⊢
                      exact map_append_some h (fun a ha => ihM d rest4 a rest g t ha hg)
                    · rw [if_neg hc3] at h ⊢
                      by_cases hc4 : c3 = '}'
                      · rw [if_pos hc4] at h ⊢
                        simp only [Option.some.injEq, Prod.mk.injEq] at h ⊢
                        exact ⟨h.1, by rw [h.2]⟩
                      · rw [if_neg hc4] at h; simp at h
              · rw [scanMembers_nocolon f d cs rest0 rest1 k hs hk
                  (Or.inr ⟨c1, rest2, hs1, hc1⟩)] at h
                simp at h
        · rw [scanMembers_nokey f d cs rest0 c hs hc] at h; simp at h

theorem decodeMap_append (body t : List Char) (m : Option (JMembers F64))
    (h : decodeMap body = .ok m) : decodeMap (body ++ t) = .ok m := by
  unfold decodeMap at h ⊢
  cases hs : scanValue (body.length + 1) 0 body with
  | none => simp [hs] at h
  | some p =>
    obtain ⟨v, rest⟩ := p
    simp only [hs] at h
    have hnum : v.isNum = true → rest ≠ [] := by
      intro hv
      cases v <;> simp [JVal.isNum] at hv
      simp at h
    rw [(scan_append (body.length + 1)).1 0 body v rest ((body ++ t).length + 1) t hs
      (by simp) hnum]
    exact h

theorem decodeMap_first_char (body : List Char) (c : Char) (rest : List Char)
    (hs : skipSpace body = c :: rest) (h1 : c ≠ '{') (h2 : c ≠ 'n') :
    ∃ e, decodeMap body = .error e := by
  unfold decodeMap
  by_cases h3 : c = '['
  · subst h3
    cases hs1 : skipSpace rest with
    | nil => rw [scanValue_arr_eof _ _ _ _ hs hs1]; exact ⟨_, rfl⟩
    | cons c1 rest1 =>
      by_cases hc1 : c1 = ']'
      · subst hc1
        rw [scanValue_arr_nil _ _ _ _ _ hs (by decide) hs1]; exact ⟨_, rfl⟩
      · rw [scanValue_arr _ _ _ _ _ _ hs (by decide) hs1 hc1]
        cases scanElems body.length (0 + 1) (c1 :: rest1) <;> exact ⟨_, rfl⟩
  · by_cases h4 : c = '"'
    · subst h4
      rw [scanValue_str _ _ _ _ hs]
      cases scanString rest.length rest <;> exact ⟨_, rfl⟩
    · by_cases h5 : c = 't'
      · subst h5
        rw [scanValue_true _ _ _ _ hs]
        cases stripWord ['r', 'u', 'e'] rest <;> exact ⟨_, rfl⟩
      · by_cases h6 : c = 'f'
        · subst h6
          rw [scanValue_false _ _ _ _ hs]
          cases stripWord ['a', 'l', 's', 'e'] rest <;> exact ⟨_, rfl⟩
        · rw [scanValue_num _ _ _ _ _ hs h1 h3 h4 h5 h6 h2]
          cases scanNumber (c :: rest) <;> exact ⟨_, rfl⟩

theorem readResponse_ok (body : String) (m : Option (JMembers F64))
    (h : decodeMap body.data = .ok m) :
    readResponse ⟨200, body⟩ = .ok (String.mk (Marshal m)) := by
  simp [readResponse, h]

theorem readResponse_error (body : String) (e : DecodeError)
    (h : decodeMap body.data = .error e) :
    readResponse ⟨200, body⟩ = .error (.decode e) := by
  simp [readResponse, h]

theorem decodeMap_ok_iff (body : List Char) (m : Option (JMembers F64)) :
    decodeMap body = .ok m ↔
      ∃ v rest, scanValue (body.length + 1) 0 body = some (v, rest) ∧
        ((v = .null ∧ m = none) ∨
          ∃ ms m1, v = .obj ms ∧ toGoMembers ms .nil = .ok m1 ∧ m = some m1) := by
  unfold decodeMap
  cases hs : scanValue (body.length + 1) 0 body with
  | none => simp
  | some p =>
    obtain ⟨v, rest⟩ := p
    cases v with
    | obj ms =>
      cases hm : toGoMembers ms .nil with
      | error e => simp [hm]
      | ok m1 =>
        constructor
        · intro h
          simp only [hm, Except.ok.injEq] at h
          exact ⟨_, _, rfl, Or.inr ⟨ms, m1, rfl, hm, h.symm⟩⟩
        · rintro ⟨v, r, hv, h⟩
          simp only [Option.some.injEq, Prod.mk.injEq] at hv
          obtain ⟨rfl, rfl⟩ := hv
          rcases h with ⟨h, _⟩ | ⟨ms1, m2, h1, h2, h3⟩
          · cases h
          · cases h1
            rw [hm] at h2
            cases h2
            simp [hm, h3]
    | null =>
      constructor
      · intro h
        simp only [Except.ok.injEq] at h
        exact ⟨_, _, rfl, Or.inl ⟨rfl, h.symm⟩⟩
      · rintro ⟨v, r, hv, h⟩
        simp only [Option.some.injEq, Prod.mk.injEq] at hv
        obtain ⟨rfl, rfl⟩ := hv
        rcases h with ⟨_, h⟩ | ⟨ms1, m2, h1, h2, h3⟩
        · simp [h]
        · cases h1
    | _ => simp

/-- C5 as stated fails: the body `null` is no object and the body of an object followed by
`trailing bytes` is not a single JSON object, yet for both the handler of the trace tags returns
a text, `null` and the object, and not an error. -/
theorem decode_counterexample :
    tempoTagsHandler (exampleWorld emptyEnv ⟨200, "null"⟩) []
      = (NewToolResultText "null",
          [.call ⟨"localhost:3100", "", ""⟩ "GET" "/api/search/tags" none,
           .send ⟨"GET", "http://localhost:3100/api/search/tags", none⟩]) ∧
    tempoTagsHandler (exampleWorld emptyEnv ⟨200, "\x7b\"a\":\"b\"\x7d trailing bytes"⟩) []
      = (NewToolResultText "\x7b\"a\":\"b\"\x7d",
          [.call ⟨"localhost:3100", "", ""⟩ "GET" "/api/search/tags" none,
           .send ⟨"GET", "http://localhost:3100/api/search/tags", none⟩]) := by
  decide

/-! ## Reading a float64 -/

theorem log2Aux_spec (fuel : Nat) : ∀ n : Nat, n ≤ fuel → 0 < n →
    2 ^ (log2Aux fuel n) ≤ n ∧ n < 2 ^ (log2Aux fuel n + 1) := by
  induction fuel with
  | zero => intro n h1 h2; omega
  | succ fuel ih =>
    intro n h1 h2
    unfold log2Aux
    by_cases h : n < 2
    · simp only [h, if_true]
      constructor <;> simp <;> omega
    · simp only [h, if_false]
      have h3 : n / 2 ≤ fuel := by omega
      have h4 : 0 < n / 2 := by omega
      obtain ⟨a, b⟩ := ih (n / 2) h3 h4
      rw [pow_succ, pow_succ]
      constructor <;> omega

theorem log2Floor_spec (n : Nat) (h : 0 < n) :
    2 ^ (log2Floor n) ≤ n ∧ n < 2 ^ (log2Floor n + 1) :=
  log2Aux_spec n n le_rfl h

theorem scale2_pos (num den : Nat) (e : Int) (hden : 0 < den) : 0 < (scale2 num den e).2 := by
  unfold scale2
  split
  · exact Nat.mul_pos hden (by positivity)
  · exact hden

theorem scale2_val (num den : Nat) (e : Int) (hden : 0 < den) :
    ((scale2 num den e).1 : ℚ) / ((scale2 num den e).2 : ℚ) = (num : ℚ) / den / (2 : ℚ) ^ e := by
  have hd : (den : ℚ) ≠ 0 := by exact_mod_cast hden.ne'
  unfold scale2
  split
  · rename_i he
    obtain ⟨k, rfl⟩ := Int.eq_ofNat_of_zero_le he
    simp only [Int.toNat_ofNat, Nat.cast_mul, Nat.cast_pow, Nat.cast_ofNat, zpow_natCast]
    rw [div_div]
  · rename_i he
    obtain ⟨k, hk⟩ : ∃ k : Nat, e = -(k : Int) := ⟨(-e).toNat, by omega⟩
    subst hk
    simp only [neg_neg, Int.toNat_ofNat, Nat.cast_mul, Nat.cast_pow, Nat.cast_ofNat, zpow_neg,
      zpow_natCast]
    field_simp

theorem scale2_le_iff (num den : Nat) (e : Int) (hden : 0 < den) :
    (scale2 num den e).2 ≤ (scale2 num den e).1 ↔ (2 : ℚ) ^ e ≤ (num : ℚ) / den := by
  have hp := scale2_pos num den e hden
  have hv := scale2_val num den e hden
  have h2 : (0 : ℚ) < (2 : ℚ) ^ e := by positivity
  have hp' : (0 : ℚ) < ((scale2 num den e).2 : ℚ) := by exact_mod_cast hp
  rw [← one_le_div h2, ← hv, one_le_div hp']
  exact_mod_cast Iff.rfl

theorem binExponent_spec (num den : Nat) (hnum : 0 < num) (hden : 0 < den) :
    (2 : ℚ) ^ (binExponent num den) ≤ (num : ℚ) / den ∧
    (num : ℚ) / den < (2 : ℚ) ^ (binExponent num den + 1) := by
  obtain ⟨a1, a2⟩ := log2Floor_spec num hnum
  obtain ⟨b1, b2⟩ := log2Floor_spec den hden
  have hd : (0 : ℚ) < den := by exact_mod_cast hden
  have a1' : (2 : ℚ) ^ (log2Floor num : ℤ) ≤ num := by
    rw [zpow_natCast]; exact_mod_cast a1
  have a2' : (num : ℚ) < (2 : ℚ) ^ ((log2Floor num : ℤ) + 1) := by
    have : (num : ℚ) < (2 : ℚ) ^ (log2Floor num + 1) := by exact_mod_cast a2
    rw [← zpow_natCast] at this
    simpa using this
  have b1' : (2 : ℚ) ^ (log2Floor den : ℤ) ≤ den := by
    rw [zpow_natCast]; exact_mod_cast b1
  have b2' : (den : ℚ) < (2 : ℚ) ^ ((log2Floor den : ℤ) + 1) := by
    have : (den : ℚ) < (2 : ℚ) ^ (log2Floor den + 1) := by exact_mod_cast b2
    rw [← zpow_natCast] at this
    simpa using this
  unfold binExponent
  simp only
  split
  · rename_i h
    rw [scale2_le_iff num den _ hden] at h
    refine ⟨h, ?_⟩
    rw [div_lt_iff₀ hd]
    calc (num : ℚ) < (2 : ℚ) ^ ((log2Floor num : ℤ) + 1) := a2'
      _ = (2 : ℚ) ^ ((log2Floor num : ℤ) - (log2Floor den : ℤ) + 1) * (2 : ℚ) ^ (log2Floor den : ℤ) := by
          rw [← zpow_add₀ (by norm_num : (2 : ℚ) ≠ 0)]; congr 1; ring
      _ ≤ (2 : ℚ) ^ ((log2Floor num : ℤ) - (log2Floor den : ℤ) + 1) * den := by
          apply mul_le_mul_of_nonneg_left b1' (by positivity)
  · rename_i h
    rw [scale2_le_iff num den _ hden, not_le] at h
    constructor
    · rw [le_div_iff₀ hd]
      calc (2 : ℚ) ^ ((log2Floor num : ℤ) - (log2Floor den : ℤ) - 1) * den
          ≤ (2 : ℚ) ^ ((log2Floor num : ℤ) - (log2Floor den : ℤ) - 1)
              * (2 : ℚ) ^ ((log2Floor den : ℤ) + 1) := by
            apply mul_le_mul_of_nonneg_left b2'.le (by positivity)
        _ = (2 : ℚ) ^ (log2Floor num : ℤ) := by
            rw [← zpow_add₀ (by norm_num : (2 : ℚ) ≠ 0)]; congr 1; ring
        _ ≤ num := a1'
    · simpa using h

theorem scale2_lt_iff (num den : Nat) (e : Int) (k : Nat) (hden : 0 < den) :
    (scale2 num den e).1 < 2 ^ k * (scale2 num den e).2 ↔
      (num : ℚ) / den < (2 : ℚ) ^ (e + k) := by
  have hp := scale2_pos num den e hden
  have hv := scale2_val num den e hden
  have h2 : (0 : ℚ) < (2 : ℚ) ^ e := by positivity
  have hp' : (0 : ℚ) < ((scale2 num den e).2 : ℚ) := by exact_mod_cast hp
  rw [zpow_add₀ (by norm_num : (2 : ℚ) ≠ 0), zpow_natCast]
  rw [show ((num : ℚ) / den < (2 : ℚ) ^ e * (2 : ℚ) ^ k ↔ (num : ℚ) / den / (2 : ℚ) ^ e < (2 : ℚ) ^ k)
    from by rw [div_lt_iff₀ h2, mul_comm]]
  rw [← hv, div_lt_iff₀ hp']
  exact_mod_cast Iff.rfl

theorem scale2_ge_iff (num den : Nat) (e : Int) (k : Nat) (hden : 0 < den) :
    2 ^ k * (scale2 num den e).2 ≤ (scale2 num den e).1 ↔
      (2 : ℚ) ^ (e + k) ≤ (num : ℚ) / den := by
  rw [← not_lt, ← not_lt, scale2_lt_iff num den e k hden]

/-- The steps of `roundRatio` after the scaling. -/
theorem roundRatio_eq (num den : Nat) :
    roundRatio num den =
      (fun (e2 : Int) (n1 d1 : Nat) =>
        (fun (q : Nat) =>
          if 971 < (if q = 2 ^ 53 then e2 + 1 else e2) then none
          else some (if q = 2 ^ 53 then 2 ^ 52 else q, if q = 2 ^ 53 then e2 + 1 else e2))
          (if d1 < 2 * (n1 % d1) ∨ (2 * (n1 % d1) = d1 ∧ n1 / d1 % 2 = 1) then n1 / d1 + 1
            else n1 / d1))
        (max (binExponent num den - 52) (-1074))
        (scale2 num den (max (binExponent num den - 52) (-1074))).1
        (scale2 num den (max (binExponent num den - 52) (-1074))).2 := rfl

theorem roundRatio_wf (num den : Nat) (hnum : 0 < num) (hden : 0 < den) (q : Nat) (e : Int)
    (h : roundRatio num den = some (q, e)) :
    q < 2 ^ 53 ∧ -1074 ≤ e ∧ e ≤ 971 ∧ (2 ^ 52 ≤ q ∨ e = -1074) := by
  obtain ⟨s1, s2⟩ := binExponent_spec num den hnum hden
  rw [roundRatio_eq] at h
  generalize hL : binExponent num den = L at h s1 s2
  generalize he2 : max (L - 52) (-1074) = e2 at h
  have hp := scale2_pos num den e2 hden
  have hlt : (scale2 num den e2).1 < 2 ^ 53 * (scale2 num den e2).2 := by
    rw [scale2_lt_iff num den e2 53 hden]
    refine lt_of_lt_of_le s2 ?_
    apply zpow_le_zpow_right₀ (by norm_num)
    have : L - 52 ≤ e2 := by rw [← he2]; exact le_max_left _ _
    push_cast
    omega
  have hcases : (e2 = L - 52 ∧ 2 ^ 52 * (scale2 num den e2).2 ≤ (scale2 num den e2).1) ∨
      (e2 = -1074 ∧ (scale2 num den e2).1 < 2 ^ 52 * (scale2 num den e2).2) := by
    by_cases hcase : -1074 ≤ L - 52
    · have e2eq : e2 = L - 52 := by rw [← he2]; exact max_eq_left hcase
      refine Or.inl ⟨e2eq, ?_⟩
      rw [scale2_ge_iff num den e2 52 hden]
      have : e2 + ((52 : ℕ) : ℤ) = L := by rw [e2eq]; push_cast; ring
      rw [this]; exact s1
    · have e2eq : e2 = -1074 := by rw [← he2]; exact max_eq_right (by omega)
      refine Or.inr ⟨e2eq, ?_⟩
      rw [scale2_lt_iff num den e2 52 hden]
      refine lt_of_lt_of_le s2 ?_
      apply zpow_le_zpow_right₀ (by norm_num)
      rw [e2eq]; push_cast; omega
  have hbound : -1074 ≤ e2 := by rw [← he2]; exact le_max_right _ _
  generalize (scale2 num den e2).1 = n1 at h hlt hcases
  generalize (scale2 num den e2).2 = d1 at h hp hlt hcases
  have hq0 : n1 / d1 < 2 ^ 53 := by
    rw [Nat.div_lt_iff_lt_mul hp]; exact hlt
  dsimp only at h
  generalize hqq : (if d1 < 2 * (n1 % d1) ∨ (2 * (n1 % d1) = d1 ∧ n1 / d1 % 2 = 1)
    then n1 / d1 + 1 else n1 / d1) = qq at h
  have hq1 : n1 / d1 ≤ qq := by rw [← hqq]; split <;> omega
  have hq2 : qq ≤ n1 / d1 + 1 := by rw [← hqq]; split <;> omega
  by_cases h971 : 971 < (if qq = 2 ^ 53 then e2 + 1 else e2)
  · rw [if_pos h971] at h; cases h
  · rw [if_neg h971] at h
    simp only [Option.some.injEq, Prod.mk.injEq] at h
    obtain ⟨hq, he⟩ := h
    subst hq he
    rcases hcases with ⟨_, hge⟩ | ⟨e2eq, hlt2⟩
    · have hq0' : 2 ^ 52 ≤ n1 / d1 := by
        rw [Nat.le_div_iff_mul_le hp]; exact hge
      refine ⟨?_, ?_, by omega, Or.inl ?_⟩
      · split <;> omega
      · split <;> omega
      · split <;> omega
    · have hq0' : n1 / d1 < 2 ^ 52 := by
        rw [Nat.div_lt_iff_lt_mul hp]; exact hlt2
      have hne : ¬ qq = 2 ^ 53 := by omega
      rw [if_neg hne] at h971
      simp only [hne, if_false]
      exact ⟨by omega, by omega, by omega, Or.inr e2eq⟩

theorem scale10_pos (num den : Nat) (k : Int) (hden : 0 < den) : 0 < (scale10 num den k).2 := by
  unfold scale10
  split
  · exact hden
  · exact Nat.mul_pos hden (by positivity)

theorem scale10_val (num den : Nat) (k : Int) (hden : 0 < den) :
    ((scale10 num den k).1 : ℚ) / ((scale10 num den k).2 : ℚ)
      = (num : ℚ) / den * (10 : ℚ) ^ k := by
  have hd : (den : ℚ) ≠ 0 := by exact_mod_cast hden.ne'
  unfold scale10
  split
  · rename_i he
    obtain ⟨j, rfl⟩ := Int.eq_ofNat_of_zero_le he
    simp only [Int.toNat_ofNat, Nat.cast_mul, Nat.cast_pow, Nat.cast_ofNat, zpow_natCast]
    field_simp
  · rename_i he
    obtain ⟨j, hj⟩ : ∃ j : Nat, k = -(j : Int) := ⟨(-k).toNat, by omega⟩
    subst hj
    simp only [neg_neg, Int.toNat_ofNat, Nat.cast_mul, Nat.cast_pow, Nat.cast_ofNat, zpow_neg,
      zpow_natCast]
    field_simp

theorem decimal_ratio_val (d : Decimal) :
    0 < d.ratio.2 ∧ ((d.ratio.1 : ℚ) / (d.ratio.2 : ℚ)) = d.val := by
  unfold Decimal.ratio Decimal.val
  refine ⟨scale10_pos _ _ _ (by norm_num), ?_⟩
  rw [scale10_val _ _ _ (by norm_num)]
  simp

theorem f64_ratio_val (f : F64) :
    0 < f.ratio.2 ∧ ((f.ratio.1 : ℚ) / (f.ratio.2 : ℚ)) = f.val := by
  unfold F64.ratio F64.val
  split
  · rename_i he
    obtain ⟨j, hj⟩ := Int.eq_ofNat_of_zero_le he
    rw [hj]
    simp
  · rename_i he
    obtain ⟨j, hj⟩ : ∃ j : Nat, f.exp = -(j : Int) := ⟨(-f.exp).toNat, by omega⟩
    rw [hj]
    simp only [neg_neg, Int.toNat_ofNat, Nat.cast_pow, Nat.cast_ofNat, zpow_neg, zpow_natCast]
    refine ⟨by positivity, ?_⟩
    rw [div_eq_mul_inv]

theorem reduceRatio_spec (p : Nat × Nat) (hp : 0 < p.2) :
    0 < (reduceRatio p).2 ∧ Nat.Coprime (reduceRatio p).1 (reduceRatio p).2 ∧
    ((reduceRatio p).1 : ℚ) / ((reduceRatio p).2 : ℚ) = (p.1 : ℚ) / (p.2 : ℚ) ∧
    (0 < p.1 → 0 < (reduceRatio p).1) := by
  have hg : 0 < Nat.gcd p.1 p.2 := Nat.gcd_pos_of_pos_right _ hp
  have h1 : Nat.gcd p.1 p.2 ∣ p.1 := Nat.gcd_dvd_left _ _
  have h2 : Nat.gcd p.1 p.2 ∣ p.2 := Nat.gcd_dvd_right _ _
  unfold reduceRatio
  refine ⟨Nat.div_pos (Nat.le_of_dvd hp h2) hg, Nat.coprime_div_gcd_div_gcd hg, ?_, ?_⟩
  · simp only
    rw [Nat.cast_div h1 (by exact_mod_cast hg.ne'), Nat.cast_div h2 (by exact_mod_cast hg.ne')]
    have : ((Nat.gcd p.1 p.2 : ℕ) : ℚ) ≠ 0 := by exact_mod_cast hg.ne'
    have : (p.2 : ℚ) ≠ 0 := by exact_mod_cast hp.ne'
    field_simp
  · intro h
    exact Nat.div_pos (Nat.le_of_dvd h h1) hg

theorem reduceRatio_congr (p p1 : Nat × Nat) (hp : 0 < p.2) (hp1 : 0 < p1.2)
    (h : (p.1 : ℚ) / (p.2 : ℚ) = (p1.1 : ℚ) / (p1.2 : ℚ)) : reduceRatio p = reduceRatio p1 := by
  obtain ⟨a1, a2, a3, _⟩ := reduceRatio_spec p hp
  obtain ⟨b1, b2, b3, _⟩ := reduceRatio_spec p1 hp1
  have := Rat.div_int_inj (a := ((reduceRatio p).1 : ℤ)) (b := ((reduceRatio p).2 : ℤ))
    (c := ((reduceRatio p1).1 : ℤ)) (d := ((reduceRatio p1).2 : ℤ))
    (by exact_mod_cast a1) (by exact_mod_cast b1) (by simpa using a2) (by simpa using b2)
    (by push_cast; rw [a3, b3, h])
  obtain ⟨e1, e2⟩ := this
  apply Prod.ext
  · exact_mod_cast e1
  · exact_mod_cast e2

theorem roundRatio_exact (num den m : Nat) (e : Int) (hnum : 0 < num) (hden : 0 < den)
    (hw : m < 2 ^ 53 ∧ -1074 ≤ e ∧ e ≤ 971 ∧ (2 ^ 52 ≤ m ∨ e = -1074))
    (hv : (num : ℚ) / den = (m : ℚ) * (2 : ℚ) ^ e) : roundRatio num den = some (m, e) := by
  obtain ⟨s1, s2⟩ := binExponent_spec num den hnum hden
  obtain ⟨w1, w2, w3, w4⟩ := hw
  have two : (1 : ℚ) < 2 := by norm_num
  have two0 : (2 : ℚ) ≠ 0 := by norm_num
  have hpe : (0 : ℚ) < (2 : ℚ) ^ e := by positivity
  have h53 : (2 : ℚ) ^ (53 : ℤ) = ((2 ^ 53 : ℕ) : ℚ) := by norm_num
  have h52 : (2 : ℚ) ^ (52 : ℤ) = ((2 ^ 52 : ℕ) : ℚ) := by norm_num
  have hup : (num : ℚ) / den < (2 : ℚ) ^ (e + 53) := by
    calc (num : ℚ) / den = (m : ℚ) * (2 : ℚ) ^ e := hv
      _ < (2 : ℚ) ^ (53 : ℤ) * (2 : ℚ) ^ e := by
          apply mul_lt_mul_of_pos_right _ hpe
          rw [h53]; exact_mod_cast w1
      _ = (2 : ℚ) ^ (e + 53) := by rw [← zpow_add₀ two0]; congr 1; ring
  have he2 : max (binExponent num den - 52) (-1074) = e := by
    rcases Nat.lt_or_ge m (2 ^ 52) with hlt | hge
    · have e1074 : e = -1074 := by
        rcases w4 with w4 | w4
        · omega
        · exact w4
      have hup2 : (num : ℚ) / den < (2 : ℚ) ^ (e + 52) := by
        calc (num : ℚ) / den = (m : ℚ) * (2 : ℚ) ^ e := hv
          _ < (2 : ℚ) ^ (52 : ℤ) * (2 : ℚ) ^ e := by
              apply mul_lt_mul_of_pos_right _ hpe
              rw [h52]; exact_mod_cast hlt
          _ = (2 : ℚ) ^ (e + 52) := by rw [← zpow_add₀ two0]; congr 1; ring
      have l1 : binExponent num den < e + 52 :=
        (zpow_lt_zpow_iff_right₀ two).mp (lt_of_le_of_lt s1 hup2)
      rw [e1074] at l1 ⊢
      exact max_eq_right (by omega)
    · have hlow : (2 : ℚ) ^ (e + 52) ≤ (num : ℚ) / den := by
        calc (2 : ℚ) ^ (e + 52) = (2 : ℚ) ^ (52 : ℤ) * (2 : ℚ) ^ e := by
              rw [← zpow_add₀ two0]; congr 1; ring
          _ ≤ (m : ℚ) * (2 : ℚ) ^ e := by
              apply mul_le_mul_of_nonneg_right _ hpe.le
              rw [h52]; exact_mod_cast hge
          _ = (num : ℚ) / den := hv.symm
      have l1 : binExponent num den < e + 53 :=
        (zpow_lt_zpow_iff_right₀ two).mp (lt_of_le_of_lt s1 hup)
      have l2 : e + 52 < binExponent num den + 1 :=
        (zpow_lt_zpow_iff_right₀ two).mp (lt_of_le_of_lt hlow s2)
      have : binExponent num den - 52 = e := by omega
      rw [this]; exact max_eq_left w2
  rw [roundRatio_eq, he2]
  have hp := scale2_pos num den e hden
  have hval := scale2_val num den e hden
  have hn : (scale2 num den e).1 = m * (scale2 num den e).2 := by
    have hp' : ((scale2 num den e).2 : ℚ) ≠ 0 := by exact_mod_cast hp.ne'
    have : ((scale2 num den e).1 : ℚ) = (m : ℚ) * ((scale2 num den e).2 : ℚ) := by
      rw [hv] at hval
      field_simp at hval
      linarith
    exact_mod_cast this
  generalize (scale2 num den e).1 = n1 at hn
  generalize (scale2 num den e).2 = d1 at hn hp
  subst hn
  have hdiv : m * d1 / d1 = m := Nat.mul_div_cancel _ hp
  have hmod : m * d1 % d1 = 0 := Nat.mul_mod_left _ _
  dsimp only
  rw [hdiv, hmod]
  have hc : ¬ (d1 < 2 * 0 ∨ (2 * 0 = d1 ∧ m % 2 = 1)) := by omega
  rw [if_neg hc]
  have hne : ¬ m = 2 ^ 53 := by omega
  rw [if_neg hne, if_neg hne, if_neg (by omega)]

theorem decimal_val_eq_zero (d : Decimal) : d.val = 0 ↔ d.mant = 0 := by
  unfold Decimal.val
  have : (10 : ℚ) ^ d.exp ≠ 0 := by positivity
  constructor
  · intro h
    rcases mul_eq_zero.mp h with h | h
    · exact_mod_cast h
    · exact absurd h this
  · intro h
    rw [h]; simp

theorem decimal_reduced (d : Decimal) (h : d.mant ≠ 0) :
    0 < (reduceRatio d.ratio).1 ∧ 0 < (reduceRatio d.ratio).2 ∧
    ((reduceRatio d.ratio).1 : ℚ) / ((reduceRatio d.ratio).2 : ℚ) = d.val := by
  obtain ⟨p1, p2⟩ := decimal_ratio_val d
  obtain ⟨r1, _, r3, r4⟩ := reduceRatio_spec d.ratio p1
  have hpos : 0 < d.ratio.1 := by
    rcases Nat.eq_zero_or_pos d.ratio.1 with h0 | h0
    · exfalso
      rw [h0] at p2
      have : d.val = 0 := by rw [← p2]; simp
      exact h ((decimal_val_eq_zero d).mp this)
    · exact h0
  exact ⟨r4 hpos, r1, by rw [r3, p2]⟩

theorem parseFloat_wf (d : Decimal) (f : F64) (h : parseFloat d = some f) :
    f.WF ∧ f.neg = d.neg := by
  unfold parseFloat at h
  by_cases h0 : d.mant = 0
  · rw [if_pos h0] at h
    cases h
    exact ⟨⟨by norm_num, by norm_num, by norm_num, Or.inr rfl⟩, rfl⟩
  · rw [if_neg h0] at h
    obtain ⟨a, b, _⟩ := decimal_reduced d h0
    cases hr : roundRatio (reduceRatio d.ratio).1 (reduceRatio d.ratio).2 with
    | none => rw [hr] at h; cases h
    | some p =>
      obtain ⟨q, e⟩ := p
      rw [hr] at h
      cases h
      exact ⟨roundRatio_wf _ _ a b q e hr, rfl⟩

theorem parseFloat_congr (d d1 : Decimal) (hneg : d.neg = d1.neg) (hv : d.val = d1.val) :
    parseFloat d = parseFloat d1 := by
  unfold parseFloat
  by_cases h0 : d.mant = 0
  · have h1 : d1.mant = 0 := by
      rw [← decimal_val_eq_zero, ← hv, decimal_val_eq_zero]; exact h0
    rw [if_pos h0, if_pos h1, hneg]
  · have h1 : ¬ d1.mant = 0 := by
      rw [← decimal_val_eq_zero, ← hv, decimal_val_eq_zero]; exact h0
    rw [if_neg h0, if_neg h1, hneg]
    have := reduceRatio_congr d.ratio d1.ratio (decimal_ratio_val d).1 (decimal_ratio_val d1).1
      (by rw [(decimal_ratio_val d).2, (decimal_ratio_val d1).2, hv])
    rw [this]

theorem parseFloat_exact (d : Decimal) (f : F64) (hw : f.WF) (hm : f.mant ≠ 0)
    (hneg : d.neg = f.neg) (hv : d.val = f.val) : parseFloat d = some f := by
  have h0 : ¬ d.mant = 0 := by
    rw [← decimal_val_eq_zero, hv]
    unfold F64.val
    have : (2 : ℚ) ^ f.exp ≠ 0 := by positivity
    have : (f.mant : ℚ) ≠ 0 := by exact_mod_cast hm
    positivity
  obtain ⟨a, b, c⟩ := decimal_reduced d h0
  unfold parseFloat
  rw [if_neg h0, roundRatio_exact _ _ f.mant f.exp a b hw (by rw [c, hv]; rfl)]
  simp [hneg]

theorem exactDecimal_val (f : F64) : (exactDecimal f).val = f.val ∧ (exactDecimal f).neg = f.neg := by
  unfold exactDecimal Decimal.val F64.val
  split
  · rename_i he
    obtain ⟨j, hj⟩ := Int.eq_ofNat_of_zero_le he
    rw [hj]
    simp
  · rename_i he
    obtain ⟨j, hj⟩ : ∃ j : Nat, f.exp = -(j : Int) := ⟨(-f.exp).toNat, by omega⟩
    rw [hj]
    refine ⟨?_, rfl⟩
    simp only [neg_neg, Int.toNat_ofNat, Nat.cast_mul, Nat.cast_pow, Nat.cast_ofNat, zpow_neg,
      zpow_natCast]
    have : (10 : ℚ) ^ j = 2 ^ j * 5 ^ j := by rw [← mul_pow]; norm_num
    rw [this]
    field_simp
    ring

theorem tryDigits_sound (f : F64) (p : Int) (n : Nat) (d : Decimal)
    (h : tryDigits f p n = some d) : parseFloat d = some f := by
  unfold tryDigits at h
  dsimp only at h
  split at h
  · rename_i hc
    simp only [decide_eq_true_eq] at hc
    split at h <;> cases h
    · exact hc.1
    · exact hc.2
  · split at h
    · rename_i hc
      simp only [decide_eq_true_eq] at hc
      cases h; exact hc
    · split at h
      · rename_i hc
        simp only [decide_eq_true_eq] at hc
        cases h; exact hc
      · cases h

theorem shortestFrom_sound (f : F64) (hw : f.WF) (hm : f.mant ≠ 0) (p : Int) (k n : Nat) :
    parseFloat (shortestFrom f p k n) = some f := by
  induction k generalizing n with
  | zero =>
    unfold shortestFrom
    exact parseFloat_exact _ f hw hm (exactDecimal_val f).2 (exactDecimal_val f).1
  | succ k ih =>
    unfold shortestFrom
    cases ht : tryDigits f p n with
    | some d => exact tryDigits_sound f p n d ht
    | none => exact ih (n + 1)

theorem shortestDecimal_sound (f : F64) (hw : f.WF) (hm : f.mant ≠ 0) :
    parseFloat (shortestDecimal f) = some f :=
  shortestFrom_sound f hw hm _ _ _

/-! ## A float64 written by Marshal reads back -/

theorem digitsAux_eq (fuel : Nat) : ∀ (n : Nat) (acc : List Nat), n ≤ fuel →
    digitsAux fuel n acc = (Nat.digits 10 n).reverse ++ acc := by
  induction fuel with
  | zero =>
    intro n acc h
    have : n = 0 := by omega
    subst this
    simp [digitsAux]
  | succ fuel ih =>
    intro n acc h
    unfold digitsAux
    by_cases h0 : n = 0
    · subst h0; simp
    · rw [if_neg h0, ih (n / 10) _ (by omega)]
      rw [Nat.digits_def' (by norm_num) (Nat.pos_of_ne_zero h0)]
      simp

theorem natDigits_eq (n : Nat) : natDigits n = (Nat.digits 10 n).reverse := by
  unfold natDigits
  rw [digitsAux_eq n n [] le_rfl]
  simp

theorem ofDigits_snoc (ds : List Nat) (d : Nat) : ofDigits (ds ++ [d]) = ofDigits ds * 10 + d := by
  simp [ofDigits, List.foldl_append]

theorem ofDigits_eq (ds : List Nat) : ofDigits ds = Nat.ofDigits 10 ds.reverse := by
  induction ds using List.reverseRecOn with
  | nil => simp [ofDigits]
  | append_singleton ds d ih =>
    rw [ofDigits_snoc, ih]
    simp [Nat.ofDigits_cons]
    ring

theorem ofDigits_natDigits (n : Nat) : ofDigits (natDigits n) = n := by
  rw [ofDigits_eq, natDigits_eq, List.reverse_reverse, Nat.ofDigits_digits]

theorem natDigits_lt (n d : Nat) (h : d ∈ natDigits n) : d < 10 := by
  rw [natDigits_eq, List.mem_reverse] at h
  exact Nat.digits_lt_base (by norm_num) h

theorem natDigits_head (n : Nat) (h : n ≠ 0) : ∃ x t, natDigits n = x :: t ∧ x ≠ 0 := by
  have hne : Nat.digits 10 n ≠ [] := by
    rw [Ne, Nat.digits_eq_nil_iff_eq_zero]; exact h
  have hl := Nat.getLast_digit_ne_zero 10 h
  rw [natDigits_eq]
  cases hr : (Nat.digits 10 n).reverse with
  | nil => simp at hr; exact absurd hr hne
  | cons x t =>
    refine ⟨x, t, rfl, ?_⟩
    have : (Nat.digits 10 n).getLast hne = x := by
      have h2 : Nat.digits 10 n = (x :: t).reverse := by
        rw [← hr, List.reverse_reverse]
      simp [h2]
    rw [← this]; exact hl

theorem natDigits_length_le (n k : Nat) (h : n < 10 ^ k) : (natDigits n).length ≤ k := by
  rw [natDigits_eq, List.length_reverse]
  by_cases h0 : n = 0
  · subst h0; simp
  · have h1 := Nat.base_pow_length_digits_le 10 n (by norm_num) h0
    have h2 : 10 ^ (Nat.digits 10 n).length < 10 ^ (k + 1) := by
      rw [pow_succ]; omega
    have h3 := (Nat.pow_lt_pow_iff_right (by norm_num : 1 < 10)).mp h2
    omega

theorem ofDigits_append (a b : List Nat) :
    ofDigits (a ++ b) = ofDigits a * 10 ^ b.length + ofDigits b := by
  induction b using List.reverseRecOn with
  | nil => simp [ofDigits]
  | append_singleton b d ih =>
    rw [← List.append_assoc, ofDigits_snoc, ih, ofDigits_snoc]
    simp [pow_succ]
    ring

theorem ofDigits_replicate_zero (k : Nat) : ofDigits (List.replicate k 0) = 0 := by
  induction k with
  | zero => rfl
  | succ k ih =>
    rw [List.replicate_succ']
    rw [ofDigits_snoc, ih]

theorem ofDigits_cons (d : Nat) (ds : List Nat) :
    ofDigits (d :: ds) = d * 10 ^ ds.length + ofDigits ds := by
  have := ofDigits_append [d] ds
  simpa [ofDigits] using this

theorem digitChar_spec (d : Nat) (h : d < 10) :
    isDigit (digitChar d) = true ∧ (digitChar d).toNat - 48 = d ∧ digitChar d ≠ '.' ∧
    digitChar d ≠ 'e' ∧ digitChar d ≠ 'E' ∧ digitChar d ≠ '-' ∧ digitChar d ≠ '+' ∧
    (digitChar d = '0' → d = 0) ∧ isSpace (digitChar d) = false ∧
    digitChar d ≠ '{' ∧ digitChar d ≠ '[' ∧ digitChar d ≠ '"' ∧ digitChar d ≠ 't' ∧
    digitChar d ≠ 'f' ∧ digitChar d ≠ 'n' := by
  interval_cases d <;> decide

theorem takeDigits_digits (ds : List Nat) (rest : List Char) (hds : ∀ d ∈ ds, d < 10)
    (hrest : ∀ c r, rest = c :: r → isDigit c = false) :
    takeDigits (ds.map digitChar ++ rest) = (ds, rest) := by
  induction ds with
  | nil =>
    cases rest with
    | nil => rfl
    | cons c r => simp [takeDigits, hrest c r rfl]
  | cons d ds ih =>
    have hd := digitChar_spec d (hds d (by simp))
    have := ih (fun x hx => hds x (by simp [hx]))
    simp only [List.map_cons, List.cons_append, takeDigits, hd.1, if_true, hd.2.1, List.append_eq,
      this]

theorem numEnd_digit {rest : List Char} (h : numEnd rest) :
    ∀ c r, rest = c :: r → isDigit c = false := fun c r e => (h c r e).1

theorem scanFrac_end (rest : List Char) (h : numEnd rest) : scanFrac rest = some ([], rest) := by
  cases rest with
  | nil => rfl
  | cons c r => simp [scanFrac, (h c r rfl).2.1]

theorem scanExp_end (rest : List Char) (h : numEnd rest) : scanExp rest = some (0, rest) := by
  cases rest with
  | nil => rfl
  | cons c r => simp [scanExp, (h c r rfl).2.2.1, (h c r rfl).2.2.2]

theorem scanFrac_digits (fs : List Nat) (rest : List Char) (hfs : ∀ d ∈ fs, d < 10)
    (hne : fs ≠ []) (hrest : ∀ c r, rest = c :: r → isDigit c = false) :
    scanFrac ('.' :: (fs.map digitChar ++ rest)) = some (fs, rest) := by
  simp [scanFrac, takeDigits_digits fs rest hfs hrest, hne]

theorem scanFrac_skip (c : Char) (rest : List Char) (h : c ≠ '.') :
    scanFrac (c :: rest) = some ([], c :: rest) := by
  simp [scanFrac, h]

theorem scanInt_digits (x : Nat) (t : List Nat) (rest : List Char) (hx : x ≠ 0)
    (hds : ∀ d ∈ x :: t, d < 10) (hrest : ∀ c r, rest = c :: r → isDigit c = false) :
    scanInt ((x :: t).map digitChar ++ rest) = some (x :: t, rest) := by
  have hd := digitChar_spec x (hds x (by simp))
  have h0 : digitChar x ≠ '0' := fun e => hx (hd.2.2.2.2.2.2.2.1 e)
  have := takeDigits_digits (x :: t) rest hds hrest
  simp only [List.map_cons, List.cons_append] at this ⊢
  simp only [scanInt, h0, if_false, hd.1, if_true, this]

theorem scanInt_zero (rest : List Char) : scanInt ('0' :: rest) = some ([0], rest) := by
  simp [scanInt]

theorem expOfDigits_snoc (ds : List Nat) (d : Nat) :
    expOfDigits (ds ++ [d])
      = if expOfDigits ds < 10000 then expOfDigits ds * 10 + d else expOfDigits ds := by
  simp [expOfDigits, List.foldl_append]

theorem expOfDigits_natDigits (x : Nat) (h : x < 100000) : expOfDigits (natDigits x) = x := by
  induction x using Nat.strong_induction_on with
  | _ x ih =>
    by_cases h0 : x = 0
    · subst h0; rfl
    · have hx : natDigits x = natDigits (x / 10) ++ [x % 10] := by
        rw [natDigits_eq, natDigits_eq, Nat.digits_def' (by norm_num) (Nat.pos_of_ne_zero h0)]
        simp
      rw [hx, expOfDigits_snoc, ih (x / 10) (by omega) (by omega)]
      rw [if_pos (by omega)]
      omega

theorem expDigits_spec (x : Nat) (h : x < 100000) :
    expOfDigits (expDigits x) = x ∧ expDigits x ≠ [] ∧ ∀ d ∈ expDigits x, d < 10 := by
  unfold expDigits
  by_cases hx : x < 10
  · rw [if_pos hx]
    refine ⟨by simp [expOfDigits], by simp, ?_⟩
    intro d hd
    simp at hd; omega
  · rw [if_neg hx]
    refine ⟨expOfDigits_natDigits x h, ?_, fun d hd => natDigits_lt x d hd⟩
    obtain ⟨a, t, e, _⟩ := natDigits_head x (by omega)
    rw [e]; simp

theorem scanExp_digits (neg : Bool) (x : Nat) (rest : List Char) (hx : x < 100000)
    (hrest : ∀ c r, rest = c :: r → isDigit c = false) :
    scanExp ('e' :: (if neg then '-' else '+') :: ((expDigits x).map digitChar ++ rest))
      = some (if neg then -(x : Int) else (x : Int), rest) := by
  obtain ⟨e1, e2, e3⟩ := expDigits_spec x hx
  have := takeDigits_digits (expDigits x) rest e3 hrest
  cases neg <;> simp [scanExp, this, e1, e2]

theorem scanUnsigned_of (neg : Bool) (cs cs1 cs2 cs3 : List Char) (ds fs : List Nat) (e : Int)
    (h1 : scanInt cs = some (ds, cs1)) (h2 : scanFrac cs1 = some (fs, cs2))
    (h3 : scanExp cs2 = some (e, cs3)) :
    scanUnsigned neg cs = some (⟨neg, ofDigits (ds ++ fs), e - fs.length⟩, cs3) := by
  simp [scanUnsigned, h1, h2, h3]

theorem fmtF_neg (ds : List Nat) (k : Nat) (hne : ds ≠ []) :
    fmtF ds (-(k : Int)) = '0' :: '.' :: ((List.replicate k 0 ++ ds).map digitChar) := by
  unfold fmtF
  have h1 : ¬ (0 : Int) < -(k : Int) := by omega
  have h2 : (-(k : Int)) < (ds.length : Int) := by
    have : 0 < ds.length := List.length_pos.mpr hne
    omega
  have h3 : (-(k : Int)).toNat = 0 := by omega
  have h4 : (- -(k : Int)).toNat = k := by omega
  simp only [h1, if_false, h2, if_true, h3, h4, List.drop_zero]
  have h5 : List.replicate k 0 ++ ds ≠ [] := by simp [hne]
  simp only [h5, if_false]
  rfl

theorem fmtF_mid (ds : List Nat) (j : Nat) (h0 : 0 < j) (hj : j < ds.length) :
    fmtF ds (j : Int) = (ds.take j).map digitChar ++ '.' :: (ds.drop j).map digitChar := by
  unfold fmtF
  have h1 : (0 : Int) < (j : Int) := by omega
  have h2 : (j : Int) < (ds.length : Int) := by omega
  have h3 : (-(j : Int)).toNat = 0 := by omega
  have h4 : j - ds.length = 0 := by omega
  simp only [h1, if_true, h2, Int.toNat_ofNat, h3, h4, List.replicate_zero, List.append_nil,
    List.nil_append]
  have h5 : ds.drop j ≠ [] := by
    intro e
    have := congrArg List.length e
    simp at this
    omega
  simp only [h5, if_false]

theorem fmtF_big (ds : List Nat) (j : Nat) (h0 : 0 < j) (hj : ds.length ≤ j) :
    fmtF ds (j : Int) = (ds ++ List.replicate (j - ds.length) 0).map digitChar := by
  unfold fmtF
  have h1 : (0 : Int) < (j : Int) := by omega
  have h2 : ¬ (j : Int) < (ds.length : Int) := by omega
  simp only [h1, if_true, h2, if_false, Int.toNat_ofNat, List.take_of_length_le hj,
    List.append_nil]

theorem scanUnsigned_fmtF (neg : Bool) (x : Nat) (t : List Nat) (dp : Int) (rest : List Char)
    (hx : x ≠ 0) (hds : ∀ d ∈ x :: t, d < 10) (hrest : numEnd rest) :
    ∃ d, scanUnsigned neg (fmtF (x :: t) dp ++ rest) = some (d, rest) ∧ d.neg = neg ∧
      d.val = (ofDigits (x :: t) : ℚ) * (10 : ℚ) ^ (dp - ((x :: t).length : Int)) := by
  have hdig := numEnd_digit hrest
  rcases le_or_lt dp 0 with hle | hpos
  · obtain ⟨k, rfl⟩ : ∃ k : Nat, dp = -(k : Int) := ⟨(-dp).toNat, by omega⟩
    rw [fmtF_neg _ _ (by simp)]
    have hfs : ∀ d ∈ List.replicate k 0 ++ x :: t, d < 10 := by
      intro d hd
      rcases List.mem_append.mp hd with h | h
      · rw [List.eq_of_mem_replicate h]; norm_num
      · exact hds d h
    refine ⟨_, scanUnsigned_of neg _ _ _ _ _ _ _ (scanInt_zero _)
      (scanFrac_digits _ rest hfs (by simp) hdig) (scanExp_end rest hrest), rfl, ?_⟩
    simp only [Decimal.val, List.singleton_append, ofDigits_cons, ofDigits_append,
      ofDigits_replicate_zero, List.length_append, List.length_replicate, List.length_cons]
    push_cast
    congr 1
    · ring
    · congr 1; ring
  · obtain ⟨j, rfl⟩ : ∃ j : Nat, dp = (j : Int) := ⟨dp.toNat, by omega⟩
    have hj0 : 0 < j := by omega
    rcases Nat.lt_or_ge j (x :: t).length with hj | hj
    · rw [fmtF_mid _ _ hj0 hj]
      obtain ⟨j1, rfl⟩ : ∃ j1, j = j1 + 1 := ⟨j - 1, by omega⟩
      have htake : (x :: t).take (j1 + 1) = x :: t.take j1 := rfl
      have hdrop : (x :: t).drop (j1 + 1) = t.drop j1 := rfl
      have hlen : j1 < t.length := by simpa using hj
      have hd1 : ∀ d ∈ x :: t.take j1, d < 10 := by
        intro d hd
        rcases List.mem_cons.mp hd with h | h
        · rw [h]; exact hds x (by simp)
        · exact hds d (List.mem_cons_of_mem _ (List.mem_of_mem_take h))
      have hd2 : ∀ d ∈ t.drop j1, d < 10 :=
        fun d hd => hds d (List.mem_cons_of_mem _ (List.mem_of_mem_drop hd))
      have hne : t.drop j1 ≠ [] := by
        intro e
        have := congrArg List.length e
        simp at this
        omega
      rw [htake, hdrop, List.append_assoc]
      refine ⟨_, scanUnsigned_of neg _ _ _ _ _ _ _
        (scanInt_digits x (t.take j1) _ hx hd1 (by
          intro c r e
          simp only [List.cons_append, List.cons.injEq] at e
          rw [← e.1]; rfl))
        (scanFrac_digits _ rest hd2 hne hdig) (scanExp_end rest hrest), rfl, ?_⟩
      have e1 : x :: t.take j1 ++ t.drop j1 = x :: t := by
        rw [List.cons_append, List.take_append_drop]
      simp only [Decimal.val, e1, List.length_drop, List.length_cons]
      congr 2
      push_cast
      omega
    · rw [fmtF_big _ _ hj0 hj]
      have hd1 : ∀ d ∈ x :: (t ++ List.replicate (j - (x :: t).length) 0), d < 10 := by
        intro d hd
        rcases List.mem_cons.mp hd with h | h
        · rw [h]; exact hds x (by simp)
        · rcases List.mem_append.mp h with h | h
          · exact hds d (List.mem_cons_of_mem _ h)
          · rw [List.eq_of_mem_replicate h]; norm_num
      rw [List.cons_append]
      refine ⟨_, scanUnsigned_of neg _ _ _ _ _ _ _
        (scanInt_digits x _ rest hx hd1 hdig)
        (scanFrac_end rest hrest) (scanExp_end rest hrest), rfl, ?_⟩
      simp only [Decimal.val, List.append_nil, List.length_nil, Nat.cast_zero, sub_zero,
        zpow_zero, mul_one]
      rw [← List.cons_append, ofDigits_append, ofDigits_replicate_zero]
      simp only [List.length_replicate, add_zero, Nat.cast_mul, Nat.cast_pow, Nat.cast_ofNat]
      congr 1
      rw [← zpow_natCast]
      congr 1
      omega

theorem scanUnsigned_fmtE (neg : Bool) (x : Nat) (t : List Nat) (dp : Int) (rest : List Char)
    (hx : x ≠ 0) (hds : ∀ d ∈ x :: t, d < 10) (hrest : numEnd rest)
    (hdp : (dp - 1).natAbs < 100000) :
    ∃ d, scanUnsigned neg (fmtE (x :: t) dp ++ rest) = some (d, rest) ∧ d.neg = neg ∧
      d.val = (ofDigits (x :: t) : ℚ) * (10 : ℚ) ^ (dp - ((x :: t).length : Int)) := by
  have hdig := numEnd_digit hrest
  have hexp := scanExp_digits (decide (dp - 1 < 0)) (dp - 1).natAbs rest hdp hdig
  have hsign : (if decide (dp - 1 < 0) = true then -(((dp - 1).natAbs : ℕ) : Int)
      else (((dp - 1).natAbs : ℕ) : Int)) = dp - 1 := by
    by_cases h : dp - 1 < 0
    · simp only [h, decide_True, if_true]; omega
    · simp only [h, decide_False, Bool.false_eq_true, if_false]; omega
  rw [hsign] at hexp
  have hsgn : (if decide (dp - 1 < 0) = true then '-' else '+')
      = (if dp - 1 < 0 then '-' else '+') := by
    by_cases h : dp - 1 < 0 <;> simp [h]
  rw [hsgn] at hexp
  have hx10 : x < 10 := hds x (by simp)
  have hint : ∀ (c : Char) (r : List Char), (c = '.' ∨ c = 'e') →
      scanInt (digitChar x :: c :: r) = some ([x], c :: r) := by
    intro c r hc
    have := scanInt_digits x [] (c :: r) hx (by simpa using hx10) (by
      intro c1 r1 e
      simp only [List.cons.injEq] at e
      rw [← e.1]
      rcases hc with rfl | rfl <;> rfl)
    simpa using this
  unfold fmtE
  dsimp only
  by_cases ht : t = []
  · subst ht
    simp only [List.length_singleton, lt_self_iff_false, if_false, List.take, List.map_cons,
      List.map_nil, List.append_nil, List.singleton_append, List.cons_append]
    refine ⟨_, scanUnsigned_of neg _ _ _ _ _ _ _ (hint 'e' _ (Or.inr rfl))
      (scanFrac_skip 'e' _ (by decide)) hexp, rfl, ?_⟩
    simp only [Decimal.val, List.append_nil, List.length_nil, List.length_singleton]
    congr 2
    push_cast
    ring
  · have hlen : 1 < (x :: t).length := by
      cases t with
      | nil => exact absurd rfl ht
      | cons a b => simp
    have hdt : ∀ d ∈ t, d < 10 := fun d hd => hds d (List.mem_cons_of_mem _ hd)
    simp only [hlen, if_true, List.take, List.drop, List.map_cons, List.map_nil,
      List.singleton_append, List.cons_append, List.append_assoc]
    refine ⟨_, scanUnsigned_of neg _ _ _ _ _ _ _ (hint '.' _ (Or.inl rfl))
      (scanFrac_digits t _ hdt ht (by
        intro c r e
        simp only [List.cons.injEq] at e
        rw [← e.1]; rfl)) hexp, rfl, ?_⟩
    simp only [Decimal.val, List.singleton_append, List.length_cons]
    congr 2
    push_cast
    ring

theorem stripZeros_spec (fuel : Nat) : ∀ (m : Nat) (e : Int), m ≠ 0 →
    (stripZeros fuel m e).1 ≠ 0 ∧
    ((stripZeros fuel m e).1 : ℚ) * (10 : ℚ) ^ (stripZeros fuel m e).2 = (m : ℚ) * (10 : ℚ) ^ e ∧
    (stripZeros fuel m e).1 ≤ m ∧ e ≤ (stripZeros fuel m e).2 ∧
    10 ^ ((stripZeros fuel m e).2 - e).toNat ≤ m := by
  have base : ∀ (m : Nat) (e : Int), m ≠ 0 →
      m ≠ 0 ∧ (m : ℚ) * (10 : ℚ) ^ e = (m : ℚ) * (10 : ℚ) ^ e ∧ m ≤ m ∧ e ≤ e ∧
        10 ^ (e - e).toNat ≤ m := by
    intro m e hm
    refine ⟨hm, rfl, le_rfl, le_rfl, ?_⟩
    rw [sub_self, Int.toNat_zero, pow_zero]
    omega
  induction fuel with
  | zero =>
    intro m e hm
    exact base m e hm
  | succ fuel ih =>
    intro m e hm
    unfold stripZeros
    by_cases hc : m ≠ 0 ∧ m % 10 = 0
    · rw [if_pos hc]
      have hm10 : m / 10 ≠ 0 := by omega
      obtain ⟨a, b, c, d, g⟩ := ih (m / 10) (e + 1) hm10
      refine ⟨a, ?_, by omega, by omega, ?_⟩
      · rw [b]
        have hmq : (m : ℚ) = ((m / 10 : ℕ) : ℚ) * 10 := by
          have : m = m / 10 * 10 := by omega
          exact_mod_cast this
        rw [hmq, zpow_add₀ (by norm_num : (10 : ℚ) ≠ 0), zpow_one]
        ring
      · have hk : ((stripZeros fuel (m / 10) (e + 1)).2 - e).toNat
            = ((stripZeros fuel (m / 10) (e + 1)).2 - (e + 1)).toNat + 1 := by omega
        rw [hk, pow_succ]
        omega
    · rw [if_neg hc]
      exact base m e hm

theorem pow10_length_le (n k : Nat) (h : 10 ^ k ≤ n) (B : Nat) (hB : n < 10 ^ B) : k < B := by
  have : 10 ^ k < 10 ^ B := lt_of_le_of_lt h hB
  exact (Nat.pow_lt_pow_iff_right (by norm_num : 1 < 10)).mp this

theorem ratio_bounds (f : F64) (hw : f.WF) :
    f.ratio.1 < 10 ^ 400 ∧ f.ratio.2 < 10 ^ 400 ∧ 0 < f.ratio.2 := by
  obtain ⟨w1, w2, w3, _⟩ := hw
  unfold F64.ratio
  split
  · refine ⟨?_, by norm_num, by norm_num⟩
    have h1 : 2 ^ f.exp.toNat ≤ 2 ^ 971 := Nat.pow_le_pow_right (by norm_num) (by omega)
    calc f.mant * 2 ^ f.exp.toNat ≤ 2 ^ 53 * 2 ^ 971 := Nat.mul_le_mul w1.le h1
      _ < 10 ^ 400 := by norm_num
  · refine ⟨lt_trans w1 (by norm_num), ?_, by positivity⟩
    have h1 : 2 ^ (-f.exp).toNat ≤ 2 ^ 1074 := Nat.pow_le_pow_right (by norm_num) (by omega)
    exact lt_of_le_of_lt h1 (by norm_num)

theorem decExponent_bound (num den : Nat) (hn : num < 10 ^ 400) (hd : den < 10 ^ 400) :
    -401 ≤ decExponent num den ∧ decExponent num den ≤ 401 := by
  have h1 := natDigits_length_le num 400 hn
  have h2 := natDigits_length_le den 400 hd
  unfold decExponent
  dsimp only
  split <;> constructor <;> omega

theorem tryDigits_bound (f : F64) (hw : f.WF) (p : Int) (n : Nat) (d : Decimal)
    (hp : -401 ≤ p ∧ p ≤ 401) (hn : n ≤ 17) (h : tryDigits f p n = some d) :
    d.mant < 10 ^ 1200 ∧ -1200 ≤ d.exp ∧ d.exp ≤ 1200 := by
  obtain ⟨r1, r2, r3⟩ := ratio_bounds f hw
  have hb := scale10_pos f.ratio.1 f.ratio.2 ((n : Int) - p) r3
  have ha : (scale10 f.ratio.1 f.ratio.2 ((n : Int) - p)).1 < 10 ^ 1000 := by
    unfold scale10
    split
    · have h1 : 10 ^ ((n : Int) - p).toNat ≤ 10 ^ 418 :=
        Nat.pow_le_pow_right (by norm_num) (by omega)
      calc f.ratio.1 * 10 ^ ((n : Int) - p).toNat ≤ 10 ^ 400 * 10 ^ 418 :=
            Nat.mul_le_mul r1.le h1
        _ < 10 ^ 1000 := by norm_num
    · exact lt_trans r1 (by norm_num)
  have hq : (scale10 f.ratio.1 f.ratio.2 ((n : Int) - p)).1
      / (scale10 f.ratio.1 f.ratio.2 ((n : Int) - p)).2 + 1 < 10 ^ 1200 := by
    have : (scale10 f.ratio.1 f.ratio.2 ((n : Int) - p)).1
        / (scale10 f.ratio.1 f.ratio.2 ((n : Int) - p)).2
        ≤ (scale10 f.ratio.1 f.ratio.2 ((n : Int) - p)).1 := Nat.div_le_self _ _
    have h2 : (10 : ℕ) ^ 1000 + 1 < 10 ^ 1200 := by norm_num
    omega
  unfold tryDigits at h
  dsimp only at h
  have key : ∀ m : Nat, m ≤ (scale10 f.ratio.1 f.ratio.2 ((n : Int) - p)).1
      / (scale10 f.ratio.1 f.ratio.2 ((n : Int) - p)).2 + 1 →
      (⟨f.neg, m, p - n⟩ : Decimal).mant < 10 ^ 1200 ∧
      -1200 ≤ (⟨f.neg, m, p - n⟩ : Decimal).exp ∧ (⟨f.neg, m, p - n⟩ : Decimal).exp ≤ 1200 := by
    intro m hm
    exact ⟨by dsimp only; omega, by dsimp only; omega, by dsimp only; omega⟩
  split at h
  · split at h <;> cases h
    · exact key _ (by omega)
    · exact key _ le_rfl
  · split at h
    · cases h; exact key _ (by omega)
    · split at h
      · cases h; exact key _ le_rfl
      · cases h

theorem exactDecimal_bound (f : F64) (hw : f.WF) :
    (exactDecimal f).mant < 10 ^ 1200 ∧ -1200 ≤ (exactDecimal f).exp ∧
    (exactDecimal f).exp ≤ 1200 := by
  obtain ⟨w1, w2, w3, _⟩ := hw
  unfold exactDecimal
  split
  · refine ⟨?_, by norm_num, by norm_num⟩
    have h1 : 2 ^ f.exp.toNat ≤ 2 ^ 971 := Nat.pow_le_pow_right (by norm_num) (by omega)
    calc f.mant * 2 ^ f.exp.toNat ≤ 2 ^ 53 * 2 ^ 971 := Nat.mul_le_mul w1.le h1
      _ < 10 ^ 1200 := by norm_num
  · refine ⟨?_, by dsimp only; omega, by dsimp only; omega⟩
    have h1 : 5 ^ (-f.exp).toNat ≤ 5 ^ 1074 := Nat.pow_le_pow_right (by norm_num) (by omega)
    calc f.mant * 5 ^ (-f.exp).toNat ≤ 2 ^ 53 * 5 ^ 1074 := Nat.mul_le_mul w1.le h1
      _ < 10 ^ 1200 := by norm_num

theorem shortestFrom_bound (f : F64) (hw : f.WF) (p : Int) (hp : -401 ≤ p ∧ p ≤ 401)
    (k n : Nat) (hkn : n + k ≤ 18) :
    (shortestFrom f p k n).mant < 10 ^ 1200 ∧ -1200 ≤ (shortestFrom f p k n).exp ∧
    (shortestFrom f p k n).exp ≤ 1200 := by
  induction k generalizing n with
  | zero => exact exactDecimal_bound f hw
  | succ k ih =>
    unfold shortestFrom
    cases ht : tryDigits f p n with
    | some d => exact tryDigits_bound f hw p n d hp (by omega) ht
    | none => exact ih (n + 1) (by omega)

theorem shortestDecimal_bound (f : F64) (hw : f.WF) :
    (shortestDecimal f).mant < 10 ^ 1200 ∧ -1200 ≤ (shortestDecimal f).exp ∧
    (shortestDecimal f).exp ≤ 1200 := by
  obtain ⟨r1, r2, _⟩ := ratio_bounds f hw
  exact shortestFrom_bound f hw _ (decExponent_bound _ _ r1 r2) 17 1 (by norm_num)

theorem fmtF_head (x : Nat) (t : List Nat) (dp : Int) (hx : x < 10) :
    ∃ d tl, d < 10 ∧ fmtF (x :: t) dp = digitChar d :: tl := by
  rcases le_or_lt dp 0 with hle | hpos
  · obtain ⟨k, rfl⟩ : ∃ k : Nat, dp = -(k : Int) := ⟨(-dp).toNat, by omega⟩
    rw [fmtF_neg _ _ (by simp)]
    exact ⟨0, _, by norm_num, rfl⟩
  · obtain ⟨j, rfl⟩ : ∃ j : Nat, dp = (j : Int) := ⟨dp.toNat, by omega⟩
    have hj0 : 0 < j := by omega
    obtain ⟨j1, rfl⟩ : ∃ j1, j = j1 + 1 := ⟨j - 1, by omega⟩
    rcases Nat.lt_or_ge (j1 + 1) (x :: t).length with hj | hj
    · rw [fmtF_mid _ _ hj0 hj]
      exact ⟨x, _, hx, rfl⟩
    · rw [fmtF_big _ _ hj0 hj]
      exact ⟨x, _, hx, rfl⟩

theorem fmtE_head (x : Nat) (t : List Nat) (dp : Int) (hx : x < 10) :
    ∃ d tl, d < 10 ∧ fmtE (x :: t) dp = digitChar d :: tl := by
  unfold fmtE
  exact ⟨x, _, hx, rfl⟩

theorem scanNumber_neg (cs : List Char) : scanNumber ('-' :: cs) = scanUnsigned true cs := by
  simp [scanNumber]

theorem scanNumber_pos (c : Char) (cs : List Char) (h : c ≠ '-') :
    scanNumber (c :: cs) = scanUnsigned false (c :: cs) := by
  simp [scanNumber, h]

/-- The unsigned part of what `formatFloat` writes. -/
theorem formatFloat_eq (f : F64) :
    formatFloat f = (if f.neg then ['-'] else []) ++
      (if f.mant = 0 then ['0']
        else if f.ratio.1 * 2 ^ 72 < 4722366482869645 * f.ratio.2 ∨ 10 ^ 21 * f.ratio.2 ≤ f.ratio.1
          then fmtE (natDigits (stripZeros (shortestDecimal f).mant (shortestDecimal f).mant
              (shortestDecimal f).exp).1)
            (((natDigits (stripZeros (shortestDecimal f).mant (shortestDecimal f).mant
              (shortestDecimal f).exp).1).length : Int)
              + (stripZeros (shortestDecimal f).mant (shortestDecimal f).mant
                (shortestDecimal f).exp).2)
          else fmtF (natDigits (stripZeros (shortestDecimal f).mant (shortestDecimal f).mant
              (shortestDecimal f).exp).1)
            (((natDigits (stripZeros (shortestDecimal f).mant (shortestDecimal f).mant
              (shortestDecimal f).exp).1).length : Int)
              + (stripZeros (shortestDecimal f).mant (shortestDecimal f).mant
                (shortestDecimal f).exp).2)) := rfl

theorem unsigned_scan (f : F64) (hw : f.WF) (neg : Bool) (hneg : f.neg = neg)
    (rest : List Char) (hrest : numEnd rest) :
    ∃ (body : List Char) (d : Decimal) (c : Char) (tl : List Char),
      formatFloat f = (if f.neg then ['-'] else []) ++ body ∧
      scanUnsigned neg (body ++ rest) = some (d, rest) ∧ parseFloat d = some f ∧
      body = c :: tl ∧ c ≠ '-' ∧ isDigit c = true := by
  by_cases hm : f.mant = 0
  · refine ⟨['0'], ⟨neg, 0, 0⟩, '0', [], ?_, ?_, ?_, rfl, by decide, by decide⟩
    · rw [formatFloat_eq, if_pos hm]
    · exact scanUnsigned_of neg _ _ _ _ _ _ _ (scanInt_zero rest) (scanFrac_end rest hrest)
        (scanExp_end rest hrest)
    · obtain ⟨_, _, _, w4⟩ := hw
      have he : f.exp = -1074 := by
        rcases w4 with w4 | w4
        · rw [hm] at w4; norm_num at w4
        · exact w4
      have : f = ⟨neg, 0, -1074⟩ := by
        cases f
        simp only at hm he hneg
        simp [hm, he, hneg]
      rw [this]
      rfl
  · have hs := shortestDecimal_sound f hw hm
    obtain ⟨b1, b2, b3⟩ := shortestDecimal_bound f hw
    have hd0 : (shortestDecimal f).mant ≠ 0 := by
      intro e0
      have : parseFloat (shortestDecimal f) = some ⟨(shortestDecimal f).neg, 0, -1074⟩ := by
        unfold parseFloat
        rw [if_pos e0]
      rw [hs] at this
      have h2 := Option.some.inj this
      exact hm (by rw [h2])
    obtain ⟨z1, z2, z3, z4, z5⟩ := stripZeros_spec (shortestDecimal f).mant
      (shortestDecimal f).mant (shortestDecimal f).exp hd0
    generalize hS : stripZeros (shortestDecimal f).mant (shortestDecimal f).mant
      (shortestDecimal f).exp = S at z1 z2 z3 z4 z5
    obtain ⟨x, t, hxt, hx0⟩ := natDigits_head S.1 z1
    have hds : ∀ d ∈ x :: t, d < 10 := by
      intro d hd
      rw [← hxt] at hd
      exact natDigits_lt _ _ hd
    have hlen : (natDigits S.1).length ≤ 1200 :=
      natDigits_length_le _ _ (lt_of_le_of_lt z3 b1)
    have hk : (S.2 - (shortestDecimal f).exp).toNat < 1200 := pow10_length_le _ _ z5 _ b1
    have hdp : ((((natDigits S.1).length : Int) + S.2) - 1).natAbs < 100000 := by omega
    have hval : ∀ d : Decimal, d.neg = neg →
        d.val = (ofDigits (x :: t) : ℚ)
          * (10 : ℚ) ^ ((((natDigits S.1).length : Int) + S.2) - ((x :: t).length : Int)) →
        parseFloat d = some f := by
      intro d hn hv
      rw [← hs]
      apply parseFloat_congr
      · rw [hn, ← hneg, (parseFloat_wf _ _ hs).2]
      · rw [hv, ← hxt, ofDigits_natDigits]
        unfold Decimal.val
        rw [← z2]
        congr 2
        ring
    by_cases hfmt : f.ratio.1 * 2 ^ 72 < 4722366482869645 * f.ratio.2 ∨
        10 ^ 21 * f.ratio.2 ≤ f.ratio.1
    · obtain ⟨d, h1, h2, h3⟩ := scanUnsigned_fmtE neg x t
        (((natDigits S.1).length : Int) + S.2) rest hx0 hds hrest hdp
      obtain ⟨c, tl, hc, htl⟩ := fmtE_head x t (((natDigits S.1).length : Int) + S.2)
        (hds x (by simp))
      refine ⟨_, d, digitChar c, tl, ?_, h1, hval d h2 h3, htl, (digitChar_spec c hc).2.2.2.2.2.1,
        (digitChar_spec c hc).1⟩
      rw [formatFloat_eq, if_neg hm, if_pos hfmt, hS, hxt]
    · obtain ⟨d, h1, h2, h3⟩ := scanUnsigned_fmtF neg x t
        (((natDigits S.1).length : Int) + S.2) rest hx0 hds hrest
      obtain ⟨c, tl, hc, htl⟩ := fmtF_head x t (((natDigits S.1).length : Int) + S.2)
        (hds x (by simp))
      refine ⟨_, d, digitChar c, tl, ?_, h1, hval d h2 h3, htl, (digitChar_spec c hc).2.2.2.2.2.1,
        (digitChar_spec c hc).1⟩
      rw [formatFloat_eq, if_neg hm, if_neg hfmt, hS, hxt]

theorem formatFloat_scan (f : F64) (hw : f.WF) (rest : List Char) (hrest : numEnd rest) :
    ∃ (d : Decimal) (c : Char) (tl : List Char),
      scanNumber (formatFloat f ++ rest) = some (d, rest) ∧ parseFloat d = some f ∧
      formatFloat f = c :: tl ∧ (c = '-' ∨ isDigit c = true) := by
  cases hn : f.neg with
  | true =>
    obtain ⟨body, d, c, tl, h1, h2, h3, _, _, _⟩ := unsigned_scan f hw true hn rest hrest
    rw [hn] at h1
    refine ⟨d, '-', body, ?_, h3, by rw [h1]; rfl, Or.inl rfl⟩
    rw [h1]
    simp only [if_true, List.singleton_append, List.cons_append]
    rw [scanNumber_neg]
    exact h2
  | false =>
    obtain ⟨body, d, c, tl, h1, h2, h3, h4, h5, h6⟩ := unsigned_scan f hw false hn rest hrest
    rw [hn] at h1
    simp only [Bool.false_eq_true, if_false, List.nil_append] at h1
    refine ⟨d, c, tl, ?_, h3, by rw [h1, h4], Or.inr h6⟩
    rw [h1, h4, List.cons_append, scanNumber_pos _ _ h5, ← List.cons_append, ← h4]
    exact h2

/-! ## Strings: what `Marshal` writes for a string is read back by the scanner -/

theorem hexVal_lowerhex (k : Nat) (h : k < 16) : hexVal (lowerhex k) = some k := by
  interval_cases k <;> decide

theorem hex4_cons (a b c d : Char) (rest : List Char) (x y z w : Nat)
    (ha : hexVal a = some x) (hb : hexVal b = some y) (hc : hexVal c = some z)
    (hd : hexVal d = some w) :
    hex4 (a :: b :: c :: d :: rest) = some (x * 4096 + y * 256 + z * 16 + w, rest) := by
  simp [hex4, ha, hb, hc, hd]

theorem decodeUnit_plain (rr : Nat) (rest : List Char) (h : ¬ (0xD800 ≤ rr ∧ rr < 0xE000)) :
    decodeUnit rr rest = (Char.ofNat rr, rest) := by
  unfold decodeUnit
  rw [if_neg h]

theorem scanString_u4 (f : Nat) (a b c d : Char) (rest : List Char) (x y z w : Nat) (ch : Char)
    (ha : hexVal a = some x) (hb : hexVal b = some y) (hc : hexVal c = some z)
    (hd : hexVal d = some w) (hlt : x * 4096 + y * 256 + z * 16 + w < 0xD800)
    (hch : Char.ofNat (x * 4096 + y * 256 + z * 16 + w) = ch) :
    scanString (f + 1) ('\\' :: 'u' :: a :: b :: c :: d :: rest)
      = (scanString f rest).map fun r => (ch :: r.1, r.2) := by
  rw [scanString_u_some f _ rest _ (hex4_cons a b c d rest x y z w ha hb hc hd)]
  rw [decodeUnit_plain _ _ (by omega), hch]

theorem char_eq_of_toNat (c : Char) (n : Nat) (h : c.toNat = n) : Char.ofNat n = c := by
  rw [← h, Char.ofNat_toNat]

theorem encodeChar_scan (c : Char) (f : Nat) (rest : List Char) :
    scanString (f + 1) (encodeChar c ++ rest)
      = (scanString f rest).map fun r => (c :: r.1, r.2) := by
  have esc : ∀ (e ch : Char), e ≠ 'u' → simpleEscape e = some ch → ch = c →
      scanString (f + 1) ('\\' :: e :: rest)
        = (scanString f rest).map fun r => (c :: r.1, r.2) := by
    intro e ch h1 h2 h3
    rw [scanString_esc_some f e ch rest h1 h2, h3]
  unfold encodeChar
  dsimp only
  by_cases h80 : c.toNat < 0x80
  · rw [if_pos h80]
    by_cases h1 : c = '\\' ∨ c = '"'
    · rw [if_pos h1]
      rcases h1 with rfl | rfl
      · exact esc _ _ (by decide) (by decide) rfl
      · exact esc _ _ (by decide) (by decide) rfl
    · rw [if_neg h1]
      by_cases h8 : c.toNat = 8
      · rw [if_pos h8]
        exact esc 'b' _ (by decide) (by decide) (char_eq_of_toNat c 8 h8)
      · rw [if_neg h8]
        by_cases h12 : c.toNat = 12
        · rw [if_pos h12]
          exact esc 'f' _ (by decide) (by decide) (char_eq_of_toNat c 12 h12)
        · rw [if_neg h12]
          by_cases h10 : c.toNat = 10
          · rw [if_pos h10]
            exact esc 'n' _ (by decide) (by decide) (char_eq_of_toNat c 10 h10)
          · rw [if_neg h10]
            by_cases h13 : c.toNat = 13
            · rw [if_pos h13]
              exact esc 'r' _ (by decide) (by decide) (char_eq_of_toNat c 13 h13)
            · rw [if_neg h13]
              by_cases h9 : c.toNat = 9
              · rw [if_pos h9]
                exact esc 't' _ (by decide) (by decide) (char_eq_of_toNat c 9 h9)
              · rw [if_neg h9]
                by_cases hu : c.toNat < 0x20 ∨ c = '<' ∨ c = '>' ∨ c = '&'
                · rw [if_pos hu]
                  have := scanString_u4 f '0' '0' (lowerhex (c.toNat / 16))
                    (lowerhex (c.toNat % 16)) rest 0 0 (c.toNat / 16) (c.toNat % 16) c
                    (by decide) (by decide) (hexVal_lowerhex _ (by omega))
                    (hexVal_lowerhex _ (by omega)) (by omega)
                    (char_eq_of_toNat c _ (by omega))
                  exact this
                · rw [if_neg hu]
                  push_neg at h1 hu
                  rw [List.singleton_append, scanString_plain f c rest h1.2 h1.1,
                    if_neg (by omega)]
  · rw [if_neg h80]
    have hq : c ≠ '"' := by
      intro e; rw [e] at h80; exact h80 (by decide)
    have hb : c ≠ '\\' := by
      intro e; rw [e] at h80; exact h80 (by decide)
    by_cases h2 : c.toNat = 0x2028 ∨ c.toNat = 0x2029
    · rw [if_pos h2]
      have := scanString_u4 f '2' '0' '2' (lowerhex (c.toNat % 16)) rest 2 0 2 (c.toNat % 16) c
        (by decide) (by decide) (by decide) (hexVal_lowerhex _ (by omega)) (by omega)
        (char_eq_of_toNat c _ (by omega))
      exact this
    · rw [if_neg h2, List.singleton_append, scanString_plain f c rest hq hb, if_neg (by omega)]

theorem encodeChar_ne_nil (c : Char) : 1 ≤ (encodeChar c).length := by
  unfold encodeChar
  dsimp only
  repeat' split
  all_goals simp

theorem flatMap_encodeChar_length (s : List Char) : s.length ≤ (s.flatMap encodeChar).length := by
  induction s with
  | nil => simp
  | cons c s ih =>
    simp only [List.flatMap_cons, List.length_append, List.length_cons]
    have := encodeChar_ne_nil c
    omega

theorem encodeString_scan (s : List Char) : ∀ (f : Nat) (rest : List Char), s.length < f →
    scanString f (s.flatMap encodeChar ++ '"' :: rest) = some (s, rest) := by
  induction s with
  | nil =>
    intro f rest h
    obtain ⟨g, rfl⟩ : ∃ g, f = g + 1 := ⟨f - 1, by simp at h; omega⟩
    simp [scanString_quote]
  | cons c s ih =>
    intro f rest h
    obtain ⟨g, rfl⟩ : ∃ g, f = g + 1 := ⟨f - 1, by simp at h; omega⟩
    rw [List.flatMap_cons, List.append_assoc, encodeChar_scan, ih g rest (by simpa using h)]
    rfl

/-- The text of a string after its opening quote is scanned back, with the fuel `scanValue` and
`scanMembers` give to `scanString`. -/
theorem encodeString_scan_length (s rest : List Char) :
    scanString (s.flatMap encodeChar ++ '"' :: rest).length
      (s.flatMap encodeChar ++ '"' :: rest) = some (s, rest) := by
  apply encodeString_scan
  have := flatMap_encodeChar_length s
  simp only [List.length_append, List.length_cons]
  omega

/-! ## Maps: key order, insertion, and the invariant of decoded values -/

theorem ltChars_irrefl (a : List Char) : ltChars a a = false := by
  induction a with
  | nil => rfl
  | cons c cs ih => simp [ltChars, ih]

theorem char_eq_of_toNat_eq (a b : Char) (h : a.toNat = b.toNat) : a = b := by
  rw [← Char.ofNat_toNat a, ← Char.ofNat_toNat b, h]

theorem ltChars_trans : ∀ (a b c : List Char), ltChars a b = true → ltChars b c = true →
    ltChars a c = true
  | [], [], _, h, _ => by simp [ltChars] at h
  | [], _ :: _, [], _, h => by simp [ltChars] at h
  | [], _ :: _, _ :: _, _, _ => by simp [ltChars]
  | _ :: _, [], _, h, _ => by simp [ltChars] at h
  | _ :: _, _ :: _, [], _, h => by simp [ltChars] at h
  | x :: xs, y :: ys, z :: zs, h1, h2 => by
    simp only [ltChars] at h1 h2 ⊢
    by_cases hxy : x.toNat < y.toNat
    · by_cases hyz : y.toNat < z.toNat
      · rw [if_pos (by omega)]
      · rw [if_neg hyz] at h2
        by_cases hzy : z.toNat < y.toNat
        · rw [if_pos hzy] at h2; cases h2
        · rw [if_pos (by omega)]
    · rw [if_neg hxy] at h1
      by_cases hyx : y.toNat < x.toNat
      · rw [if_pos hyx] at h1; cases h1
      · rw [if_neg hyx] at h1
        by_cases hyz : y.toNat < z.toNat
        · rw [if_pos (by omega)]
        · rw [if_neg hyz] at h2
          by_cases hzy : z.toNat < y.toNat
          · rw [if_pos hzy] at h2; cases h2
          · rw [if_neg hzy] at h2
            rw [if_neg (by omega), if_neg (by omega)]
            exact ltChars_trans xs ys zs h1 h2

theorem ltChars_total : ∀ (a b : List Char), ltChars a b = false → a ≠ b → ltChars b a = true
  | [], [], _, h => absurd rfl h
  | [], _ :: _, h, _ => by simp [ltChars] at h
  | _ :: _, [], _, _ => by simp [ltChars]
  | x :: xs, y :: ys, h1, h2 => by
    simp only [ltChars] at h1 ⊢
    by_cases hxy : x.toNat < y.toNat
    · rw [if_pos hxy] at h1; cases h1
    · rw [if_neg hxy] at h1
      by_cases hyx : y.toNat < x.toNat
      · rw [if_pos hyx]
      · rw [if_neg hyx] at h1
        rw [if_neg hyx, if_neg hxy]
        have hc : x = y := char_eq_of_toNat_eq x y (by omega)
        subst hc
        exact ltChars_total xs ys h1 (fun e => h2 (by rw [e]))

theorem ltChars_asymm (a b : List Char) (h : ltChars a b = true) : ltChars b a = false := by
  cases hb : ltChars b a with
  | false => rfl
  | true =>
    have := ltChars_trans a b a h hb
    rw [ltChars_irrefl] at this
    cases this

theorem ltChars_ne (a b : List Char) (h : ltChars a b = true) : a ≠ b := by
  intro e
  rw [e, ltChars_irrefl] at h
  cases h

theorem JMembers.spine {ν : Type} {P : JMembers ν → Prop} (nil : P .nil)
    (cons : ∀ k v rest, P rest → P (.cons k v rest)) : ∀ m, P m
  | .nil => nil
  | .cons k v rest => cons k v rest (JMembers.spine nil cons rest)

theorem keys_append {ν : Type} (a b : JMembers ν) : (a.append b).keys = a.keys ++ b.keys := by
  induction a using JMembers.spine with
  | nil => rfl
  | cons k v rest ih => simp [JMembers.append, JMembers.keys, ih]

theorem append_assoc {ν : Type} (a b c : JMembers ν) :
    (a.append b).append c = a.append (b.append c) := by
  induction a using JMembers.spine with
  | nil => rfl
  | cons k v rest ih => simp [JMembers.append, ih]

theorem mapInsert_keys_mem (k : List Char) (v : JVal F64) (m : JMembers F64) (x : List Char) :
    x ∈ (mapInsert k v m).keys ↔ x = k ∨ x ∈ m.keys := by
  induction m using JMembers.spine with
  | nil => simp [mapInsert, JMembers.keys]
  | cons k1 v1 rest ih =>
    unfold mapInsert
    by_cases h1 : ltChars k k1 = true
    · rw [if_pos h1]; simp [JMembers.keys]
    · rw [if_neg h1]
      by_cases h2 : k = k1
      · rw [if_pos h2]; subst h2; simp [JMembers.keys]
      · rw [if_neg h2]
        simp only [JMembers.keys, List.mem_cons, ih]
        tauto

theorem mapInsert_sorted (k : List Char) (v : JVal F64) (m : JMembers F64)
    (h : keysSorted m.keys) : keysSorted (mapInsert k v m).keys := by
  induction m using JMembers.spine with
  | nil => simp [mapInsert, JMembers.keys, keysSorted]
  | cons k1 v1 rest ih =>
    unfold keysSorted at h ih ⊢
    simp only [JMembers.keys, List.pairwise_cons] at h
    obtain ⟨h1, h2⟩ := h
    unfold mapInsert
    by_cases c1 : ltChars k k1 = true
    · rw [if_pos c1]
      simp only [JMembers.keys, List.pairwise_cons, List.mem_cons]
      refine ⟨?_, h1, h2⟩
      intro a ha
      rcases ha with rfl | ha
      · exact c1
      · exact ltChars_trans _ _ _ c1 (h1 a ha)
    · rw [if_neg c1]
      by_cases c2 : k = k1
      · rw [if_pos c2]
        subst c2
        simp only [JMembers.keys, List.pairwise_cons]
        exact ⟨h1, h2⟩
      · rw [if_neg c2]
        simp only [JMembers.keys, List.pairwise_cons]
        refine ⟨?_, ih h2⟩
        intro a ha
        rcases (mapInsert_keys_mem k v rest a).mp ha with rfl | ha
        · exact ltChars_total _ _ (by simpa using c1) c2
        · exact h1 a ha

theorem mapInsert_wf (k : List Char) (v : JVal F64) (m : JMembers F64) (hv : v.WF)
    (hm : m.WF) : (mapInsert k v m).WF := by
  induction m using JMembers.spine with
  | nil => simp [mapInsert, JMembers.WF, hv]
  | cons k1 v1 rest ih =>
    simp only [JMembers.WF] at hm
    unfold mapInsert
    by_cases c1 : ltChars k k1 = true
    · rw [if_pos c1]; simp [JMembers.WF, hv, hm]
    · rw [if_neg c1]
      by_cases c2 : k = k1
      · rw [if_pos c2]; simp [JMembers.WF, hv, hm]
      · rw [if_neg c2]; simp [JMembers.WF, hm, ih hm.2]

theorem mapInsert_depth (k : List Char) (v : JVal F64) (m : JMembers F64) :
    (mapInsert k v m).depth ≤ max v.depth m.depth := by
  induction m using JMembers.spine with
  | nil => simp [mapInsert, JMembers.depth]
  | cons k1 v1 rest ih =>
    unfold mapInsert
    by_cases c1 : ltChars k k1 = true
    · rw [if_pos c1]; simp [JMembers.depth]
    · rw [if_neg c1]
      by_cases c2 : k = k1
      · rw [if_pos c2]; simp only [JMembers.depth]; omega
      · rw [if_neg c2]; simp only [JMembers.depth]; omega

theorem mapInsert_last (k : List Char) (v : JVal F64) (m : JMembers F64)
    (h : ∀ x ∈ m.keys, ltChars x k = true) : mapInsert k v m = m.append (.cons k v .nil) := by
  induction m using JMembers.spine with
  | nil => rfl
  | cons k1 v1 rest ih =>
    have h1 := h k1 (by simp [JMembers.keys])
    unfold mapInsert
    rw [if_neg (by rw [ltChars_asymm _ _ h1]; simp), if_neg (fun e => ltChars_ne _ _ h1 e.symm)]
    rw [ih (fun x hx => h x (by simp [JMembers.keys, hx]))]
    rfl

mutual
theorem toGo_inv : ∀ (t : JVal Decimal) (g : JVal F64), toGo t = .ok g →
    g.WF ∧ g.depth ≤ t.depth
  | .null, g, h => by
    simp only [toGo, Except.ok.injEq] at h
    subst h
    exact ⟨trivial, le_rfl⟩
  | .bool b, g, h => by
    simp only [toGo, Except.ok.injEq] at h
    subst h
    exact ⟨trivial, le_rfl⟩
  | .str s, g, h => by
    simp only [toGo, Except.ok.injEq] at h
    subst h
    exact ⟨trivial, le_rfl⟩
  | .num d, g, h => by
    simp only [toGo] at h
    cases hp : parseFloat d with
    | none => rw [hp] at h; cases h
    | some f =>
      rw [hp] at h
      simp only [Except.ok.injEq] at h
      subst h
      exact ⟨(parseFloat_wf d f hp).1, le_rfl⟩
  | .arr xs, g, h => by
    simp only [toGo] at h
    cases hl : toGoList xs with
    | error e => rw [hl] at h; cases h
    | ok ys =>
      rw [hl] at h
      simp only [Except.ok.injEq] at h
      subst h
      obtain ⟨a, b⟩ := toGoList_inv xs ys hl
      exact ⟨a, by simp only [JVal.depth]; omega⟩
  | .obj ms, g, h => by
    simp only [toGo] at h
    cases hl : toGoMembers ms .nil with
    | error e => rw [hl] at h; cases h
    | ok m =>
      rw [hl] at h
      simp only [Except.ok.injEq] at h
      subst h
      obtain ⟨a, b, c⟩ := toGoMembers_inv ms .nil m hl trivial List.Pairwise.nil
      refine ⟨⟨a, b⟩, ?_⟩
      simp only [JVal.depth, JMembers.depth] at c ⊢
      omega
theorem toGoList_inv : ∀ (ts : JList Decimal) (l : JList F64), toGoList ts = .ok l →
    l.WF ∧ l.depth ≤ ts.depth
  | .nil, l, h => by
    simp only [toGoList, Except.ok.injEq] at h
    subst h
    exact ⟨trivial, le_rfl⟩
  | .cons x xs, l, h => by
    simp only [toGoList] at h
    cases hx : toGo x with
    | error e => rw [hx] at h; cases h
    | ok y =>
      rw [hx] at h
      cases hl : toGoList xs with
      | error e => rw [hl] at h; cases h
      | ok ys =>
        rw [hl] at h
        simp only [Except.ok.injEq] at h
        subst h
        obtain ⟨a, b⟩ := toGo_inv x y hx
        obtain ⟨c, d⟩ := toGoList_inv xs ys hl
        exact ⟨⟨a, c⟩, by simp only [JList.depth]; omega⟩
theorem toGoMembers_inv : ∀ (ms : JMembers Decimal) (acc m : JMembers F64),
    toGoMembers ms acc = .ok m → acc.WF → keysSorted acc.keys →
    m.WF ∧ keysSorted m.keys ∧ m.depth ≤ max acc.depth ms.depth
  | .nil, acc, m, h, h1, h2 => by
    simp only [toGoMembers, Except.ok.injEq] at h
    subst h
    exact ⟨h1, h2, by simp⟩
  | .cons k v rest, acc, m, h, h1, h2 => by
    simp only [toGoMembers] at h
    cases hv : toGo v with
    | error e => rw [hv] at h; cases h
    | ok w =>
      rw [hv] at h
      obtain ⟨a, b⟩ := toGo_inv v w hv
      obtain ⟨c, d, e⟩ := toGoMembers_inv rest (mapInsert k w acc) m h
        (mapInsert_wf k w acc a h1) (mapInsert_sorted k w acc h2)
      have := mapInsert_depth k w acc
      refine ⟨c, d, ?_⟩
      simp only [JMembers.depth]
      omega
end

theorem map_some_inv {α β : Type} {x : Option (α × List Char)} {g : α → β}
    {y : β} {rest : List Char}
    (hx : x.map (fun r => (g r.1, r.2)) = some (y, rest)) :
    ∃ a, x = some (a, rest) ∧ y = g a := by
  cases x with
  | none => simp at hx
  | some p =>
    obtain ⟨a, r⟩ := p
    simp only [Option.map_some', Option.some.injEq, Prod.mk.injEq] at hx
    exact ⟨a, by rw [hx.2], hx.1.symm⟩

theorem scan_depth (f : Nat) :
    (∀ (d : Nat) (cs : List Char) (v : JVal Decimal) (rest : List Char),
      scanValue f d cs = some (v, rest) → d ≤ maxNestingDepth →
      d + v.depth ≤ maxNestingDepth) ∧
    (∀ (d : Nat) (cs : List Char) (xs : JList Decimal) (rest : List Char),
      scanElems f d cs = some (xs, rest) → d ≤ maxNestingDepth →
      d + xs.depth ≤ maxNestingDepth) ∧
    (∀ (d : Nat) (cs : List Char) (ms : JMembers Decimal) (rest : List Char),
      scanMembers f d cs = some (ms, rest) → d ≤ maxNestingDepth →
      d + ms.depth ≤ maxNestingDepth) := by
  induction f with
  | zero =>
    refine ⟨?_, ?_, ?_⟩ <;> intro d cs v rest h <;>
      simp [scanValue, scanElems, scanMembers] at h
  | succ f ih =>
    obtain ⟨ihV, ihE, ihM⟩ := ih
    refine ⟨?_, ?_, ?_⟩
    · intro d cs v rest h hd0
      cases hs : skipSpace cs with
      | nil => rw [scanValue_eof f d cs hs] at h; simp at h
      | cons c rest0 =>
        by_cases h1 : c = '{'
        · subst h1
          by_cases hd : maxNestingDepth ≤ d
          · rw [scanValue_deep f d cs rest0 _ hs (Or.inl rfl) hd] at h; simp at h
          · cases hs1 : skipSpace rest0 with
            | nil => rw [scanValue_obj_eof f d cs rest0 hs hs1] at h; simp at h
            | cons c1 rest1 =>
              by_cases hc1 : c1 = '}'
              · subst hc1
                rw [scanValue_obj_nil f d cs rest0 rest1 hs hd hs1] at h
                simp only [Option.some.injEq, Prod.mk.injEq] at h
                rw [← h.1]
                simp only [JVal.depth, JMembers.depth]
                omega
              · rw [scanValue_obj f d cs rest0 rest1 c1 hs hd hs1 hc1] at h
                obtain ⟨ms, hm, rfl⟩ := map_some_inv h
                have := ihM (d + 1) _ ms rest hm (by omega)
                simp only [JVal.depth]
                omega
        · by_cases h2 : c = '['
          · subst h2
            by_cases hd : maxNestingDepth ≤ d
            · rw [scanValue_deep f d cs rest0 _ hs (Or.inr rfl) hd] at h; simp at h
            · cases hs1 : skipSpace rest0 with
              | nil => rw [scanValue_arr_eof f d cs rest0 hs hs1] at h; simp at h
              | cons c1 rest1 =>
                by_cases hc1 : c1 = ']'
                · subst hc1
                  rw [scanValue_arr_nil f d cs rest0 rest1 hs hd hs1] at h
                  simp only [Option.some.injEq, Prod.mk.injEq] at h
                  rw [← h.1]
                  simp only [JVal.depth, JList.depth]
                  omega
                · rw [scanValue_arr f d cs rest0 rest1 c1 hs hd hs1 hc1] at h
                  obtain ⟨xs, hx, rfl⟩ := map_some_inv h
                  have := ihE (d + 1) _ xs rest hx (by omega)
                  simp only [JVal.depth]
                  omega
          · by_cases h3 : c = '"'
            · subst h3
              rw [scanValue_str f d cs rest0 hs] at h
              obtain ⟨s, _, rfl⟩ := map_some_inv h
              simp only [JVal.depth]; omega
            · have word : ∀ (w : List Char) (b : JVal Decimal), b.depth = 0 →
                  (stripWord w rest0).map (fun r => (b, r)) = some (v, rest) →
                  d + v.depth ≤ maxNestingDepth := by
                intro w b hb hw
                cases hx : stripWord w rest0 with
                | none => simp [hx] at hw
                | some r =>
                  simp only [hx, Option.map_some', Option.some.injEq, Prod.mk.injEq] at hw
                  rw [← hw.1, hb]; omega
              by_cases h4 : c = 't'
              · subst h4
                rw [scanValue_true f d cs rest0 hs] at h
                exact word _ (.bool true) rfl h
              · by_cases h5 : c = 'f'
                · subst h5
                  rw [scanValue_false f d cs rest0 hs] at h
                  exact word _ (.bool false) rfl h
                · by_cases h6 : c = 'n'
                  · subst h6
                    rw [scanValue_null f d cs rest0 hs] at h
                    exact word _ .null rfl h
                  · rw [scanValue_num f d cs rest0 c hs h1 h2 h3 h4 h5 h6] at h
                    obtain ⟨s, _, rfl⟩ := map_some_inv h
                    simp only [JVal.depth]; omega
    · intro d cs xs rest h hd0
      cases hv : scanValue f d cs with
      | none => rw [scanElems_fail f d cs hv] at h; simp at h
      | some p =>
        obtain ⟨v, rest0⟩ := p
        cases hs : skipSpace rest0 with
        | nil => rw [scanElems_eof f d cs rest0 v hv hs] at h; simp at h
        | cons c rest1 =>
          have hv' := ihV d cs v rest0 hv hd0
          rw [scanElems_step f d cs rest0 rest1 v c hv hs] at h
          by_cases hc : c = ','
          · rw [if_pos hc] at h
            obtain ⟨ys, hy, rfl⟩ := map_some_inv h
            have := ihE d rest1 ys rest hy hd0
            simp only [JList.depth]
            omega
          · rw [if_neg hc] at h
            by_cases hc2 : c = ']'
            · rw [if_pos hc2] at h
              simp only [Option.some.injEq, Prod.mk.injEq] at h
              rw [← h.1]
              simp only [JList.depth]
              omega
            · rw [if_neg hc2] at h; simp at h
    · intro d cs ms rest h hd0
      cases hs : skipSpace cs with
      | nil => rw [scanMembers_eof f d cs hs] at h; simp at h
      | cons c rest0 =>
        by_cases hc : c = '"'
        · subst hc
          cases hk : scanString rest0.length rest0 with
          | none => rw [scanMembers_badkey f d cs rest0 hs hk] at h; simp at h
          | some p =>
            obtain ⟨k, rest1⟩ := p
            cases hs1 : skipSpace rest1 with
            | nil =>
              rw [scanMembers_nocolon f d cs rest0 rest1 k hs hk (Or.inl hs1)] at h; simp at h
            | cons c1 rest2 =>
              by_cases hc1 : c1 = ':'
              · subst hc1
                cases hv : scanValue f d rest2 with
                | none =>
                  rw [scanMembers_badvalue f d cs rest0 rest1 rest2 k hs hk hs1 (Or.inl hv)] at h
                  simp at h
                | some q =>
                  obtain ⟨v, rest3⟩ := q
                  cases hs3 : skipSpace rest3 with
                  | nil =>
                    rw [scanMembers_badvalue f d cs rest0 rest1 rest2 k hs hk hs1
                      (Or.inr ⟨v, rest3, hv, hs3⟩)] at h
                    simp at h
                  | cons c3 rest4 =>
                    have hv' := ihV d rest2 v rest3 hv hd0
                    rw [scanMembers_step f d cs rest0 rest1 rest2 rest3 rest4 k v c3 hs hk hs1
                      hv hs3] at h
                    by_cases hc3 : c3 = ','
                    · rw [if_pos hc3] at h
                      obtain ⟨ys, hy, rfl⟩ := map_some_inv h
                      have := ihM d rest4 ys rest hy hd0
                      simp only [JMembers.depth]
                      omega
                    · rw [if_neg hc3] at h
                      by_cases hc4 : c3 = '}'
                      · rw [if_pos hc4] at h
                        simp only [Option.some.injEq, Prod.mk.injEq] at h
                        rw [← h.1]
                        simp only [JMembers.depth]
                        omega
                      · rw [if_neg hc4] at h; simp at h
              · rw [scanMembers_nocolon f d cs rest0 rest1 k hs hk
                  (Or.inr ⟨c1, rest2, hs1, hc1⟩)] at h
                simp at h
        · rw [scanMembers_nokey f d cs rest0 c hs hc] at h; simp at h

/-! ## Decoding what `Marshal` wrote -/

theorem encodeValue_arr (x : JVal F64) (xs : JList F64) :
    encodeValue (.arr (.cons x xs)) = '[' :: elemsText (.cons x xs) := by
  simp [encodeValue, elemsText]

theorem encodeElems_cons (x : JVal F64) (xs : JList F64) :
    encodeElems (.cons x xs) = ',' :: elemsText (.cons x xs) := by
  simp [encodeElems, elemsText]

theorem encodeValue_obj (k : List Char) (v : JVal F64) (m : JMembers F64) :
    encodeValue (.obj (.cons k v m)) = '{' :: membersText (.cons k v m) := by
  simp [encodeValue, membersText]

theorem encodeMembers_cons (k : List Char) (v : JVal F64) (m : JMembers F64) :
    encodeMembers (.cons k v m) = ',' :: membersText (.cons k v m) := by
  simp [encodeMembers, membersText]

theorem skipSpace_cons (c : Char) (r : List Char) (h : isSpace c = false) :
    skipSpace (c :: r) = c :: r := by
  simp [skipSpace, h]

theorem isDigit_digitChar (c : Char) (h : isDigit c = true) :
    ∃ d, d < 10 ∧ c = digitChar d := by
  unfold isDigit at h
  simp only [decide_eq_true_eq] at h
  refine ⟨c.toNat - 48, by omega, ?_⟩
  unfold digitChar
  rw [show 48 + (c.toNat - 48) = c.toNat from by omega, Char.ofNat_toNat]

theorem digit_start (c : Char) (h : isDigit c = true) :
    valueStart c ∧ c ≠ '{' ∧ c ≠ '[' ∧ c ≠ '"' ∧ c ≠ 't' ∧ c ≠ 'f' ∧ c ≠ 'n' := by
  obtain ⟨d, hd, rfl⟩ := isDigit_digitChar c h
  have := digitChar_spec d hd
  refine ⟨⟨this.2.2.2.2.2.2.2.2.1, ?_, ?_⟩, by tauto⟩
  · interval_cases d <;> decide
  · interval_cases d <;> decide

theorem numEnd_close (c : Char) (r : List Char) (h : c = ',' ∨ c = ']' ∨ c = '}') :
    numEnd (c :: r) := by
  intro c1 r1 e
  simp only [List.cons.injEq] at e
  rw [← e.1]
  rcases h with rfl | rfl | rfl <;> decide

theorem numEnd_nil : numEnd [] := by
  intro c r e
  cases e

theorem encodeElems_head (xs : JList F64) :
    ∃ c tl, encodeElems xs = c :: tl ∧ (c = ',' ∨ c = ']') ∧ isSpace c = false := by
  cases xs with
  | nil => exact ⟨']', [], by simp [encodeElems], Or.inr rfl, by decide⟩
  | cons x xs => exact ⟨',', _, encodeElems_cons x xs, Or.inl rfl, by decide⟩

theorem encodeMembers_head (m : JMembers F64) :
    ∃ c tl, encodeMembers m = c :: tl ∧ (c = ',' ∨ c = '}') ∧ isSpace c = false := by
  cases m with
  | nil => exact ⟨'}', [], by simp [encodeMembers], Or.inr rfl, by decide⟩
  | cons k v m => exact ⟨',', _, encodeMembers_cons k v m, Or.inl rfl, by decide⟩

theorem encodeValue_head (g : JVal F64) (hw : g.WF) :
    ∃ c tl, encodeValue g = c :: tl ∧ valueStart c := by
  cases g with
  | null => exact ⟨'n', ['u', 'l', 'l'], by simp [encodeValue], by decide, by decide, by decide⟩
  | bool b =>
    cases b
    · exact ⟨'f', ['a', 'l', 's', 'e'], by simp [encodeValue], by decide, by decide, by decide⟩
    · exact ⟨'t', ['r', 'u', 'e'], by simp [encodeValue], by decide, by decide, by decide⟩
  | num f =>
    obtain ⟨d, c, tl, _, _, h3, h4⟩ := formatFloat_scan f (by simpa [JVal.WF] using hw) []
      numEnd_nil
    refine ⟨c, tl, by simp [encodeValue, h3], ?_⟩
    rcases h4 with rfl | h4
    · exact ⟨by decide, by decide, by decide⟩
    · exact (digit_start c h4).1
  | str s =>
    exact ⟨'"', s.flatMap encodeChar ++ ['"'], by simp [encodeValue, encodeString], by decide,
      by decide, by decide⟩
  | arr xs =>
    cases xs with
    | nil => exact ⟨'[', [']'], by simp [encodeValue], by decide, by decide, by decide⟩
    | cons x xs => exact ⟨'[', _, encodeValue_arr x xs, by decide, by decide, by decide⟩
  | obj m =>
    cases m with
    | nil => exact ⟨'{', ['}'], by simp [encodeValue], by decide, by decide, by decide⟩
    | cons k v m => exact ⟨'{', _, encodeValue_obj k v m, by decide, by decide, by decide⟩

theorem elemsText_length (x : JVal F64) (xs : JList F64) :
    (elemsText (.cons x xs)).length = (encodeValue x).length + (encodeElems xs).length := by
  simp [elemsText]

theorem encodeElems_length (xs : JList F64) :
    (encodeElems xs).length = (elemsText xs).length + 1 := by
  cases xs with
  | nil => simp [encodeElems, elemsText]
  | cons x xs => rw [encodeElems_cons]; simp

theorem encodeMembers_length (m : JMembers F64) :
    (encodeMembers m).length = (membersText m).length + 1 := by
  cases m with
  | nil => simp [encodeMembers, membersText]
  | cons k v m => rw [encodeMembers_cons]; simp

theorem membersText_cons (k : List Char) (v : JVal F64) (m : JMembers F64) (rest : List Char) :
    membersText (.cons k v m) ++ rest
      = '"' :: (k.flatMap encodeChar ++ '"' :: ':' :: (encodeValue v ++ (encodeMembers m ++ rest))) := by
  simp [membersText, encodeString]

theorem membersText_length (k : List Char) (v : JVal F64) (m : JMembers F64) :
    (membersText (.cons k v m)).length
      = (encodeString k).length + 1 + (encodeValue v).length + (encodeMembers m).length := by
  simp [membersText]
  omega

mutual
theorem scan_encodeValue : ∀ (g : JVal F64), g.WF → ∀ (f d : Nat) (rest : List Char),
    d + g.depth ≤ maxNestingDepth → (encodeValue g).length ≤ f → numEnd rest →
    ∃ t, scanValue f d (encodeValue g ++ rest) = some (t, rest) ∧ toGo t = .ok g
  | .null, _, f, d, rest, _, hf, _ => by
    obtain ⟨f1, rfl⟩ : ∃ f1, f = f1 + 1 := ⟨f - 1, by simp [encodeValue] at hf; omega⟩
    refine ⟨.null, ?_, by simp [toGo]⟩
    have e : encodeValue .null ++ rest = 'n' :: 'u' :: 'l' :: 'l' :: rest := by
      simp [encodeValue]
    rw [e, scanValue_null f1 d _ ('u' :: 'l' :: 'l' :: rest) (skipSpace_cons _ _ (by decide))]
    simp [stripWord]
  | .bool true, _, f, d, rest, _, hf, _ => by
    obtain ⟨f1, rfl⟩ : ∃ f1, f = f1 + 1 := ⟨f - 1, by simp [encodeValue] at hf; omega⟩
    refine ⟨.bool true, ?_, by simp [toGo]⟩
    have e : encodeValue (.bool true) ++ rest = 't' :: 'r' :: 'u' :: 'e' :: rest := by
      simp [encodeValue]
    rw [e, scanValue_true f1 d _ ('r' :: 'u' :: 'e' :: rest) (skipSpace_cons _ _ (by decide))]
    simp [stripWord]
  | .bool false, _, f, d, rest, _, hf, _ => by
    obtain ⟨f1, rfl⟩ : ∃ f1, f = f1 + 1 := ⟨f - 1, by simp [encodeValue] at hf; omega⟩
    refine ⟨.bool false, ?_, by simp [toGo]⟩
    have e : encodeValue (.bool false) ++ rest = 'f' :: 'a' :: 'l' :: 's' :: 'e' :: rest := by
      simp [encodeValue]
    rw [e, scanValue_false f1 d _ ('a' :: 'l' :: 's' :: 'e' :: rest)
      (skipSpace_cons _ _ (by decide))]
    simp [stripWord]
  | .num x, hw, f, d, rest, _, hf, hrest => by
    obtain ⟨dd, c, tl, h1, h2, h3, h4⟩ := formatFloat_scan x (by simpa [JVal.WF] using hw) rest
      hrest
    have e : encodeValue (.num x) = c :: tl := by simp [encodeValue, h3]
    obtain ⟨f1, rfl⟩ : ∃ f1, f = f1 + 1 := ⟨f - 1, by rw [e] at hf; simp at hf; omega⟩
    refine ⟨.num dd, ?_, by simp [toGo, h2]⟩
    rw [h3] at h1
    rw [e, List.cons_append]
    have hc : isSpace c = false ∧ c ≠ '{' ∧ c ≠ '[' ∧ c ≠ '"' ∧ c ≠ 't' ∧ c ≠ 'f' ∧ c ≠ 'n' := by
      rcases h4 with rfl | h4
      · decide
      · have := digit_start c h4
        exact ⟨this.1.1, this.2⟩
    rw [scanValue_num f1 d _ (tl ++ rest) c (skipSpace_cons _ _ hc.1) hc.2.1 hc.2.2.1 hc.2.2.2.1
      hc.2.2.2.2.1 hc.2.2.2.2.2.1 hc.2.2.2.2.2.2]
    rw [List.cons_append] at h1
    rw [h1]
    rfl
  | .str s, _, f, d, rest, _, hf, _ => by
    obtain ⟨f1, rfl⟩ : ∃ f1, f = f1 + 1 :=
      ⟨f - 1, by simp [encodeValue, encodeString] at hf; omega⟩
    refine ⟨.str s, ?_, by simp [toGo]⟩
    have e : encodeValue (.str s) ++ rest = '"' :: (s.flatMap encodeChar ++ '"' :: rest) := by
      simp [encodeValue, encodeString]
    rw [e, scanValue_str f1 d _ _ (skipSpace_cons _ _ (by decide)), encodeString_scan_length]
    rfl
  | .arr xs, hw, f, d, rest, hd, hf, _ => by
    have ih := scan_elems xs
    cases xs with
    | nil =>
      obtain ⟨f1, rfl⟩ : ∃ f1, f = f1 + 1 := ⟨f - 1, by simp [encodeValue] at hf; omega⟩
      refine ⟨.arr .nil, ?_, by simp [toGo, toGoList]⟩
      have e : encodeValue (.arr .nil) ++ rest = '[' :: ']' :: rest := by simp [encodeValue]
      simp only [JVal.depth, JList.depth] at hd
      rw [e, scanValue_arr_nil f1 d _ (']' :: rest) rest (skipSpace_cons _ _ (by decide))
        (by omega) (skipSpace_cons _ _ (by decide))]
    | cons x xs1 =>
      rw [encodeValue_arr] at hf ⊢
      obtain ⟨f1, rfl⟩ : ∃ f1, f = f1 + 1 := ⟨f - 1, by simp at hf; omega⟩
      simp only [JVal.depth] at hd
      simp only [JVal.WF] at hw
      obtain ⟨ts, h1, h2⟩ := ih hw f1 (d + 1) rest (by omega) (by simpa using hf) (by simp)
      obtain ⟨c1, tl1, hc1, hstart⟩ := encodeValue_head x (by
        simp only [JList.WF] at hw; exact hw.1)
      have e : elemsText (.cons x xs1) ++ rest = c1 :: (tl1 ++ encodeElems xs1 ++ rest) := by
        simp [elemsText, hc1]
      rw [e] at h1
      rw [List.cons_append, e,
        scanValue_arr f1 d _ _ _ c1 (skipSpace_cons _ _ (by decide)) (by omega)
          (skipSpace_cons _ _ hstart.1) hstart.2.1, h1]
      exact ⟨.arr ts, rfl, by simp [toGo, h2]⟩
  | .obj m, hw, f, d, rest, hd, hf, _ => by
    have ih := scan_members m
    cases m with
    | nil =>
      obtain ⟨f1, rfl⟩ : ∃ f1, f = f1 + 1 := ⟨f - 1, by simp [encodeValue] at hf; omega⟩
      refine ⟨.obj .nil, ?_, by simp [toGo, toGoMembers]⟩
      have e : encodeValue (.obj .nil) ++ rest = '{' :: '}' :: rest := by simp [encodeValue]
      simp only [JVal.depth, JMembers.depth] at hd
      rw [e, scanValue_obj_nil f1 d _ ('}' :: rest) rest (skipSpace_cons _ _ (by decide))
        (by omega) (skipSpace_cons _ _ (by decide))]
    | cons k v m1 =>
      rw [encodeValue_obj] at hf ⊢
      obtain ⟨f1, rfl⟩ : ∃ f1, f = f1 + 1 := ⟨f - 1, by simp at hf; omega⟩
      simp only [JVal.depth] at hd
      simp only [JVal.WF] at hw
      obtain ⟨ms, h1, h2⟩ := ih hw.1 f1 (d + 1) rest (by omega) (by simpa using hf) (by simp)
      rw [membersText_cons] at h1
      rw [List.cons_append, membersText_cons,
        scanValue_obj f1 d _ _ _ '"' (skipSpace_cons _ _ (by decide)) (by omega)
          (skipSpace_cons _ _ (by decide)) (by decide), h1]
      refine ⟨.obj ms, rfl, ?_⟩
      have := h2 .nil (by simpa [JMembers.keys] using hw.2)
      simp [toGo, this, JMembers.append]
theorem scan_elems : ∀ (l : JList F64), l.WF → ∀ (f d : Nat) (rest : List Char),
    d + l.depth ≤ maxNestingDepth → (elemsText l).length ≤ f → l ≠ .nil →
    ∃ ts, scanElems f d (elemsText l ++ rest) = some (ts, rest) ∧ toGoList ts = .ok l
  | .nil, _, _, _, _, _, _, hne => absurd rfl hne
  | .cons x xs, hw, f, d, rest, hd, hf, _ => by
    have ihx := scan_encodeValue x
    have ihxs := scan_elems xs
    simp only [JList.WF] at hw
    simp only [JList.depth] at hd
    rw [elemsText_length, encodeElems_length] at hf
    obtain ⟨f1, rfl⟩ : ∃ f1, f = f1 + 1 := ⟨f - 1, by omega⟩
    obtain ⟨c, tl, hc, hc2, hc3⟩ := encodeElems_head xs
    obtain ⟨t, h1, h2⟩ := ihx hw.1 f1 d (encodeElems xs ++ rest) (by omega) (by omega)
      (by rw [hc, List.cons_append]; exact numEnd_close c _ (by tauto))
    have e : elemsText (.cons x xs) ++ rest = encodeValue x ++ (encodeElems xs ++ rest) := by
      simp [elemsText]
    rw [e]
    cases xs with
    | nil =>
      have e2 : encodeElems .nil ++ rest = ']' :: rest := by simp [encodeElems]
      rw [e2] at h1 ⊢
      rw [scanElems_step f1 d _ _ rest t ']' h1 (skipSpace_cons _ _ (by decide))]
      exact ⟨.cons t .nil, by simp, by simp [toGoList, h2]⟩
    | cons y ys =>
      have e2 : encodeElems (.cons y ys) ++ rest = ',' :: (elemsText (.cons y ys) ++ rest) := by
        rw [encodeElems_cons]; rfl
      rw [e2] at h1 ⊢
      obtain ⟨ts, h3, h4⟩ := ihxs hw.2 f1 d rest (by omega) (by omega) (by simp)
      rw [scanElems_step f1 d _ _ _ t ',' h1 (skipSpace_cons _ _ (by decide)), if_pos rfl, h3]
      exact ⟨.cons t ts, rfl, by simp [toGoList, h2, h4]⟩
theorem scan_members : ∀ (l : JMembers F64), l.WF → ∀ (f d : Nat) (rest : List Char),
    d + l.depth ≤ maxNestingDepth → (membersText l).length ≤ f → l ≠ .nil →
    ∃ ms, scanMembers f d (membersText l ++ rest) = some (ms, rest) ∧
      ∀ acc : JMembers F64, keysSorted (acc.keys ++ l.keys) →
        toGoMembers ms acc = .ok (acc.append l)
  | .nil, _, _, _, _, _, _, hne => absurd rfl hne
  | .cons k v m, hw, f, d, rest, hd, hf, _ => by
    have ihv := scan_encodeValue v
    have ihm := scan_members m
    simp only [JMembers.WF] at hw
    simp only [JMembers.depth] at hd
    rw [membersText_length, encodeMembers_length] at hf
    obtain ⟨f1, rfl⟩ : ∃ f1, f = f1 + 1 := ⟨f - 1, by omega⟩
    obtain ⟨c, tl, hc, hc2, hc3⟩ := encodeMembers_head m
    obtain ⟨t, h1, h2⟩ := ihv hw.1 f1 d (encodeMembers m ++ rest) (by omega) (by omega)
      (by rw [hc, List.cons_append]; exact numEnd_close c _ (by tauto))
    have hins : ∀ acc : JMembers F64, keysSorted (acc.keys ++ k :: m.keys) →
        mapInsert k v acc = acc.append (.cons k v .nil) := by
      intro acc hs
      apply mapInsert_last
      intro x hx
      unfold keysSorted at hs
      rw [List.pairwise_append] at hs
      exact hs.2.2 x hx k (by simp)
    rw [membersText_cons]
    cases m with
    | nil =>
      have e2 : encodeMembers .nil ++ rest = '}' :: rest := by simp [encodeMembers]
      rw [e2] at h1 ⊢
      rw [scanMembers_step f1 d _ _ _ _ _ rest k t '}' (skipSpace_cons _ _ (by decide))
        (encodeString_scan_length k _) (skipSpace_cons _ _ (by decide)) h1
        (skipSpace_cons _ _ (by decide))]
      refine ⟨.cons k t .nil, by simp, ?_⟩
      intro acc hs
      simp only [toGoMembers, h2]
      rw [hins acc hs]
    | cons k1 v1 m1 =>
      have e2 : encodeMembers (.cons k1 v1 m1) ++ rest
          = ',' :: (membersText (.cons k1 v1 m1) ++ rest) := by
        rw [encodeMembers_cons]; rfl
      rw [e2] at h1 ⊢
      obtain ⟨ms, h3, h4⟩ := ihm hw.2 f1 d rest (by omega) (by omega) (by simp)
      rw [scanMembers_step f1 d _ _ _ _ _ _ k t ',' (skipSpace_cons _ _ (by decide))
        (encodeString_scan_length k _) (skipSpace_cons _ _ (by decide)) h1
        (skipSpace_cons _ _ (by decide)), if_pos rfl, h3]
      refine ⟨.cons k t ms, rfl, ?_⟩
      intro acc hs
      simp only [toGoMembers, h2]
      rw [hins acc hs, h4 (acc.append (.cons k v .nil)) (by
        rw [keys_append]
        simpa [JMembers.keys] using hs)]
      rw [append_assoc]
      rfl
end

theorem toGo_obj_inv (t : JVal Decimal) (m : JMembers F64) (h : toGo t = .ok (.obj m)) :
    ∃ ms, t = .obj ms ∧ toGoMembers ms .nil = .ok m := by
  cases t with
  | null => simp [toGo] at h
  | bool b => simp [toGo] at h
  | num d =>
    simp only [toGo] at h
    cases hp : parseFloat d with
    | none => rw [hp] at h; cases h
    | some f => rw [hp] at h; cases h
  | str s => simp [toGo] at h
  | arr xs =>
    simp only [toGo] at h
    cases hp : toGoList xs with
    | error e => rw [hp] at h; cases h
    | ok ys => rw [hp] at h; cases h
  | obj ms =>
    simp only [toGo] at h
    cases hp : toGoMembers ms .nil with
    | error e => rw [hp] at h; cases h
    | ok m1 =>
      rw [hp] at h
      simp only [Except.ok.injEq, JVal.obj.injEq] at h
      subst h
      exact ⟨ms, rfl, hp⟩

/-- Decoding what `Marshal` wrote for a decoded map gives that map again. -/
theorem decodeMap_Marshal (body : List Char) (r : Option (JMembers F64))
    (h : decodeMap body = .ok r) : decodeMap (Marshal r) = .ok r := by
  cases r with
  | none => rfl
  | some m =>
    obtain ⟨v, rest, hs, hv⟩ := (decodeMap_ok_iff body (some m)).mp h
    rcases hv with ⟨_, hv⟩ | ⟨ms, m1, rfl, hm, hv⟩
    · cases hv
    · simp only [Option.some.injEq] at hv
      subst hv
      obtain ⟨hw, hsorted, hdepth⟩ := toGoMembers_inv ms .nil m hm trivial (by
        simp [keysSorted, JMembers.keys])
      have hd := (scan_depth (body.length + 1)).1 0 body (.obj ms) rest hs (by
        simp [maxNestingDepth])
      simp only [JVal.depth, JMembers.depth] at hd hdepth
      obtain ⟨t, h1, h2⟩ := scan_encodeValue (.obj m) (by
          simp only [JVal.WF]; exact ⟨hw, hsorted⟩)
        ((Marshal (some m)).length + 1) 0 [] (by
          simp only [JVal.depth]
          have : m.depth ≤ ms.depth := by simpa using hdepth
          omega) (by simp [Marshal]) numEnd_nil
      obtain ⟨ms2, rfl, h3⟩ := toGo_obj_inv t m h2
      rw [List.append_nil] at h1
      apply (decodeMap_ok_iff _ _).mpr
      exact ⟨.obj ms2, [], h1, Or.inr ⟨ms2, m, rfl, h3, rfl⟩⟩

/-- C6 as stated fails: for the body with the integer 9007199254740993 the handler of the trace
tags returns the text with 9007199254740992, the nearest `float64`; the two literals are
different numbers. -/
theorem rounding_counterexample :
    tempoTagsHandler (exampleWorld emptyEnv ⟨200, "\x7b\"a\":9007199254740993\x7d"⟩) []
      = (NewToolResultText "\x7b\"a\":9007199254740992\x7d",
          [.call ⟨"localhost:3100", "", ""⟩ "GET" "/api/search/tags" none,
           .send ⟨"GET", "http://localhost:3100/api/search/tags", none⟩]) ∧
    scanNumber "9007199254740993".data = some (⟨false, 9007199254740993, 0⟩, []) ∧
    scanNumber "9007199254740992".data = some (⟨false, 9007199254740992, 0⟩, []) := by
  decide!

/-! ## The float stored for a number is the nearest one -/

/-- Rounding a ratio to an integer, ties to even: the result is within a half, no integer is
nearer, and if another is as near the result is even. -/
theorem round_half_even (n1 d1 qq : ℕ) (hp : 0 < d1)
    (hqq : (if d1 < 2 * (n1 % d1) ∨ (2 * (n1 % d1) = d1 ∧ n1 / d1 % 2 = 1) then n1 / d1 + 1
      else n1 / d1) = qq) :
    |(n1 : ℚ) / d1 - qq| ≤ 1 / 2 ∧
    ∀ k : ℕ, |(n1 : ℚ) / d1 - qq| ≤ |(n1 : ℚ) / d1 - k| ∧
      (|(n1 : ℚ) / d1 - qq| = |(n1 : ℚ) / d1 - k| → k ≠ qq → qq % 2 = 0) := by
  have hD : (0 : ℚ) < d1 := by exact_mod_cast hp
  have hdm : d1 * (n1 / d1) + n1 % d1 = n1 := Nat.div_add_mod n1 d1
  have hr : n1 % d1 < d1 := Nat.mod_lt _ hp
  generalize hq0 : n1 / d1 = q0 at hqq hdm
  generalize hrr : n1 % d1 = r at hqq hdm hr
  have hy : (n1 : ℚ) / d1 = q0 + (r : ℚ) / d1 := by
    rw [← hdm]; push_cast; field_simp; ring
  rw [hy]
  generalize hρ : (r : ℚ) / d1 = ρ
  have hρ0 : 0 ≤ ρ := by rw [← hρ]; positivity
  have hρ1 : ρ < 1 := by
    rw [← hρ, div_lt_one hD]; exact_mod_cast hr
  have h_gt : d1 < 2 * r → 1 / 2 < ρ := by
    intro h
    rw [← hρ, lt_div_iff₀ hD]
    have : (d1 : ℚ) < 2 * r := by exact_mod_cast h
    linarith
  have h_lt : 2 * r < d1 → ρ < 1 / 2 := by
    intro h
    rw [← hρ, div_lt_iff₀ hD]
    have : (2 : ℚ) * r < d1 := by exact_mod_cast h
    linarith
  have h_eq : 2 * r = d1 → ρ = 1 / 2 := by
    intro h
    rw [← hρ, div_eq_iff hD.ne']
    have : (2 : ℚ) * r = d1 := by exact_mod_cast h
    linarith
  -- the distance to any natural number
  have far : ∀ k : ℕ, (k ≤ q0 ∧ |(q0 : ℚ) + ρ - k| = (q0 : ℚ) - k + ρ) ∨
      (q0 + 1 ≤ k ∧ |(q0 : ℚ) + ρ - k| = (k : ℚ) - q0 - 1 + (1 - ρ)) := by
    intro k
    rcases Nat.lt_or_ge q0 k with h | h
    · right
      have : ((q0 : ℚ) + 1) ≤ k := by exact_mod_cast h
      refine ⟨h, ?_⟩
      rw [abs_of_nonpos (by linarith)]
      ring
    · left
      have : (k : ℚ) ≤ q0 := by exact_mod_cast h
      refine ⟨h, ?_⟩
      rw [abs_of_nonneg (by linarith)]
      ring
  have castk : ∀ k : ℕ, k ≤ q0 → (k : ℚ) ≤ q0 := fun k h => by exact_mod_cast h
  have castk1 : ∀ k : ℕ, q0 + 1 ≤ k → (q0 : ℚ) + 1 ≤ k := fun k h => by exact_mod_cast h
  have castlt : ∀ k : ℕ, k < q0 → (k : ℚ) + 1 ≤ q0 := fun k h => by exact_mod_cast h
  have castlt1 : ∀ k : ℕ, q0 + 1 < k → (q0 : ℚ) + 2 ≤ k := fun k h => by
    have : q0 + 2 ≤ k := h
    exact_mod_cast this
  by_cases hc : d1 < 2 * r ∨ (2 * r = d1 ∧ q0 % 2 = 1)
  · rw [if_pos hc] at hqq
    subst hqq
    have hhalf : 1 / 2 ≤ ρ := by
      rcases hc with h | ⟨h, _⟩
      · exact (h_gt h).le
      · exact (h_eq h).ge
    have hown : |(q0 : ℚ) + ρ - ((q0 + 1 : ℕ) : ℚ)| = 1 - ρ := by
      push_cast
      rw [abs_of_nonpos (by linarith)]
      ring
    rw [hown]
    refine ⟨by linarith, ?_⟩
    intro k
    rcases far k with ⟨hk, e⟩ | ⟨hk, e⟩
    · rw [e]
      have := castk k hk
      refine ⟨by linarith, ?_⟩
      intro heq _
      have hk0 : k = q0 := by
        by_contra hne
        have := castlt k (lt_of_le_of_ne hk hne)
        linarith
      have hρ2 : ρ = 1 / 2 := by rw [hk0] at heq; linarith
      rcases hc with h | ⟨_, h⟩
      · have := h_gt h; linarith
      · omega
    · rw [e]
      have := castk1 k hk
      refine ⟨by linarith, ?_⟩
      intro heq hne
      exfalso
      have := castlt1 k (lt_of_le_of_ne hk (fun h => hne h.symm))
      linarith
  · rw [if_neg hc] at hqq
    subst hqq
    have hhalf : ρ ≤ 1 / 2 := by
      rcases Nat.lt_trichotomy (2 * r) d1 with h | h | h
      · exact (h_lt h).le
      · exact (h_eq h).le
      · exact absurd (Or.inl h) hc
    have hown : |(q0 : ℚ) + ρ - (q0 : ℚ)| = ρ := by
      rw [abs_of_nonneg (by linarith)]
      ring
    rw [hown]
    refine ⟨by linarith, ?_⟩
    intro k
    rcases far k with ⟨hk, e⟩ | ⟨hk, e⟩
    · rw [e]
      have := castk k hk
      refine ⟨by linarith, ?_⟩
      intro heq hne
      exfalso
      have := castlt k (lt_of_le_of_ne hk hne)
      linarith
    · rw [e]
      have := castk1 k hk
      refine ⟨by linarith, ?_⟩
      intro heq _
      have hρ2 : ρ = 1 / 2 := by linarith
      rcases Nat.lt_trichotomy (2 * r) d1 with h | h | h
      · have := h_lt h; linarith
      · have : ¬ q0 % 2 = 1 := fun h1 => hc (Or.inr ⟨h, h1⟩)
        omega
      · exact absurd (Or.inl h) hc

/-- The steps of `roundRatio` in terms of the scaled value `y = num / den / 2 ^ e2`: the
exponent `e2`, and the integer `qq` nearest to `y`. -/
theorem roundRatio_steps (num den : Nat) (hnum : 0 < num) (hden : 0 < den) :
    ∃ (e2 : ℤ) (qq : ℕ),
      e2 = max (binExponent num den - 52) (-1074) ∧
      |(num : ℚ) / den / (2 : ℚ) ^ e2 - qq| ≤ 1 / 2 ∧
      (∀ k : ℕ, |(num : ℚ) / den / (2 : ℚ) ^ e2 - qq| ≤ |(num : ℚ) / den / (2 : ℚ) ^ e2 - k| ∧
        (|(num : ℚ) / den / (2 : ℚ) ^ e2 - qq| = |(num : ℚ) / den / (2 : ℚ) ^ e2 - k| →
          k ≠ qq → qq % 2 = 0)) ∧
      (num : ℚ) / den / (2 : ℚ) ^ e2 < (2 : ℚ) ^ (53 : ℤ) ∧
      (e2 ≠ -1074 → (2 : ℚ) ^ (52 : ℤ) ≤ (num : ℚ) / den / (2 : ℚ) ^ e2) ∧
      roundRatio num den =
        if 971 < (if qq = 2 ^ 53 then e2 + 1 else e2) then none
        else some (if qq = 2 ^ 53 then 2 ^ 52 else qq, if qq = 2 ^ 53 then e2 + 1 else e2) := by
  obtain ⟨s1, s2⟩ := binExponent_spec num den hnum hden
  have two0 : (2 : ℚ) ≠ 0 := by norm_num
  have hp := scale2_pos num den (max (binExponent num den - 52) (-1074)) hden
  have hv := scale2_val num den (max (binExponent num den - 52) (-1074)) hden
  have hR := round_half_even (scale2 num den (max (binExponent num den - 52) (-1074))).1
    (scale2 num den (max (binExponent num den - 52) (-1074))).2 _ hp rfl
  rw [hv] at hR
  refine ⟨max (binExponent num den - 52) (-1074), _, rfl, hR.1, hR.2, ?_, ?_,
    roundRatio_eq num den⟩
  · generalize hL : binExponent num den = L at s1 s2
    have hu : (0 : ℚ) < (2 : ℚ) ^ (max (L - 52) (-1074)) := by positivity
    rw [div_lt_iff₀ hu, ← zpow_add₀ two0]
    refine lt_of_lt_of_le s2 ?_
    apply zpow_le_zpow_right₀ (by norm_num)
    have : L - 52 ≤ max (L - 52) (-1074) := le_max_left _ _
    omega
  · generalize hL : binExponent num den = L at s1 s2
    intro hne
    have he : max (L - 52) (-1074) = L - 52 := by
      rcases max_choice (L - 52) (-1074) with h | h
      · exact h
      · exact absurd h hne
    rw [he]
    have hu : (0 : ℚ) < (2 : ℚ) ^ (L - 52) := by positivity
    rw [le_div_iff₀ hu, ← zpow_add₀ two0]
    have : (52 : ℤ) + (L - 52) = L := by ring
    rw [this]
    exact s1

theorem abs_scale (y a u : ℚ) (hu : 0 < u) : |y * u - a * u| = u * |y - a| := by
  rw [← sub_mul, abs_mul, abs_of_pos hu, mul_comm]

/-- The result of `roundRatio` is nearest to the ratio among the `float64` values, ties to
even. -/
theorem roundRatio_nearest (num den : Nat) (hnum : 0 < num) (hden : 0 < den) (q : Nat) (e : Int)
    (h : roundRatio num den = some (q, e)) (g : F64) (hg : g.WF) :
    |(num : ℚ) / den - (q : ℚ) * (2 : ℚ) ^ e| ≤ |(num : ℚ) / den - g.val| ∧
    (|(num : ℚ) / den - (q : ℚ) * (2 : ℚ) ^ e| = |(num : ℚ) / den - g.val| →
      g.val ≠ (q : ℚ) * (2 : ℚ) ^ e → q % 2 = 0) := by
  obtain ⟨e2, qq, he2, _, hk, hy53, hy52, hr⟩ := roundRatio_steps num den hnum hden
  have two0 : (2 : ℚ) ≠ 0 := by norm_num
  rw [hr] at h
  have hu : (0 : ℚ) < (2 : ℚ) ^ e2 := by positivity
  generalize hx : (num : ℚ) / den = x at *
  generalize hyy : x / (2 : ℚ) ^ e2 = y at *
  have hxy : x = y * (2 : ℚ) ^ e2 := by rw [← hyy]; field_simp
  have hval : (q : ℚ) * (2 : ℚ) ^ e = (qq : ℚ) * (2 : ℚ) ^ e2 ∧ (qq % 2 = 0 → q % 2 = 0) := by
    by_cases h971 : 971 < (if qq = 2 ^ 53 then e2 + 1 else e2)
    · rw [if_pos h971] at h; cases h
    · rw [if_neg h971] at h
      simp only [Option.some.injEq, Prod.mk.injEq] at h
      obtain ⟨hq, he⟩ := h
      by_cases h53 : qq = 2 ^ 53
      · rw [if_pos h53] at hq he
        subst hq he
        rw [h53, zpow_add_one₀ two0]
        push_cast
        refine ⟨by ring, fun _ => by norm_num⟩
      · rw [if_neg h53] at hq he
        subst hq he
        exact ⟨rfl, id⟩
  rw [hval.1, hxy]
  by_cases hge : e2 ≤ g.exp
  · -- the value of `g` is a multiple of the unit
    obtain ⟨j, hj⟩ : ∃ j : ℕ, g.exp = e2 + j := ⟨(g.exp - e2).toNat, by omega⟩
    have hgv : g.val = ((g.mant * 2 ^ j : ℕ) : ℚ) * (2 : ℚ) ^ e2 := by
      unfold F64.val
      rw [hj, zpow_add₀ two0]
      push_cast
      rw [zpow_natCast]
      ring
    rw [hgv, abs_scale _ _ _ hu, abs_scale _ _ _ hu]
    obtain ⟨k1, k2⟩ := hk (g.mant * 2 ^ j)
    refine ⟨mul_le_mul_of_nonneg_left k1 hu.le, ?_⟩
    intro heq hne
    apply hval.2
    apply k2 (mul_left_cancel₀ hu.ne' heq)
    intro hkq
    apply hne
    rw [hkq]
  · -- the value of `g` lies below all multiples of the unit near the ratio
    have hne1074 : e2 ≠ -1074 := by
      have := hg.2.1
      omega
    have hy := hy52 hne1074
    obtain ⟨j, hj⟩ : ∃ j : ℕ, g.exp = e2 - 1 - j := ⟨(e2 - 1 - g.exp).toNat, by omega⟩
    have hz : g.val = (g.val / (2 : ℚ) ^ e2) * (2 : ℚ) ^ e2 := by field_simp
    have hzlt : g.val / (2 : ℚ) ^ e2 < (2 : ℚ) ^ (52 : ℤ) := by
      rw [div_lt_iff₀ hu]
      unfold F64.val
      have hm : (g.mant : ℚ) < (2 : ℚ) ^ (53 : ℤ) := by
        have := hg.1
        have h53 : (2 : ℚ) ^ (53 : ℤ) = ((2 ^ 53 : ℕ) : ℚ) := by norm_num
        rw [h53]; exact_mod_cast this
      have hpow : (2 : ℚ) ^ g.exp ≤ (2 : ℚ) ^ (e2 - 1) := by
        apply zpow_le_zpow_right₀ (by norm_num)
        omega
      have hpos : (0 : ℚ) < (2 : ℚ) ^ g.exp := by positivity
      calc (g.mant : ℚ) * (2 : ℚ) ^ g.exp
          < (2 : ℚ) ^ (53 : ℤ) * (2 : ℚ) ^ g.exp := mul_lt_mul_of_pos_right hm hpos
        _ ≤ (2 : ℚ) ^ (53 : ℤ) * (2 : ℚ) ^ (e2 - 1) :=
            mul_le_mul_of_nonneg_left hpow (by positivity)
        _ = (2 : ℚ) ^ (52 : ℤ) * (2 : ℚ) ^ e2 := by
            rw [← zpow_add₀ two0, ← zpow_add₀ two0]
            congr 1; ring
    generalize g.val / (2 : ℚ) ^ e2 = z at hz hzlt
    rw [hz, abs_scale _ _ _ hu, abs_scale _ _ _ hu]
    obtain ⟨k1, _⟩ := hk (2 ^ 52)
    have h52 : (((2 ^ 52 : ℕ) : ℕ) : ℚ) = (2 : ℚ) ^ (52 : ℤ) := by norm_num
    rw [h52] at k1
    have e1 : |y - (2 : ℚ) ^ (52 : ℤ)| = y - (2 : ℚ) ^ (52 : ℤ) := abs_of_nonneg (by linarith)
    have e3 : |y - z| = y - z := abs_of_nonneg (by linarith)
    rw [e1] at k1
    have hstrict : |y - (qq : ℚ)| < |y - z| := by rw [e3]; linarith
    refine ⟨mul_le_mul_of_nonneg_left hstrict.le hu.le, ?_⟩
    intro heq
    exfalso
    have := mul_left_cancel₀ hu.ne' heq
    rw [this] at hstrict
    exact lt_irrefl _ hstrict

/-- The float `Decode` stores for a number is nearest to its literal, ties to even. -/
theorem parseFloat_nearest (d : Decimal) (f : F64) (h : parseFloat d = some f) : Nearest d f := by
  obtain ⟨hw, hneg⟩ := parseFloat_wf d f h
  refine ⟨hw, hneg, ?_⟩
  intro g hg
  unfold parseFloat at h
  by_cases h0 : d.mant = 0
  · rw [if_pos h0] at h
    simp only [Option.some.injEq] at h
    subst h
    have hd : d.val = 0 := (decimal_val_eq_zero d).mpr h0
    have hf : (⟨d.neg, 0, -1074⟩ : F64).val = 0 := by simp [F64.val]
    rw [hd, hf]
    simp only [sub_zero, abs_zero, zero_sub, abs_neg]
    refine ⟨abs_nonneg _, ?_⟩
    intro heq hne
    exact absurd (abs_eq_zero.mp heq.symm) hne
  · rw [if_neg h0] at h
    obtain ⟨p1, p2, p3⟩ := decimal_reduced d h0
    cases hr : roundRatio (reduceRatio d.ratio).1 (reduceRatio d.ratio).2 with
    | none => rw [hr] at h; cases h
    | some r =>
      obtain ⟨q, e⟩ := r
      rw [hr] at h
      simp only [Option.map_some', Option.some.injEq] at h
      subst h
      have := roundRatio_nearest _ _ p1 p2 q e hr g hg
      rw [p3] at this
      exact this

theorem range_bound :
    (2 : ℚ) ^ (1024 : ℤ) - (2 : ℚ) ^ (970 : ℤ)
      = ((2 : ℚ) ^ (53 : ℤ) - 1 / 2) * (2 : ℚ) ^ (971 : ℤ) := by
  have two0 : (2 : ℚ) ≠ 0 := by norm_num
  have e1 : (2 : ℚ) ^ (1024 : ℤ) = (2 : ℚ) ^ (53 : ℤ) * (2 : ℚ) ^ (971 : ℤ) := by
    rw [← zpow_add₀ two0]; congr 1
  have e2 : (2 : ℚ) ^ (971 : ℤ) = (2 : ℚ) ^ (970 : ℤ) * 2 := by
    rw [← zpow_add_one₀ two0]; congr 1
  rw [e1, sub_mul, e2]
  ring

/-- The range error of `roundRatio`: the ratio reaches the midpoint above the largest
`float64`. -/
theorem roundRatio_none_iff (num den : Nat) (hnum : 0 < num) (hden : 0 < den) :
    roundRatio num den = none ↔
      (2 : ℚ) ^ (1024 : ℤ) - (2 : ℚ) ^ (970 : ℤ) ≤ (num : ℚ) / den := by
  obtain ⟨s1, s2⟩ := binExponent_spec num den hnum hden
  obtain ⟨e2, qq, he2, hhalf, hk, hy53, hy52, hr⟩ := roundRatio_steps num den hnum hden
  have two0 : (2 : ℚ) ≠ 0 := by norm_num
  have one2 : (1 : ℚ) < 2 := by norm_num
  have hu : (0 : ℚ) < (2 : ℚ) ^ e2 := by positivity
  generalize hL : binExponent num den = L at s1 s2 he2
  generalize hx : (num : ℚ) / den = x at *
  have h53 : (2 : ℚ) ^ (53 : ℤ) = 9007199254740992 := by norm_num
  have hnone : roundRatio num den = none ↔ 971 < (if qq = 2 ^ 53 then e2 + 1 else e2) := by
    rw [hr]
    by_cases hc : 971 < (if qq = 2 ^ 53 then e2 + 1 else e2)
    · rw [if_pos hc]; exact ⟨fun _ => hc, fun _ => rfl⟩
    · rw [if_neg hc]; exact ⟨fun h => (by cases h), fun h => absurd h hc⟩
  rw [hnone, range_bound]
  have habs := abs_le.mp hhalf
  constructor
  · intro h
    by_cases hbig : 972 ≤ e2
    · -- the ratio is at least `2 ^ 1024`
      have hL1 : 1024 ≤ L := by
        rcases max_choice (L - 52) (-1074) with hm | hm
        · rw [hm] at he2; omega
        · rw [hm] at he2; omega
      have : (2 : ℚ) ^ (1024 : ℤ) ≤ x :=
        le_trans (zpow_le_zpow_right₀ one2.le hL1) s1
      rw [← range_bound]
      have : (0 : ℚ) < (2 : ℚ) ^ (970 : ℤ) := by positivity
      linarith
    · have hq : qq = 2 ^ 53 := by
        by_contra hne
        rw [if_neg hne] at h
        omega
      rw [if_pos hq] at h
      have he : e2 = 971 := by omega
      have hqq : (qq : ℚ) = (2 : ℚ) ^ (53 : ℤ) := by rw [hq, h53]; norm_num
      rw [hqq, he] at habs
      have hy : (2 : ℚ) ^ (53 : ℤ) - 1 / 2 ≤ x / (2 : ℚ) ^ (971 : ℤ) := by linarith [habs.1]
      have hu1 : (0 : ℚ) < (2 : ℚ) ^ (971 : ℤ) := by positivity
      rwa [le_div_iff₀ hu1] at hy
  · intro h
    by_contra hle
    have hx1023 : (2 : ℚ) ^ (1023 : ℤ) ≤ x := by
      refine le_trans ?_ h
      rw [← range_bound]
      have e1 : (2 : ℚ) ^ (1024 : ℤ) = (2 : ℚ) ^ (1023 : ℤ) * 2 := by
        rw [← zpow_add_one₀ two0]; congr 1
      have e3 : (2 : ℚ) ^ (970 : ℤ) ≤ (2 : ℚ) ^ (1023 : ℤ) :=
        zpow_le_zpow_right₀ one2.le (by norm_num)
      rw [e1]
      linarith
    have hL1 : 1023 ≤ L := by
      have : (1023 : ℤ) < L + 1 := (zpow_lt_zpow_iff_right₀ one2).mp (lt_of_le_of_lt hx1023 s2)
      omega
    have he2' : e2 = L - 52 := by
      rw [he2]; exact max_eq_left (by omega)
    have hge : e2 ≤ (if qq = 2 ^ 53 then e2 + 1 else e2) := by split <;> omega
    have he : e2 = 971 := by omega
    have hq : qq ≠ 2 ^ 53 := by
      intro hq
      rw [if_pos hq] at hle
      omega
    have hu1 : (0 : ℚ) < (2 : ℚ) ^ (971 : ℤ) := by positivity
    rw [he] at hk habs hy53
    have hy : (2 : ℚ) ^ (53 : ℤ) - 1 / 2 ≤ x / (2 : ℚ) ^ (971 : ℤ) := by
      rwa [le_div_iff₀ hu1]
    generalize x / (2 : ℚ) ^ (971 : ℤ) = y at hk habs hy53 hy
    rw [h53] at hy hy53
    -- `qq` is `2 ^ 53 - 1`
    have hq1 : (9007199254740991 : ℚ) ≤ qq := by linarith [habs.2]
    have hq2 : (qq : ℚ) < 9007199254740993 := by linarith [habs.1]
    have hq1' : 9007199254740991 ≤ qq := by exact_mod_cast hq1
    have hq2' : qq < 9007199254740993 := by exact_mod_cast hq2
    have hq' : qq ≠ 9007199254740992 := by
      intro h'; apply hq; rw [h']; norm_num
    have hqe : qq = 9007199254740991 := by omega
    obtain ⟨k1, k2⟩ := hk 9007199254740992
    have hqc : (qq : ℚ) = 9007199254740991 := by rw [hqe]; norm_num
    rw [hqc] at k1 k2
    have a1 : |y - (9007199254740991 : ℚ)| = y - 9007199254740991 :=
      abs_of_nonneg (by linarith)
    have a2 : |y - ((9007199254740992 : ℕ) : ℚ)| = 9007199254740992 - y := by
      push_cast
      rw [abs_of_nonpos (by linarith)]
      ring
    rw [a1, a2] at k1 k2
    have := k2 (by linarith) (by omega)
    omega

/-- The number is stored exactly when its literal is in range. -/
theorem parseFloat_isSome_iff (d : Decimal) : (∃ f, parseFloat d = some f) ↔ d.InRange := by
  unfold Decimal.InRange parseFloat
  by_cases h0 : d.mant = 0
  · rw [if_pos h0, (decimal_val_eq_zero d).mpr h0]
    constructor
    · intro _
      have e1 : (2 : ℚ) ^ (970 : ℤ) < (2 : ℚ) ^ (1024 : ℤ) :=
        zpow_lt_zpow_right₀ (by norm_num) (by norm_num)
      linarith
    · intro _
      exact ⟨_, rfl⟩
  · rw [if_neg h0]
    obtain ⟨p1, p2, p3⟩ := decimal_reduced d h0
    have := roundRatio_none_iff _ _ p1 p2
    rw [p3] at this
    rw [← not_le, ← this]
    cases roundRatio (reduceRatio d.ratio).1 (reduceRatio d.ratio).2 with
    | none => simp
    | some r => simp

/-! ## What `Decode` stores -/

theorem find_mapInsert (k : List Char) (v : JVal F64) (x : List Char) (m : JMembers F64) :
    (mapInsert k v m).find x = if x = k then some v else m.find x := by
  induction m using JMembers.spine with
  | nil => simp [mapInsert, JMembers.find]
  | cons k1 v1 rest ih =>
    unfold mapInsert
    by_cases h1 : ltChars k k1 = true
    · rw [if_pos h1]
      simp [JMembers.find]
    · rw [if_neg h1]
      by_cases h2 : k = k1
      · rw [if_pos h2]
        subst h2
        by_cases hx : x = k <;> simp [JMembers.find, hx]
      · rw [if_neg h2]
        simp only [JMembers.find, ih]
        by_cases hx : x = k
        · subst hx
          simp [h2]
        · simp [hx]

mutual
theorem toGo_stored : ∀ (t : JVal Decimal) (g : JVal F64), toGo t = .ok g → Stored t g
  | .null, g, h => by
    simp only [toGo, Except.ok.injEq] at h
    subst h
    simp [Stored]
  | .bool b, g, h => by
    simp only [toGo, Except.ok.injEq] at h
    subst h
    simp [Stored]
  | .str s, g, h => by
    simp only [toGo, Except.ok.injEq] at h
    subst h
    simp [Stored]
  | .num d, g, h => by
    simp only [toGo] at h
    cases hp : parseFloat d with
    | none => rw [hp] at h; cases h
    | some f =>
      rw [hp] at h
      simp only [Except.ok.injEq] at h
      subst h
      exact ⟨f, rfl, (parseFloat_isSome_iff d).mp ⟨f, hp⟩, parseFloat_nearest d f hp⟩
  | .arr xs, g, h => by
    simp only [toGo] at h
    cases hl : toGoList xs with
    | error e => rw [hl] at h; cases h
    | ok ys =>
      rw [hl] at h
      simp only [Except.ok.injEq] at h
      subst h
      exact ⟨ys, rfl, toGoList_stored xs ys hl⟩
  | .obj ms, g, h => by
    simp only [toGo] at h
    cases hl : toGoMembers ms .nil with
    | error e => rw [hl] at h; cases h
    | ok m =>
      rw [hl] at h
      simp only [Except.ok.injEq] at h
      subst h
      obtain ⟨ys, h1, h2⟩ := toGoMembers_stored ms .nil m hl
      obtain ⟨_, hs, _⟩ := toGoMembers_inv ms .nil m hl trivial (by
        simp [keysSorted, JMembers.keys])
      refine ⟨ys, m, rfl, h1, hs, ?_⟩
      intro k
      cases hf : ys.findLast k with
      | none => rw [(h2 k).2 hf]; rfl
      | some y => exact (h2 k).1 y hf
theorem toGoList_stored : ∀ (ts : JList Decimal) (l : JList F64), toGoList ts = .ok l →
    StoredList ts l
  | .nil, l, h => by
    simp only [toGoList, Except.ok.injEq] at h
    subst h
    simp [StoredList]
  | .cons x xs, l, h => by
    simp only [toGoList] at h
    cases hx : toGo x with
    | error e => rw [hx] at h; cases h
    | ok y =>
      rw [hx] at h
      cases hl : toGoList xs with
      | error e => rw [hl] at h; cases h
      | ok ys =>
        rw [hl] at h
        simp only [Except.ok.injEq] at h
        subst h
        exact ⟨y, ys, rfl, toGo_stored x y hx, toGoList_stored xs ys hl⟩
theorem toGoMembers_stored : ∀ (ms : JMembers Decimal) (acc m : JMembers F64),
    toGoMembers ms acc = .ok m →
    ∃ ys, StoredMembers ms ys ∧
      ∀ k, (∀ y, ys.findLast k = some y → m.find k = some y) ∧
        (ys.findLast k = none → m.find k = acc.find k)
  | .nil, acc, m, h => by
    simp only [toGoMembers, Except.ok.injEq] at h
    subst h
    exact ⟨.nil, by simp [StoredMembers], fun k => by simp [JMembers.findLast]⟩
  | .cons k v rest, acc, m, h => by
    simp only [toGoMembers] at h
    cases hv : toGo v with
    | error e => rw [hv] at h; cases h
    | ok w =>
      rw [hv] at h
      obtain ⟨ys, h1, h2⟩ := toGoMembers_stored rest (mapInsert k w acc) m h
      refine ⟨.cons k w ys, ⟨w, ys, rfl, toGo_stored v w hv, h1⟩, ?_⟩
      intro x
      simp only [JMembers.findLast]
      cases hf : ys.findLast x with
      | some y =>
        refine ⟨?_, fun h0 => by cases h0⟩
        intro y1 hy1
        simp only [Option.some.injEq] at hy1
        subst hy1
        exact (h2 x).1 y hf
      | none =>
        have := (h2 x).2 hf
        rw [find_mapInsert] at this
        by_cases hx : x = k
        · subst hx
          rw [if_pos rfl] at this
          simp only [if_true, Option.some.injEq, forall_eq', JMembers.find]
          exact ⟨this, fun h0 => by cases h0⟩
        · rw [if_neg hx] at this
          simp only [if_neg hx, JMembers.find]
          exact ⟨fun y h0 => (by cases h0), fun _ => this⟩
end

mutual
theorem toGo_isOk : ∀ (t : JVal Decimal), (∃ g, toGo t = .ok g) ↔ t.InRange
  | .null => by simp [toGo, JVal.InRange]
  | .bool b => by simp [toGo, JVal.InRange]
  | .str s => by simp [toGo, JVal.InRange]
  | .num d => by
    simp only [JVal.InRange, ← parseFloat_isSome_iff, toGo]
    cases parseFloat d with
    | none => simp
    | some f => simp
  | .arr xs => by
    have ih := toGoList_isOk xs
    simp only [JVal.InRange, ← ih, toGo]
    cases toGoList xs with
    | error e => simp
    | ok ys => simp
  | .obj ms => by
    have ih := toGoMembers_isOk ms .nil
    simp only [JVal.InRange, ← ih, toGo]
    cases toGoMembers ms .nil with
    | error e => simp
    | ok ys => simp
theorem toGoList_isOk : ∀ (ts : JList Decimal), (∃ l, toGoList ts = .ok l) ↔ ts.InRange
  | .nil => by simp [toGoList, JList.InRange]
  | .cons x xs => by
    have ih1 := toGo_isOk x
    have ih2 := toGoList_isOk xs
    simp only [JList.InRange, ← ih1, ← ih2, toGoList]
    cases toGo x with
    | error e => simp
    | ok y =>
      cases toGoList xs with
      | error e => simp
      | ok ys => simp
theorem toGoMembers_isOk : ∀ (ms : JMembers Decimal) (acc : JMembers F64),
    (∃ m, toGoMembers ms acc = .ok m) ↔ ms.InRange
  | .nil, acc => by simp [toGoMembers, JMembers.InRange]
  | .cons k v rest, acc => by
    have ih1 := toGo_isOk v
    simp only [JMembers.InRange, ← ih1, toGoMembers]
    cases hv : toGo v with
    | error e => simp
    | ok y =>
      have ih2 := toGoMembers_isOk rest (mapInsert k y acc)
      simp only [Except.ok.injEq, exists_eq', true_and]
      exact ih2
end

/-! ## The scanner accepts the JSON texts -/

theorem digitChar_of_isDigit (c : Char) (h : isDigit c = true) :
    c.toNat - 48 < 10 ∧ digitChar (c.toNat - 48) = c := by
  obtain ⟨d, hd, rfl⟩ := isDigit_digitChar c h
  have := (digitChar_spec d hd).2.1
  rw [this]
  exact ⟨hd, rfl⟩

theorem takeDigits_inv : ∀ cs : List Char,
    cs = (takeDigits cs).1.map digitChar ++ (takeDigits cs).2 ∧ IsDigits (takeDigits cs).1 ∧
    (∀ c r, (takeDigits cs).2 = c :: r → isDigit c = false)
  | [] => ⟨rfl, fun x hx => by simp [takeDigits] at hx, fun c r h => by simp [takeDigits] at h⟩
  | c :: cs => by
    obtain ⟨ih1, ih2, ih3⟩ := takeDigits_inv cs
    unfold takeDigits
    by_cases hc : isDigit c = true
    · rw [if_pos hc]
      obtain ⟨h1, h2⟩ := digitChar_of_isDigit c hc
      refine ⟨?_, ?_, ih3⟩
      · simp only [List.map_cons, List.cons_append, h2]
        rw [← ih1]
      · intro x hx
        simp only [List.mem_cons] at hx
        rcases hx with rfl | hx
        · exact h1
        · exact ih2 x hx
    · rw [if_neg hc]
      refine ⟨rfl, fun x hx => by simp at hx, ?_⟩
      intro c1 r h
      simp only [List.cons.injEq] at h
      rw [← h.1]
      simpa using hc

theorem scanInt_inv (cs r : List Char) (ds : List Nat) (h : scanInt cs = some (ds, r)) :
    cs = ds.map digitChar ++ r ∧ IsDigits ds ∧ ds ≠ [] ∧ (ds.head? = some 0 → ds = [0]) ∧
    ∃ c tl, cs = c :: tl ∧ isDigit c = true := by
  cases cs with
  | nil => simp [scanInt] at h
  | cons c cs =>
    rw [scanInt] at h
    by_cases h0 : c = '0'
    · rw [if_pos h0] at h
      simp only [Option.some.injEq, Prod.mk.injEq] at h
      obtain ⟨rfl, rfl⟩ := h
      subst h0
      exact ⟨rfl, fun x hx => by simp at hx; omega, by simp, fun _ => rfl, _, _, rfl, by decide⟩
    · rw [if_neg h0] at h
      by_cases hc : isDigit c = true
      · rw [if_pos hc] at h
        simp only [Option.some.injEq] at h
        obtain ⟨i1, i2, _⟩ := takeDigits_inv (c :: cs)
        rw [h] at i1 i2
        refine ⟨i1, i2, ?_, ?_, _, _, rfl, hc⟩
        · intro hnil
          have := congrArg Prod.fst h
          simp only [takeDigits, hc, if_true, hnil] at this
          cases this
        · intro hd
          exfalso
          have := congrArg Prod.fst h
          simp only [takeDigits, hc, if_true] at this
          rw [← this] at hd
          simp only [List.head?_cons, Option.some.injEq] at hd
          obtain ⟨_, h2⟩ := digitChar_of_isDigit c hc
          rw [hd] at h2
          exact h0 h2.symm
      · rw [if_neg hc] at h
        cases h

theorem scanFrac_inv (cs r : List Char) (fs : List Nat) (h : scanFrac cs = some (fs, r)) :
    cs = (if fs = [] then [] else '.' :: fs.map digitChar) ++ r ∧ IsDigits fs := by
  cases cs with
  | nil =>
    simp only [scanFrac, Option.some.injEq, Prod.mk.injEq] at h
    obtain ⟨rfl, rfl⟩ := h
    exact ⟨rfl, fun x hx => by simp at hx⟩
  | cons c cs =>
    rw [scanFrac] at h
    by_cases hc : c = '.'
    · rw [if_pos hc] at h
      by_cases hn : (takeDigits cs).1 = []
      · rw [if_pos hn] at h; cases h
      · rw [if_neg hn] at h
        simp only [Option.some.injEq] at h
        obtain ⟨i1, i2, _⟩ := takeDigits_inv cs
        rw [h] at i1 i2 hn
        simp only at i1 i2 hn
        rw [if_neg hn, hc]
        exact ⟨by rw [List.cons_append, ← i1], i2⟩
    · rw [if_neg hc] at h
      simp only [Option.some.injEq, Prod.mk.injEq] at h
      obtain ⟨rfl, rfl⟩ := h
      exact ⟨rfl, fun x hx => by simp at hx⟩

theorem scanExp_inv (cs r : List Char) (e : Int) (h : scanExp cs = some (e, r)) :
    ∃ ex, cs = ex ++ r ∧ ExponentText e ex := by
  cases cs with
  | nil =>
    simp only [scanExp, Option.some.injEq, Prod.mk.injEq] at h
    obtain ⟨rfl, rfl⟩ := h
    exact ⟨[], rfl, Or.inl ⟨rfl, rfl⟩⟩
  | cons c cs =>
    by_cases hc : c = 'e' ∨ c = 'E'
    · cases cs with
      | nil => simp [scanExp, hc] at h
      | cons s cs1 =>
        simp only [scanExp, if_pos hc] at h
        by_cases hm : s = '-'
        · rw [if_pos hm] at h
          by_cases hn : (takeDigits cs1).1 = []
          · rw [if_pos hn] at h; cases h
          · rw [if_neg hn] at h
            simp only [Option.some.injEq, Prod.mk.injEq] at h
            obtain ⟨rfl, rfl⟩ := h
            obtain ⟨i1, i2, _⟩ := takeDigits_inv cs1
            refine ⟨c :: '-' :: (takeDigits cs1).1.map digitChar, ?_,
              Or.inr ⟨c, _, hc, hn, i2, Or.inr (Or.inr ⟨rfl, rfl⟩)⟩⟩
            rw [hm, List.cons_append, List.cons_append, ← i1]
        · rw [if_neg hm] at h
          by_cases hp : s = '+'
          · rw [if_pos hp] at h
            by_cases hn : (takeDigits cs1).1 = []
            · rw [if_pos hn] at h; cases h
            · rw [if_neg hn] at h
              simp only [Option.some.injEq, Prod.mk.injEq] at h
              obtain ⟨rfl, rfl⟩ := h
              obtain ⟨i1, i2, _⟩ := takeDigits_inv cs1
              refine ⟨c :: '+' :: (takeDigits cs1).1.map digitChar, ?_,
                Or.inr ⟨c, _, hc, hn, i2, Or.inr (Or.inl ⟨rfl, rfl⟩)⟩⟩
              rw [hp, List.cons_append, List.cons_append, ← i1]
          · rw [if_neg hp] at h
            by_cases hn : (takeDigits (s :: cs1)).1 = []
            · rw [if_pos hn] at h; cases h
            · rw [if_neg hn] at h
              simp only [Option.some.injEq, Prod.mk.injEq] at h
              obtain ⟨rfl, rfl⟩ := h
              obtain ⟨i1, i2, _⟩ := takeDigits_inv (s :: cs1)
              refine ⟨c :: (takeDigits (s :: cs1)).1.map digitChar, ?_,
                Or.inr ⟨c, _, hc, hn, i2, Or.inl ⟨rfl, rfl⟩⟩⟩
              rw [List.cons_append, ← i1]
    · simp only [scanExp, if_neg hc, Option.some.injEq, Prod.mk.injEq] at h
      obtain ⟨rfl, rfl⟩ := h
      exact ⟨[], rfl, Or.inl ⟨rfl, rfl⟩⟩

theorem scanUnsigned_inv (neg : Bool) (cs r : List Char) (d : Decimal)
    (h : scanUnsigned neg cs = some (d, r)) :
    d.neg = neg ∧
    ∃ (ip fp : List Nat) (ex : List Char) (e : Int),
      IsDigits ip ∧ IsDigits fp ∧ ip ≠ [] ∧ (ip.head? = some 0 → ip = [0]) ∧ ExponentText e ex ∧
      cs = (ip.map digitChar ++ ((if fp = [] then [] else '.' :: fp.map digitChar) ++ ex)) ++ r ∧
      d.mant = ofDigits (ip ++ fp) ∧ d.exp = e - (fp.length : Int) ∧
      ∃ c tl, cs = c :: tl ∧ isDigit c = true := by
  unfold scanUnsigned at h
  cases h1 : scanInt cs with
  | none => rw [h1] at h; cases h
  | some p1 =>
    obtain ⟨ds, cs1⟩ := p1
    rw [h1] at h
    simp only at h
    cases h2 : scanFrac cs1 with
    | none => rw [h2] at h; cases h
    | some p2 =>
      obtain ⟨fs, cs2⟩ := p2
      rw [h2] at h
      simp only at h
      cases h3 : scanExp cs2 with
      | none => rw [h3] at h; cases h
      | some p3 =>
        obtain ⟨e, cs3⟩ := p3
        rw [h3] at h
        simp only [Option.some.injEq, Prod.mk.injEq] at h
        obtain ⟨rfl, rfl⟩ := h
        obtain ⟨a1, a2, a3, a4, a5⟩ := scanInt_inv cs cs1 ds h1
        obtain ⟨b1, b2⟩ := scanFrac_inv cs1 cs2 fs h2
        obtain ⟨ex, c1, c2⟩ := scanExp_inv cs2 cs3 e h3
        refine ⟨rfl, ds, fs, ex, e, a2, b2, a3, a4, c2, ?_, rfl, rfl, a5⟩
        rw [a1, b1, c1]
        simp only [List.append_assoc]

/-- A number the scanner reads is the decimal of a number literal at the head of the input. -/
theorem scanNumber_text (cs r : List Char) (d : Decimal) (h : scanNumber cs = some (d, r)) :
    ∃ t, cs = t ++ r ∧ NumberText d t ∧
      ∃ c tl, t = c :: tl ∧ (c = '-' ∨ isDigit c = true) := by
  cases cs with
  | nil => simp [scanNumber] at h
  | cons c cs =>
    rw [scanNumber] at h
    by_cases hc : c = '-'
    · rw [if_pos hc] at h
      obtain ⟨hneg, ip, fp, ex, e, a1, a2, a3, a4, a5, a6, a7, a8, _⟩ :=
        scanUnsigned_inv true cs r d h
      refine ⟨'-' :: (ip.map digitChar ++ ((if fp = [] then [] else '.' :: fp.map digitChar)
        ++ ex)), ?_, ⟨ip, fp, ex, e, a1, a2, a3, a4, a5, ?_, a7, a8⟩, _, _, rfl, Or.inl rfl⟩
      · rw [hc, a6]; rfl
      · rw [hneg]; rfl
    · rw [if_neg hc] at h
      obtain ⟨hneg, ip, fp, ex, e, a1, a2, a3, a4, a5, a6, a7, a8, c1, tl, a9, a10⟩ :=
        scanUnsigned_inv false (c :: cs) r d h
      simp only [List.cons.injEq] at a9
      refine ⟨ip.map digitChar ++ ((if fp = [] then [] else '.' :: fp.map digitChar) ++ ex),
        a6, ⟨ip, fp, ex, e, a1, a2, a3, a4, a5, ?_, a7, a8⟩, ?_⟩
      · rw [hneg]; rfl
      · cases ip with
        | nil => exact absurd rfl a3
        | cons x xs =>
          refine ⟨digitChar x, _, rfl, Or.inr ?_⟩
          exact (digitChar_spec x (a1 x (by simp))).1

theorem exponentText_head (e : Int) (ex rest : List Char) (h : ExponentText e ex)
    (hrest : numEnd rest) :
    (∀ c r, ex ++ rest = c :: r → isDigit c = false ∧ c ≠ '.') := by
  intro c r hcr
  rcases h with ⟨rfl, _⟩ | ⟨c1, es, hc1, _, _, h⟩
  · have := hrest c r hcr
    exact ⟨this.1, this.2.1⟩
  · have hc : c = c1 := by
      rcases h with ⟨rfl, _⟩ | ⟨rfl, _⟩ | ⟨rfl, _⟩ <;> simp at hcr <;> exact hcr.1.symm
    rw [hc]
    rcases hc1 with rfl | rfl <;> decide

theorem exponentText_scan (e : Int) (ex rest : List Char) (h : ExponentText e ex)
    (hrest : numEnd rest) : scanExp (ex ++ rest) = some (e, rest) := by
  rcases h with ⟨rfl, rfl⟩ | ⟨c1, es, hc1, hne, hds, h⟩
  · exact scanExp_end rest hrest
  · have htd := takeDigits_digits es rest hds (numEnd_digit hrest)
    cases es with
    | nil => exact absurd rfl hne
    | cons x xs =>
      have hx := digitChar_spec x (hds x (by simp))
      rcases h with ⟨rfl, rfl⟩ | ⟨rfl, rfl⟩ | ⟨rfl, rfl⟩
      · simp only [List.cons_append, List.map_cons, scanExp, if_pos hc1, hx.2.2.2.2.2.1,
          hx.2.2.2.2.2.2.1, if_false]
        simp only [List.map_cons, List.cons_append] at htd
        rw [htd]
        simp
      · simp only [List.cons_append, scanExp, if_pos hc1]
        simp only [List.map_cons, List.cons_append] at htd
        simp [htd]
      · simp only [List.cons_append, scanExp, if_pos hc1]
        simp only [List.map_cons, List.cons_append] at htd
        simp [htd]

/-- The scanner reads a number literal followed by a text that cannot continue it. -/
theorem numberText_scan (d : Decimal) (t rest : List Char) (h : NumberText d t)
    (hrest : numEnd rest) : scanNumber (t ++ rest) = some (d, rest) := by
  obtain ⟨ip, fp, ex, e, a1, a2, a3, a4, a5, a6, a7, a8⟩ := h
  have hex := exponentText_head e ex rest a5 hrest
  have h3 := exponentText_scan e ex rest a5 hrest
  have h2 : scanFrac ((if fp = [] then [] else '.' :: fp.map digitChar) ++ (ex ++ rest))
      = some (fp, ex ++ rest) := by
    by_cases hf : fp = []
    · rw [if_pos hf, hf, List.nil_append]
      cases hh : ex ++ rest with
      | nil => rfl
      | cons c r => exact scanFrac_skip c r (hex c r hh).2
    · rw [if_neg hf, List.cons_append]
      exact scanFrac_digits fp _ a2 hf (fun c r hh => (hex c r hh).1)
  have hfrac : ∀ c r, (if fp = [] then [] else '.' :: fp.map digitChar) ++ (ex ++ rest) = c :: r →
      isDigit c = false := by
    intro c r hh
    by_cases hf : fp = []
    · rw [if_pos hf, List.nil_append] at hh
      exact (hex c r hh).1
    · rw [if_neg hf, List.cons_append] at hh
      simp only [List.cons.injEq] at hh
      rw [← hh.1]
      decide
  have h1 : scanInt (ip.map digitChar ++ ((if fp = [] then [] else '.' :: fp.map digitChar)
      ++ (ex ++ rest))) = some (ip, (if fp = [] then [] else '.' :: fp.map digitChar)
      ++ (ex ++ rest)) := by
    cases ip with
    | nil => exact absurd rfl a3
    | cons x xs =>
      by_cases hx : x = 0
      · subst hx
        have := a4 rfl
        simp only [List.cons.injEq, true_and] at this
        subst this
        exact scanInt_zero _
      · exact scanInt_digits x xs _ hx a1 hfrac
  have hu := scanUnsigned_of d.neg _ _ _ _ ip fp e h1 h2 h3
  have hd : (⟨d.neg, ofDigits (ip ++ fp), e - fp.length⟩ : Decimal) = d := by
    cases d
    simp only at a7 a8
    simp [a7, a8]
  rw [hd] at hu
  rw [a6]
  simp only [List.append_assoc]
  cases hneg : d.neg with
  | true =>
    rw [hneg] at hu
    simp only [if_true, List.cons_append, List.nil_append]
    rw [scanNumber_neg]
    exact hu
  | false =>
    rw [hneg] at hu
    simp only [Bool.false_eq_true, if_false, List.nil_append]
    cases ip with
    | nil => exact absurd rfl a3
    | cons x xs =>
      simp only [List.map_cons, List.cons_append] at hu ⊢
      rw [scanNumber_pos _ _ (digitChar_spec x (a1 x (by simp))).2.2.2.2.2.1]
      exact hu

theorem simpleEscape_iff (e ch : Char) : simpleEscape e = some ch ↔ JsonEscape e ch := by
  unfold simpleEscape JsonEscape
  constructor
  · intro h
    split_ifs at h with h1 h2 h3 h4 h5 h6 h7 h8 <;>
      simp only [Option.some.injEq] at h <;> subst h <;> simp_all
  · intro h
    rcases h with ⟨rfl, rfl⟩ | ⟨rfl, rfl⟩ | ⟨rfl, rfl⟩ | ⟨rfl, rfl⟩ | ⟨rfl, rfl⟩ | ⟨rfl, rfl⟩ |
      ⟨rfl, rfl⟩ | ⟨rfl, rfl⟩ <;> rfl

theorem jsonEscape_ne_u (e ch : Char) (h : JsonEscape e ch) : e ≠ 'u' := by
  rcases h with ⟨rfl, _⟩ | ⟨rfl, _⟩ | ⟨rfl, _⟩ | ⟨rfl, _⟩ | ⟨rfl, _⟩ | ⟨rfl, _⟩ |
    ⟨rfl, _⟩ | ⟨rfl, _⟩ <;> decide

theorem hex4_iff (cs r : List Char) (n : Nat) :
    hex4 cs = some (n, r) ↔ ∃ a b c d, cs = a :: b :: c :: d :: r ∧ Hex4 a b c d n := by
  constructor
  · intro h
    match cs, h with
    | a :: b :: c :: d :: rest, h =>
      simp only [hex4] at h
      cases ha : hexVal a <;> cases hb : hexVal b <;> cases hc : hexVal c <;>
        cases hd : hexVal d <;> simp [ha, hb, hc, hd] at h
      obtain ⟨h1, h2⟩ := h
      subst h2
      exact ⟨a, b, c, d, rfl, _, _, _, _, ha, hb, hc, hd, h1.symm⟩
  · rintro ⟨a, b, c, d, rfl, x, y, z, w, ha, hb, hc, hd, rfl⟩
    exact hex4_cons a b c d r x y z w ha hb hc hd

theorem getu4_iff (cs r : List Char) (n : Nat) :
    getu4 cs = some (n, r) ↔
      ∃ a b c d, cs = '\\' :: 'u' :: a :: b :: c :: d :: r ∧ Hex4 a b c d n := by
  constructor
  · intro h
    match cs, h with
    | x :: y :: rest, h =>
      rw [getu4_cons_cons] at h
      by_cases hc : x = '\\' ∧ y = 'u'
      · rw [if_pos hc] at h
        obtain ⟨a, b, c, d, rfl, hh⟩ := (hex4_iff _ _ _).mp h
        obtain ⟨rfl, rfl⟩ := hc
        exact ⟨a, b, c, d, rfl, hh⟩
      · rw [if_neg hc] at h
        cases h
  · rintro ⟨a, b, c, d, rfl, hh⟩
    rw [getu4_cons_cons, if_pos ⟨rfl, rfl⟩]
    exact (hex4_iff _ _ _).mpr ⟨a, b, c, d, rfl, hh⟩

theorem hexVal_ne_quote (c : Char) (n : Nat) (h : hexVal c = some n) : c ≠ '"' := by
  rintro rfl
  have : hexVal '"' = none := by decide
  rw [this] at h
  cases h

theorem prefix_of_append_quote : ∀ (p b rest rest1 : List Char), (∀ c ∈ p, c ≠ '"') →
    b ++ '"' :: rest = p ++ rest1 → ∃ r, b = p ++ r
  | [], b, _, _, _, _ => ⟨b, rfl⟩
  | x :: p, [], rest, rest1, hp, h => by
    simp only [List.nil_append, List.cons_append, List.cons.injEq] at h
    exact absurd h.1.symm (hp x (by simp))
  | x :: p, y :: b, rest, rest1, hp, h => by
    simp only [List.cons_append, List.cons.injEq] at h
    obtain ⟨r, hr⟩ := prefix_of_append_quote p b rest rest1
      (fun c hc => hp c (List.mem_cons_of_mem _ hc)) h.2
    exact ⟨r, by rw [h.1, hr]; rfl⟩

/-- The scanner reads the text of a string up to its closing quote. -/
theorem stringText_scan (s b : List Char) (h : StringText s b) :
    ∀ (rest : List Char) (f : Nat), b.length < f →
      scanString f (b ++ '"' :: rest) = some (s, rest) := by
  induction h with
  | nil =>
    intro rest f hf
    obtain ⟨f1, rfl⟩ : ∃ f1, f = f1 + 1 := ⟨f - 1, by omega⟩
    exact scanString_quote f1 rest
  | plain c s b h1 h2 h3 _ ih =>
    intro rest f hf
    simp only [List.length_cons] at hf
    obtain ⟨f1, rfl⟩ : ∃ f1, f = f1 + 1 := ⟨f - 1, by omega⟩
    rw [List.cons_append, scanString_plain f1 c _ h2 h3, if_neg (by omega),
      ih rest f1 (by omega)]
    rfl
  | escape e ch s b he _ ih =>
    intro rest f hf
    simp only [List.length_cons] at hf
    obtain ⟨f1, rfl⟩ : ∃ f1, f = f1 + 1 := ⟨f - 1, by omega⟩
    rw [List.cons_append, List.cons_append,
      scanString_esc_some f1 e ch _ (jsonEscape_ne_u e ch he) ((simpleEscape_iff e ch).mpr he),
      ih rest f1 (by omega)]
    rfl
  | unit h1 h2 h3 h4 n s b hh hn _ ih =>
    intro rest f hf
    simp only [List.length_cons] at hf
    obtain ⟨f1, rfl⟩ : ∃ f1, f = f1 + 1 := ⟨f - 1, by omega⟩
    have hx : hex4 (h1 :: h2 :: h3 :: h4 :: (b ++ '"' :: rest)) = some (n, b ++ '"' :: rest) :=
      (hex4_iff _ _ _).mpr ⟨h1, h2, h3, h4, rfl, hh⟩
    simp only [List.cons_append]
    rw [scanString_u_some f1 _ _ n hx, decodeUnit_plain _ _ hn, ih rest f1 (by omega)]
    rfl
  | pair h1 h2 h3 h4 l1 l2 l3 l4 n1 n2 s b hh hl a1 a2 a3 a4 _ ih =>
    intro rest f hf
    simp only [List.length_cons] at hf
    obtain ⟨f1, rfl⟩ : ∃ f1, f = f1 + 1 := ⟨f - 1, by omega⟩
    have hx : hex4 (h1 :: h2 :: h3 :: h4 :: '\\' :: 'u' :: l1 :: l2 :: l3 :: l4 ::
        (b ++ '"' :: rest))
        = some (n1, '\\' :: 'u' :: l1 :: l2 :: l3 :: l4 :: (b ++ '"' :: rest)) :=
      (hex4_iff _ _ _).mpr ⟨h1, h2, h3, h4, rfl, hh⟩
    have hg : getu4 ('\\' :: 'u' :: l1 :: l2 :: l3 :: l4 :: (b ++ '"' :: rest))
        = some (n2, b ++ '"' :: rest) :=
      (getu4_iff _ _ _).mpr ⟨l1, l2, l3, l4, rfl, hl⟩
    have hd : decodeUnit n1 ('\\' :: 'u' :: l1 :: l2 :: l3 :: l4 :: (b ++ '"' :: rest))
        = (Char.ofNat ((n1 - 0xD800) * 1024 + (n2 - 0xDC00) + 0x10000), b ++ '"' :: rest) := by
      unfold decodeUnit
      rw [if_pos ⟨a1, by omega⟩, hg]
      simp only
      rw [if_pos ⟨a2, a3, a4⟩]
    simp only [List.cons_append]
    rw [scanString_u_some f1 _ _ n1 hx, hd, ih rest f1 (by omega)]
    simp only [Option.map_some']
  | lone h1 h2 h3 h4 n s b hh a1 a2 hno _ ih =>
    intro rest f hf
    simp only [List.length_cons] at hf
    obtain ⟨f1, rfl⟩ : ∃ f1, f = f1 + 1 := ⟨f - 1, by omega⟩
    have hx : hex4 (h1 :: h2 :: h3 :: h4 :: (b ++ '"' :: rest)) = some (n, b ++ '"' :: rest) :=
      (hex4_iff _ _ _).mpr ⟨h1, h2, h3, h4, rfl, hh⟩
    have hd : decodeUnit n (b ++ '"' :: rest) = (Char.ofNat 0xFFFD, b ++ '"' :: rest) := by
      unfold decodeUnit
      rw [if_pos ⟨a1, a2⟩]
      cases hg : getu4 (b ++ '"' :: rest) with
      | none => rfl
      | some p =>
        obtain ⟨rr1, rest1⟩ := p
        simp only
        rw [if_neg]
        rintro ⟨c1, c2, c3⟩
        obtain ⟨l1, l2, l3, l4, e, hl⟩ := (getu4_iff _ _ _).mp hg
        obtain ⟨x, y, z, w, hx1, hx2, hx3, hx4, _⟩ := id hl
        obtain ⟨r, hr⟩ := prefix_of_append_quote ['\\', 'u', l1, l2, l3, l4] b rest rest1 (by
          intro c hc
          simp only [List.mem_cons, List.mem_singleton, List.not_mem_nil, or_false] at hc
          rcases hc with rfl | rfl | rfl | rfl | rfl | rfl
          · decide
          · decide
          · exact hexVal_ne_quote _ _ hx1
          · exact hexVal_ne_quote _ _ hx2
          · exact hexVal_ne_quote _ _ hx3
          · exact hexVal_ne_quote _ _ hx4) e
        exact hno ⟨c1, l1, l2, l3, l4, rr1, r, hr, hl, c2, c3⟩
    simp only [List.cons_append]
    rw [scanString_u_some f1 _ _ n hx, hd, ih rest f1 (by omega)]
    simp only [Option.map_some']

/-- A string the scanner reads is written by the text up to the closing quote. -/
theorem scanString_text (f : Nat) : ∀ (cs s rest : List Char),
    scanString f cs = some (s, rest) → ∃ b, cs = b ++ '"' :: rest ∧ StringText s b := by
  induction f with
  | zero => intro cs s rest h; simp [scanString] at h
  | succ f ih =>
    intro cs s rest h
    cases cs with
    | nil => simp [scanString] at h
    | cons c cs =>
      by_cases hq : c = '"'
      · subst hq
        rw [scanString_quote] at h
        simp only [Option.some.injEq, Prod.mk.injEq] at h
        obtain ⟨rfl, rfl⟩ := h
        exact ⟨[], rfl, .nil⟩
      · by_cases hb : c = '\\'
        · subst hb
          cases cs with
          | nil => rw [scanString_bs_nil] at h; cases h
          | cons e cs1 =>
            by_cases hu : e = 'u'
            · subst hu
              cases hx : hex4 cs1 with
              | none => rw [scanString_u_none f cs1 hx] at h; cases h
              | some p =>
                obtain ⟨rr, cs2⟩ := p
                rw [scanString_u_some f cs1 cs2 rr hx] at h
                obtain ⟨s1, hs1, rfl⟩ := map_some_inv h
                obtain ⟨h1, h2, h3, h4, rfl, hh⟩ := (hex4_iff _ _ _).mp hx
                by_cases hsur : 0xD800 ≤ rr ∧ rr < 0xE000
                · -- a surrogate
                  have hdec : (∃ l1 l2 l3 l4 n2 rest1,
                        cs2 = '\\' :: 'u' :: l1 :: l2 :: l3 :: l4 :: rest1 ∧
                        Hex4 l1 l2 l3 l4 n2 ∧ rr < 0xDC00 ∧ 0xDC00 ≤ n2 ∧ n2 < 0xE000 ∧
                        decodeUnit rr cs2
                          = (Char.ofNat ((rr - 0xD800) * 1024 + (n2 - 0xDC00) + 0x10000),
                              rest1)) ∨
                      (decodeUnit rr cs2 = (Char.ofNat 0xFFFD, cs2) ∧
                        ¬ (rr < 0xDC00 ∧ ∃ n2 rest1, getu4 cs2 = some (n2, rest1) ∧
                          0xDC00 ≤ n2 ∧ n2 < 0xE000)) := by
                    unfold decodeUnit
                    rw [if_pos hsur]
                    cases hg : getu4 cs2 with
                    | none =>
                      right
                      exact ⟨rfl, by rintro ⟨_, n2, rest1, hc, _⟩; cases hc⟩
                    | some p =>
                      obtain ⟨rr1, rest1⟩ := p
                      simp only
                      by_cases hc : rr < 0xDC00 ∧ 0xDC00 ≤ rr1 ∧ rr1 < 0xE000
                      · left
                        rw [if_pos hc]
                        obtain ⟨l1, l2, l3, l4, e, hl⟩ := (getu4_iff _ _ _).mp hg
                        exact ⟨l1, l2, l3, l4, rr1, rest1, e, hl, hc.1, hc.2.1, hc.2.2, rfl⟩
                      · right
                        rw [if_neg hc]
                        refine ⟨rfl, ?_⟩
                        rintro ⟨c1, n2, r1, hc2, c3, c4⟩
                        simp only [Option.some.injEq, Prod.mk.injEq] at hc2
                        obtain ⟨rfl, rfl⟩ := hc2
                        exact hc ⟨c1, c3, c4⟩
                  rcases hdec with ⟨l1, l2, l3, l4, n2, rest1, rfl, hl, c1, c2, c3, hd⟩ | ⟨hd, hno⟩
                  · rw [hd] at hs1 ⊢
                    simp only at hs1 ⊢
                    obtain ⟨b, rfl, hb⟩ := ih _ _ _ hs1
                    refine ⟨'\\' :: 'u' :: h1 :: h2 :: h3 :: h4 :: '\\' :: 'u' :: l1 :: l2 :: l3 ::
                      l4 :: b, rfl, ?_⟩
                    exact StringText.pair h1 h2 h3 h4 l1 l2 l3 l4 rr n2 _ b hh hl hsur.1 c1 c2 c3 hb
                  · rw [hd] at hs1 ⊢
                    simp only at hs1 ⊢
                    obtain ⟨b, rfl, hb⟩ := ih _ _ _ hs1
                    refine ⟨'\\' :: 'u' :: h1 :: h2 :: h3 :: h4 :: b, rfl,
                      .lone h1 h2 h3 h4 rr _ b hh hsur.1 hsur.2 ?_ hb⟩
                    rintro ⟨c1, l1, l2, l3, l4, n2, r, rfl, hl, c2, c3⟩
                    apply hno
                    refine ⟨c1, n2, r ++ '"' :: rest, ?_, c2, c3⟩
                    exact (getu4_iff _ _ _).mpr ⟨l1, l2, l3, l4, rfl, hl⟩
                · rw [decodeUnit_plain _ _ hsur] at hs1 ⊢
                  simp only at hs1 ⊢
                  obtain ⟨b, rfl, hb⟩ := ih _ _ _ hs1
                  exact ⟨'\\' :: 'u' :: h1 :: h2 :: h3 :: h4 :: b, rfl,
                    .unit h1 h2 h3 h4 rr _ b hh hsur hb⟩
            · cases he : simpleEscape e with
              | none => rw [scanString_esc_none f e cs1 hu he] at h; cases h
              | some ch =>
                rw [scanString_esc_some f e ch cs1 hu he] at h
                obtain ⟨s1, hs1, rfl⟩ := map_some_inv h
                obtain ⟨b, rfl, hb⟩ := ih _ _ _ hs1
                exact ⟨'\\' :: e :: b, rfl, .escape e ch _ b ((simpleEscape_iff e ch).mp he) hb⟩
        · rw [scanString_plain f c cs hq hb] at h
          by_cases hctl : c.toNat < 0x20
          · rw [if_pos hctl] at h; cases h
          · rw [if_neg hctl] at h
            obtain ⟨s1, hs1, rfl⟩ := map_some_inv h
            obtain ⟨b, rfl, hb1⟩ := ih _ _ _ hs1
            exact ⟨c :: b, rfl, .plain c _ b (by omega) hq hb hb1⟩

theorem isSpace_iff (c : Char) :
    isSpace c = true ↔ (c = ' ' ∨ c = '\t' ∨ c = '\n' ∨ c = '\r') := by
  unfold isSpace
  simp only [Bool.or_eq_true, decide_eq_true_eq]
  tauto

theorem jsonWs_nil : JsonWs [] := fun c hc => by simp at hc

theorem jsonWs_cons (c : Char) (w : List Char) : JsonWs (c :: w) ↔ isSpace c = true ∧ JsonWs w := by
  unfold JsonWs
  simp only [List.mem_cons, forall_eq_or_imp, isSpace_iff]

theorem skipSpace_ws (w : List Char) (c : Char) (r : List Char) (hw : JsonWs w)
    (hc : isSpace c = false) : skipSpace (w ++ c :: r) = c :: r := by
  induction w with
  | nil => simp [skipSpace, hc]
  | cons x w ih =>
    rw [jsonWs_cons] at hw
    simp only [List.cons_append, skipSpace, hw.1, if_true]
    exact ih hw.2

theorem skipSpace_ws_nil (w : List Char) (hw : JsonWs w) : skipSpace w = [] := by
  induction w with
  | nil => rfl
  | cons x w ih =>
    rw [jsonWs_cons] at hw
    simp only [skipSpace, hw.1, if_true]
    exact ih hw.2

theorem skipSpace_inv : ∀ cs : List Char, ∃ w, JsonWs w ∧ cs = w ++ skipSpace cs ∧
    ∀ c r, skipSpace cs = c :: r → isSpace c = false
  | [] => ⟨[], jsonWs_nil, rfl, fun c r h => by simp [skipSpace] at h⟩
  | x :: cs => by
    obtain ⟨w, h1, h2, h3⟩ := skipSpace_inv cs
    by_cases hx : isSpace x = true
    · refine ⟨x :: w, (jsonWs_cons x w).mpr ⟨hx, h1⟩, ?_, ?_⟩
      · simp only [skipSpace, hx, if_true, List.cons_append]
        rw [← h2]
      · intro c r h
        simp only [skipSpace, hx, if_true] at h
        exact h3 c r h
    · refine ⟨[], jsonWs_nil, ?_, ?_⟩
      · simp [skipSpace, hx]
      · intro c r h
        simp only [skipSpace, hx] at h
        simp only [Bool.false_eq_true, if_false, List.cons.injEq] at h
        rw [← h.1]
        simpa using hx

theorem numEnd_space (c : Char) (r : List Char) (h : isSpace c = true) : numEnd (c :: r) := by
  intro c1 r1 e
  simp only [List.cons.injEq] at e
  rw [← e.1]
  rcases (isSpace_iff c).mp h with rfl | rfl | rfl | rfl <;> decide

theorem numEnd_follow (w x : List Char) (closer : Char) (rest : List Char) (hw : JsonWs w)
    (hx : x = [] ∨ ∃ r, x = ',' :: r) (hc : closer = ']' ∨ closer = '}') :
    numEnd (w ++ (x ++ closer :: rest)) := by
  cases w with
  | cons c w =>
    rw [jsonWs_cons] at hw
    exact numEnd_space c _ hw.1
  | nil =>
    rcases hx with rfl | ⟨r, rfl⟩
    · exact numEnd_close closer rest (by tauto)
    · exact numEnd_close ',' _ (Or.inl rfl)

theorem arrayRest_head (xs : JList Decimal) (r : List Char) (h : ArrayRest xs r) :
    r = [] ∨ ∃ r1, r = ',' :: r1 := by
  cases xs with
  | nil => left; simpa [ArrayRest] using h
  | cons x xs =>
    right
    simp only [ArrayRest] at h
    obtain ⟨w1, t, w2, r1, _, _, _, _, e⟩ := h
    exact ⟨_, e⟩

theorem objectRest_head (ms : JMembers Decimal) (r : List Char) (h : ObjectRest ms r) :
    r = [] ∨ ∃ r1, r = ',' :: r1 := by
  cases ms with
  | nil => left; simpa [ObjectRest] using h
  | cons k v ms =>
    right
    simp only [ObjectRest] at h
    obtain ⟨w1, kb, w2, w3, t, w4, r1, _, _, _, _, _, _, _, e⟩ := h
    exact ⟨_, e⟩

theorem arrayRest_iff (x : JVal Decimal) (xs : JList Decimal) (b : List Char) :
    ArrayRest (.cons x xs) (',' :: b) ↔ ArrayText (.cons x xs) b := by
  simp only [ArrayRest, ArrayText, List.cons.injEq, true_and]

theorem objectRest_iff (k : List Char) (v : JVal Decimal) (ms : JMembers Decimal)
    (b : List Char) : ObjectRest (.cons k v ms) (',' :: b) ↔ ObjectText (.cons k v ms) b := by
  simp only [ObjectRest, ObjectText, List.cons.injEq, true_and]

/-- A JSON text starts with a character that is no white space and closes nothing. -/
theorem jsonText_head (v : JVal Decimal) (t : List Char) (h : JsonText v t) :
    ∃ c tl, t = c :: tl ∧ valueStart c := by
  cases v with
  | null => simp only [JsonText] at h; exact ⟨_, _, h, by unfold valueStart; decide⟩
  | bool b =>
    simp only [JsonText] at h
    cases b
    · exact ⟨_, _, h, by unfold valueStart; decide⟩
    · exact ⟨_, _, h, by unfold valueStart; decide⟩
  | num d =>
    simp only [JsonText] at h
    obtain ⟨ip, fp, ex, e, a1, a2, a3, a4, a5, a6, a7, a8⟩ := h
    cases hneg : d.neg with
    | true =>
      rw [hneg] at a6
      exact ⟨'-', _, a6, by unfold valueStart; decide⟩
    | false =>
      rw [hneg] at a6
      cases ip with
      | nil => exact absurd rfl a3
      | cons x xs =>
        refine ⟨digitChar x, _, a6, ?_⟩
        exact (digit_start _ (digitChar_spec x (a1 x (by simp))).1).1
  | str s =>
    simp only [JsonText] at h
    obtain ⟨b, _, e⟩ := h
    exact ⟨_, _, e, by unfold valueStart; decide⟩
  | arr xs =>
    simp only [JsonText] at h
    obtain ⟨b, _, e⟩ := h
    exact ⟨_, _, e, by unfold valueStart; decide⟩
  | obj ms =>
    simp only [JsonText] at h
    obtain ⟨b, _, e⟩ := h
    exact ⟨_, _, e, by unfold valueStart; decide⟩

mutual
/-- The scanner reads a JSON text, with white space before it, and leaves what follows. -/
theorem jsonText_scan : ∀ (v : JVal Decimal) (t : List Char), JsonText v t →
    ∀ (f d : Nat) (w rest : List Char), JsonWs w → d + v.depth ≤ maxNestingDepth →
      t.length ≤ f → (v.isNum = true → numEnd rest) →
      scanValue f d (w ++ (t ++ rest)) = some (v, rest)
  | .null, t, h, f, d, w, rest, hw, _, hf, _ => by
    simp only [JsonText] at h
    subst h
    obtain ⟨f1, rfl⟩ : ∃ f1, f = f1 + 1 := ⟨f - 1, by simp at hf; omega⟩
    simp only [List.cons_append, List.nil_append]
    rw [scanValue_null f1 d _ _ (skipSpace_ws w 'n' _ hw (by decide))]
    simp [stripWord]
  | .bool true, t, h, f, d, w, rest, hw, _, hf, _ => by
    simp only [JsonText, if_true] at h
    subst h
    obtain ⟨f1, rfl⟩ : ∃ f1, f = f1 + 1 := ⟨f - 1, by simp at hf; omega⟩
    simp only [List.cons_append, List.nil_append]
    rw [scanValue_true f1 d _ _ (skipSpace_ws w 't' _ hw (by decide))]
    simp [stripWord]
  | .bool false, t, h, f, d, w, rest, hw, _, hf, _ => by
    simp only [JsonText, Bool.false_eq_true, if_false] at h
    subst h
    obtain ⟨f1, rfl⟩ : ∃ f1, f = f1 + 1 := ⟨f - 1, by simp at hf; omega⟩
    simp only [List.cons_append, List.nil_append]
    rw [scanValue_false f1 d _ _ (skipSpace_ws w 'f' _ hw (by decide))]
    simp [stripWord]
  | .num x, t, h, f, d, w, rest, hw, _, hf, hrest => by
    simp only [JsonText] at h
    obtain ⟨c, tl, e, hstart⟩ := jsonText_head (.num x) t (by simpa only [JsonText] using h)
    have hscan := numberText_scan x t rest h (hrest rfl)
    subst e
    obtain ⟨f1, rfl⟩ : ∃ f1, f = f1 + 1 := ⟨f - 1, by simp at hf; omega⟩
    have hc : c ≠ '{' ∧ c ≠ '[' ∧ c ≠ '"' ∧ c ≠ 't' ∧ c ≠ 'f' ∧ c ≠ 'n' := by
      obtain ⟨t1, e1, _, c1, tl1, e2, hc⟩ := scanNumber_text _ _ _ hscan
      have : c1 = c := by
        rw [e2] at e1
        simp only [List.cons_append, List.cons.injEq] at e1
        exact e1.1.symm
      subst this
      rcases hc with rfl | hc
      · decide
      · exact (digit_start _ hc).2
    rw [List.cons_append,
      scanValue_num f1 d _ _ c (skipSpace_ws w c _ hw hstart.1) hc.1 hc.2.1 hc.2.2.1
        hc.2.2.2.1 hc.2.2.2.2.1 hc.2.2.2.2.2]
    rw [List.cons_append] at hscan
    rw [hscan]
    rfl
  | .str s, t, h, f, d, w, rest, hw, _, hf, _ => by
    simp only [JsonText] at h
    obtain ⟨b, hb, rfl⟩ := h
    obtain ⟨f1, rfl⟩ : ∃ f1, f = f1 + 1 := ⟨f - 1, by simp at hf; omega⟩
    have e : '"' :: (b ++ ['"']) ++ rest = '"' :: (b ++ '"' :: rest) := by simp
    rw [e, scanValue_str f1 d _ _ (skipSpace_ws w '"' _ hw (by decide)),
      stringText_scan s b hb rest _ (by simp)]
    rfl
  | .arr xs, t, h, f, d, w, rest, hw, hd, hf, _ => by
    have ih := arrayText_scan xs
    simp only [JsonText] at h
    obtain ⟨b, hb, rfl⟩ := h
    obtain ⟨f1, rfl⟩ : ∃ f1, f = f1 + 1 := ⟨f - 1, by simp at hf; omega⟩
    have e : '[' :: (b ++ [']']) ++ rest = '[' :: (b ++ ']' :: rest) := by simp
    rw [e]
    simp only [JVal.depth] at hd
    simp only [List.length_cons, List.length_append, List.length_singleton] at hf
    cases xs with
    | nil =>
      simp only [ArrayText] at hb
      rw [scanValue_arr_nil f1 d _ _ rest (skipSpace_ws w '[' _ hw (by decide)) (by omega)
        (skipSpace_ws b ']' _ hb (by decide))]
    | cons x xs1 =>
      have hb0 := hb
      simp only [ArrayText] at hb
      obtain ⟨w1, t1, w2, r, a1, a2, a3, a4, rfl⟩ := hb
      obtain ⟨c1, tl1, e1, hstart⟩ := jsonText_head x t1 a2
      subst e1
      have e2 : w1 ++ (c1 :: tl1 ++ (w2 ++ r)) ++ ']' :: rest
          = w1 ++ c1 :: (tl1 ++ (w2 ++ r) ++ ']' :: rest) := by simp
      have hlist : ArrayText (.cons x xs1) (c1 :: tl1 ++ (w2 ++ r)) := by
        simp only [ArrayText]
        exact ⟨[], _, w2, r, jsonWs_nil, a2, a3, a4, rfl⟩
      have := ih _ (by simp) hlist f1 (d + 1) rest (by omega) (by
        simp only [List.length_append, List.length_cons] at hf ⊢
        omega)
      rw [e2, scanValue_arr f1 d _ _ _ c1 (skipSpace_ws w '[' _ hw (by decide)) (by omega)
        (skipSpace_ws w1 c1 _ a1 hstart.1) hstart.2.1]
      simp only [List.cons_append] at this
      rw [this]
      rfl
  | .obj ms, t, h, f, d, w, rest, hw, hd, hf, _ => by
    have ih := objectText_scan ms
    simp only [JsonText] at h
    obtain ⟨b, hb, rfl⟩ := h
    obtain ⟨f1, rfl⟩ : ∃ f1, f = f1 + 1 := ⟨f - 1, by simp at hf; omega⟩
    have e : '{' :: (b ++ ['}']) ++ rest = '{' :: (b ++ '}' :: rest) := by simp
    rw [e]
    simp only [JVal.depth] at hd
    simp only [List.length_cons, List.length_append, List.length_singleton] at hf
    cases ms with
    | nil =>
      simp only [ObjectText] at hb
      rw [scanValue_obj_nil f1 d _ _ rest (skipSpace_ws w '{' _ hw (by decide)) (by omega)
        (skipSpace_ws b '}' _ hb (by decide))]
    | cons k v ms1 =>
      have hb0 := hb
      simp only [ObjectText] at hb
      obtain ⟨w1, kb, w2, w3, t1, w4, r, a1, a2, a3, a4, a5, a6, a7, rfl⟩ := hb
      have e2 : w1 ++ ('"' :: (kb ++ ('"' :: (w2 ++ (':' :: (w3 ++ (t1 ++ (w4 ++ r))))))))
            ++ '}' :: rest
          = w1 ++ '"' :: ((kb ++ ('"' :: (w2 ++ (':' :: (w3 ++ (t1 ++ (w4 ++ r)))))))
            ++ '}' :: rest) := by simp
      have hlist : ObjectText (.cons k v ms1)
          ('"' :: (kb ++ ('"' :: (w2 ++ (':' :: (w3 ++ (t1 ++ (w4 ++ r)))))))) := by
        simp only [ObjectText]
        exact ⟨[], kb, w2, w3, t1, w4, r, jsonWs_nil, a2, a3, a4, a5, a6, a7, rfl⟩
      have := ih _ (by simp) hlist f1 (d + 1) rest (by omega) (by
        simp only [List.length_append, List.length_cons] at hf ⊢
        omega)
      rw [e2, scanValue_obj f1 d _ _ _ '"' (skipSpace_ws w '{' _ hw (by decide)) (by omega)
        (skipSpace_ws w1 '"' _ a1 (by decide)) (by decide)]
      simp only [List.cons_append] at this
      rw [this]
      rfl
/-- The scanner reads the elements of an array up to the closing bracket. -/
theorem arrayText_scan : ∀ (l : JList Decimal) (b : List Char), l ≠ .nil → ArrayText l b →
    ∀ (f d : Nat) (rest : List Char), d + l.depth ≤ maxNestingDepth → b.length + 1 ≤ f →
      scanElems f d (b ++ ']' :: rest) = some (l, rest)
  | .nil, _, hne, _, _, _, _, _, _ => absurd rfl hne
  | .cons x xs, b, _, hb, f, d, rest, hd, hf => by
    have ihx := jsonText_scan x
    have ihxs := arrayText_scan xs
    simp only [ArrayText] at hb
    obtain ⟨w1, t, w2, r, a1, a2, a3, a4, rfl⟩ := hb
    simp only [JList.depth] at hd
    simp only [List.length_append] at hf
    obtain ⟨c1, tl1, e1, _⟩ := jsonText_head x t a2
    have ht : 1 ≤ t.length := by rw [e1]; simp
    obtain ⟨f1, rfl⟩ : ∃ f1, f = f1 + 1 := ⟨f - 1, by omega⟩
    have e : w1 ++ (t ++ (w2 ++ r)) ++ ']' :: rest = w1 ++ (t ++ (w2 ++ (r ++ ']' :: rest))) := by
      simp
    have hv := ihx t a2 f1 d w1 (w2 ++ (r ++ ']' :: rest)) a1 (by omega) (by omega)
      (fun _ => numEnd_follow w2 r ']' rest a3 (arrayRest_head xs r a4) (Or.inl rfl))
    rw [e]
    cases xs with
    | nil =>
      simp only [ArrayRest] at a4
      subst a4
      rw [scanElems_step f1 d _ _ rest x ']' hv (skipSpace_ws w2 ']' _ a3 (by decide))]
      simp
    | cons y ys =>
      obtain ⟨b1, rfl⟩ : ∃ b1, r = ',' :: b1 := by
        rcases arrayRest_head _ r a4 with h0 | h0
        · subst h0
          simp [ArrayRest] at a4
        · exact h0
      have hb1 := (arrayRest_iff y ys b1).mp a4
      have := ihxs b1 (by simp) hb1 f1 d rest (by omega) (by
        simp only [List.length_cons] at hf
        omega)
      rw [scanElems_step f1 d _ _ _ x ',' hv (skipSpace_ws w2 ',' _ a3 (by decide)),
        if_pos rfl]
      simp only [List.append_eq]
      rw [this]
      rfl
/-- The scanner reads the members of an object up to the closing brace. -/
theorem objectText_scan : ∀ (l : JMembers Decimal) (b : List Char), l ≠ .nil →
    ObjectText l b →
    ∀ (f d : Nat) (rest : List Char), d + l.depth ≤ maxNestingDepth → b.length + 1 ≤ f →
      scanMembers f d (b ++ '}' :: rest) = some (l, rest)
  | .nil, _, hne, _, _, _, _, _, _ => absurd rfl hne
  | .cons k v ms, b, _, hb, f, d, rest, hd, hf => by
    have ihv := jsonText_scan v
    have ihms := objectText_scan ms
    simp only [ObjectText] at hb
    obtain ⟨w1, kb, w2, w3, t, w4, r, a1, a2, a3, a4, a5, a6, a7, rfl⟩ := hb
    simp only [JMembers.depth] at hd
    simp only [List.length_append, List.length_cons] at hf
    obtain ⟨c1, tl1, e1, _⟩ := jsonText_head v t a5
    have ht : 1 ≤ t.length := by rw [e1]; simp
    obtain ⟨f1, rfl⟩ : ∃ f1, f = f1 + 1 := ⟨f - 1, by omega⟩
    have e : w1 ++ ('"' :: (kb ++ ('"' :: (w2 ++ (':' :: (w3 ++ (t ++ (w4 ++ r))))))))
          ++ '}' :: rest
        = w1 ++ '"' :: (kb ++ '"' :: (w2 ++ ':' :: (w3 ++ (t ++ (w4 ++ (r ++ '}' :: rest)))))) := by
      simp
    have hk := stringText_scan k kb a2 (w2 ++ ':' :: (w3 ++ (t ++ (w4 ++ (r ++ '}' :: rest)))))
      (kb ++ '"' :: (w2 ++ ':' :: (w3 ++ (t ++ (w4 ++ (r ++ '}' :: rest)))))).length (by simp)
    have hv := ihv t a5 f1 d w3 (w4 ++ (r ++ '}' :: rest)) a4 (by omega) (by omega)
      (fun _ => numEnd_follow w4 r '}' rest a6 (objectRest_head ms r a7) (Or.inr rfl))
    rw [e]
    cases ms with
    | nil =>
      simp only [ObjectRest] at a7
      subst a7
      rw [scanMembers_step f1 d _ _ _ _ _ rest k v '}' (skipSpace_ws w1 '"' _ a1 (by decide))
        hk (skipSpace_ws w2 ':' _ a3 (by decide)) hv (skipSpace_ws w4 '}' _ a6 (by decide))]
      simp
    | cons k1 v1 ms1 =>
      obtain ⟨b1, rfl⟩ : ∃ b1, r = ',' :: b1 := by
        rcases objectRest_head _ r a7 with h0 | h0
        · subst h0
          simp [ObjectRest] at a7
        · exact h0
      have hb1 := (objectRest_iff k1 v1 ms1 b1).mp a7
      have := ihms b1 (by simp) hb1 f1 d rest (by omega) (by
        simp only [List.length_cons] at hf
        omega)
      rw [scanMembers_step f1 d _ _ _ _ _ _ k v ',' (skipSpace_ws w1 '"' _ a1 (by decide))
        hk (skipSpace_ws w2 ':' _ a3 (by decide)) hv (skipSpace_ws w4 ',' _ a6 (by decide)),
        if_pos rfl]
      simp only [List.append_eq]
      rw [this]
      rfl
end

theorem jsonWs_append (a b : List Char) : JsonWs (a ++ b) ↔ JsonWs a ∧ JsonWs b := by
  unfold JsonWs
  simp only [List.mem_append]
  constructor
  · intro h
    exact ⟨fun c hc => h c (Or.inl hc), fun c hc => h c (Or.inr hc)⟩
  · rintro ⟨h1, h2⟩ c (hc | hc)
    · exact h1 c hc
    · exact h2 c hc

theorem stripWord_inv : ∀ (w cs r : List Char), stripWord w cs = some r → cs = w ++ r
  | [], cs, r, h => by
    simp only [stripWord, Option.some.injEq] at h
    simp [h]
  | _ :: _, [], r, h => by simp [stripWord] at h
  | x :: w, c :: cs, r, h => by
    simp only [stripWord] at h
    by_cases hx : x = c
    · rw [if_pos hx] at h
      rw [hx, stripWord_inv w cs r h]
      rfl
    · rw [if_neg hx] at h
      cases h

theorem arrayText_ws (xs : JList Decimal) (w b : List Char) (hne : xs ≠ .nil) (hw : JsonWs w)
    (h : ArrayText xs b) : ArrayText xs (w ++ b) := by
  cases xs with
  | nil => exact absurd rfl hne
  | cons x xs =>
    simp only [ArrayText] at h ⊢
    obtain ⟨w1, t, w2, r, a1, a2, a3, a4, rfl⟩ := h
    exact ⟨w ++ w1, t, w2, r, (jsonWs_append w w1).mpr ⟨hw, a1⟩, a2, a3, a4, by simp⟩

theorem objectText_ws (ms : JMembers Decimal) (w b : List Char) (hne : ms ≠ .nil)
    (hw : JsonWs w) (h : ObjectText ms b) : ObjectText ms (w ++ b) := by
  cases ms with
  | nil => exact absurd rfl hne
  | cons k v ms =>
    simp only [ObjectText] at h ⊢
    obtain ⟨w1, kb, w2, w3, t, w4, r, a1, a2, a3, a4, a5, a6, a7, rfl⟩ := h
    exact ⟨w ++ w1, kb, w2, w3, t, w4, r, (jsonWs_append w w1).mpr ⟨hw, a1⟩, a2, a3, a4, a5, a6,
      a7, by simp⟩

theorem skipSpace_split (cs : List Char) (c : Char) (r : List Char)
    (h : skipSpace cs = c :: r) : ∃ w, JsonWs w ∧ cs = w ++ c :: r := by
  obtain ⟨w, h1, h2, _⟩ := skipSpace_inv cs
  rw [h] at h2
  exact ⟨w, h1, h2⟩

/-- What the scanner reads is a JSON text at the head of the input, after white space. -/
theorem scan_text (f : Nat) :
    (∀ (d : Nat) (cs : List Char) (v : JVal Decimal) (rest : List Char),
      scanValue f d cs = some (v, rest) →
      ∃ w t, JsonWs w ∧ JsonText v t ∧ cs = w ++ (t ++ rest)) ∧
    (∀ (d : Nat) (cs : List Char) (xs : JList Decimal) (rest : List Char),
      scanElems f d cs = some (xs, rest) →
      xs ≠ .nil ∧ ∃ b, ArrayText xs b ∧ cs = b ++ ']' :: rest) ∧
    (∀ (d : Nat) (cs : List Char) (ms : JMembers Decimal) (rest : List Char),
      scanMembers f d cs = some (ms, rest) →
      ms ≠ .nil ∧ ∃ b, ObjectText ms b ∧ cs = b ++ '}' :: rest) := by
  induction f with
  | zero =>
    refine ⟨?_, ?_, ?_⟩ <;> intro d cs v rest h <;>
      simp [scanValue, scanElems, scanMembers] at h
  | succ f ih =>
    obtain ⟨ihV, ihE, ihM⟩ := ih
    refine ⟨?_, ?_, ?_⟩
    · intro d cs v rest h
      cases hs : skipSpace cs with
      | nil => rw [scanValue_eof f d cs hs] at h; simp at h
      | cons c rest0 =>
        obtain ⟨w, hw, rfl⟩ := skipSpace_split cs c rest0 hs
        by_cases h1 : c = '{'
        · subst h1
          by_cases hd : maxNestingDepth ≤ d
          · rw [scanValue_deep f d _ rest0 _ hs (Or.inl rfl) hd] at h; simp at h
          · cases hs1 : skipSpace rest0 with
            | nil => rw [scanValue_obj_eof f d _ rest0 hs hs1] at h; simp at h
            | cons c1 rest1 =>
              obtain ⟨w1, hw1, rfl⟩ := skipSpace_split rest0 c1 rest1 hs1
              by_cases hc1 : c1 = '}'
              · subst hc1
                rw [scanValue_obj_nil f d _ _ rest1 hs hd hs1] at h
                simp only [Option.some.injEq, Prod.mk.injEq] at h
                obtain ⟨rfl, rfl⟩ := h
                refine ⟨w, '{' :: (w1 ++ ['}']), hw, ?_, by simp⟩
                simp only [JsonText]
                exact ⟨w1, by simpa only [ObjectText] using hw1, rfl⟩
              · rw [scanValue_obj f d _ _ rest1 c1 hs hd hs1 hc1] at h
                obtain ⟨ms, hm, rfl⟩ := map_some_inv h
                obtain ⟨hne, b, hb, e⟩ := ihM (d + 1) _ ms rest hm
                refine ⟨w, '{' :: ((w1 ++ b) ++ ['}']), hw, ?_, by rw [e]; simp⟩
                simp only [JsonText]
                exact ⟨w1 ++ b, objectText_ws ms w1 b hne hw1 hb, rfl⟩
        · by_cases h2 : c = '['
          · subst h2
            by_cases hd : maxNestingDepth ≤ d
            · rw [scanValue_deep f d _ rest0 _ hs (Or.inr rfl) hd] at h; simp at h
            · cases hs1 : skipSpace rest0 with
              | nil => rw [scanValue_arr_eof f d _ rest0 hs hs1] at h; simp at h
              | cons c1 rest1 =>
                obtain ⟨w1, hw1, rfl⟩ := skipSpace_split rest0 c1 rest1 hs1
                by_cases hc1 : c1 = ']'
                · subst hc1
                  rw [scanValue_arr_nil f d _ _ rest1 hs hd hs1] at h
                  simp only [Option.some.injEq, Prod.mk.injEq] at h
                  obtain ⟨rfl, rfl⟩ := h
                  refine ⟨w, '[' :: (w1 ++ [']']), hw, ?_, by simp⟩
                  simp only [JsonText]
                  exact ⟨w1, by simpa only [ArrayText] using hw1, rfl⟩
                · rw [scanValue_arr f d _ _ rest1 c1 hs hd hs1 hc1] at h
                  obtain ⟨xs, hx, rfl⟩ := map_some_inv h
                  obtain ⟨hne, b, hb, e⟩ := ihE (d + 1) _ xs rest hx
                  refine ⟨w, '[' :: ((w1 ++ b) ++ [']']), hw, ?_, by rw [e]; simp⟩
                  simp only [JsonText]
                  exact ⟨w1 ++ b, arrayText_ws xs w1 b hne hw1 hb, rfl⟩
          · by_cases h3 : c = '"'
            · subst h3
              rw [scanValue_str f d _ rest0 hs] at h
              obtain ⟨s, hs2, rfl⟩ := map_some_inv h
              obtain ⟨b, rfl, hb⟩ := scanString_text _ _ _ _ hs2
              refine ⟨w, '"' :: (b ++ ['"']), hw, ?_, by simp⟩
              simp only [JsonText]
              exact ⟨b, hb, rfl⟩
            · have word : ∀ (wd : List Char) (b : JVal Decimal), JsonText b (c :: wd) →
                  (stripWord wd rest0).map (fun r => (b, r)) = some (v, rest) →
                  ∃ w0 t, JsonWs w0 ∧ JsonText v t ∧ w ++ c :: rest0 = w0 ++ (t ++ rest) := by
                intro wd b hb hwd
                cases hx : stripWord wd rest0 with
                | none => simp [hx] at hwd
                | some r =>
                  simp only [hx, Option.map_some', Option.some.injEq, Prod.mk.injEq] at hwd
                  obtain ⟨rfl, rfl⟩ := hwd
                  refine ⟨w, c :: wd, hw, hb, ?_⟩
                  rw [stripWord_inv wd rest0 r hx]
                  simp
              by_cases h4 : c = 't'
              · subst h4
                rw [scanValue_true f d _ rest0 hs] at h
                exact word _ (.bool true) (by simp [JsonText]) h
              · by_cases h5 : c = 'f'
                · subst h5
                  rw [scanValue_false f d _ rest0 hs] at h
                  exact word _ (.bool false) (by simp [JsonText]) h
                · by_cases h6 : c = 'n'
                  · subst h6
                    rw [scanValue_null f d _ rest0 hs] at h
                    exact word _ .null (by simp [JsonText]) h
                  · rw [scanValue_num f d _ rest0 c hs h1 h2 h3 h4 h5 h6] at h
                    obtain ⟨x, hx, rfl⟩ := map_some_inv h
                    obtain ⟨t, e, ht, _⟩ := scanNumber_text _ _ _ hx
                    refine ⟨w, t, hw, by simpa only [JsonText] using ht, by rw [e]⟩
    · intro d cs xs rest h
      cases hv : scanValue f d cs with
      | none => rw [scanElems_fail f d cs hv] at h; simp at h
      | some p =>
        obtain ⟨v, rest0⟩ := p
        cases hs : skipSpace rest0 with
        | nil => rw [scanElems_eof f d cs rest0 v hv hs] at h; simp at h
        | cons c rest1 =>
          obtain ⟨w, t, hw, ht, rfl⟩ := ihV d cs v rest0 hv
          obtain ⟨w2, hw2, rfl⟩ := skipSpace_split rest0 c rest1 hs
          rw [scanElems_step f d _ _ rest1 v c hv hs] at h
          by_cases hc : c = ','
          · rw [if_pos hc] at h
            subst hc
            obtain ⟨ys, hy, rfl⟩ := map_some_inv h
            obtain ⟨hne, b, hb, rfl⟩ := ihE d rest1 ys rest hy
            refine ⟨by simp, w ++ (t ++ (w2 ++ ',' :: b)), ?_, by simp⟩
            cases ys with
            | nil => exact absurd rfl hne
            | cons y ys1 =>
              have hr := (arrayRest_iff y ys1 b).mpr hb
              simp only [ArrayText]
              exact ⟨w, t, w2, ',' :: b, hw, ht, hw2, hr, rfl⟩
          · rw [if_neg hc] at h
            by_cases hc2 : c = ']'
            · rw [if_pos hc2] at h
              subst hc2
              simp only [Option.some.injEq, Prod.mk.injEq] at h
              obtain ⟨rfl, rfl⟩ := h
              refine ⟨by simp, w ++ (t ++ (w2 ++ [])), ?_, by simp⟩
              simp only [ArrayText]
              exact ⟨w, t, w2, [], hw, ht, hw2, by simp [ArrayRest], rfl⟩
            · rw [if_neg hc2] at h; simp at h
    · intro d cs ms rest h
      cases hs : skipSpace cs with
      | nil => rw [scanMembers_eof f d cs hs] at h; simp at h
      | cons c rest0 =>
        obtain ⟨w1, hw1, rfl⟩ := skipSpace_split cs c rest0 hs
        by_cases hc : c = '"'
        · subst hc
          cases hk : scanString rest0.length rest0 with
          | none => rw [scanMembers_badkey f d _ rest0 hs hk] at h; simp at h
          | some p =>
            obtain ⟨k, rest1⟩ := p
            obtain ⟨kb, rfl, hkb⟩ := scanString_text _ _ _ _ hk
            cases hs1 : skipSpace rest1 with
            | nil =>
              rw [scanMembers_nocolon f d _ _ rest1 k hs hk (Or.inl hs1)] at h; simp at h
            | cons c1 rest2 =>
              obtain ⟨w2, hw2, rfl⟩ := skipSpace_split rest1 c1 rest2 hs1
              by_cases hc1 : c1 = ':'
              · subst hc1
                cases hv : scanValue f d rest2 with
                | none =>
                  rw [scanMembers_badvalue f d _ _ _ rest2 k hs hk hs1 (Or.inl hv)] at h
                  simp at h
                | some q =>
                  obtain ⟨v, rest3⟩ := q
                  cases hs3 : skipSpace rest3 with
                  | nil =>
                    rw [scanMembers_badvalue f d _ _ _ rest2 k hs hk hs1
                      (Or.inr ⟨v, rest3, hv, hs3⟩)] at h
                    simp at h
                  | cons c3 rest4 =>
                    obtain ⟨w3, t, hw3, ht, rfl⟩ := ihV d rest2 v rest3 hv
                    obtain ⟨w4, hw4, rfl⟩ := skipSpace_split rest3 c3 rest4 hs3
                    rw [scanMembers_step f d _ _ _ _ _ rest4 k v c3 hs hk hs1 hv hs3] at h
                    by_cases hc3 : c3 = ','
                    · rw [if_pos hc3] at h
                      subst hc3
                      obtain ⟨ys, hy, rfl⟩ := map_some_inv h
                      obtain ⟨hne, b, hb, rfl⟩ := ihM d rest4 ys rest hy
                      refine ⟨by simp, w1 ++ ('"' :: (kb ++ ('"' :: (w2 ++ (':' :: (w3 ++ (t ++
                        (w4 ++ ',' :: b)))))))), ?_, by simp⟩
                      cases ys with
                      | nil => exact absurd rfl hne
                      | cons k1 v1 ys1 =>
                        have hr := (objectRest_iff k1 v1 ys1 b).mpr hb
                        simp only [ObjectText]
                        exact ⟨w1, kb, w2, w3, t, w4, ',' :: b, hw1, hkb, hw2, hw3, ht, hw4, hr,
                          rfl⟩
                    · rw [if_neg hc3] at h
                      by_cases hc4 : c3 = '}'
                      · rw [if_pos hc4] at h
                        subst hc4
                        simp only [Option.some.injEq, Prod.mk.injEq] at h
                        obtain ⟨rfl, rfl⟩ := h
                        refine ⟨by simp, w1 ++ ('"' :: (kb ++ ('"' :: (w2 ++ (':' :: (w3 ++ (t ++
                          (w4 ++ [])))))))), ?_, by simp⟩
                        simp only [ObjectText]
                        exact ⟨w1, kb, w2, w3, t, w4, [], hw1, hkb, hw2, hw3, ht, hw4,
                          by simp [ObjectRest], rfl⟩
                      · rw [if_neg hc4] at h; simp at h
              · rw [scanMembers_nocolon f d _ _ _ k hs hk
                  (Or.inr ⟨c1, rest2, hs1, hc1⟩)] at h
                simp at h
        · rw [scanMembers_nokey f d _ rest0 c hs hc] at h; simp at h

theorem map_none {α β : Type} {x : Option α} {g : α → β} (h : x = none) : x.map g = none := by
  rw [h]; rfl

mutual
/-- The scanner refuses a JSON text that opens more than 10000 arrays and objects. -/
theorem jsonText_deep : ∀ (v : JVal Decimal) (t : List Char), JsonText v t →
    ∀ (f d : Nat) (w rest : List Char), JsonWs w → d ≤ maxNestingDepth →
      maxNestingDepth < d + v.depth → t.length ≤ f →
      scanValue f d (w ++ (t ++ rest)) = none
  | .null, _, _, _, _, _, _, _, hd, hdeep, _ => by
    simp only [JVal.depth] at hdeep; omega
  | .bool _, _, _, _, _, _, _, _, hd, hdeep, _ => by
    simp only [JVal.depth] at hdeep; omega
  | .num _, _, _, _, _, _, _, _, hd, hdeep, _ => by
    simp only [JVal.depth] at hdeep; omega
  | .str _, _, _, _, _, _, _, _, hd, hdeep, _ => by
    simp only [JVal.depth] at hdeep; omega
  | .arr xs, t, h, f, d, w, rest, hw, hd, hdeep, hf => by
    have ih := arrayText_deep xs
    simp only [JsonText] at h
    obtain ⟨b, hb, rfl⟩ := h
    obtain ⟨f1, rfl⟩ : ∃ f1, f = f1 + 1 := ⟨f - 1, by simp at hf; omega⟩
    have e : '[' :: (b ++ [']']) ++ rest = '[' :: (b ++ ']' :: rest) := by simp
    rw [e]
    simp only [JVal.depth] at hdeep
    simp only [List.length_cons, List.length_append, List.length_singleton] at hf
    by_cases hmax : maxNestingDepth ≤ d
    · exact scanValue_deep f1 d _ _ '[' (skipSpace_ws w '[' _ hw (by decide)) (Or.inr rfl) hmax
    · cases xs with
      | nil => simp only [JList.depth] at hdeep; omega
      | cons x xs1 =>
        simp only [ArrayText] at hb
        obtain ⟨w1, t1, w2, r, a1, a2, a3, a4, rfl⟩ := hb
        obtain ⟨c1, tl1, e1, hstart⟩ := jsonText_head x t1 a2
        subst e1
        have e2 : w1 ++ (c1 :: tl1 ++ (w2 ++ r)) ++ ']' :: rest
            = w1 ++ c1 :: (tl1 ++ (w2 ++ r) ++ ']' :: rest) := by simp
        have hlist : ArrayText (.cons x xs1) (c1 :: tl1 ++ (w2 ++ r)) := by
          simp only [ArrayText]
          exact ⟨[], _, w2, r, jsonWs_nil, a2, a3, a4, rfl⟩
        have := ih _ (by simp) hlist f1 (d + 1) rest (by omega) (by omega) (by
          simp only [List.length_append, List.length_cons] at hf ⊢
          omega)
        rw [e2, scanValue_arr f1 d _ _ _ c1 (skipSpace_ws w '[' _ hw (by decide)) hmax
          (skipSpace_ws w1 c1 _ a1 hstart.1) hstart.2.1]
        simp only [List.cons_append] at this
        exact map_none this
  | .obj ms, t, h, f, d, w, rest, hw, hd, hdeep, hf => by
    have ih := objectText_deep ms
    simp only [JsonText] at h
    obtain ⟨b, hb, rfl⟩ := h
    obtain ⟨f1, rfl⟩ : ∃ f1, f = f1 + 1 := ⟨f - 1, by simp at hf; omega⟩
    have e : '{' :: (b ++ ['}']) ++ rest = '{' :: (b ++ '}' :: rest) := by simp
    rw [e]
    simp only [JVal.depth] at hdeep
    simp only [List.length_cons, List.length_append, List.length_singleton] at hf
    by_cases hmax : maxNestingDepth ≤ d
    · exact scanValue_deep f1 d _ _ '{' (skipSpace_ws w '{' _ hw (by decide)) (Or.inl rfl) hmax
    · cases ms with
      | nil => simp only [JMembers.depth] at hdeep; omega
      | cons k v ms1 =>
        simp only [ObjectText] at hb
        obtain ⟨w1, kb, w2, w3, t1, w4, r, a1, a2, a3, a4, a5, a6, a7, rfl⟩ := hb
        have e2 : w1 ++ ('"' :: (kb ++ ('"' :: (w2 ++ (':' :: (w3 ++ (t1 ++ (w4 ++ r))))))))
              ++ '}' :: rest
            = w1 ++ '"' :: ((kb ++ ('"' :: (w2 ++ (':' :: (w3 ++ (t1 ++ (w4 ++ r)))))))
              ++ '}' :: rest) := by simp
        have hlist : ObjectText (.cons k v ms1)
            ('"' :: (kb ++ ('"' :: (w2 ++ (':' :: (w3 ++ (t1 ++ (w4 ++ r)))))))) := by
          simp only [ObjectText]
          exact ⟨[], kb, w2, w3, t1, w4, r, jsonWs_nil, a2, a3, a4, a5, a6, a7, rfl⟩
        have := ih _ (by simp) hlist f1 (d + 1) rest (by omega) (by omega) (by
          simp only [List.length_append, List.length_cons] at hf ⊢
          omega)
        rw [e2, scanValue_obj f1 d _ _ _ '"' (skipSpace_ws w '{' _ hw (by decide)) hmax
          (skipSpace_ws w1 '"' _ a1 (by decide)) (by decide)]
        simp only [List.cons_append] at this
        exact map_none this
/-- The scanner refuses the elements of an array one of which is nested too deep. -/
theorem arrayText_deep : ∀ (l : JList Decimal) (b : List Char), l ≠ .nil → ArrayText l b →
    ∀ (f d : Nat) (rest : List Char), d ≤ maxNestingDepth → maxNestingDepth < d + l.depth →
      b.length + 1 ≤ f → scanElems f d (b ++ ']' :: rest) = none
  | .nil, _, hne, _, _, _, _, _, _, _ => absurd rfl hne
  | .cons x xs, b, _, hb, f, d, rest, hd, hdeep, hf => by
    have ihx := jsonText_deep x
    have ihxs := arrayText_deep xs
    simp only [ArrayText] at hb
    obtain ⟨w1, t, w2, r, a1, a2, a3, a4, rfl⟩ := hb
    simp only [JList.depth] at hdeep
    simp only [List.length_append] at hf
    obtain ⟨c1, tl1, e1, _⟩ := jsonText_head x t a2
    have ht : 1 ≤ t.length := by rw [e1]; simp
    obtain ⟨f1, rfl⟩ : ∃ f1, f = f1 + 1 := ⟨f - 1, by omega⟩
    have e : w1 ++ (t ++ (w2 ++ r)) ++ ']' :: rest = w1 ++ (t ++ (w2 ++ (r ++ ']' :: rest))) := by
      simp
    rw [e]
    by_cases hx : maxNestingDepth < d + x.depth
    · exact scanElems_fail f1 d _ (ihx t a2 f1 d w1 _ a1 hd hx (by omega))
    · have hv := jsonText_scan x t a2 f1 d w1 (w2 ++ (r ++ ']' :: rest)) a1 (by omega) (by omega)
        (fun _ => numEnd_follow w2 r ']' rest a3 (arrayRest_head xs r a4) (Or.inl rfl))
      have hxs : maxNestingDepth < d + xs.depth := by
        rcases le_total x.depth xs.depth with h | h
        · rw [max_eq_right h] at hdeep; exact hdeep
        · rw [max_eq_left h] at hdeep; omega
      cases xs with
      | nil => simp only [JList.depth] at hxs; omega
      | cons y ys =>
        obtain ⟨b1, rfl⟩ : ∃ b1, r = ',' :: b1 := by
          rcases arrayRest_head _ r a4 with h0 | h0
          · subst h0
            simp [ArrayRest] at a4
          · exact h0
        have hb1 := (arrayRest_iff y ys b1).mp a4
        have := ihxs b1 (by simp) hb1 f1 d rest hd hxs (by
          simp only [List.length_cons] at hf
          omega)
        rw [scanElems_step f1 d _ _ _ x ',' hv (skipSpace_ws w2 ',' _ a3 (by decide)),
          if_pos rfl]
        simp only [List.append_eq]
        exact map_none this
/-- The scanner refuses the members of an object one of which is nested too deep. -/
theorem objectText_deep : ∀ (l : JMembers Decimal) (b : List Char), l ≠ .nil →
    ObjectText l b →
    ∀ (f d : Nat) (rest : List Char), d ≤ maxNestingDepth → maxNestingDepth < d + l.depth →
      b.length + 1 ≤ f → scanMembers f d (b ++ '}' :: rest) = none
  | .nil, _, hne, _, _, _, _, _, _, _ => absurd rfl hne
  | .cons k v ms, b, _, hb, f, d, rest, hd, hdeep, hf => by
    have ihv := jsonText_deep v
    have ihms := objectText_deep ms
    simp only [ObjectText] at hb
    obtain ⟨w1, kb, w2, w3, t, w4, r, a1, a2, a3, a4, a5, a6, a7, rfl⟩ := hb
    simp only [JMembers.depth] at hdeep
    simp only [List.length_append, List.length_cons] at hf
    obtain ⟨c1, tl1, e1, _⟩ := jsonText_head v t a5
    have ht : 1 ≤ t.length := by rw [e1]; simp
    obtain ⟨f1, rfl⟩ : ∃ f1, f = f1 + 1 := ⟨f - 1, by omega⟩
    have e : w1 ++ ('"' :: (kb ++ ('"' :: (w2 ++ (':' :: (w3 ++ (t ++ (w4 ++ r))))))))
          ++ '}' :: rest
        = w1 ++ '"' :: (kb ++ '"' :: (w2 ++ ':' :: (w3 ++ (t ++ (w4 ++ (r ++ '}' :: rest)))))) := by
      simp
    have hk := stringText_scan k kb a2 (w2 ++ ':' :: (w3 ++ (t ++ (w4 ++ (r ++ '}' :: rest)))))
      (kb ++ '"' :: (w2 ++ ':' :: (w3 ++ (t ++ (w4 ++ (r ++ '}' :: rest)))))).length (by simp)
    rw [e]
    by_cases hx : maxNestingDepth < d + v.depth
    · exact scanMembers_badvalue f1 d _ _ _ _ k (skipSpace_ws w1 '"' _ a1 (by decide)) hk
        (skipSpace_ws w2 ':' _ a3 (by decide))
        (Or.inl (ihv t a5 f1 d w3 _ a4 hd hx (by omega)))
    · have hv := jsonText_scan v t a5 f1 d w3 (w4 ++ (r ++ '}' :: rest)) a4 (by omega) (by omega)
        (fun _ => numEnd_follow w4 r '}' rest a6 (objectRest_head ms r a7) (Or.inr rfl))
      have hms : maxNestingDepth < d + ms.depth := by
        rcases le_total v.depth ms.depth with h | h
        · rw [max_eq_right h] at hdeep; exact hdeep
        · rw [max_eq_left h] at hdeep; omega
      cases ms with
      | nil => simp only [JMembers.depth] at hms; omega
      | cons k1 v1 ms1 =>
        obtain ⟨b1, rfl⟩ : ∃ b1, r = ',' :: b1 := by
          rcases objectRest_head _ r a7 with h0 | h0
          · subst h0
            simp [ObjectRest] at a7
          · exact h0
        have hb1 := (objectRest_iff k1 v1 ms1 b1).mp a7
        have := ihms b1 (by simp) hb1 f1 d rest hd hms (by
          simp only [List.length_cons] at hf
          omega)
        rw [scanMembers_step f1 d _ _ _ _ _ _ k v ',' (skipSpace_ws w1 '"' _ a1 (by decide))
          hk (skipSpace_ws w2 ':' _ a3 (by decide)) hv (skipSpace_ws w4 ',' _ a6 (by decide)),
          if_pos rfl]
        simp only [List.append_eq]
        exact map_none this
end

/-- The text of a value that is neither `null` nor an object starts with a character that is
no white space, no opening brace and no `n`. -/
theorem jsonText_other_head (v : JVal Decimal) (t : List Char) (h : JsonText v t)
    (hv : ¬ (v = .null ∨ ∃ ms, v = .obj ms)) :
    ∃ c tl, t = c :: tl ∧ isSpace c = false ∧ c ≠ '{' ∧ c ≠ 'n' := by
  cases v with
  | null => exact absurd (Or.inl rfl) hv
  | obj ms => exact absurd (Or.inr ⟨ms, rfl⟩) hv
  | bool b =>
    simp only [JsonText] at h
    cases b
    · exact ⟨_, _, h, by decide⟩
    · exact ⟨_, _, h, by decide⟩
  | num d =>
    simp only [JsonText] at h
    obtain ⟨ip, fp, ex, e, a1, a2, a3, a4, a5, a6, a7, a8⟩ := h
    cases hneg : d.neg with
    | true =>
      rw [hneg] at a6
      exact ⟨'-', _, a6, by decide⟩
    | false =>
      rw [hneg] at a6
      cases ip with
      | nil => exact absurd rfl a3
      | cons x xs =>
        have hx := digitChar_spec x (a1 x (by simp))
        exact ⟨digitChar x, _, a6, hx.2.2.2.2.2.2.2.2.1, hx.2.2.2.2.2.2.2.2.2.1,
          hx.2.2.2.2.2.2.2.2.2.2.2.2.2.2⟩
  | str s =>
    simp only [JsonText] at h
    obtain ⟨b, _, e⟩ := h
    exact ⟨_, _, e, by decide⟩
  | arr xs =>
    simp only [JsonText] at h
    obtain ⟨b, _, e⟩ := h
    exact ⟨_, _, e, by decide⟩

/-! ## The response codec: what is accepted, and what is returned -/

/-- The value `Marshal` writes for the map of `Decode`: `null` for the nil map. -/
theorem marshal_eq (r : Option (JMembers F64)) :
    Marshal r = encodeValue (match r with | none => .null | some m => .obj m) := by
  cases r <;> rfl

/-- A body that `Decode` accepts begins, after white space, with the JSON text of `null` or
of an object, and the map is what is stored for it. -/
theorem decodeMap_ok_text (body : List Char) (r : Option (JMembers F64))
    (h : decodeMap body = .ok r) :
    ∃ (ws text rest : List Char) (v : JVal Decimal) (g : JVal F64),
      body = ws ++ (text ++ rest) ∧ JsonWs ws ∧ JsonText v text ∧
      (v = .null ∨ ∃ ms, v = .obj ms) ∧ v.depth ≤ 10000 ∧ v.InRange ∧
      toGo v = .ok g ∧ Marshal r = encodeValue g ∧ g.WF ∧ g.depth ≤ 10000 := by
  obtain ⟨v, rest, hs, hv⟩ := (decodeMap_ok_iff body r).mp h
  obtain ⟨ws, text, hws, ht, e⟩ := (scan_text (body.length + 1)).1 0 body v rest hs
  have hd := (scan_depth (body.length + 1)).1 0 body v rest hs (by simp [maxNestingDepth])
  have hd' : v.depth ≤ 10000 := by
    have : maxNestingDepth = 10000 := rfl
    omega
  rcases hv with ⟨rfl, rfl⟩ | ⟨ms, m, rfl, hm, rfl⟩
  · exact ⟨ws, text, rest, .null, .null, e, hws, ht, Or.inl rfl, hd', trivial, rfl, rfl, trivial,
      by simp [JVal.depth]⟩
  · have hgo : toGo (.obj ms) = .ok (.obj m) := by simp [toGo, hm]
    obtain ⟨hw, hdep⟩ := toGo_inv _ _ hgo
    exact ⟨ws, text, rest, .obj ms, .obj m, e, hws, ht, Or.inr ⟨ms, rfl⟩, hd',
      (toGo_isOk (.obj ms)).mp ⟨_, hgo⟩, hgo, rfl, hw, by omega⟩

/-- A body that begins, after white space, with the JSON text of `null` or of an object nested
at most 10000 deep with its numbers in range is accepted by `Decode`, whatever follows. -/
theorem text_decodeMap (body ws text rest : List Char) (v : JVal Decimal)
    (hb : body = ws ++ (text ++ rest)) (hws : JsonWs ws) (ht : JsonText v text)
    (hv : v = .null ∨ ∃ ms, v = .obj ms) (hd : v.depth ≤ 10000) (hr : v.InRange) :
    ∃ g r, toGo v = .ok g ∧ decodeMap body = .ok r ∧ Marshal r = encodeValue g := by
  have hs : scanValue (body.length + 1) 0 body = some (v, rest) := by
    rw [hb]
    apply jsonText_scan v text ht _ 0 ws rest hws
    · have : maxNestingDepth = 10000 := rfl
      omega
    · simp only [List.length_append]
      omega
    · intro hn
      rcases hv with rfl | ⟨ms, rfl⟩ <;> simp [JVal.isNum] at hn
  rcases hv with rfl | ⟨ms, rfl⟩
  · exact ⟨.null, none, rfl, (decodeMap_ok_iff _ _).mpr ⟨_, _, hs, Or.inl ⟨rfl, rfl⟩⟩, rfl⟩
  · obtain ⟨g, hg⟩ := (toGo_isOk (.obj ms)).mpr hr
    obtain ⟨ms2, e, hm⟩ : ∃ m, g = .obj m ∧ toGoMembers ms .nil = .ok m := by
      simp only [toGo] at hg
      cases hm : toGoMembers ms .nil with
      | error e => rw [hm] at hg; cases hg
      | ok m =>
        rw [hm] at hg
        simp only [Except.ok.injEq] at hg
        exact ⟨m, hg.symm, rfl⟩
    subst e
    exact ⟨.obj ms2, some ms2, hg,
      (decodeMap_ok_iff _ _).mpr ⟨_, _, hs, Or.inr ⟨ms, ms2, rfl, hm, rfl⟩⟩, rfl⟩

/-- A body whose first value is of another kind, is nested too deep or holds a number out of
range is refused by `Decode`. -/
theorem text_decodeMap_error (body ws text rest : List Char) (v : JVal Decimal)
    (hb : body = ws ++ (text ++ rest)) (hws : JsonWs ws) (ht : JsonText v text)
    (hbad : ¬ (v = .null ∨ ∃ ms, v = .obj ms) ∨ 10000 < v.depth ∨ ¬ v.InRange) :
    ∃ e, decodeMap body = .error e := by
  have hmax : maxNestingDepth = 10000 := rfl
  by_cases hkind : v = .null ∨ ∃ ms, v = .obj ms
  · by_cases hdeep : 10000 < v.depth
    · have hs : scanValue (body.length + 1) 0 body = none := by
        rw [hb]
        exact jsonText_deep v text ht _ 0 ws rest hws (by omega) (by omega) (by
          simp only [List.length_append]; omega)
      exact ⟨.malformed, by simp only [decodeMap, hs]⟩
    · have hr : ¬ v.InRange := by
        rcases hbad with h | h | h
        · exact absurd hkind h
        · exact absurd h hdeep
        · exact h
      have hs : scanValue (body.length + 1) 0 body = some (v, rest) := by
        rw [hb]
        apply jsonText_scan v text ht _ 0 ws rest hws (by omega)
        · simp only [List.length_append]; omega
        · intro hn
          rcases hkind with rfl | ⟨ms, rfl⟩ <;> simp [JVal.isNum] at hn
      rcases hkind with rfl | ⟨ms, rfl⟩
      · exact absurd (by simp [JVal.InRange]) hr
      · cases hm : toGoMembers ms .nil with
        | error e => exact ⟨e, by simp only [decodeMap, hs, hm]⟩
        | ok m =>
          exfalso
          apply hr
          exact (toGo_isOk (.obj ms)).mp ⟨.obj m, by simp [toGo, hm]⟩
  · obtain ⟨c, tl, e, hc1, hc2, hc3⟩ := jsonText_other_head v text ht hkind
    apply decodeMap_first_char body c (tl ++ rest) _ hc2 hc3
    rw [hb, e]
    exact skipSpace_ws ws c _ hws hc1

theorem makeRequest_200 (w : World) (client : Client) (config : Config)
    (method path : String) (params : Option Values) (body : String)
    (hnew : w.newRequest method (reqURL config path params) = none)
    (hdo : w.roundTrip client (buildRequest config method path params) = .ok ⟨200, body⟩) :
    (makeRequest w client config method path params).1 = readResponse ⟨200, body⟩ := by
  unfold makeRequest
  rw [hnew, hdo]

/-- C5, amended: for a response with status 200, `makeRequest` returns a text when the body
begins, after white space (space, tab, line feed, carriage return), with the JSON text of
`null` or of an object that is nested at most 10000 deep and whose numbers are all in the range
of `float64`; the text returned is what `Marshal` writes for the value stored (`null` for
`null`), and what follows the first value in the body, JSON or not, is never read.  For every
other body it returns a decode error; in particular for a body whose first value is an array, a
string, a number or a boolean, is nested deeper than 10000, or holds a number out of range. -/
theorem decode_reads_first_value (w : World) (client : Client) (config : Config)
    (method path : String) (params : Option Values) (body : String)
    (hnew : w.newRequest method (reqURL config path params) = none)
    (hdo : w.roundTrip client (buildRequest config method path params) = .ok ⟨200, body⟩) :
    (∀ (ws text rest : List Char) (v : JVal Decimal),
      body.data = ws ++ (text ++ rest) → JsonWs ws → JsonText v text →
      (v = .null ∨ ∃ ms, v = .obj ms) → v.depth ≤ 10000 → v.InRange →
      ∃ g, toGo v = .ok g ∧
        (makeRequest w client config method path params).1
          = .ok (String.mk (encodeValue g))) ∧
    ((¬ ∃ (ws text rest : List Char) (v : JVal Decimal),
        body.data = ws ++ (text ++ rest) ∧ JsonWs ws ∧ JsonText v text ∧
        (v = .null ∨ ∃ ms, v = .obj ms) ∧ v.depth ≤ 10000 ∧ v.InRange) →
      ∃ e, (makeRequest w client config method path params).1 = .error (.decode e)) ∧
    (∀ (ws text rest : List Char) (v : JVal Decimal),
      body.data = ws ++ (text ++ rest) → JsonWs ws → JsonText v text →
      (¬ (v = .null ∨ ∃ ms, v = .obj ms) ∨ 10000 < v.depth ∨ ¬ v.InRange) →
      ∃ e, (makeRequest w client config method path params).1 = .error (.decode e)) := by
  rw [makeRequest_200 w client config method path params body hnew hdo]
  refine ⟨?_, ?_, ?_⟩
  · intro ws text rest v hb hws ht hv hd hr
    obtain ⟨g, r, hg, hdm, hm⟩ := text_decodeMap body.data ws text rest v hb hws ht hv hd hr
    exact ⟨g, hg, by rw [readResponse_ok body r hdm, hm]⟩
  rotate_left
  · intro ws text rest v hb hws ht hbad
    obtain ⟨e, he⟩ := text_decodeMap_error body.data ws text rest v hb hws ht hbad
    exact ⟨e, readResponse_error body e he⟩
  · intro hno
    cases hd : decodeMap body.data with
    | error e => exact ⟨e, readResponse_error body e hd⟩
    | ok r =>
      exfalso
      obtain ⟨ws, text, rest, v, g, a1, a2, a3, a4, a5, a6, _⟩ := decodeMap_ok_text _ r hd
      exact hno ⟨ws, text, rest, v, a1, a2, a3, a4, a5, a6⟩

/-- C6, amended: when `makeRequest` returns a text for a response with status 200, the body
begins, after white space, with the JSON text of a value, and the text returned is what
`Marshal` writes for what `Decode` stores for that value: the same kind of value with equal
strings, booleans and nulls, arrays element by element, objects as maps that keep for each key
the last member with that key, and for every number a `float64` nearest to the literal, ties to
the even mantissa, not the literal itself.  The text returned is itself the JSON text of a
value for which the same is stored, and normalising it once more returns it unchanged. -/
theorem reencoded_body_decodes_alike (w : World) (client : Client) (config : Config)
    (method path : String) (params : Option Values) (body out : String)
    (hnew : w.newRequest method (reqURL config path params) = none)
    (hdo : w.roundTrip client (buildRequest config method path params) = .ok ⟨200, body⟩)
    (hout : (makeRequest w client config method path params).1 = .ok out) :
    ∃ (ws text rest : List Char) (v : JVal Decimal) (g : JVal F64),
      body.data = ws ++ (text ++ rest) ∧ JsonWs ws ∧ JsonText v text ∧
      Stored v g ∧ out = String.mk (encodeValue g) ∧
      (∃ v1, JsonText v1 out.data ∧ Stored v1 g) ∧
      readResponse ⟨200, out⟩ = .ok out := by
  rw [makeRequest_200 w client config method path params body hnew hdo] at hout
  cases hd : decodeMap body.data with
  | error e => rw [readResponse_error body e hd] at hout; cases hout
  | ok r =>
    rw [readResponse_ok body r hd] at hout
    simp only [Except.ok.injEq] at hout
    subst hout
    obtain ⟨ws, text, rest, v, g, a1, a2, a3, _, _, _, hgo, hm, hwf, hdep⟩ :=
      decodeMap_ok_text _ r hd
    have h2 := decodeMap_Marshal body.data r hd
    refine ⟨ws, text, rest, v, g, a1, a2, a3, toGo_stored v g hgo, by rw [hm], ?_,
      readResponse_ok _ r h2⟩
    obtain ⟨t1, hs1, hg1⟩ := scan_encodeValue g hwf ((encodeValue g).length + 1) 0 []
      (by have : maxNestingDepth = 10000 := rfl
          omega) (by omega) numEnd_nil
    obtain ⟨w1, tx, hw1, htx, e⟩ := (scan_text _).1 0 _ t1 [] hs1
    obtain ⟨c, tl, hc, hstart⟩ := encodeValue_head g hwf
    have hw1nil : w1 = [] := by
      cases w1 with
      | nil => rfl
      | cons x w1 =>
        exfalso
        rw [hc] at e
        simp only [List.append_nil, List.cons_append, List.cons.injEq] at e
        have := ((jsonWs_cons x w1).mp hw1).1
        rw [← e.1, hstart.1] at this
        cases this
    subst hw1nil
    simp only [List.append_nil, List.nil_append] at e
    refine ⟨t1, ?_, toGo_stored t1 g hg1⟩
    show JsonText t1 (Marshal r)
    rw [hm, e]
    exact htx

/-- An object after a blank, followed by other bytes, in a world that answers 200. -/
theorem decode_reads_first_value_witness :
    (makeRequest (exampleWorld emptyEnv
        ⟨200, " \x7b\"a\": [\"x\", true]\x7d trailing bytes"⟩) ⟨30⟩
      ⟨"localhost:3100", "", ""⟩ "GET" "/api/search/tags" none).1
      = .ok "\x7b\"a\":[\"x\",true]\x7d" := by
  obtain ⟨ws, t, hws, ht, e⟩ := (scan_text 40).1 0
    " \x7b\"a\": [\"x\", true]\x7d trailing bytes".data
    (.obj (.cons ['a'] (.arr (.cons (.str ['x']) (.cons (.bool true) .nil))) .nil))
    " trailing bytes".data rfl
  obtain ⟨g, hg, hm⟩ := (decode_reads_first_value
    (exampleWorld emptyEnv ⟨200, " \x7b\"a\": [\"x\", true]\x7d trailing bytes"⟩) ⟨30⟩
    ⟨"localhost:3100", "", ""⟩ "GET" "/api/search/tags" none
    " \x7b\"a\": [\"x\", true]\x7d trailing bytes" rfl rfl).1 ws t _ _ e hws ht
    (Or.inr ⟨_, rfl⟩) (by simp [JVal.depth, JList.depth, JMembers.depth])
    (by simp [JVal.InRange, JList.InRange, JMembers.InRange])
  have hg0 : toGo (.obj (.cons ['a'] (.arr (.cons (.str ['x']) (.cons (.bool true) .nil))) .nil))
      = .ok (.obj (.cons ['a'] (.arr (.cons (.str ['x']) (.cons (.bool true) .nil))) .nil)) := rfl
  rw [hg0] at hg
  simp only [Except.ok.injEq] at hg
  subst hg
  exact hm

/-- An object with its keys out of order, a string, a fraction and a boolean. -/
theorem reencoded_body_witness :
    ∃ (ws text rest : List Char) (v : JVal Decimal) (g : JVal F64),
      "\x7b\"b\":[1.5,true],\"a\":\"x\"\x7d".data = ws ++ (text ++ rest) ∧ JsonWs ws ∧
      JsonText v text ∧ Stored v g ∧
      "\x7b\"a\":\"x\",\"b\":[1.5,true]\x7d" = String.mk (encodeValue g) ∧
      (∃ v1, JsonText v1 "\x7b\"a\":\"x\",\"b\":[1.5,true]\x7d".data ∧ Stored v1 g) ∧
      readResponse ⟨200, "\x7b\"a\":\"x\",\"b\":[1.5,true]\x7d"⟩
        = .ok "\x7b\"a\":\"x\",\"b\":[1.5,true]\x7d" :=
  reencoded_body_decodes_alike
    (exampleWorld emptyEnv ⟨200, "\x7b\"b\":[1.5,true],\"a\":\"x\"\x7d"⟩) ⟨30⟩
    ⟨"localhost:3100", "", ""⟩ "GET" "/api/search/tags" none
    "\x7b\"b\":[1.5,true],\"a\":\"x\"\x7d" "\x7b\"a\":\"x\",\"b\":[1.5,true]\x7d" rfl rfl rfl

end Gigapipe
